import Mathlib

/-! # DOCS-DB: an LSM key-value engine

Shallow embedding of `Part1/lsm.cpp`, `doxy/avl_tree.cpp`, `doxy/probabilistic_set.cpp`
and `doxy/HEADER.h`, followed by theorems about the embedded code.

Conventions of the embedding.

* A `std::string` is the list of its bytes (`Str`); `==`, `<` and `>` on strings are the
  byte-wise lexicographic comparisons of `std::string`, which are the order of `List Nat`.
* C++ `int` and `size_t` counters that the code only ever uses as array sizes and indices
  are unbounded numbers here; the compactor clock, whose overflow the code guards against,
  is wrapped to 32 bits explicitly.
* The process-wide globals (`tree`, `SSTable_list`, `comp_time`) and the directory tree on
  disk are the fields of one `Engine` value that every operation takes and returns.
* `std::hash<string>` is implementation defined; it is the parameter `stringHasher`.
* Code that terminates the process or throws returns `Except.error` with the `Fault`.
-/

namespace DocsDB

/-! ## Strings and constants (`HEADER.h`) -/

/-- A `std::string`, as the list of its bytes. -/
abbrev Str := List Nat

/-- The bytes of a string literal. -/
def bytes (s : String) : Str := s.toList.map Char.toNat

/-- `const char DELIMITER = '#'`. -/
def DELIMITER : Nat := 35

/-- `const string TOMBSTONE = "tombstone"`. -/
def TOMBSTONE : Str := [116, 111, 109, 98, 115, 116, 111, 110, 101]

/-- `const int MAX_FILE_SIZE = 4096`. -/
def MAX_FILE_SIZE : Nat := 4096

/-- `const int INDEX_SIZE = 512`. -/
def INDEX_SIZE : Nat := 512

/-- `const int MAX_COMP_TIME = 100000`. -/
def MAX_COMP_TIME : Int := 100000

/-- `const int MIN_COMP_TIME = 1`. -/
def MIN_COMP_TIME : Int := 1

/-- `const int MAX_TREE_SIZE = 1000`. -/
def MAX_TREE_SIZE : Nat := 1000

/-- The line separator of `getline`. -/
def NEWLINE : Nat := 10

/-- Decimal digits of `n`, least significant first; `fuel` bounds the number of digits. -/
def digitsRev : Nat → Nat → List Nat
  | 0, _ => []
  | fuel + 1, n => if n < 10 then [48 + n] else (48 + n % 10) :: digitsRev fuel (n / 10)

/-- `std::to_string` on a non-negative integer. -/
def to_string (n : Nat) : Str := (digitsRev (n + 1) n).reverse

/-- The value of a two's complement 32-bit `int` holding `x` modulo `2^32`. -/
def wrap32 (x : Int) : Int := (x + 2147483648) % 4294967296 - 2147483648

/-! ## The memtable (`avl_tree.cpp`) -/

/-- A pointer to an `AVLTreeNode`: `null`, or a node with its two children, key, value and
the cached `count` and `height` fields. -/
inductive AVLTreeNode where
  | null : AVLTreeNode
  | node (left right : AVLTreeNode) (key value : Str) (count height : Int) : AVLTreeNode
  deriving Repr, DecidableEq

/-- A child slot of a node. -/
inductive Side where
  | left
  | right
  deriving Repr, DecidableEq

/-- An `AVLTreeNode **`: the slot reached from the root slot by following these sides. -/
abbrev Slot := List Side

namespace AVLTreeNode

/-- The expression `p ? p->count : 0`. -/
def countOr0 : AVLTreeNode → Int
  | null => 0
  | node _ _ _ _ c _ => c

/-- The expression `p ? p->height : 0`. -/
def heightOr0 : AVLTreeNode → Int
  | null => 0
  | node _ _ _ _ _ h => h

/-- The `left` field (of a non-null node). -/
def getLeft : AVLTreeNode → AVLTreeNode
  | null => null
  | node l _ _ _ _ _ => l

/-- The `right` field (of a non-null node). -/
def getRight : AVLTreeNode → AVLTreeNode
  | null => null
  | node _ r _ _ _ _ => r

/-- The assignment `t->left = x`. -/
def setLeft : AVLTreeNode → AVLTreeNode → AVLTreeNode
  | null, _ => null
  | node _ r k v c h, x => node x r k v c h

/-- The assignment `t->right = x`. -/
def setRight : AVLTreeNode → AVLTreeNode → AVLTreeNode
  | null, _ => null
  | node l _ k v c h, x => node l x k v c h

/-- `AVLTreeNode::updateValues`. -/
def updateValues : AVLTreeNode → AVLTreeNode
  | null => null
  | node l r k v _ _ =>
      node l r k v (l.countOr0 + r.countOr0 + 1) (max l.heightOr0 r.heightOr0 + 1)

/-- `AVLTreeNode::balanceFactor`. -/
def balanceFactor : AVLTreeNode → Int
  | null => 0
  | node l r _ _ _ _ => l.heightOr0 - r.heightOr0

/-- `AVLTreeNode::left_rotate`. The C++ dereferences `right`; with `right == nullptr`
(which the `balance` of an insert never produces) the node is returned as it is. -/
def left_rotate : AVLTreeNode → AVLTreeNode
  | node l (node rl rr rk rv rc rh) k v c h =>
      updateValues (node (updateValues (node l rl k v c h)) rr rk rv rc rh)
  | t => t

/-- `AVLTreeNode::right_rotate`. The C++ dereferences `left`; with `left == nullptr`
(which the `balance` of an insert never produces) the node is returned as it is. -/
def right_rotate : AVLTreeNode → AVLTreeNode
  | node (node ll lr lk lv lc lh) r k v c h =>
      updateValues (node ll (updateValues (node lr r k v c h)) lk lv lc lh)
  | t => t

/-- The body of the loop of `AVLTree::balance`, applied to the node `*indirect`. -/
def balance_step (t : AVLTreeNode) : AVLTreeNode :=
  let t := t.updateValues
  if t.balanceFactor ≥ 2 ∧ t.getLeft.balanceFactor ≥ 1 then
    t.right_rotate
  else if t.balanceFactor ≥ 2 then
    (t.setLeft t.getLeft.left_rotate).right_rotate
  else if t.balanceFactor ≤ -2 ∧ t.getRight.balanceFactor ≤ -1 then
    t.left_rotate
  else if t.balanceFactor ≤ -2 then
    (t.setRight t.getRight.right_rotate).left_rotate
  else
    t

/-- The statement `*indirect = f(*indirect)` for the slot `indirect` below the root slot. -/
def modifyAt (f : AVLTreeNode → AVLTreeNode) : Slot → AVLTreeNode → AVLTreeNode
  | [], t => f t
  | _ :: _, null => null
  | Side.left :: s, node l r k v c h => node (modifyAt f s l) r k v c h
  | Side.right :: s, node l r k v c h => node l (modifyAt f s r) k v c h

/-- `AVLTree::balance`: the path is reversed and the loop body runs on every slot of it,
deepest slot first. -/
def balance (path : List Slot) (root : AVLTreeNode) : AVLTreeNode :=
  path.reverse.foldl (fun t indirect => modifyAt balance_step indirect t) root

/-- The descent of `AVLTree::insert` from the slot `indirect`: the tree with the value
overwritten or the new node attached, the slots pushed on `path`, and whether a new node
was created (the early `return` leaves it `false`). -/
def insert_walk (key value : Str) : AVLTreeNode → Slot → AVLTreeNode × List Slot × Bool
  | null, indirect => (node null null key value 1 1, [indirect], true)
  | node l r k v c h, indirect =>
      if k = key then
        (node l r k value c h, [indirect], false)
      else if k > key then
        let res := insert_walk key value l (indirect ++ [Side.left])
        (node res.1 r k v c h, indirect :: res.2.1, res.2.2)
      else
        let res := insert_walk key value r (indirect ++ [Side.right])
        (node l res.1 k v c h, indirect :: res.2.1, res.2.2)

/-- The loop of `AVLTree::find`, from the node `direct`. -/
def find (key : Str) : AVLTreeNode → Bool × Str
  | null => (false, [116, 111, 109, 98, 115, 116, 111, 110, 101])
  | node l r k v _ _ =>
      if k = key then (true, v)
      else if k > key then find key l
      else find key r

/-- The lambda `inOrderTraversal` of `AVLTree::getSortedPairs`. -/
def inOrderTraversal : AVLTreeNode → List (Str × Str)
  | null => []
  | node l r k v _ _ => inOrderTraversal l ++ (k, v) :: inOrderTraversal r

end AVLTreeNode

/-- The class `AVLTree`: the root pointer and the `_size` counter. -/
structure AVLTree where
  root : AVLTreeNode
  _size : Nat
  deriving Repr, DecidableEq

namespace AVLTree

/-- `AVLTree::AVLTree`, the empty tree. -/
def empty : AVLTree := { root := AVLTreeNode.null, _size := 0 }

/-- `AVLTree::clear`. -/
def clear (_t : AVLTree) : AVLTree := { root := AVLTreeNode.null, _size := 0 }

/-- `AVLTree::size`. -/
def size (t : AVLTree) : Nat := t._size

/-- `AVLTree::insert`. -/
def insert (t : AVLTree) (key value : Str) : AVLTree :=
  let res := AVLTreeNode.insert_walk key value t.root []
  if res.2.2 then
    { root := AVLTreeNode.balance res.2.1 res.1, _size := t._size + 1 }
  else
    { root := res.1, _size := t._size }

/-- `AVLTree::find`. -/
def find (t : AVLTree) (key : Str) : Bool × Str := AVLTreeNode.find key t.root

/-- `AVLTree::getSortedPairs`. -/
def getSortedPairs (t : AVLTree) : List (Str × Str) := t.root.inOrderTraversal

end AVLTree

/-! ## The probabilistic set (`probabilistic_set.cpp`) -/

/-- `ProbabilisticSet::ARRAY_SIZE`, the width of the bit vector. -/
def ARRAY_SIZE : Nat := 100000

/-- `ProbabilisticSet::MAX_ITEMS`, the default capacity. -/
def MAX_ITEMS : Nat := 10000

/-- `ProbabilisticSet::multipliers`. -/
def multipliers : List Nat :=
  [773, 311, 563, 647, 13, 839, 317, 673, 109, 503, 467, 827, 293, 283, 601, 61, 7, 857, 521,
   419, 809, 307, 503, 419, 367, 521, 193, 179, 113, 811]

/-- The value `ceil(q * log(2))` for an integer `q`: `log 2 = 0.6931471805599453...` is
irrational, so for `q > 0` the ceiling is the floor plus one. -/
def ceil_mul_log2 (q : Nat) : Nat :=
  if q = 0 then 0 else q * 6931471805599453 / 10000000000000000 + 1

/-- The class `ProbabilisticSet`: the bit vector (bit `i` is `bitVector i`) and the number
of hash functions. -/
structure ProbabilisticSet where
  bitVector : Nat → Bool
  numHashFunctions : Nat

namespace ProbabilisticSet

/-- The constructor `ProbabilisticSet(int maxItems)`: all bits clear and
`numHashFunctions = ceil((vectorSize / maxItems) * log(2))`, with integer division. -/
def init (maxItems : Nat) : ProbabilisticSet :=
  { bitVector := fun _ => false
    numHashFunctions := ceil_mul_log2 (ARRAY_SIZE / maxItems) }

/-- `ProbabilisticSet::calculateHashes` for a set with at most 30 hash functions, as the
sets of the engine are (they have 7); the arithmetic is that of `size_t` (64 bits). The
table `multipliers` has 30 entries and the source indexes it without a bounds check:
`calculateHashes_checked` makes that read explicit, and agrees with this function up to 30
hash functions. Past the table this function reads the multiplier 0. -/
def calculateHashes (stringHasher : Str → Nat) (s : ProbabilisticSet) (key : Str) : List Nat :=
  (List.range s.numHashFunctions).map fun i =>
    ((stringHasher (key ++ to_string i) * multipliers.getD i 0 + i) % 2 ^ 64) % ARRAY_SIZE

/-- `ProbabilisticSet::insert`. -/
def insert (stringHasher : Str → Nat) (s : ProbabilisticSet) (key : Str) : ProbabilisticSet :=
  (s.calculateHashes stringHasher key).foldl
    (fun acc hash =>
      { acc with bitVector := fun i => if i = hash then true else acc.bitVector i }) s

/-- `ProbabilisticSet::exists`. -/
def «exists» (stringHasher : Str → Nat) (s : ProbabilisticSet) (key : Str) : Bool :=
  (s.calculateHashes stringHasher key).all fun hash => s.bitVector hash

end ProbabilisticSet

/-! ## Files on disk -/

/-- The ways in which the code stops without returning. -/
inductive Fault where
  | exit_1
  | cannot_open_file
  | invalid_position_in_file
  | second_delimiter_not_found
  | out_of_bounds
  | out_of_fuel
  deriving Repr, DecidableEq

deriving instance DecidableEq for Except

/-- The files `0.ext, 1.ext, ...` of one directory: entry `i` is the content of file `i`,
or `none` when that file does not exist. -/
abbrev Files (α : Type) := List (Option α)

/-- The content of file `i`, if the file exists. -/
def Files.read {α : Type} (fl : Files α) (i : Nat) : Option α := fl.getD i none

/-- File `i` created or replaced with content `c`. -/
def Files.write {α : Type} (fl : Files α) (i : Nat) (c : α) : Files α :=
  (fl ++ List.replicate (i + 1 - fl.length) none).set i (some c)

/-- An SSTable directory: the data chunks `i.txt` as byte strings and the index chunks
`i.bin` as the sequence of their complete 8-byte entries (two `int32_t` each). -/
structure Folder where
  txt : Files Str
  bin : Files (List (Int × Int))
  deriving Repr, DecidableEq

/-- The working directory: the directories in it, each with its name. -/
structure FS where
  dirs : List (Str × Folder)

/-- The empty working directory. -/
def FS.empty : FS := { dirs := [] }

/-- The directory called `name`, if it exists. -/
def FS.get (fs : FS) (name : Str) : Option Folder :=
  (fs.dirs.find? fun p => p.1 = name).map Prod.snd

/-- The directory `name` replaced by `d`, or removed when `d` is `none`. -/
def FS.set (fs : FS) (name : Str) (d : Option Folder) : FS :=
  let others := fs.dirs.filter fun p => p.1 ≠ name
  match d with
  | none => { dirs := others }
  | some d => { dirs := (name, d) :: others }

/-- The file `folder_name/i.txt`, if it can be opened for reading. -/
def FS.readTxt (fs : FS) (folder_name : Str) (i : Nat) : Option Str :=
  match fs.get folder_name with
  | none => none
  | some d => d.txt.read i

/-- The file `folder_name/i.bin`, if it can be opened for reading. -/
def FS.readBin (fs : FS) (folder_name : Str) (i : Nat) : Option (List (Int × Int)) :=
  match fs.get folder_name with
  | none => none
  | some d => d.bin.read i

/-- Opening the file `i.txt` of a directory with an `ofstream`: the file is created or
truncated. -/
def Folder.openTxt (d : Folder) (i : Nat) : Folder :=
  { d with txt := d.txt.write i [] }

/-- The statement `outFile << str` on the open file `i.txt` of a directory. -/
def Folder.appendTxt (d : Folder) (i : Nat) (str : Str) : Folder :=
  match d.txt.read i with
  | none => d
  | some c => { d with txt := d.txt.write i (c ++ str) }

/-- Opening the file `i.bin` of a directory with an `ofstream` and writing `entries` to it. -/
def Folder.writeBin (d : Folder) (i : Nat) (entries : List (Int × Int)) : Folder :=
  { d with bin := d.bin.write i entries }

/-- `createFolder`. -/
def createFolder (fs : FS) (folder_name : Str) : FS :=
  match fs.get folder_name with
  | some _ => fs
  | none => fs.set folder_name (some { txt := [], bin := [] })

/-- `deleteFolder`. -/
def deleteFolder (fs : FS) (folder_name : Str) : FS :=
  match fs.get folder_name with
  | none => fs
  | some _ => fs.set folder_name none

/-! ## Records and their encoding (`lsm.cpp`) -/

/-- `encodeKeyValuePair`. -/
def encodeKeyValuePair (key_str value_str : Str) : Str :=
  key_str ++ [DELIMITER] ++ value_str ++ [DELIMITER]

/-- `decodeKeyValuePair`. -/
def decodeKeyValuePair (combinedStr : Str) : Str × Str :=
  let pos := combinedStr.findIdx (fun ch => ch = DELIMITER)
  let kv : Str × Str :=
    if pos < combinedStr.length then (combinedStr.take pos, combinedStr.drop (pos + 1))
    else ([], [])
  (kv.1, kv.2.dropLast)

/-- The loop of `splitString` with the current `token`. -/
def splitString_loop : Str → Str → List Str
  | [], token => if token ≠ [] then [token] else []
  | ch :: rest, token =>
      if ch = DELIMITER then
        if token ≠ [] then token :: splitString_loop rest [] else splitString_loop rest []
      else splitString_loop rest (token ++ [ch])

/-- `splitString`. -/
def splitString (str : Str) : List Str := splitString_loop str []

/-- `extractPair` on the file `folder_name/file_idx.bin`. -/
def extractPair (fs : FS) (folder_name : Str) (file_idx pair_idx : Int) : Int × Int :=
  if file_idx < 0 then (-1, -1)
  else
    match fs.readBin folder_name file_idx.toNat with
    | none => (-1, -1)
    | some entries =>
        if pair_idx < 0 then (-1, -1)
        else
          match entries.get? pair_idx.toNat with
          | none => (-1, -1)
          | some p => p

/-- The reading loop of `extractKeyValuePair`: the bytes read and the delimiter count. -/
def extract_loop : Str → Nat → Str × Nat
  | [], delimiterCount => ([], delimiterCount)
  | ch :: rest, delimiterCount =>
      if ch = DELIMITER then
        if delimiterCount + 1 = 2 then ([ch], delimiterCount + 1)
        else
          let res := extract_loop rest (delimiterCount + 1)
          (ch :: res.1, res.2)
      else
        let res := extract_loop rest delimiterCount
        (ch :: res.1, res.2)

/-- `extractKeyValuePair` on the file `folder_name/file_idx.txt`. -/
def extractKeyValuePair (fs : FS) (folder_name : Str) (file_idx position : Int) :
    Except Fault Str :=
  if file_idx < 0 then Except.error Fault.cannot_open_file
  else
    match fs.readTxt folder_name file_idx.toNat with
    | none => Except.error Fault.cannot_open_file
    | some content =>
        if position < 0 then Except.error Fault.invalid_position_in_file
        else
          let res := extract_loop (content.drop position.toNat) 0
          if res.2 < 2 then Except.error Fault.second_delimiter_not_found
          else Except.ok res.1

/-! ## SSTables (`lsm.cpp`) -/

/-- The members of the class `SSTable`. -/
structure SSTable where
  folder_name : Str
  bfilter : ProbabilisticSet
  num_keys : Nat

/-- The loop of `SSTable::store_keyval_data` over the remaining strings, with the variables
`fileIndex` and `currentFileSize`, acting on the directory `folder_name`; the open `outFile`
is the file `fileIndex.txt`. Returns the remaining entries of `fileOffsets` and the
directory. -/
def store_keyval_data_loop : List Str → Nat → Nat → Folder → List (Int × Int) × Folder
  | [], _, _, d => ([], d)
  | str :: rest, fileIndex, currentFileSize, d =>
      let newSize := currentFileSize + str.length + 1
      if newSize > MAX_FILE_SIZE then
        let d1 := d.openTxt (fileIndex + 1)
        let res := store_keyval_data_loop rest (fileIndex + 1) (0 + str.length)
          (d1.appendTxt (fileIndex + 1) str)
        ((((fileIndex + 1 : Nat) : Int), 0) :: res.1, res.2)
      else
        let res := store_keyval_data_loop rest fileIndex
          (currentFileSize + str.length) (d.appendTxt fileIndex str)
        (((fileIndex : Int), (currentFileSize : Int)) :: res.1, res.2)

/-- `SSTable::store_keyval_data`, acting on the directory `folder_name`. -/
def store_keyval_data (data : List Str) (d : Folder) : List (Int × Int) × Folder :=
  store_keyval_data_loop data 0 0 (d.openTxt 0)

/-- The loop `for (i = 0; i < num_pairs; i += maxPairsPerFile)` of
`SSTable::store_keyval_index`, with the variables `i` and `fileIndex`, acting on the
directory `folder_name`; `fuel` bounds the number of iterations. -/
def store_keyval_index_loop (data : List (Int × Int)) (num_pairs : Nat) :
    Nat → Nat → Nat → Folder → Folder
  | 0, _, _, d => d
  | fuel + 1, i, fileIndex, d =>
      if i < num_pairs then
        let pairsToWrite := min INDEX_SIZE (num_pairs - i)
        store_keyval_index_loop data num_pairs fuel (i + INDEX_SIZE) (fileIndex + 1)
          (d.writeBin fileIndex ((data.drop i).take pairsToWrite))
      else d

/-- `SSTable::store_keyval_index`; the loop runs at most `num_pairs` times. -/
def store_keyval_index (data : List (Int × Int)) (num_pairs : Nat) (d : Folder) : Folder :=
  store_keyval_index_loop data num_pairs num_pairs 0 0 d

/-- The constructor `SSTable::SSTable(data, fname)`, run when `SSTable_list.size()` is
`list_size`: the new table and the files on disk after it. All files it writes are in the
directory `folder_name`, which exists after `createFolder`. -/
def SSTable.new (stringHasher : Str → Nat) (list_size : Nat) (data : List (Str × Str))
    (fname : Str) (fs : FS) : SSTable × FS :=
  let folder_name : Str :=
    if fname = TOMBSTONE then [83, 83, 84, 97, 98, 108, 101, 95] ++ to_string list_size
    else fname
  let fs1 := createFolder fs folder_name
  let d : Folder := (fs1.get folder_name).getD { txt := [], bin := [] }
  let num_keys := data.length
  let hashed_data := data.map fun p => encodeKeyValuePair p.1 p.2
  let bfilter :=
    data.foldl (fun b p => b.insert stringHasher p.1) (ProbabilisticSet.init MAX_ITEMS)
  let stored := store_keyval_data hashed_data d
  let d2 := store_keyval_index stored.1 num_keys stored.2
  ({ folder_name := folder_name, bfilter := bfilter, num_keys := num_keys },
    fs1.set folder_name (some d2))

/-- The destructor `SSTable::~SSTable`. -/
def SSTable.delete (t : SSTable) (fs : FS) : FS := deleteFolder fs t.folder_name

/-- The loop `while (lo <= hi)` of `SSTable::find`; `fuel` bounds the number of
iterations. -/
def SSTable.find_loop (fs : FS) (folder_name : Str) (key : Str) :
    Nat → Int → Int → Except Fault (Bool × Str)
  | 0, lo, hi => if lo ≤ hi then Except.error Fault.out_of_fuel else Except.ok (false, TOMBSTONE)
  | fuel + 1, lo, hi =>
      if lo ≤ hi then
        let mid := (lo + hi) / 2
        let file_idx := mid / (INDEX_SIZE : Int)
        let pair_idx := mid % (INDEX_SIZE : Int)
        let result := extractPair fs folder_name file_idx pair_idx
        if result.1 = -1 ∨ result.2 = -1 then Except.error Fault.exit_1
        else
          match extractKeyValuePair fs folder_name result.1 result.2 with
          | Except.error f => Except.error f
          | Except.ok key_value =>
              let p := decodeKeyValuePair key_value
              if p.1 = key then Except.ok (true, p.2)
              else if p.1 > key then SSTable.find_loop fs folder_name key fuel lo (mid - 1)
              else SSTable.find_loop fs folder_name key fuel (mid + 1) hi
      else Except.ok (false, TOMBSTONE)

/-- `SSTable::find`; the search window has `num_keys` entries and shrinks in every
iteration. -/
def SSTable.find (stringHasher : Str → Nat) (fs : FS) (t : SSTable) (key : Str) :
    Except Fault (Bool × Str) :=
  if t.bfilter.exists stringHasher key ∧ t.num_keys > 0 then
    SSTable.find_loop fs t.folder_name key t.num_keys 0 ((t.num_keys : Int) - 1)
  else Except.ok (false, TOMBSTONE)

/-! ## The engine: `SET`, `DEL`, `GET` -/

/-- The global state: the memtable `tree`, the registry `SSTable_list` (a slot is `none`
when it holds `nullptr`), the compactor clock `comp_time`, and the files on disk. -/
structure Engine where
  tree : AVLTree
  SSTable_list : List (Option SSTable)
  comp_time : Int
  fs : FS

/-- The state at process start, in an empty working directory. -/
def Engine.fresh : Engine :=
  { tree := AVLTree.empty, SSTable_list := [], comp_time := MAX_COMP_TIME, fs := FS.empty }

/-- `create_SSTable`. -/
def create_SSTable (stringHasher : Str → Nat) (e : Engine) (data : List (Str × Str)) : Engine :=
  let res := SSTable.new stringHasher e.SSTable_list.length data TOMBSTONE e.fs
  { e with SSTable_list := e.SSTable_list ++ [some res.1], fs := res.2 }

/-- `SET`. -/
def SET (stringHasher : Str → Nat) (e : Engine) (key value : Str) : Engine :=
  let e1 : Engine :=
    if e.comp_time < MAX_COMP_TIME then { e with comp_time := wrap32 (e.comp_time * 10) }
    else e
  let e2 : Engine := { e1 with tree := e1.tree.insert key value }
  if e2.tree.size = MAX_TREE_SIZE then
    let data := e2.tree.getSortedPairs
    let e3 := create_SSTable stringHasher e2 data
    { e3 with tree := e3.tree.clear }
  else e2

/-- `DEL`. -/
def DEL (stringHasher : Str → Nat) (e : Engine) (key : Str) : Engine :=
  SET stringHasher e key [116, 111, 109, 98, 115, 116, 111, 110, 101]

/-- The loop of `GET` over the registry, on the slots still to visit, newest first: the
string whose `c_str()` is returned. -/
def GET_loop (stringHasher : Str → Nat) (fs : FS) (key : Str) :
    List (Option SSTable) → Except Fault Str
  | [] => Except.ok TOMBSTONE
  | none :: rest => GET_loop stringHasher fs key rest
  | some t :: rest =>
      match t.find stringHasher fs key with
      | Except.error f => Except.error f
      | Except.ok value =>
          if value.1 then Except.ok value.2 else GET_loop stringHasher fs key rest

/-- `GET` up to the conversion of its result: the string `value.second` (or `TOMBSTONE`)
whose `c_str()` is returned, or the fault that ends the process, and the state after. The
pointer that the caller receives is that of `GET_pointer`. -/
def GET (stringHasher : Str → Nat) (e : Engine) (key : Str) : Except Fault Str × Engine :=
  let value := e.tree.find key
  if value.1 then (Except.ok value.2, e)
  else
    let e1 : Engine :=
      if e.comp_time > MIN_COMP_TIME then { e with comp_time := e.comp_time / 10 } else e
    (GET_loop stringHasher e1.fs key e1.SSTable_list.reverse, e1)

/-! ## Compaction -/

/-- The successive results of `getline` on a file with the given content; `line` holds the
bytes read since the last line break. -/
def getline_loop : Str → Str → List Str
  | [], line => if line = [] then [] else [line]
  | ch :: rest, line =>
      if ch = NEWLINE then line :: getline_loop rest [] else getline_loop rest (line ++ [ch])

/-- The loop `for (j = 0; j < tokens.size(); j += 2)` of `read_SSTable`. -/
def pair_tokens : List Str → List (Str × Str)
  | [] => []
  | [_key] => [(_key, TOMBSTONE)]
  | _key :: _value :: rest => (_key, _value) :: pair_tokens rest

/-- The loop over the files `0.txt, 1.txt, ...` of `read_SSTable`, which ends at the first
file that does not exist: the records stored to `data`, in order. -/
def read_SSTable_loop : Files Str → List (Str × Str)
  | [] => []
  | none :: _ => []
  | some content :: rest =>
      (getline_loop content []).flatMap (fun line => pair_tokens (splitString line))
        ++ read_SSTable_loop rest

/-- `read_SSTable`: the array of `data_size` pairs. Entries that are not stored keep the
empty strings; storing more than `data_size` records writes past the array. -/
def read_SSTable (fs : FS) (folder_name : Str) (data_size : Nat) :
    Except Fault (List (Str × Str)) :=
  let records :=
    match fs.get folder_name with
    | none => []
    | some d => read_SSTable_loop d.txt
  if records.length ≤ data_size then
    Except.ok (records ++ List.replicate (data_size - records.length) ([], []))
  else Except.error Fault.out_of_bounds

/-- The three loops of `mergeSortedSSTables` on the entries from `i` and `j` on: the
entries stored to `merged_array`, of which `fuel` are still free. -/
def mergeSortedSSTables_loop : Nat → List (Str × Str) → List (Str × Str) → List (Str × Str)
  | 0, _, _ => []
  | _ + 1, [], [] => []
  | fuel + 1, [], o :: old_array => o :: mergeSortedSSTables_loop fuel [] old_array
  | fuel + 1, r :: recent_array, [] => r :: mergeSortedSSTables_loop fuel recent_array []
  | fuel + 1, r :: recent_array, o :: old_array =>
      if r.1 < o.1 then r :: mergeSortedSSTables_loop fuel recent_array (o :: old_array)
      else if r.1 > o.1 then o :: mergeSortedSSTables_loop fuel (r :: recent_array) old_array
      else r :: mergeSortedSSTables_loop fuel recent_array old_array

/-- `mergeSortedSSTables`; an argument `(n, array)` is the list of the `n` entries of the
array, and so is the result `(k, resized_array)`. The array `merged_array` has room for
`merged_size = recent_size + old_size` entries. -/
def mergeSortedSSTables (recent_sstable old_sstable : List (Str × Str)) :
    Nat × List (Str × Str) :=
  let merged_size := recent_sstable.length + old_sstable.length
  let merged := mergeSortedSSTables_loop merged_size recent_sstable old_sstable
  (merged.length, merged)

/-- One iteration of the loop of `compact` (without the final `usleep`). -/
def compact_iteration (stringHasher : Str → Nat) (e : Engine) : Except Fault Engine :=
  if e.SSTable_list.length > 100 then
    let rr := e.SSTable_list.length - 1
    let ll := rr - 1
    match e.SSTable_list.getD rr none with
    | none =>
        let popped := e.SSTable_list.dropLast
        match popped.getD ll none with
        | none => Except.ok { e with SSTable_list := popped.dropLast }
        | some _ => Except.ok { e with SSTable_list := popped }
    | some table_rr =>
        match e.SSTable_list.getD ll none with
        | none =>
            Except.ok { e with SSTable_list := (e.SSTable_list.set ll (some table_rr)).dropLast }
        | some table_ll =>
            match read_SSTable e.fs table_ll.folder_name table_ll.num_keys with
            | Except.error f => Except.error f
            | Except.ok keyval_ll =>
                match read_SSTable e.fs table_rr.folder_name table_rr.num_keys with
                | Except.error f => Except.error f
                | Except.ok keyval_rr =>
                    let keyval_comp := mergeSortedSSTables keyval_rr keyval_ll
                    let fs1 := table_rr.delete (table_ll.delete e.fs)
                    let res := SSTable.new stringHasher e.SSTable_list.length keyval_comp.2
                      table_ll.folder_name fs1
                    Except.ok { e with
                      SSTable_list := (e.SSTable_list.set ll (some res.1)).set rr none
                      fs := res.2 }
  else Except.ok e

/-! ## The wire layer (`server.c`) -/

/-- `#define MAXLINE 1024`. -/
def MAXLINE : Nat := 1024

/-- The line separator of the wire protocol, carriage return and line feed. -/
def CRLF : Str := [13, 10]

/-- The C string that starts at the first of the given bytes: the bytes before the first
NUL. -/
def c_str (s : Str) : Str := s.takeWhile fun ch => ch ≠ 0

/-- `receive_message` on a socket with the given bytes available: at most
`buffer_size - 1` of them are received. -/
def receive_message (available : Str) (buffer_size : Nat) : Str :=
  available.take (buffer_size - 1)

/-- The successive non-null results of `strtok(message, "\r\n")`, `strtok(NULL, "\r\n")`,
... on the bytes still to scan, with the bytes of the token scanned so far: the maximal
runs of bytes other than carriage return and line feed. After the last of them `strtok`
returns `NULL`. -/
def strtok_loop : Str → Str → List Str
  | [], token => if token = [] then [] else [token]
  | ch :: rest, token =>
      if ch = 13 ∨ ch = 10 then
        if token = [] then strtok_loop rest [] else token :: strtok_loop rest []
      else strtok_loop rest (token ++ [ch])

/-- `parse_resp`: the returned `int` as a truth value, and the pointers `*command`, `*arg1`
and `*arg2` after the call (`none` for `NULL`, which they hold before the call). -/
def parse_resp (message : Str) : Bool × Option Str × Option Str × Option Str :=
  if message.head? = some 42 then
    let tokens := strtok_loop message []
    match tokens[0]? with
    | none => (false, none, none, none)
    | some _ =>
        match tokens[1]? with
        | none => (false, none, none, none)
        | some _ =>
            match tokens[2]? with
            | none => (false, none, none, none)
            | some command =>
                let arg1 := tokens[4]?
                match tokens[5]? with
                | none => (true, some command, arg1, none)
                | some _ => (true, some command, arg1, tokens[6]?)
  else (false, none, none, none)

/-- The statement `sprintf(response, ...)` for a `response` of `capacity` allocated bytes and
the formatted `text`: the text and its terminating NUL are written; writing more than
`capacity` bytes writes past the end of the allocation. -/
def sprintf_into (capacity : Nat) (text : Str) : Except Fault Str :=
  if text.length + 1 ≤ capacity then Except.ok text else Except.error Fault.out_of_bounds

/-- `build_resp`: `malloc(len + 4)` and the format `"+%s\r\n"`. -/
def build_resp (message : Str) : Except Fault Str :=
  let len := message.length
  sprintf_into (len + 4) ([43] ++ message ++ CRLF)

/-- `build_resp_get`: `malloc(len + 6)` and the format `"$%zu\r\n%s\r\n"`. -/
def build_resp_get (message : Str) : Except Fault Str :=
  let len := message.length
  sprintf_into (len + 6) ([36] ++ to_string len ++ CRLF ++ message ++ CRLF)

/-- `build_error`: `malloc(len + 8)` and the format `"-ERR %s\r\n"`. -/
def build_error (message : Str) : Except Fault Str :=
  let len := message.length
  sprintf_into (len + 8) ([45, 69, 82, 82, 32] ++ message ++ CRLF)

/-- `handle_set`: the bytes given to `send_message` and the engine after the call. -/
def handle_set (stringHasher : Str → Nat) (e : Engine) (key value : Str) :
    Except Fault (Str × Engine) :=
  let e1 := SET stringHasher e key value
  match build_resp [79, 75] with
  | Except.error f => Except.error f
  | Except.ok response => Except.ok (response, e1)

/-- `handle_get`: the bytes given to `send_message` and the engine after the call. The
pointer that `GET` returns is not null; it is read as a C string, with the bytes that it
addressed when `GET` returned (`GET_pointer` records that the storage of a found value is
freed by then). -/
def handle_get (stringHasher : Str → Nat) (e : Engine) (key : Str) :
    Except Fault (Str × Engine) :=
  match (GET stringHasher e key).1 with
  | Except.error f => Except.error f
  | Except.ok value =>
      let result := c_str value
      if result ≠ [116, 111, 109, 98, 115, 116, 111, 110, 101] then
        match build_resp_get result with
        | Except.error f => Except.error f
        | Except.ok response => Except.ok (response, (GET stringHasher e key).2)
      else
        match build_error [75, 101, 121, 32, 110, 111, 116, 32, 102, 111, 117, 110, 100] with
        | Except.error f => Except.error f
        | Except.ok response => Except.ok (response, (GET stringHasher e key).2)

/-- `handle_del`: the bytes given to `send_message` and the engine after the call. -/
def handle_del (stringHasher : Str → Nat) (e : Engine) (key : Str) :
    Except Fault (Str × Engine) :=
  match (GET stringHasher e key).1 with
  | Except.error f => Except.error f
  | Except.ok value =>
      let result := c_str value
      if result ≠ [116, 111, 109, 98, 115, 116, 111, 110, 101] then
        let e1 := DEL stringHasher (GET stringHasher e key).2 key
        match build_resp [79, 75] with
        | Except.error f => Except.error f
        | Except.ok response => Except.ok (response, e1)
      else
        match build_error [75, 101, 121, 32, 110, 111, 116, 32, 102, 111, 117, 110, 100] with
        | Except.error f => Except.error f
        | Except.ok response => Except.ok (response, (GET stringHasher e key).2)

/-- `handle_client` on a socket with the given bytes available: the bytes given to
`send_message` (`none` when nothing is sent) and the engine after the call. A pointer is
`none` when it is `NULL`; `command` is not `NULL` when `parse_resp` returns 1. -/
def handle_client (stringHasher : Str → Nat) (e : Engine) (available : Str) :
    Except Fault (Option Str × Engine) :=
  let buffer := receive_message available MAXLINE
  let n := buffer.length
  if n = 0 then Except.ok (none, e)
  else
    let parsed := parse_resp (c_str buffer)
    let command := parsed.2.1
    let arg1 := parsed.2.2.1
    let arg2 := parsed.2.2.2
    if parsed.1 then
      if command = some [83, 69, 84] ∧ arg1.isSome ∧ arg2.isSome then
        match handle_set stringHasher e (arg1.getD []) (arg2.getD []) with
        | Except.error f => Except.error f
        | Except.ok res => Except.ok (some res.1, res.2)
      else if command = some [71, 69, 84] ∧ arg1.isSome then
        match handle_get stringHasher e (arg1.getD []) with
        | Except.error f => Except.error f
        | Except.ok res => Except.ok (some res.1, res.2)
      else if command = some [68, 69, 76] ∧ arg1.isSome then
        match handle_del stringHasher e (arg1.getD []) with
        | Except.error f => Except.error f
        | Except.ok res => Except.ok (some res.1, res.2)
      else
        match build_error [73, 110, 118, 97, 108, 105, 100, 32, 99, 111, 109, 109, 97, 110, 100,
            32, 111, 114, 32, 97, 114, 103, 117, 109, 101, 110, 116, 115] with
        | Except.error f => Except.error f
        | Except.ok response => Except.ok (some response, e)
    else Except.ok (none, e)

/-! ## Construction of an SSTable when chunk files cannot be opened -/

/-- The loop of `SSTable::store_keyval_data` when the files `i.txt` with `fails i` cannot be
opened for writing: `good` tells whether the last `outFile.open` succeeded. A failed `open`
leaves the file system as it is and the stream in a failed state, in which `outFile << str`
writes nothing; the next successful `open` clears that state. The offsets are recorded as
without failures. -/
def store_keyval_data_loop_io (fails : Nat → Bool) :
    List Str → Nat → Nat → Bool → Folder → List (Int × Int) × Folder
  | [], _, _, _, d => ([], d)
  | str :: rest, fileIndex, currentFileSize, good, d =>
      let newSize := currentFileSize + str.length + 1
      if newSize > MAX_FILE_SIZE then
        let good1 := !fails (fileIndex + 1)
        let d1 := if good1 then d.openTxt (fileIndex + 1) else d
        let res := store_keyval_data_loop_io fails rest (fileIndex + 1) (0 + str.length) good1
          (if good1 then d1.appendTxt (fileIndex + 1) str else d1)
        ((((fileIndex + 1 : Nat) : Int), 0) :: res.1, res.2)
      else
        let res := store_keyval_data_loop_io fails rest fileIndex
          (currentFileSize + str.length) good (if good then d.appendTxt fileIndex str else d)
        (((fileIndex : Int), (currentFileSize : Int)) :: res.1, res.2)

/-- `SSTable::store_keyval_data` when the files `i.txt` with `fails i` cannot be opened. -/
def store_keyval_data_io (fails : Nat → Bool) (data : List Str) (d : Folder) :
    List (Int × Int) × Folder :=
  store_keyval_data_loop_io fails data 0 0 (!fails 0) (if !fails 0 then d.openTxt 0 else d)

/-- The loop of `SSTable::store_keyval_index` when the files `i.bin` with `fails i` cannot be
opened: at the first such file the function logs the error and returns. -/
def store_keyval_index_loop_io (fails : Nat → Bool) (data : List (Int × Int))
    (num_pairs : Nat) : Nat → Nat → Nat → Folder → Folder
  | 0, _, _, d => d
  | fuel + 1, i, fileIndex, d =>
      if i < num_pairs then
        if fails fileIndex then d
        else
          let pairsToWrite := min INDEX_SIZE (num_pairs - i)
          store_keyval_index_loop_io fails data num_pairs fuel (i + INDEX_SIZE) (fileIndex + 1)
            (d.writeBin fileIndex ((data.drop i).take pairsToWrite))
      else d

/-- `SSTable::store_keyval_index` when the files `i.bin` with `fails i` cannot be opened. -/
def store_keyval_index_io (fails : Nat → Bool) (data : List (Int × Int)) (num_pairs : Nat)
    (d : Folder) : Folder :=
  store_keyval_index_loop_io fails data num_pairs num_pairs 0 0 d

/-- The constructor `SSTable::SSTable(data, fname)` when the data chunks `i.txt` with
`failsTxt i` and the index chunks `i.bin` with `failsBin i` cannot be opened. -/
def SSTable.new_io (failsTxt failsBin : Nat → Bool) (stringHasher : Str → Nat) (list_size : Nat)
    (data : List (Str × Str)) (fname : Str) (fs : FS) : SSTable × FS :=
  let folder_name : Str :=
    if fname = TOMBSTONE then [83, 83, 84, 97, 98, 108, 101, 95] ++ to_string list_size
    else fname
  let fs1 := createFolder fs folder_name
  let d : Folder := (fs1.get folder_name).getD { txt := [], bin := [] }
  let num_keys := data.length
  let hashed_data := data.map fun p => encodeKeyValuePair p.1 p.2
  let bfilter :=
    data.foldl (fun b p => b.insert stringHasher p.1) (ProbabilisticSet.init MAX_ITEMS)
  let stored := store_keyval_data_io failsTxt hashed_data d
  let d2 := store_keyval_index_io failsBin stored.1 num_keys stored.2
  ({ folder_name := folder_name, bfilter := bfilter, num_keys := num_keys },
    fs1.set folder_name (some d2))

/-! ## Removal and rank access in the memtable (`avl_tree.cpp`) -/

/-- Undefined behaviour on pointers that stops an operation of the memtable. -/
inductive MemoryFault where
  | null_dereference
  | use_after_free
  deriving Repr, DecidableEq

namespace AVLTreeNode

/-- `AVLTreeNode::left_rotate`, with the dereference of `right` made explicit. -/
def left_rotate_checked : AVLTreeNode → Except MemoryFault AVLTreeNode
  | node l (node rl rr rk rv rc rh) k v c h =>
      Except.ok (left_rotate (node l (node rl rr rk rv rc rh) k v c h))
  | _ => Except.error MemoryFault.null_dereference

/-- `AVLTreeNode::right_rotate`, with the dereference of `left` made explicit. -/
def right_rotate_checked : AVLTreeNode → Except MemoryFault AVLTreeNode
  | node (node ll lr lk lv lc lh) r k v c h =>
      Except.ok (right_rotate (node (node ll lr lk lv lc lh) r k v c h))
  | _ => Except.error MemoryFault.null_dereference

/-- The body of the loop of `AVLTree::balance`, applied to the node `*indirect`, with every
dereference made explicit. -/
def balance_step_checked : AVLTreeNode → Except MemoryFault AVLTreeNode
  | null => Except.error MemoryFault.null_dereference
  | node l0 r0 k0 v0 c0 h0 =>
      let t := updateValues (node l0 r0 k0 v0 c0 h0)
      if t.balanceFactor ≥ 2 then
        match t.getLeft with
        | null => Except.error MemoryFault.null_dereference
        | node ll lr lk lv lc lh =>
            if (node ll lr lk lv lc lh).balanceFactor ≥ 1 then
              right_rotate_checked t
            else
              match left_rotate_checked (node ll lr lk lv lc lh) with
              | Except.error f => Except.error f
              | Except.ok l2 => right_rotate_checked (t.setLeft l2)
      else if t.balanceFactor ≤ -2 then
        match t.getRight with
        | null => Except.error MemoryFault.null_dereference
        | node rl rr rk rv rc rh =>
            if (node rl rr rk rv rc rh).balanceFactor ≤ -1 then
              left_rotate_checked t
            else
              match right_rotate_checked (node rl rr rk rv rc rh) with
              | Except.error f => Except.error f
              | Except.ok r2 => left_rotate_checked (t.setRight r2)
      else
        Except.ok t

/-- The statement `*indirect = f(*indirect)` for the slot `indirect` below the root slot,
where `f` may stop on undefined behaviour. -/
def modifyAt_checked (f : AVLTreeNode → Except MemoryFault AVLTreeNode) :
    Slot → AVLTreeNode → Except MemoryFault AVLTreeNode
  | [], t => f t
  | _ :: _, null => Except.error MemoryFault.null_dereference
  | Side.left :: s, node l r k v c h =>
      match modifyAt_checked f s l with
      | Except.error e => Except.error e
      | Except.ok l2 => Except.ok (node l2 r k v c h)
  | Side.right :: s, node l r k v c h =>
      match modifyAt_checked f s r with
      | Except.error e => Except.error e
      | Except.ok r2 => Except.ok (node l r2 k v c h)

/-- The loop of `AVLTree::balance` on the slots still to visit, with every dereference made
explicit. -/
def balance_loop_checked : List Slot → AVLTreeNode → Except MemoryFault AVLTreeNode
  | [], root => Except.ok root
  | indirect :: rest, root =>
      match modifyAt_checked balance_step_checked indirect root with
      | Except.error e => Except.error e
      | Except.ok root2 => balance_loop_checked rest root2

/-- `AVLTree::balance`, with every dereference made explicit: the path is reversed and the
loop body runs on every slot of it, deepest slot first. -/
def balance_checked (path : List Slot) (root : AVLTreeNode) : Except MemoryFault AVLTreeNode :=
  balance_loop_checked path.reverse root

/-- The pointer `*indirect` for the slot `indirect` below the root slot. -/
def nodeAt : Slot → AVLTreeNode → AVLTreeNode
  | [], t => t
  | _ :: _, null => null
  | Side.left :: s, node l _ _ _ _ _ => nodeAt s l
  | Side.right :: s, node _ r _ _ _ _ => nodeAt s r

/-- The descent of `AVLTree::erase` from the slot `indirect`: the slots pushed on `path` and
the slot of the node with the key, or `none` when the descent ends at a null pointer. -/
def erase_walk (key : Str) : AVLTreeNode → Slot → Option (List Slot × Slot)
  | null, _ => none
  | node l r k _ _ _, indirect =>
      if k ≠ key then
        let res :=
          if k > key then erase_walk key l (indirect ++ [Side.left])
          else erase_walk key r (indirect ++ [Side.right])
        match res with
        | none => none
        | some (path, slot) => some (indirect :: path, slot)
      else
        some ([], indirect)

/-- The unlinking of the node `toRemove = *indirect` in `AVLTree::erase`: the new content of
the slot `indirect`. With two children, when the right child has no left child the search
for the successor pushes no slot and the right child takes the place of the node, with the
`count` and `height` that it had. When the right child has a left child, the first slot
that the search pushes on `path` is `&toRemove->right`, a field of the node that
`delete toRemove` frees before `balance(path)` dereferences every slot of the path. -/
def erase_unlink : AVLTreeNode → Except MemoryFault AVLTreeNode
  | null => Except.error MemoryFault.null_dereference
  | node null null _ _ _ _ => Except.ok null
  | node (node ll lr lk lv lc lh) null _ _ _ _ => Except.ok (node ll lr lk lv lc lh)
  | node null (node rl rr rk rv rc rh) _ _ _ _ => Except.ok (node rl rr rk rv rc rh)
  | node (node ll lr lk lv lc lh) (node null rr rk rv rc rh) _ _ _ _ =>
      Except.ok (node (node ll lr lk lv lc lh) rr rk rv rc rh)
  | node (node _ _ _ _ _ _) (node (node _ _ _ _ _ _) _ _ _ _ _) _ _ _ _ =>
      Except.error MemoryFault.use_after_free

/-- The loop of `AVLTree::operator[]` from the node `cur` with the index `idx`. -/
def subscript_loop : AVLTreeNode → Int → Except MemoryFault Str
  | null, _ => Except.error MemoryFault.null_dereference
  | node l r _ v _ _, idx =>
      if l.countOr0 = idx then Except.ok v
      else if l.countOr0 < idx then subscript_loop r (idx - (l.countOr0 + 1))
      else subscript_loop l idx

end AVLTreeNode

namespace AVLTree

/-- `AVLTree::erase`. The counter `_size` is positive when the key is found in a tree that
counts its nodes. -/
def erase (t : AVLTree) (key : Str) : Except MemoryFault AVLTree :=
  match AVLTreeNode.erase_walk key t.root [] with
  | none => Except.ok t
  | some (path, indirect) =>
      match AVLTreeNode.erase_unlink (AVLTreeNode.nodeAt indirect t.root) with
      | Except.error f => Except.error f
      | Except.ok n =>
          match AVLTreeNode.balance_checked path
              (AVLTreeNode.modifyAt (fun _ => n) indirect t.root) with
          | Except.error f => Except.error f
          | Except.ok root => Except.ok { root := root, _size := t._size - 1 }

/-- `AVLTree::operator[]`. -/
def subscript (t : AVLTree) (idx : Int) : Except MemoryFault Str :=
  AVLTreeNode.subscript_loop t.root idx

end AVLTree

/-! ## The pointer that `GET` returns -/

/-- A `const char *` as `GET` returns it, with the C string it addresses at the `return`:
`global` is a pointer into the global `TOMBSTONE`, which lives as long as the process;
`dangling` is a pointer into the buffer of the local `value.second`, which is destroyed when
`GET` returns, so that the caller holds a pointer to freed storage. -/
inductive CharPtr where
  | global (s : Str)
  | dangling (s : Str)
  deriving Repr, DecidableEq

/-- The bytes that the pointer addressed when `GET` executed its `return`. -/
def CharPtr.bytes : CharPtr → Str
  | CharPtr.global s => s
  | CharPtr.dangling s => s

/-- The loop of `GET` over the registry, on the slots still to visit, newest first, with the
pointer that each `return` hands out: `value.second.c_str()` for the local `value` when a
table reports found, `TOMBSTONE.c_str()` after the loop. -/
def GET_loop_pointer (stringHasher : Str → Nat) (fs : FS) (key : Str) :
    List (Option SSTable) → Except Fault CharPtr
  | [] => Except.ok (CharPtr.global TOMBSTONE)
  | none :: rest => GET_loop_pointer stringHasher fs key rest
  | some t :: rest =>
      match t.find stringHasher fs key with
      | Except.error f => Except.error f
      | Except.ok value =>
          if value.1 then Except.ok (CharPtr.dangling value.2)
          else GET_loop_pointer stringHasher fs key rest

/-- `GET` with the pointer that it returns (or the fault that ends the process) and the
state after: on a memtable hit `value.second.c_str()` of the local `value`. -/
def GET_pointer (stringHasher : Str → Nat) (e : Engine) (key : Str) :
    Except Fault CharPtr × Engine :=
  let value := e.tree.find key
  if value.1 then (Except.ok (CharPtr.dangling value.2), e)
  else
    let e1 : Engine :=
      if e.comp_time > MIN_COMP_TIME then { e with comp_time := e.comp_time / 10 } else e
    (GET_loop_pointer stringHasher e1.fs key e1.SSTable_list.reverse, e1)

/-! ## The probabilistic set with the reads of the multiplier table checked -/

namespace ProbabilisticSet

/-- The loop of `ProbabilisticSet::calculateHashes` over the indices still to visit, with the
read `multipliers[i]` checked against the entries of the table: an index past the table is
a read out of bounds. -/
def calculateHashes_loop_checked (stringHasher : Str → Nat) (key : Str) :
    List Nat → Except Fault (List Nat)
  | [] => Except.ok []
  | i :: rest =>
      match multipliers[i]? with
      | none => Except.error Fault.out_of_bounds
      | some m =>
          match calculateHashes_loop_checked stringHasher key rest with
          | Except.error f => Except.error f
          | Except.ok hashValues =>
              Except.ok
                (((stringHasher (key ++ to_string i) * m + i) % 2 ^ 64) % ARRAY_SIZE :: hashValues)

/-- `ProbabilisticSet::calculateHashes`, with the reads of `multipliers` checked. -/
def calculateHashes_checked (stringHasher : Str → Nat) (s : ProbabilisticSet) (key : Str) :
    Except Fault (List Nat) :=
  calculateHashes_loop_checked stringHasher key (List.range s.numHashFunctions)

/-- `ProbabilisticSet::insert`, with the reads of `multipliers` checked. -/
def insert_checked (stringHasher : Str → Nat) (s : ProbabilisticSet) (key : Str) :
    Except Fault ProbabilisticSet :=
  match s.calculateHashes_checked stringHasher key with
  | Except.error f => Except.error f
  | Except.ok hashes =>
      Except.ok (hashes.foldl
        (fun acc hash =>
          { acc with bitVector := fun i => if i = hash then true else acc.bitVector i }) s)

/-- `ProbabilisticSet::exists`, with the reads of `multipliers` checked. -/
def exists_checked (stringHasher : Str → Nat) (s : ProbabilisticSet) (key : Str) :
    Except Fault Bool :=
  match s.calculateHashes_checked stringHasher key with
  | Except.error f => Except.error f
  | Except.ok hashes => Except.ok (hashes.all fun hash => s.bitVector hash)

/-- The calls `insert(key)` for the keys of a list, the first of the list first. -/
def insert_all_checked (stringHasher : Str → Nat) :
    ProbabilisticSet → List Str → Except Fault ProbabilisticSet
  | s, [] => Except.ok s
  | s, key :: rest =>
      match s.insert_checked stringHasher key with
      | Except.error f => Except.error f
      | Except.ok s2 => insert_all_checked stringHasher s2 rest

end ProbabilisticSet

/-! ## The positions that `SSTable::find` probes -/

/-- A key-value sequence with strictly ascending keys. -/
def Ascending (l : List (Str × Str)) : Prop := l.Pairwise fun a b => a.1 < b.1

instance Ascending.decidable (l : List (Str × Str)) : Decidable (Ascending l) := by
  unfold Ascending; infer_instance

/-- The number of keys of `recent` that are also keys of `old`. -/
def sharedKeys (recent old : List (Str × Str)) : Nat :=
  recent.countP fun p => p.1 ∈ old.map Prod.fst

/-- A string without the DELIMITER byte. -/
def DelimFree (s : Str) : Prop := DELIMITER ∉ s

instance DelimFree.decidable (s : Str) : Decidable (DelimFree s) := by
  unfold DelimFree; infer_instance

/-- A sequence of records whose keys and values are all free of the DELIMITER byte. -/
def RecordsDelimFree (l : List (Str × Str)) : Prop :=
  ∀ p ∈ l, DelimFree p.1 ∧ DelimFree p.2

instance RecordsDelimFree.decidable (l : List (Str × Str)) : Decidable (RecordsDelimFree l) := by
  unfold RecordsDelimFree; infer_instance

/-- The files of the directory `folder_name` serve the records `S`: for every position `m`,
the index entry `m` is read in full and the data chunk holds the encoded record `m` of `S`
at the offset it gives. -/
def Serves (fs : FS) (folder_name : Str) (S : List (Str × Str)) : Prop :=
  ∀ (m : Nat) (p : Str × Str), S[m]? = some p →
    ∃ c o : Nat,
      extractPair fs folder_name ((m : Int) / (INDEX_SIZE : Int)) ((m : Int) % (INDEX_SIZE : Int))
        = ((c : Int), (o : Int)) ∧
      extractKeyValuePair fs folder_name (c : Int) (o : Int)
        = Except.ok (encodeKeyValuePair p.1 p.2)

/-- The table `t` holds the records `S` on the disk `fs`: its key count is their number, its
summary reports every key of `S` present, and its directory serves `S`. -/
def Holds (stringHasher : Str → Nat) (fs : FS) (t : SSTable) (S : List (Str × Str)) : Prop :=
  t.num_keys = S.length ∧
  (∀ p ∈ S, t.bfilter.exists stringHasher p.1 = true) ∧
  Serves fs t.folder_name S

/-- Insert-or-update of `key` in a key-value sequence with ascending keys. -/
def listInsert (key value : Str) : List (Str × Str) → List (Str × Str)
  | [] => [(key, value)]
  | p :: rest =>
      if p.1 = key then (key, value) :: rest
      else if p.1 > key then (key, value) :: p :: rest
      else p :: listInsert key value rest

/-- The memtable is well formed: its pairs have strictly ascending keys and `_size` is
their number. -/
def AVLTree.WellFormed (t : AVLTree) : Prop :=
  Ascending t.getSortedPairs ∧ t._size = t.getSortedPairs.length

/-- A write operation of the embedded API. -/
inductive Op where
  | set (key value : Str)
  | del (key : Str)
  deriving Repr, DecidableEq

/-- The key that a write operation writes. -/
def Op.key : Op → Str
  | Op.set key _ => key
  | Op.del key => key

/-- The value that a write operation leaves for its key: `DEL` leaves the tombstone. -/
def Op.value : Op → Str
  | Op.set _ value => value
  | Op.del _ => TOMBSTONE

/-- The engine after a write operation. -/
def Op.apply (stringHasher : Str → Nat) (e : Engine) : Op → Engine
  | Op.set key value => SET stringHasher e key value
  | Op.del key => DEL stringHasher e key

/-- The engine after a sequence of write operations, the first of the list first. -/
def run (stringHasher : Str → Nat) (e : Engine) (ops : List Op) : Engine :=
  ops.foldl (Op.apply stringHasher) e

/-- The most recent write to `k` in a sequence of operations, if `k` was written. -/
def lastWrite (ops : List Op) (k : Str) : Option Op :=
  ops.reverse.find? fun o => o.key = k

/-- A write whose key and value are free of the DELIMITER byte. -/
def Op.Valid (o : Op) : Prop := DelimFree o.key ∧ DelimFree o.value

instance Op.Valid.decidable (o : Op) : Decidable o.Valid := by
  unfold Op.Valid; infer_instance

/-- The value that the newest of the record sequences `Rs` (oldest first) has for `k`. -/
def registryLookup (Rs : List (List (Str × Str))) (k : Str) : Option Str :=
  Rs.reverse.findSome? fun R => R.lookup k

/-- The slot holds a live table that holds the records `R`, which are ascending and free of
the DELIMITER byte. -/
def SlotHolds (stringHasher : Str → Nat) (fs : FS) (slot : Option SSTable)
    (R : List (Str × Str)) : Prop :=
  ∃ t, slot = some t ∧ Holds stringHasher fs t R ∧ Ascending R ∧ RecordsDelimFree R

/-- The state of an engine that has only flushed: the memtable is well formed, below its
capacity and free of the DELIMITER byte, slot `i` of the registry is live with the folder
name `SSTable_i`, and the slots hold the record sequences `Rs`. -/
def FlushedInv (stringHasher : Str → Nat) (e : Engine) (Rs : List (List (Str × Str))) : Prop :=
  e.tree.WellFormed ∧ e.tree._size < MAX_TREE_SIZE ∧ RecordsDelimFree e.tree.getSortedPairs ∧
  List.Forall₂ (SlotHolds stringHasher e.fs) e.SSTable_list Rs ∧
  ∀ (i : Nat) (t : SSTable), e.SSTable_list[i]? = some (some t) →
    t.folder_name = [83, 83, 84, 97, 98, 108, 101, 95] ++ to_string i

/-- What the engine state stores for `k`: the memtable's value, else the value of the newest
of the record sequences `Rs` that has `k`. -/
def Engine.view (e : Engine) (Rs : List (List (Str × Str))) (k : Str) : Option Str :=
  match e.tree.getSortedPairs.lookup k with
  | some v => some v
  | none => registryLookup Rs k

/-- A string without a line break. -/
def LineFree (s : Str) : Prop := NEWLINE ∉ s

instance LineFree.decidable (s : Str) : Decidable (LineFree s) := by
  unfold LineFree; infer_instance

/-- Records whose keys and values are non-empty and free of DELIMITER and of line breaks. -/
def RecordsValid (l : List (Str × Str)) : Prop :=
  ∀ p ∈ l, (p.1 ≠ [] ∧ DelimFree p.1 ∧ LineFree p.1) ∧ (p.2 ≠ [] ∧ DelimFree p.2 ∧ LineFree p.2)

instance RecordsValid.decidable (l : List (Str × Str)) : Decidable (RecordsValid l) := by
  unfold RecordsValid; infer_instance

/-- The table `t` was built by the constructor from the records `R` in a directory that did
not exist before, and on the disk `fs` its directory is as the constructor left it. -/
def Built (stringHasher : Str → Nat) (fs : FS) (t : SSTable) (R : List (Str × Str)) : Prop :=
  ∃ (list_size : Nat) (fname : Str) (fs0 : FS),
    fs0.get (SSTable.new stringHasher list_size R fname fs0).1.folder_name = none ∧
    t = (SSTable.new stringHasher list_size R fname fs0).1 ∧
    fs.get t.folder_name = (SSTable.new stringHasher list_size R fname fs0).2.get t.folder_name

/-- Every live table of the registry holds its records on disk: it is as the constructor
built it from records that are strictly ascending and valid, and the live tables have
pairwise distinct folder names, so that each owns its directory. -/
def RegistryHolds (stringHasher : Str → Nat) (e : Engine) : Prop :=
  (∀ (i : Nat) (t : SSTable), e.SSTable_list[i]? = some (some t) →
    ∃ R, Built stringHasher e.fs t R ∧ Ascending R ∧ RecordsValid R) ∧
  (∀ (i j : Nat) (t u : SSTable), i ≠ j → e.SSTable_list[i]? = some (some t) →
    e.SSTable_list[j]? = some (some u) → t.folder_name ≠ u.folder_name)

/-- A registry of 101 slots for examples: 99 empty slots below two live tables, built in the
directories "A" (older) and "B" (newer). -/
def exampleRegistry : Engine :=
  let older := SSTable.new List.sum 0 [(bytes "a", bytes "1"), (bytes "b", bytes "2")]
    (bytes "A") FS.empty
  let newer := SSTable.new List.sum 0 [(bytes "b", bytes "20"), (bytes "d", bytes "4")]
    (bytes "B") older.2
  { tree := AVLTree.empty
    SSTable_list := List.replicate 99 none ++ [some older.1, some newer.1]
    comp_time := MAX_COMP_TIME
    fs := newer.2 }

/-- A registry of 101 slots whose older tail table holds a record with an empty value: 99
empty slots below the table of `("a", "")`, `("b", "x")` in the directory "A" and the table
of `("d", "4")` in the directory "B". -/
def emptyValueRegistry : Engine :=
  let older := SSTable.new List.sum 0 [(bytes "a", []), (bytes "b", bytes "x")]
    (bytes "A") FS.empty
  let newer := SSTable.new List.sum 0 [(bytes "d", bytes "4")] (bytes "B") older.2
  { tree := AVLTree.empty
    SSTable_list := List.replicate 99 none ++ [some older.1, some newer.1]
    comp_time := MAX_COMP_TIME
    fs := newer.2 }

/-- A registry of 101 slots whose two tail tables share the directory "A", as the two tail
tables of the engine share the directory `SSTable_101` after `collisionSchedule`: the
constructor of the newer table has written its files over those of the older. -/
def sharedFolderRegistry : Engine :=
  let older := SSTable.new List.sum 0 [(bytes "a", bytes "1"), (bytes "b", bytes "2")]
    (bytes "A") FS.empty
  let newer := SSTable.new List.sum 0 [(bytes "b", bytes "20"), (bytes "d", bytes "4")]
    (bytes "A") older.2
  { tree := AVLTree.empty
    SSTable_list := List.replicate 99 none ++ [some older.1, some newer.1]
    comp_time := MAX_COMP_TIME
    fs := newer.2 }

/-- One step of an execution of the engine: a write (`SET` or `DEL`), a read (`GET`), or one
iteration of the loop of `compact`. -/
inductive Step where
  | op (o : Op)
  | get (key : Str)
  | compact
  deriving Repr, DecidableEq

/-- The engine after one step; a fault ends the process. -/
def Step.apply (stringHasher : Str → Nat) (e : Engine) : Step → Except Fault Engine
  | Step.op o => Except.ok (o.apply stringHasher e)
  | Step.get key =>
      match (GET stringHasher e key).1 with
      | Except.error f => Except.error f
      | Except.ok _ => Except.ok (GET stringHasher e key).2
  | Step.compact => compact_iteration stringHasher e

/-- The engine after a sequence of steps, the first of the list first. -/
def exec (stringHasher : Str → Nat) : Engine → List Step → Except Fault Engine
  | e, [] => Except.ok e
  | e, s :: rest =>
      match s.apply stringHasher e with
      | Except.error f => Except.error f
      | Except.ok e2 => exec stringHasher e2 rest

/-- The engine states that an execution from the fresh engine reaches. -/
def Reachable (stringHasher : Str → Nat) (e : Engine) : Prop :=
  ∃ steps, exec stringHasher Engine.fresh steps = Except.ok e

/-- The records `("k0", "v0"), ..., ("k999", "v999")`: `MAX_TREE_SIZE` distinct keys. -/
def fillRecords : List (Str × Str) :=
  (List.range MAX_TREE_SIZE).map fun i => (107 :: to_string i, 118 :: to_string i)

/-- The `SET`s of `fillRecords`, which fill an empty memtable and flush it at the last one. -/
def fillBlock : List Step :=
  fillRecords.map fun p => Step.op (Op.set p.1 p.2)

/-- A schedule of writes and compaction steps: 101 flushes, a compaction step (it merges the
two tail tables), a flush, a compaction step (it moves the new table one slot down), and a
flush. -/
def collisionSchedule : List Step :=
  (List.replicate 101 fillBlock).flatten ++ [Step.compact] ++ fillBlock ++ [Step.compact]
    ++ fillBlock

/-- The memtable after the inserts `kvs`, the first of the list first. -/
def AVLTree.insertAll (t : AVLTree) (kvs : List (Str × Str)) : AVLTree :=
  kvs.foldl (fun t p => t.insert p.1 p.2) t

/-- The live tables of a registry, newest first: the sequence that reads traverse. -/
def liveTables (l : List (Option SSTable)) : List SSTable :=
  l.reverse.filterMap id

/-- The shape of a registry: slot 0 is live when there is a slot, and no two adjacent slots
are both empty. -/
def RegistryShape (l : List (Option SSTable)) : Prop :=
  (l ≠ [] → ∃ t, l[0]? = some (some t)) ∧
  ∀ i : Nat, ¬ (l[i]? = some none ∧ l[i + 1]? = some none)

namespace AVLTreeNode

/-- The height of a subtree: 0 for the null pointer, 1 for a single node. -/
def subtreeHeight : AVLTreeNode → Nat
  | null => 0
  | node l r _ _ _ _ => max l.subtreeHeight r.subtreeHeight + 1

/-- The number of nodes of a subtree. -/
def subtreeSize : AVLTreeNode → Nat
  | null => 0
  | node l r _ _ _ _ => l.subtreeSize + r.subtreeSize + 1

/-- A height-balanced subtree: every node has a balance factor in {-1, 0, 1}, and its cached
`height` and `count` are the height and the number of nodes of its subtree. -/
def HeightBalanced : AVLTreeNode → Prop
  | null => True
  | node l r k v c h =>
      l.HeightBalanced ∧ r.HeightBalanced ∧
      -1 ≤ (node l r k v c h).balanceFactor ∧ (node l r k v c h).balanceFactor ≤ 1 ∧
      h = ((node l r k v c h).subtreeHeight : Int) ∧
      c = ((node l r k v c h).subtreeSize : Int)

/-- The same property on the cached fields alone: every node caches the height and count
that `updateValues` computes from its children, and the cached heights of its children
differ by at most one. -/
def CacheBalanced : AVLTreeNode → Prop
  | null => True
  | node l r _ _ c h =>
      l.CacheBalanced ∧ r.CacheBalanced ∧
      -1 ≤ l.heightOr0 - r.heightOr0 ∧ l.heightOr0 - r.heightOr0 ≤ 1 ∧
      h = max l.heightOr0 r.heightOr0 + 1 ∧ c = l.countOr0 + r.countOr0 + 1

/-- The number of nodes that the loop of `AVLTree::find` visits from the node `direct`. -/
def find_visits (key : Str) : AVLTreeNode → Nat
  | null => 0
  | node l r k _ _ _ =>
      if k = key then 1
      else if k > key then find_visits key l + 1
      else find_visits key r + 1

end AVLTreeNode

instance AVLTreeNode.HeightBalanced.decidable : (t : AVLTreeNode) → Decidable t.HeightBalanced
  | AVLTreeNode.null => isTrue trivial
  | AVLTreeNode.node l r k v c h =>
      have := AVLTreeNode.HeightBalanced.decidable l
      have := AVLTreeNode.HeightBalanced.decidable r
      decidable_of_iff
        (l.HeightBalanced ∧ r.HeightBalanced ∧
          -1 ≤ (AVLTreeNode.node l r k v c h).balanceFactor ∧
          (AVLTreeNode.node l r k v c h).balanceFactor ≤ 1 ∧
          h = ((AVLTreeNode.node l r k v c h).subtreeHeight : Int) ∧
          c = ((AVLTreeNode.node l r k v c h).subtreeSize : Int)) Iff.rfl

/-- A tree of four inserts whose root, the key "c", has two children, and whose right child
has no left child. -/
def rootExample : AVLTree :=
  AVLTree.empty.insertAll
    [(bytes "a", bytes "1"), (bytes "c", bytes "3"), (bytes "d", bytes "4"),
      (bytes "b", bytes "2")]

/-- A tree of eight inserts with the leaf "a" in the shorter subtree of the root, where the
taller child of the root, the key "f", has two subtrees of the same height. -/
def tieExample : AVLTree :=
  AVLTree.empty.insertAll
    [(bytes "a", bytes "1"), (bytes "b", bytes "2"), (bytes "c", bytes "3"),
      (bytes "f", bytes "6"), (bytes "h", bytes "8"), (bytes "e", bytes "5"),
      (bytes "d", bytes "4"), (bytes "g", bytes "7")]

/-- A tree of four inserts whose root, the key "b", has two children, and whose right child,
the key "d", has the left child "c". -/
def successorExample : AVLTree :=
  AVLTree.empty.insertAll
    [(bytes "a", bytes "1"), (bytes "b", bytes "2"), (bytes "d", bytes "4"),
      (bytes "c", bytes "3")]

/-! ## Lemmas on `mergeSortedSSTables` -/

theorem Ascending.tail {a : Str × Str} {l : List (Str × Str)} (h : Ascending (a :: l)) :
    Ascending l :=
  (List.pairwise_cons.mp h).2

theorem Ascending.head_lt {a : Str × Str} {l : List (Str × Str)} (h : Ascending (a :: l)) :
    ∀ x ∈ l, a.1 < x.1 := (List.pairwise_cons.mp h).1

theorem Ascending.head_not_mem {a : Str × Str} {l : List (Str × Str)} (h : Ascending (a :: l)) :
    a.1 ∉ l.map Prod.fst := by
  intro hm
  obtain ⟨x, hx, hxa⟩ := List.mem_map.mp hm
  have := h.head_lt x hx
  rw [hxa] at this
  exact lt_irrefl _ this

theorem Ascending.lt_not_mem {a : Str × Str} {l : List (Str × Str)} (h : Ascending (a :: l))
    {k : Str} (hk : k < a.1) : k ∉ (a :: l).map Prod.fst := by
  intro hm
  obtain ⟨x, hx, hxa⟩ := List.mem_map.mp hm
  rcases List.mem_cons.mp hx with hx | hx
  · rw [hx] at hxa; rw [hxa] at hk; exact lt_irrefl _ hk
  · have := h.head_lt x hx
    rw [hxa] at this
    exact lt_irrefl _ (lt_trans hk this)

theorem merge_loop_nil_left : ∀ (fuel : Nat) (old : List (Str × Str)), old.length ≤ fuel →
    mergeSortedSSTables_loop fuel [] old = old := by
  intro fuel
  induction fuel with
  | zero => intro old h; cases old with
    | nil => rfl
    | cons o os => simp at h
  | succ n ih => intro old h; cases old with
    | nil => rfl
    | cons o os =>
        simp only [mergeSortedSSTables_loop]
        rw [ih os (by simpa using h)]

theorem merge_loop_nil_right : ∀ (fuel : Nat) (recent : List (Str × Str)), recent.length ≤ fuel →
    mergeSortedSSTables_loop fuel recent [] = recent := by
  intro fuel
  induction fuel with
  | zero => intro l h; cases l with
    | nil => rfl
    | cons o os => simp at h
  | succ n ih => intro l h; cases l with
    | nil => rfl
    | cons o os =>
        simp only [mergeSortedSSTables_loop]
        rw [ih os (by simpa using h)]

/-- Induction along the run of the merge loop, when `merged_array` is large enough. -/
theorem merge_loop_induct (P : List (Str × Str) → List (Str × Str) → List (Str × Str) → Prop)
    (h1 : ∀ old, P [] old old)
    (h2 : ∀ r rs, P (r :: rs) [] (r :: rs))
    (h3 : ∀ r rs o os m, r.1 < o.1 → P rs (o :: os) m → P (r :: rs) (o :: os) (r :: m))
    (h4 : ∀ r rs o os m, ¬ r.1 < o.1 → r.1 > o.1 → P (r :: rs) os m →
      P (r :: rs) (o :: os) (o :: m))
    (h5 : ∀ r rs o os m, ¬ r.1 < o.1 → ¬ r.1 > o.1 → P rs os m →
      P (r :: rs) (o :: os) (r :: m)) :
    ∀ (fuel : Nat) (recent old : List (Str × Str)), recent.length + old.length ≤ fuel →
      P recent old (mergeSortedSSTables_loop fuel recent old) := by
  intro fuel
  induction fuel with
  | zero =>
      intro recent old h
      have hr : recent = [] := List.length_eq_zero.mp (by omega)
      have ho : old = [] := List.length_eq_zero.mp (by omega)
      subst hr ho
      exact h1 []
  | succ n ih =>
      intro recent old h
      cases recent with
      | nil =>
          rw [merge_loop_nil_left _ _ (by simpa using h)]
          exact h1 old
      | cons r rs =>
          cases old with
          | nil =>
              rw [merge_loop_nil_right _ _ (by simpa using h)]
              exact h2 r rs
          | cons o os =>
              simp only [List.length_cons] at h
              simp only [mergeSortedSSTables_loop]
              by_cases hlt : r.1 < o.1
              · rw [if_pos hlt]
                exact h3 r rs o os _ hlt (ih rs (o :: os) (by simp only [List.length_cons]; omega))
              · rw [if_neg hlt]
                by_cases hgt : r.1 > o.1
                · rw [if_pos hgt]
                  exact h4 r rs o os _ hlt hgt (ih (r :: rs) os (by simp only [List.length_cons]; omega))
                · rw [if_neg hgt]
                  exact h5 r rs o os _ hlt hgt (ih rs os (by omega))

theorem mem_merge_loop_sub (x : Str × Str) (recent old : List (Str × Str)) :
    x ∈ (mergeSortedSSTables recent old).2 → x ∈ recent ∨ x ∈ old := by
  refine merge_loop_induct (fun recent old m => x ∈ m → x ∈ recent ∨ x ∈ old)
    ?_ ?_ ?_ ?_ ?_ _ recent old (le_refl _)
  · intro old h; right; exact h
  · intro r rs h; left; exact h
  · intro r rs o os m _ ih h
    rcases List.mem_cons.mp h with h | h
    · left; simp [h]
    · rcases ih h with h | h
      · left; exact List.mem_cons_of_mem _ h
      · right; exact h
  · intro r rs o os m _ _ ih h
    rcases List.mem_cons.mp h with h | h
    · right; simp [h]
    · rcases ih h with h | h
      · left; exact h
      · right; exact List.mem_cons_of_mem _ h
  · intro r rs o os m _ _ ih h
    rcases List.mem_cons.mp h with h | h
    · left; simp [h]
    · rcases ih h with h | h
      · left; exact List.mem_cons_of_mem _ h
      · right; exact List.mem_cons_of_mem _ h

theorem ascending_merge (recent old : List (Str × Str)) (hr : Ascending recent)
    (ho : Ascending old) : Ascending (mergeSortedSSTables recent old).2 := by
  refine merge_loop_induct
    (fun recent old m => Ascending recent → Ascending old →
      (∀ x ∈ m, x ∈ recent ∨ x ∈ old) ∧ Ascending m)
    ?_ ?_ ?_ ?_ ?_ _ recent old (le_refl _) hr ho |>.2
  · intro old _ h; exact ⟨fun x hx => Or.inr hx, h⟩
  · intro r rs h _; exact ⟨fun x hx => Or.inl hx, h⟩
  · intro r rs o os m hlt ih hr ho
    obtain ⟨hsub, ha⟩ := ih hr.tail ho
    refine ⟨?_, List.pairwise_cons.mpr ⟨?_, ha⟩⟩
    · intro x hx
      rcases List.mem_cons.mp hx with h | h
      · left; simp [h]
      · rcases hsub x h with h | h
        · left; exact List.mem_cons_of_mem _ h
        · right; exact h
    · intro x hx
      rcases hsub x hx with h | h
      · exact hr.head_lt x h
      · rcases List.mem_cons.mp h with h | h
        · rw [h]; exact hlt
        · exact lt_trans hlt (ho.head_lt x h)
  · intro r rs o os m _ hgt ih hr ho
    obtain ⟨hsub, ha⟩ := ih hr ho.tail
    refine ⟨?_, List.pairwise_cons.mpr ⟨?_, ha⟩⟩
    · intro x hx
      rcases List.mem_cons.mp hx with h | h
      · right; simp [h]
      · rcases hsub x h with h | h
        · left; exact h
        · right; exact List.mem_cons_of_mem _ h
    · intro x hx
      rcases hsub x hx with h | h
      · rcases List.mem_cons.mp h with h | h
        · rw [h]; exact hgt
        · exact lt_trans hgt (hr.head_lt x h)
      · exact ho.head_lt x h
  · intro r rs o os m hlt hgt ih hr ho
    have heq : r.1 = o.1 := le_antisymm (not_lt.mp hgt) (not_lt.mp hlt)
    obtain ⟨hsub, ha⟩ := ih hr.tail ho.tail
    refine ⟨?_, List.pairwise_cons.mpr ⟨?_, ha⟩⟩
    · intro x hx
      rcases List.mem_cons.mp hx with h | h
      · left; simp [h]
      · rcases hsub x h with h | h
        · left; exact List.mem_cons_of_mem _ h
        · right; exact List.mem_cons_of_mem _ h
    · intro x hx
      rcases hsub x hx with h | h
      · exact hr.head_lt x h
      · rw [heq]; exact ho.head_lt x h

theorem sharedKeys_cons_old {recent : List (Str × Str)} {o : Str × Str} {os : List (Str × Str)}
    (h : o.1 ∉ recent.map Prod.fst) : sharedKeys recent (o :: os) = sharedKeys recent os := by
  unfold sharedKeys
  apply List.countP_congr
  intro p hp
  simp only [List.map_cons, List.mem_cons, decide_eq_true_eq]
  constructor
  · rintro (h1 | h1)
    · exfalso; apply h; rw [← h1]; exact List.mem_map_of_mem _ hp
    · exact h1
  · intro h1; right; exact h1

theorem length_merge (recent old : List (Str × Str)) (hr : Ascending recent)
    (ho : Ascending old) :
    (mergeSortedSSTables recent old).2.length + sharedKeys recent old
      = recent.length + old.length := by
  refine merge_loop_induct
    (fun recent old m => Ascending recent → Ascending old →
      m.length + sharedKeys recent old = recent.length + old.length)
    ?_ ?_ ?_ ?_ ?_ _ recent old (le_refl _) hr ho
  · intro old _ _; simp [sharedKeys]
  · intro r rs _ _; simp [sharedKeys]
  · intro r rs o os m hlt ih hr ho
    have ih := ih hr.tail ho
    have hn : r.1 ∉ (o :: os).map Prod.fst := ho.lt_not_mem hlt
    have : sharedKeys (r :: rs) (o :: os) = sharedKeys rs (o :: os) := by
      unfold sharedKeys
      rw [List.countP_cons_of_neg]
      simpa using hn
    rw [this]
    simp only [List.length_cons] at ih ⊢
    omega
  · intro r rs o os m _ hgt ih hr ho
    have ih := ih hr ho.tail
    have hn : o.1 ∉ (r :: rs).map Prod.fst := hr.lt_not_mem hgt
    rw [sharedKeys_cons_old hn]
    simp only [List.length_cons] at ih ⊢
    omega
  · intro r rs o os m hlt hgt ih hr ho
    have ih := ih hr.tail ho.tail
    have heq : r.1 = o.1 := le_antisymm (not_lt.mp hgt) (not_lt.mp hlt)
    have h1 : sharedKeys (r :: rs) (o :: os) = sharedKeys rs (o :: os) + 1 := by
      unfold sharedKeys
      rw [List.countP_cons_of_pos]
      simp [heq]
    have h2 : sharedKeys rs (o :: os) = sharedKeys rs os := by
      apply sharedKeys_cons_old
      rw [← heq]; exact hr.head_not_mem
    rw [h1, h2]
    simp only [List.length_cons] at ih ⊢
    omega

theorem mem_merge (k v : Str) (recent old : List (Str × Str)) (hr : Ascending recent)
    (ho : Ascending old) :
    ((k, v) ∈ (mergeSortedSSTables recent old).2 ↔
      (k, v) ∈ recent ∨ (k ∉ recent.map Prod.fst ∧ (k, v) ∈ old)) := by
  refine merge_loop_induct
    (fun recent old m => Ascending recent → Ascending old →
      ((k, v) ∈ m ↔ (k, v) ∈ recent ∨ (k ∉ recent.map Prod.fst ∧ (k, v) ∈ old)))
    ?_ ?_ ?_ ?_ ?_ _ recent old (le_refl _) hr ho
  · intro old _ _; simp
  · intro r rs _ _; simp
  · intro r rs o os m hlt ih hr ho
    have ih := ih hr.tail ho
    have h1 := ho.head_lt
    rw [List.mem_cons, ih]
    constructor
    · rintro (h | h | ⟨h, h2⟩)
      · left; simp [h]
      · left; simp [h]
      · right
        refine ⟨?_, h2⟩
        simp only [List.map_cons, List.mem_cons, not_or]
        refine ⟨?_, h⟩
        rcases List.mem_cons.mp h2 with h3 | h3
        · intro hk
          have hko : k = o.1 := congrArg Prod.fst h3
          rw [← hk, ← hko] at hlt; exact lt_irrefl _ hlt
        · intro hk; have := h1 _ h3; simp only at this; rw [hk] at this
          exact lt_irrefl _ (lt_trans hlt this)
    · rintro (h | ⟨h, h2⟩)
      · rcases List.mem_cons.mp h with h | h
        · left; exact h
        · right; left; exact h
      · right; right
        simp only [List.map_cons, List.mem_cons, not_or] at h
        exact ⟨h.2, h2⟩
  · intro r rs o os m _ hgt ih hr ho
    have ih := ih hr ho.tail
    have h1 := hr.head_lt
    rw [List.mem_cons, ih]
    constructor
    · rintro (h | h | ⟨h, h2⟩)
      · right
        refine ⟨?_, by simp [h]⟩
        simp only [List.map_cons, List.mem_cons, not_or, List.mem_map, not_exists, not_and]
        have hk : k = o.1 := congrArg Prod.fst h
        refine ⟨?_, ?_⟩
        · intro hk2; rw [← hk, ← hk2] at hgt; exact lt_irrefl _ hgt
        · intro x hx hxk
          have := h1 x hx
          rw [hxk, hk] at this
          exact lt_irrefl _ (lt_trans hgt this)
      · left; exact h
      · right; exact ⟨h, List.mem_cons_of_mem _ h2⟩
    · rintro (h | ⟨h, h2⟩)
      · right; left; exact h
      · rcases List.mem_cons.mp h2 with h3 | h3
        · left; exact h3
        · right; right; exact ⟨h, h3⟩
  · intro r rs o os m hlt hgt ih hr ho
    have ih := ih hr.tail ho.tail
    have h1 := ho.head_lt
    have heq : r.1 = o.1 := le_antisymm (not_lt.mp hgt) (not_lt.mp hlt)
    rw [List.mem_cons, ih]
    constructor
    · rintro (h | h | ⟨h, h2⟩)
      · left; simp [h]
      · left; simp [h]
      · right
        refine ⟨?_, List.mem_cons_of_mem _ h2⟩
        simp only [List.map_cons, List.mem_cons, not_or]
        refine ⟨?_, h⟩
        intro hk
        have := h1 _ h2
        simp only at this
        rw [hk, heq] at this
        exact lt_irrefl _ this
    · rintro (h | ⟨h, h2⟩)
      · rcases List.mem_cons.mp h with h | h
        · left; exact h
        · right; left; exact h
      · simp only [List.map_cons, List.mem_cons, not_or] at h
        rcases List.mem_cons.mp h2 with h3 | h3
        · exfalso; apply h.1; rw [heq, ← h3]
        · right; right; exact ⟨h.2, h3⟩

theorem lookup_eq_none_iff (k : Str) (l : List (Str × Str)) :
    l.lookup k = none ↔ k ∉ l.map Prod.fst := by
  induction l with
  | nil => simp
  | cons a l ih =>
      obtain ⟨a1, a2⟩ := a
      by_cases h : k = a1
      · subst h; simp [List.lookup]
      · have : (k == a1) = false := by simpa using h
        simp [List.lookup, this, ih, h]

theorem lookup_eq_some_iff (k v : Str) {l : List (Str × Str)} (hl : Ascending l) :
    l.lookup k = some v ↔ (k, v) ∈ l := by
  induction l with
  | nil => simp
  | cons a l ih =>
      obtain ⟨a1, a2⟩ := a
      by_cases h : k = a1
      · subst h
        have hn := hl.head_not_mem
        simp only [List.lookup, beq_self_eq_true, Option.some.injEq, List.mem_cons, Prod.mk.injEq,
          true_and]
        constructor
        · intro h; left; exact h.symm
        · rintro (h | h)
          · exact h.symm
          · exfalso; exact hn (List.mem_map.mpr ⟨_, h, rfl⟩)
      · have hb : (k == a1) = false := by simpa using h
        simp [List.lookup, hb, ih hl.tail, h]

theorem lookup_merge (k : Str) (recent old : List (Str × Str)) (hr : Ascending recent)
    (ho : Ascending old) :
    (mergeSortedSSTables recent old).2.lookup k =
      match recent.lookup k with
      | some v => some v
      | none => old.lookup k := by
  have hm := ascending_merge recent old hr ho
  cases h1 : recent.lookup k with
  | some v =>
      simp only
      rw [lookup_eq_some_iff k v hm, mem_merge k v recent old hr ho]
      left; exact (lookup_eq_some_iff k v hr).mp h1
  | none =>
      simp only
      have hk := (lookup_eq_none_iff k recent).mp h1
      cases h2 : old.lookup k with
      | some v =>
          rw [lookup_eq_some_iff k v hm, mem_merge k v recent old hr ho]
          right; exact ⟨hk, (lookup_eq_some_iff k v ho).mp h2⟩
      | none =>
          rw [lookup_eq_none_iff]
          intro hmem
          obtain ⟨x, hx, hxk⟩ := List.mem_map.mp hmem
          rcases mem_merge_loop_sub x _ _ hx with h | h
          · exact hk (List.mem_map.mpr ⟨x, h, hxk⟩)
          · exact (lookup_eq_none_iff k old).mp h2 (List.mem_map.mpr ⟨x, h, hxk⟩)


/-! ## Lemmas on files and directories -/

theorem Files.read_write_same {α : Type} (fl : Files α) (i : Nat) (c : α) :
    (fl.write i c).read i = some c := by
  unfold Files.read Files.write
  rw [List.getD_eq_getElem?_getD, List.getElem?_set]
  simp only [if_true, List.length_append, List.length_replicate]
  rw [if_pos (by omega)]
  rfl

theorem Files.read_write_other {α : Type} (fl : Files α) (i j : Nat) (c : α) (h : j ≠ i) :
    (fl.write i c).read j = fl.read j := by
  unfold Files.read Files.write
  rw [List.getD_eq_getElem?_getD, List.getD_eq_getElem?_getD, List.getElem?_set]
  rw [if_neg (fun e => h e.symm)]
  by_cases hj : j < fl.length
  · rw [List.getElem?_append_left hj]
  · rw [List.getElem?_append_right (by omega)]
    have : fl[j]? = none := List.getElem?_eq_none (by omega)
    rw [this]
    by_cases h2 : j - fl.length < i + 1 - fl.length
    · rw [List.getElem?_replicate_of_lt h2]; rfl
    · rw [List.getElem?_eq_none (by simpa using h2)]

theorem Files.read_eq_some {α : Type} (fl : Files α) (i : Nat) (c : α) :
    fl.read i = some c ↔ fl[i]? = some (some c) := by
  unfold Files.read
  rw [List.getD_eq_getElem?_getD]
  cases h : fl[i]? with
  | none => simp
  | some x => simp

theorem Files.write_of_lt {α : Type} (fl : Files α) (i : Nat) (c : α) (h : i < fl.length) :
    fl.write i c = fl.set i (some c) := by
  unfold Files.write
  have : i + 1 - fl.length = 0 := by omega
  rw [this]; simp

theorem Files.write_length {α : Type} (fl : Files α) (c : α) :
    fl.write fl.length c = fl ++ [some c] := by
  unfold Files.write
  have : fl.length + 1 - fl.length = 1 := by omega
  rw [this]
  simp

theorem FS.get_set_same (fs : FS) (name : Str) (d : Option Folder) :
    (fs.set name d).get name = d := by
  unfold FS.get FS.set
  cases d with
  | none =>
      simp only
      rw [Option.map_eq_none', List.find?_eq_none]
      intro x hx
      have := (List.mem_filter.mp hx).2
      simpa using this
  | some d => simp

theorem FS.get_set_other (fs : FS) (name n : Str) (d : Option Folder) (h : n ≠ name) :
    (fs.set name d).get n = fs.get n := by
  have key : ∀ l : List (Str × Folder),
      (l.filter fun p => p.1 ≠ name).find? (fun p => p.1 = n) = l.find? (fun p => p.1 = n) := by
    intro l
    induction l with
    | nil => rfl
    | cons a l ih =>
        by_cases ha : a.1 = name
        · have hn : ¬ a.1 = n := fun e => h (e.symm.trans ha)
          rw [List.filter_cons_of_neg (by simpa using ha),
            List.find?_cons_of_neg _ (by simpa using hn), ih]
        · rw [List.filter_cons_of_pos (by simpa using ha)]
          by_cases hn : a.1 = n
          · rw [List.find?_cons_of_pos _ (by simpa using hn),
              List.find?_cons_of_pos _ (by simpa using hn)]
          · rw [List.find?_cons_of_neg _ (by simpa using hn),
              List.find?_cons_of_neg _ (by simpa using hn), ih]
  unfold FS.get FS.set
  cases d with
  | none => simp only; rw [key]
  | some d =>
      simp only
      rw [List.find?_cons_of_neg _ (by simpa using fun e => h e.symm), key]

theorem FS.get_empty (n : Str) : FS.empty.get n = none := rfl

theorem get_createFolder_other (fs : FS) (name n : Str) (h : n ≠ name) :
    (createFolder fs name).get n = fs.get n := by
  unfold createFolder
  cases fs.get name with
  | some d => rfl
  | none => exact FS.get_set_other _ _ _ _ h

theorem get_createFolder_same (fs : FS) (name : Str) :
    (createFolder fs name).get name = some ((fs.get name).getD { txt := [], bin := [] }) := by
  unfold createFolder
  cases h : fs.get name with
  | some d => simp [h]
  | none => simp [FS.get_set_same]

theorem get_deleteFolder_same (fs : FS) (name : Str) : (deleteFolder fs name).get name = none := by
  unfold deleteFolder
  cases h : fs.get name with
  | some d => exact FS.get_set_same _ _ _
  | none => exact h

theorem get_deleteFolder_other (fs : FS) (name n : Str) (h : n ≠ name) :
    (deleteFolder fs name).get n = fs.get n := by
  unfold deleteFolder
  cases fs.get name with
  | some d => exact FS.get_set_other _ _ _ _ h
  | none => rfl


/-! ## Lemmas on `store_keyval_data` -/

theorem Folder.openTxt_bin (d : Folder) (i : Nat) : (d.openTxt i).bin = d.bin := rfl

theorem Folder.appendTxt_bin (d : Folder) (i : Nat) (s : Str) : (d.appendTxt i s).bin = d.bin := by
  unfold Folder.appendTxt
  cases d.txt.read i <;> rfl

theorem Folder.read_openTxt_same (d : Folder) (i : Nat) : (d.openTxt i).txt.read i = some [] :=
  Files.read_write_same _ _ _

theorem Folder.read_openTxt_other (d : Folder) (i j : Nat) (h : j ≠ i) :
    (d.openTxt i).txt.read j = d.txt.read j :=
  Files.read_write_other _ _ _ _ h

theorem Folder.read_appendTxt_same (d : Folder) (i : Nat) (s buf : Str)
    (h : d.txt.read i = some buf) : (d.appendTxt i s).txt.read i = some (buf ++ s) := by
  unfold Folder.appendTxt
  rw [h]
  exact Files.read_write_same _ _ _

theorem Folder.read_appendTxt_other (d : Folder) (i j : Nat) (s : Str) (h : j ≠ i) :
    (d.appendTxt i s).txt.read j = d.txt.read j := by
  unfold Folder.appendTxt
  cases d.txt.read i with
  | none => rfl
  | some c => exact Files.read_write_other _ _ _ _ h

/-- The loop of `store_keyval_data` leaves the index files alone, returns one offset pair
per string, only appends to the open file, leaves the earlier files alone, and every string
is in the file of its offset pair at that offset. -/
theorem store_keyval_data_loop_spec : ∀ (strs : List Str) (fileIndex cfs : Nat) (d : Folder)
    (buf : Str), d.txt.read fileIndex = some buf → buf.length = cfs →
    (store_keyval_data_loop strs fileIndex cfs d).2.bin = d.bin ∧
    (store_keyval_data_loop strs fileIndex cfs d).1.length = strs.length ∧
    (∃ extra, (store_keyval_data_loop strs fileIndex cfs d).2.txt.read fileIndex
        = some (buf ++ extra)) ∧
    (∀ j, j < fileIndex →
      (store_keyval_data_loop strs fileIndex cfs d).2.txt.read j = d.txt.read j) ∧
    (∀ (m : Nat) (s : Str), strs[m]? = some s → ∃ (c o : Nat) (content rest : Str),
      (store_keyval_data_loop strs fileIndex cfs d).1[m]? = some ((c : Int), (o : Int)) ∧
      (store_keyval_data_loop strs fileIndex cfs d).2.txt.read c = some content ∧
      content.drop o = s ++ rest) := by
  intro strs
  induction strs with
  | nil =>
      intro fileIndex cfs d buf hb _
      refine ⟨rfl, rfl, ⟨[], by simpa [store_keyval_data_loop] using hb⟩, fun j _ => rfl, ?_⟩
      intro m s h; simp at h
  | cons str rest ih =>
      intro fileIndex cfs d buf hb hlen
      by_cases hnew : cfs + str.length + 1 > MAX_FILE_SIZE
      · have hd1 : ((d.openTxt (fileIndex + 1)).appendTxt (fileIndex + 1) str).txt.read
            (fileIndex + 1) = some ([] ++ str) :=
          Folder.read_appendTxt_same _ _ _ _ (Folder.read_openTxt_same _ _)
        obtain ⟨h1, h2, ⟨extra, h3⟩, h4, h5⟩ :=
          ih (fileIndex + 1) (0 + str.length)
            ((d.openTxt (fileIndex + 1)).appendTxt (fileIndex + 1) str) ([] ++ str) hd1 (by simp)
        have hold : ∀ j, j < fileIndex + 1 →
            ((d.openTxt (fileIndex + 1)).appendTxt (fileIndex + 1) str).txt.read j
              = d.txt.read j := by
          intro j hj
          rw [Folder.read_appendTxt_other _ _ _ _ (by omega),
            Folder.read_openTxt_other _ _ _ (by omega)]
        simp only [store_keyval_data_loop, if_pos hnew]
        refine ⟨?_, ?_, ⟨[], ?_⟩, ?_, ?_⟩
        · rw [h1, Folder.appendTxt_bin, Folder.openTxt_bin]
        · simp only [List.length_cons, h2]
        · rw [h4 fileIndex (by omega), hold fileIndex (by omega), hb]; simp
        · intro j hj
          rw [h4 j (by omega), hold j (by omega)]
        · intro m s hm
          cases m with
          | zero =>
              simp only [List.getElem?_cons_zero, Option.some.injEq] at hm
              subst hm
              refine ⟨fileIndex + 1, 0, _, extra, ?_, h3, ?_⟩
              · simp
              · simp
          | succ m =>
              simp only [List.getElem?_cons_succ] at hm ⊢
              exact h5 m s hm
      · have hd1 : (d.appendTxt fileIndex str).txt.read fileIndex = some (buf ++ str) :=
          Folder.read_appendTxt_same _ _ _ _ hb
        obtain ⟨h1, h2, ⟨extra, h3⟩, h4, h5⟩ :=
          ih fileIndex (cfs + str.length) (d.appendTxt fileIndex str) (buf ++ str) hd1
            (by simp [hlen])
        simp only [store_keyval_data_loop, if_neg hnew]
        refine ⟨?_, ?_, ⟨str ++ extra, ?_⟩, ?_, ?_⟩
        · rw [h1, Folder.appendTxt_bin]
        · simp only [List.length_cons, h2]
        · rw [h3]; simp
        · intro j hj
          rw [h4 j hj, Folder.read_appendTxt_other _ _ _ _ (by omega)]
        · intro m s hm
          cases m with
          | zero =>
              simp only [List.getElem?_cons_zero, Option.some.injEq] at hm
              subst hm
              refine ⟨fileIndex, cfs, _, extra, ?_, h3, ?_⟩
              · simp
              · rw [← hlen]; simp
          | succ m =>
              simp only [List.getElem?_cons_succ] at hm ⊢
              exact h5 m s hm

theorem store_keyval_data_spec (strs : List Str) (d : Folder) :
    (store_keyval_data strs d).2.bin = d.bin ∧
    (store_keyval_data strs d).1.length = strs.length ∧
    (∀ (m : Nat) (s : Str), strs[m]? = some s → ∃ (c o : Nat) (content rest : Str),
      (store_keyval_data strs d).1[m]? = some ((c : Int), (o : Int)) ∧
      (store_keyval_data strs d).2.txt.read c = some content ∧
      content.drop o = s ++ rest) := by
  obtain ⟨h1, h2, _, _, h5⟩ :=
    store_keyval_data_loop_spec strs 0 0 (d.openTxt 0) [] (Folder.read_openTxt_same _ _) rfl
  exact ⟨h1, h2, h5⟩


/-! ## Lemmas on `store_keyval_index` and `extractPair` -/

theorem store_keyval_index_loop_spec (data : List (Int × Int)) (n : Nat) :
    ∀ (fuel i fi : Nat) (d : Folder), i = fi * INDEX_SIZE → n ≤ i + fuel * INDEX_SIZE →
    (store_keyval_index_loop data n fuel i fi d).txt = d.txt ∧
    (∀ j, j < fi → (store_keyval_index_loop data n fuel i fi d).bin.read j = d.bin.read j) ∧
    (∀ j, fi ≤ j → j * INDEX_SIZE < n →
      (store_keyval_index_loop data n fuel i fi d).bin.read j =
        some ((data.drop (j * INDEX_SIZE)).take (min INDEX_SIZE (n - j * INDEX_SIZE)))) := by
  intro fuel
  induction fuel with
  | zero =>
      intro i fi d hi hn
      refine ⟨rfl, fun j _ => rfl, ?_⟩
      intro j hj hjn
      exfalso
      simp only [INDEX_SIZE] at *
      omega
  | succ fuel ih =>
      intro i fi d hi hn
      by_cases hlt : i < n
      · obtain ⟨h1, h2, h3⟩ := ih (i + INDEX_SIZE) (fi + 1)
          (d.writeBin fi ((data.drop i).take (min INDEX_SIZE (n - i))))
          (by simp only [INDEX_SIZE] at *; omega) (by simp only [INDEX_SIZE] at *; omega)
        rw [store_keyval_index_loop, if_pos hlt]
        refine ⟨h1, ?_, ?_⟩
        · intro j hj
          rw [h2 j (by omega)]
          exact Files.read_write_other _ _ _ _ (by omega)
        · intro j hj hjn
          by_cases hjf : j = fi
          · subst hjf
            rw [h2 j (by omega), ← hi]
            exact Files.read_write_same _ _ _
          · exact h3 j (by omega) hjn
      · rw [store_keyval_index_loop, if_neg hlt]
        refine ⟨rfl, fun j _ => rfl, ?_⟩
        intro j hj hjn
        exfalso
        simp only [INDEX_SIZE] at *
        omega

theorem store_keyval_index_spec (data : List (Int × Int)) (d : Folder) :
    (store_keyval_index data data.length d).txt = d.txt ∧
    ∀ (m : Nat) (p : Int × Int), data[m]? = some p →
      ∃ entries, (store_keyval_index data data.length d).bin.read (m / INDEX_SIZE) = some entries ∧
        entries[m % INDEX_SIZE]? = some p := by
  obtain ⟨h1, _, h3⟩ := store_keyval_index_loop_spec data data.length data.length 0 0 d
    (by simp) (by simp only [INDEX_SIZE]; omega)
  refine ⟨h1, ?_⟩
  intro m p hp
  have hm : m < data.length := by
    by_contra hc
    rw [List.getElem?_eq_none (by omega)] at hp
    exact Option.noConfusion hp
  have hdm : m / INDEX_SIZE * INDEX_SIZE + m % INDEX_SIZE = m := Nat.div_add_mod' m INDEX_SIZE
  have hmod : m % INDEX_SIZE < INDEX_SIZE := Nat.mod_lt _ (by decide)
  refine ⟨_, h3 (m / INDEX_SIZE) (Nat.zero_le _) (by omega), ?_⟩
  rw [List.getElem?_take_of_lt (by omega), List.getElem?_drop, hdm, hp]

theorem extractPair_of_entry (fs : FS) (folder_name : Str) (d : Folder) (mid : Nat)
    (entries : List (Int × Int)) (p : Int × Int) (hd : fs.get folder_name = some d)
    (he : d.bin.read (mid / INDEX_SIZE) = some entries)
    (hp : entries[mid % INDEX_SIZE]? = some p) :
    extractPair fs folder_name ((mid : Int) / (INDEX_SIZE : Int)) ((mid : Int) % (INDEX_SIZE : Int))
      = p := by
  have h1 : ¬ ((mid : Int) / (INDEX_SIZE : Int) < 0) := by
    simp only [INDEX_SIZE, Nat.cast_ofNat]; omega
  have h2 : ¬ ((mid : Int) % (INDEX_SIZE : Int) < 0) := by
    simp only [INDEX_SIZE, Nat.cast_ofNat]; omega
  have h3 : ((mid : Int) / (INDEX_SIZE : Int)).toNat = mid / INDEX_SIZE := by
    simp only [INDEX_SIZE, Nat.cast_ofNat]; omega
  have h4 : ((mid : Int) % (INDEX_SIZE : Int)).toNat = mid % INDEX_SIZE := by
    simp only [INDEX_SIZE, Nat.cast_ofNat]; omega
  unfold extractPair
  rw [if_neg h1, h3]
  unfold FS.readBin
  rw [hd]
  simp only [he, if_neg h2, h4, List.get?_eq_getElem?, hp]


/-! ## Lemmas on reading a record back -/

theorem extract_loop_cons_ne (a : Nat) (r : Str) (c : Nat) (ha : a ≠ DELIMITER) :
    extract_loop (a :: r) c = (a :: (extract_loop r c).1, (extract_loop r c).2) := by
  rw [extract_loop, if_neg ha]

theorem extract_loop_delim_zero (r : Str) :
    extract_loop (DELIMITER :: r) 0 = (DELIMITER :: (extract_loop r 1).1, (extract_loop r 1).2) := by
  rw [extract_loop, if_pos rfl, if_neg (by decide)]

theorem extract_loop_delim_one (r : Str) :
    extract_loop (DELIMITER :: r) 1 = ([DELIMITER], 2) := by
  rw [extract_loop, if_pos rfl, if_pos (by decide)]

theorem extract_loop_append (s t : Str) (c : Nat) (hs : DelimFree s) :
    extract_loop (s ++ t) c = (s ++ (extract_loop t c).1, (extract_loop t c).2) := by
  induction s with
  | nil => rfl
  | cons a s ih =>
      have ha : a ≠ DELIMITER := fun e => hs (by rw [e]; exact List.mem_cons_self _ _)
      have hs2 : DelimFree s := fun h => hs (List.mem_cons_of_mem _ h)
      rw [List.cons_append, extract_loop_cons_ne _ _ _ ha, ih hs2]
      rfl

theorem extract_loop_record (k v rest : Str) (hk : DelimFree k) (hv : DelimFree v) :
    extract_loop (encodeKeyValuePair k v ++ rest) 0 = (encodeKeyValuePair k v, 2) := by
  have e : encodeKeyValuePair k v ++ rest = k ++ (DELIMITER :: (v ++ (DELIMITER :: rest))) := by
    simp [encodeKeyValuePair]
  have e2 : encodeKeyValuePair k v = k ++ (DELIMITER :: (v ++ [DELIMITER])) := by
    simp [encodeKeyValuePair]
  rw [e, e2, extract_loop_append _ _ _ hk, extract_loop_delim_zero,
    extract_loop_append _ _ _ hv, extract_loop_delim_one]

theorem findIdx_delim (k t : Str) (hk : DelimFree k) :
    (k ++ DELIMITER :: t).findIdx (fun ch => ch = DELIMITER) = k.length := by
  induction k with
  | nil => simp [List.findIdx_cons]
  | cons a k ih =>
      have ha : a ≠ DELIMITER := fun e => hk (by rw [e]; exact List.mem_cons_self _ _)
      have hk2 : DelimFree k := fun h => hk (List.mem_cons_of_mem _ h)
      simp only [List.cons_append, List.findIdx_cons, List.length_cons]
      simp [ha, ih hk2]

theorem decode_encode (k v : Str) (hk : DelimFree k) :
    decodeKeyValuePair (encodeKeyValuePair k v) = (k, v) := by
  unfold decodeKeyValuePair encodeKeyValuePair
  have e : k ++ [DELIMITER] ++ v ++ [DELIMITER] = k ++ DELIMITER :: (v ++ [DELIMITER]) := by simp
  rw [e, findIdx_delim k _ hk]
  have hlt : k.length < (k ++ DELIMITER :: (v ++ [DELIMITER])).length := by simp
  simp only [if_pos hlt]
  have e2 : k ++ DELIMITER :: (v ++ [DELIMITER]) = (k ++ [DELIMITER]) ++ (v ++ [DELIMITER]) := by
    simp
  have h1 : List.take k.length (k ++ DELIMITER :: (v ++ [DELIMITER])) = k := by
    simp
  have h2 : List.drop (k.length + 1) (k ++ DELIMITER :: (v ++ [DELIMITER])) = v ++ [DELIMITER] := by
    rw [e2]
    have : k.length + 1 = (k ++ [DELIMITER]).length := by simp
    rw [this, List.drop_left]
  rw [h1, h2]
  simp

theorem extractKeyValuePair_record (fs : FS) (folder_name : Str) (d : Folder) (c o : Nat)
    (content rest k v : Str) (hd : fs.get folder_name = some d)
    (hc : d.txt.read c = some content) (ho : content.drop o = encodeKeyValuePair k v ++ rest)
    (hk : DelimFree k) (hv : DelimFree v) :
    extractKeyValuePair fs folder_name (c : Int) (o : Int) = Except.ok (encodeKeyValuePair k v) := by
  unfold extractKeyValuePair FS.readTxt
  have h1 : ¬ ((c : Int) < 0) := by omega
  have h2 : ¬ ((o : Int) < 0) := by omega
  simp only [if_neg h1, Int.toNat_ofNat, hd, hc, if_neg h2, ho, extract_loop_record k v rest hk hv]
  simp


/-! ## The reading loop of `extractKeyValuePair` -/

theorem ProbabilisticSet.foldl_set_bits (hs : List Nat) (s : ProbabilisticSet) :
    (hs.foldl (fun acc hash =>
        ({ acc with bitVector := fun i => if i = hash then true else acc.bitVector i } :
          ProbabilisticSet)) s).numHashFunctions = s.numHashFunctions ∧
    ∀ i, (hs.foldl (fun acc hash =>
        ({ acc with bitVector := fun i => if i = hash then true else acc.bitVector i } :
          ProbabilisticSet)) s).bitVector i = (s.bitVector i || decide (i ∈ hs)) := by
  induction hs generalizing s with
  | nil => simp
  | cons h hs ih =>
      simp only [List.foldl_cons]
      obtain ⟨h1, h2⟩ := ih { s with bitVector := fun i => if i = h then true else s.bitVector i }
      refine ⟨h1, ?_⟩
      intro i
      rw [h2 i]
      by_cases hi : i = h
      · simp [hi]
      · simp [hi]

theorem ProbabilisticSet.insert_numHashFunctions (H : Str → Nat) (s : ProbabilisticSet)
    (key : Str) : (s.insert H key).numHashFunctions = s.numHashFunctions :=
  (ProbabilisticSet.foldl_set_bits _ s).1

theorem ProbabilisticSet.insert_bitVector (H : Str → Nat) (s : ProbabilisticSet)
    (key : Str) (i : Nat) :
    (s.insert H key).bitVector i = (s.bitVector i || decide (i ∈ s.calculateHashes H key)) :=
  (ProbabilisticSet.foldl_set_bits _ s).2 i

theorem ProbabilisticSet.calculateHashes_congr (H : Str → Nat) (s t : ProbabilisticSet)
    (key : Str) (h : s.numHashFunctions = t.numHashFunctions) :
    s.calculateHashes H key = t.calculateHashes H key := by
  unfold ProbabilisticSet.calculateHashes
  rw [h]

/-- Bits set in the filter stay set, and the number of hash functions stays the same, when
more keys are inserted. -/
theorem ProbabilisticSet.foldl_insert_mono (H : Str → Nat) (data : List (Str × Str))
    (s : ProbabilisticSet) :
    (data.foldl (fun b p => b.insert H p.1) s).numHashFunctions = s.numHashFunctions ∧
    ∀ i, s.bitVector i = true → (data.foldl (fun b p => b.insert H p.1) s).bitVector i = true := by
  induction data generalizing s with
  | nil => exact ⟨rfl, fun i h => h⟩
  | cons p data ih =>
      simp only [List.foldl_cons]
      obtain ⟨h1, h2⟩ := ih (s.insert H p.1)
      refine ⟨h1.trans (ProbabilisticSet.insert_numHashFunctions H s p.1), ?_⟩
      intro i hi
      apply h2
      rw [ProbabilisticSet.insert_bitVector, hi]
      rfl

/-- No false negatives: a key inserted while the filter was built is reported present. -/
theorem ProbabilisticSet.exists_of_mem (H : Str → Nat) (data : List (Str × Str))
    (s : ProbabilisticSet) (p : Str × Str) (hp : p ∈ data) :
    (data.foldl (fun b p => b.insert H p.1) s).exists H p.1 = true := by
  induction data generalizing s with
  | nil => simp at hp
  | cons q data ih =>
      simp only [List.foldl_cons]
      rcases List.mem_cons.mp hp with h | h
      · subst h
        obtain ⟨h1, h2⟩ := ProbabilisticSet.foldl_insert_mono H data (s.insert H p.1)
        unfold ProbabilisticSet.exists
        rw [List.all_eq_true]
        intro x hx
        apply h2
        rw [ProbabilisticSet.insert_bitVector]
        have e : (List.foldl (fun b p => b.insert H p.1) (s.insert H p.1) data).calculateHashes H p.1
            = s.calculateHashes H p.1 :=
          ProbabilisticSet.calculateHashes_congr H _ _ _
            (h1.trans (ProbabilisticSet.insert_numHashFunctions H s p.1))
        rw [e] at hx
        simp [hx]
      · exact ih (s.insert H q.1) h

/-- Bits set in the filter stay set, and the number of hash functions stays the same, when
keys are inserted. -/
theorem ProbabilisticSet.foldl_insert_keys_mono (H : Str → Nat) (keys : List Str)
    (s : ProbabilisticSet) :
    (keys.foldl (fun b key => b.insert H key) s).numHashFunctions = s.numHashFunctions ∧
    ∀ i, s.bitVector i = true →
      (keys.foldl (fun b key => b.insert H key) s).bitVector i = true := by
  induction keys generalizing s with
  | nil => exact ⟨rfl, fun i h => h⟩
  | cons k keys ih =>
      simp only [List.foldl_cons]
      obtain ⟨h1, h2⟩ := ih (s.insert H k)
      refine ⟨h1.trans (ProbabilisticSet.insert_numHashFunctions H s k), ?_⟩
      intro i hi
      apply h2
      rw [ProbabilisticSet.insert_bitVector, hi]
      rfl

/-! ## The probabilistic set within and past the multiplier table -/

theorem ProbabilisticSet.calculateHashes_loop_checked_ok (H : Str → Nat) (key : Str) :
    ∀ l : List Nat, (∀ i ∈ l, i < multipliers.length) →
      ProbabilisticSet.calculateHashes_loop_checked H key l =
        Except.ok (l.map fun i =>
          ((H (key ++ to_string i) * multipliers.getD i 0 + i) % 2 ^ 64) % ARRAY_SIZE) := by
  intro l
  induction l with
  | nil => intro _; rfl
  | cons i l ih =>
      intro h
      have hi : i < multipliers.length := h i (List.mem_cons_self _ _)
      have hm : multipliers[i]? = some (multipliers.getD i 0) := by
        rw [List.getD_eq_getElem?_getD, List.getElem?_eq_getElem hi]
        rfl
      simp only [ProbabilisticSet.calculateHashes_loop_checked, hm,
        ih (fun j hj => h j (List.mem_cons_of_mem _ hj)), List.map_cons]

theorem ProbabilisticSet.calculateHashes_loop_checked_oob (H : Str → Nat) (key : Str) :
    ∀ l : List Nat, (∃ i ∈ l, multipliers.length ≤ i) →
      ProbabilisticSet.calculateHashes_loop_checked H key l
        = Except.error Fault.out_of_bounds := by
  intro l
  induction l with
  | nil => intro h; obtain ⟨i, hi, _⟩ := h; simp at hi
  | cons j l ih =>
      intro h
      obtain ⟨i, hi, hle⟩ := h
      simp only [ProbabilisticSet.calculateHashes_loop_checked]
      cases hm : multipliers[j]? with
      | none => rfl
      | some m =>
          simp only
          have hjl : j < multipliers.length := (List.getElem?_eq_some_iff.mp hm).1
          rcases List.mem_cons.mp hi with h1 | h1
          · omega
          · rw [ih ⟨i, h1, hle⟩]

/-- With at most as many hash functions as the table has entries, `calculateHashes` reads
the table within its bounds and returns the hashes of the embedding. -/
theorem ProbabilisticSet.calculateHashes_checked_ok (H : Str → Nat) (s : ProbabilisticSet)
    (key : Str) (h : s.numHashFunctions ≤ multipliers.length) :
    s.calculateHashes_checked H key = Except.ok (s.calculateHashes H key) := by
  unfold ProbabilisticSet.calculateHashes_checked ProbabilisticSet.calculateHashes
  apply ProbabilisticSet.calculateHashes_loop_checked_ok
  intro i hi
  have := List.mem_range.mp hi
  omega

/-- With more hash functions than the table has entries, `calculateHashes` reads past the
table. -/
theorem ProbabilisticSet.calculateHashes_checked_oob (H : Str → Nat) (s : ProbabilisticSet)
    (key : Str) (h : multipliers.length < s.numHashFunctions) :
    s.calculateHashes_checked H key = Except.error Fault.out_of_bounds := by
  unfold ProbabilisticSet.calculateHashes_checked
  apply ProbabilisticSet.calculateHashes_loop_checked_oob
  exact ⟨multipliers.length, List.mem_range.mpr h, le_refl _⟩

theorem ProbabilisticSet.insert_checked_ok (H : Str → Nat) (s : ProbabilisticSet)
    (key : Str) (h : s.numHashFunctions ≤ multipliers.length) :
    s.insert_checked H key = Except.ok (s.insert H key) := by
  unfold ProbabilisticSet.insert_checked
  rw [ProbabilisticSet.calculateHashes_checked_ok H s key h]
  rfl

theorem ProbabilisticSet.exists_checked_ok (H : Str → Nat) (s : ProbabilisticSet)
    (key : Str) (h : s.numHashFunctions ≤ multipliers.length) :
    s.exists_checked H key = Except.ok (s.exists H key) := by
  unfold ProbabilisticSet.exists_checked
  rw [ProbabilisticSet.calculateHashes_checked_ok H s key h]
  rfl

theorem ProbabilisticSet.insert_checked_oob (H : Str → Nat) (s : ProbabilisticSet)
    (key : Str) (h : multipliers.length < s.numHashFunctions) :
    s.insert_checked H key = Except.error Fault.out_of_bounds := by
  unfold ProbabilisticSet.insert_checked
  rw [ProbabilisticSet.calculateHashes_checked_oob H s key h]

theorem ProbabilisticSet.exists_checked_oob (H : Str → Nat) (s : ProbabilisticSet)
    (key : Str) (h : multipliers.length < s.numHashFunctions) :
    s.exists_checked H key = Except.error Fault.out_of_bounds := by
  unfold ProbabilisticSet.exists_checked
  rw [ProbabilisticSet.calculateHashes_checked_oob H s key h]

theorem ProbabilisticSet.insert_all_checked_ok (H : Str → Nat) :
    ∀ (keys : List Str) (s : ProbabilisticSet), s.numHashFunctions ≤ multipliers.length →
      ProbabilisticSet.insert_all_checked H s keys
        = Except.ok (keys.foldl (fun b key => b.insert H key) s) := by
  intro keys
  induction keys with
  | nil => intro s _; rfl
  | cons key keys ih =>
      intro s h
      simp only [ProbabilisticSet.insert_all_checked, ProbabilisticSet.insert_checked_ok H s key h,
        List.foldl_cons]
      exact ih _ (by rw [ProbabilisticSet.insert_numHashFunctions]; exact h)


/-! ## The binary search of `SSTable::find` -/

theorem Ascending.lt_of_index {S : List (Str × Str)} (h : Ascending S) {i j : Nat}
    {p q : Str × Str} (hp : S[i]? = some p) (hq : S[j]? = some q) (hij : i < j) : p.1 < q.1 := by
  obtain ⟨hi, rfl⟩ := List.getElem?_eq_some_iff.mp hp
  obtain ⟨hj, rfl⟩ := List.getElem?_eq_some_iff.mp hq
  exact List.pairwise_iff_getElem.mp h i j hi hj hij

theorem Ascending.value_unique {S : List (Str × Str)} (h : Ascending S) {k v w : Str}
    (hv : (k, v) ∈ S) (hw : (k, w) ∈ S) : v = w := by
  have a := (lookup_eq_some_iff k v h).mpr hv
  have b := (lookup_eq_some_iff k w h).mpr hw
  rw [a] at b
  exact Option.some.inj b

theorem find_loop_spec (fs : FS) (folder_name : Str) (S : List (Str × Str)) (key : Str)
    (hasc : Ascending S) (hkeys : ∀ p ∈ S, DelimFree p.1) (hs : Serves fs folder_name S) :
    ∀ (fuel : Nat) (lo hi : Int), 0 ≤ lo → hi < S.length → hi + 1 - lo ≤ fuel →
      (∀ (m : Nat) (p : Str × Str), S[m]? = some p → (m : Int) < lo → p.1 < key) →
      (∀ (m : Nat) (p : Str × Str), S[m]? = some p → hi < (m : Int) → key < p.1) →
      (∀ v, (key, v) ∈ S →
        SSTable.find_loop fs folder_name key fuel lo hi = Except.ok (true, v)) ∧
      (key ∉ S.map Prod.fst →
        SSTable.find_loop fs folder_name key fuel lo hi = Except.ok (false, TOMBSTONE)) := by
  have hout : ∀ (lo hi : Int), ¬ lo ≤ hi →
      (∀ (m : Nat) (p : Str × Str), S[m]? = some p → (m : Int) < lo → p.1 < key) →
      (∀ (m : Nat) (p : Str × Str), S[m]? = some p → hi < (m : Int) → key < p.1) →
      ∀ v, (key, v) ∈ S → False := by
    intro lo hi hlh h1 h2 v hv
    obtain ⟨j, hj⟩ := List.getElem?_of_mem hv
    by_cases hjl : (j : Int) < lo
    · exact lt_irrefl _ (h1 j _ hj hjl)
    · exact lt_irrefl _ (h2 j _ hj (by omega))
  intro fuel
  induction fuel with
  | zero =>
      intro lo hi hlo hhi hfuel h1 h2
      have hlh : ¬ lo ≤ hi := by omega
      rw [SSTable.find_loop, if_neg hlh]
      exact ⟨fun v hv => (hout lo hi hlh h1 h2 v hv).elim, fun _ => rfl⟩
  | succ fuel ih =>
      intro lo hi hlo hhi hfuel h1 h2
      by_cases hlh : lo ≤ hi
      · obtain ⟨m, hm⟩ : ∃ m : Nat, (m : Int) = (lo + hi) / 2 := ⟨((lo + hi) / 2).toNat, by omega⟩
        have hmlen : m < S.length := by omega
        obtain ⟨p, hp⟩ : ∃ p, S[m]? = some p := ⟨S[m], List.getElem?_eq_getElem hmlen⟩
        obtain ⟨c, o, hc, ho⟩ := hs m p hp
        have hpk : DelimFree p.1 := hkeys p (List.getElem?_mem hp)
        have hdec : decodeKeyValuePair (encodeKeyValuePair p.1 p.2) = p := by
          rw [decode_encode p.1 p.2 hpk]
        have hne : ¬ ((c : Int) = -1 ∨ (o : Int) = -1) := by omega
        rw [SSTable.find_loop, if_pos hlh]
        simp only [← hm, hc, if_neg hne, ho, hdec]
        by_cases heq : p.1 = key
        · rw [if_pos heq]
          constructor
          · intro v hv
            have hmem : (key, p.2) ∈ S := by
              rw [← heq]; exact List.getElem?_mem hp
            rw [hasc.value_unique hv hmem]
          · intro hn
            exfalso; apply hn
            rw [← heq]
            exact List.mem_map_of_mem _ (List.getElem?_mem hp)
        · rw [if_neg heq]
          by_cases hgt : p.1 > key
          · rw [if_pos hgt]
            apply ih lo ((m : Int) - 1) hlo (by omega) (by omega) h1
            intro j q hq hj
            by_cases hjm : j = m
            · subst hjm; rw [hp] at hq; cases hq; exact hgt
            · exact lt_trans hgt (hasc.lt_of_index hp hq (by omega))
          · rw [if_neg hgt]
            have hlt : p.1 < key := lt_of_le_of_ne (not_lt.mp hgt) heq
            apply ih ((m : Int) + 1) hi (by omega) hhi (by omega) _ h2
            intro j q hq hj
            by_cases hjm : j = m
            · subst hjm; rw [hp] at hq; cases hq; exact hlt
            · exact lt_trans (hasc.lt_of_index hq hp (by omega)) hlt
      · rw [SSTable.find_loop, if_neg hlh]
        exact ⟨fun v hv => (hout lo hi hlh h1 h2 v hv).elim, fun _ => rfl⟩


/-! ## The SSTable constructor and `SSTable::find` -/

theorem Serves.congr_get {fs fs2 : FS} {folder_name : Str} {S : List (Str × Str)}
    (h : Serves fs folder_name S) (hget : fs2.get folder_name = fs.get folder_name) :
    Serves fs2 folder_name S := by
  intro m p hp
  obtain ⟨c, o, h1, h2⟩ := h m p hp
  refine ⟨c, o, ?_, ?_⟩
  · rw [← h1]; unfold extractPair FS.readBin; rw [hget]
  · rw [← h2]; unfold extractKeyValuePair FS.readTxt; rw [hget]

theorem Holds.congr_folder {H : Str → Nat} {fs fs2 : FS} {t : SSTable} {S : List (Str × Str)}
    (h : Holds H fs t S) (hget : fs2.get t.folder_name = fs.get t.folder_name) :
    Holds H fs2 t S :=
  ⟨h.1, h.2.1, h.2.2.congr_get hget⟩

/-- The directory that the constructor leaves serves the records it was given. -/
theorem serves_of_stored (fs : FS) (folder_name : Str) (S : List (Str × Str)) (d : Folder)
    (hS : RecordsDelimFree S)
    (hget : fs.get folder_name = some
      (store_keyval_index (store_keyval_data (S.map fun p => encodeKeyValuePair p.1 p.2) d).1
        S.length (store_keyval_data (S.map fun p => encodeKeyValuePair p.1 p.2) d).2)) :
    Serves fs folder_name S := by
  intro m p hp
  obtain ⟨_, hlen, hpos⟩ := store_keyval_data_spec (S.map fun p => encodeKeyValuePair p.1 p.2) d
  have hm : (S.map fun p => encodeKeyValuePair p.1 p.2)[m]? = some (encodeKeyValuePair p.1 p.2) := by
    rw [List.getElem?_map, hp]; rfl
  obtain ⟨c, o, content, rest, h1, h2, h3⟩ := hpos m _ hm
  have hlen2 : (store_keyval_data (S.map fun p => encodeKeyValuePair p.1 p.2) d).1.length
      = S.length := by rw [hlen, List.length_map]
  rw [← hlen2] at hget
  obtain ⟨htxt, hidx⟩ := store_keyval_index_spec
    (store_keyval_data (S.map fun p => encodeKeyValuePair p.1 p.2) d).1
    (store_keyval_data (S.map fun p => encodeKeyValuePair p.1 p.2) d).2
  obtain ⟨entries, he1, he2⟩ := hidx m _ h1
  have hmem := hS p (List.getElem?_mem hp)
  refine ⟨c, o, extractPair_of_entry fs folder_name _ m entries _ hget he1 he2, ?_⟩
  exact extractKeyValuePair_record fs folder_name _ c o content rest p.1 p.2 hget
    (by rw [htxt]; exact h2) h3 hmem.1 hmem.2

theorem SSTable.new_folder_name (H : Str → Nat) (n : Nat) (S : List (Str × Str)) (fname : Str)
    (fs : FS) :
    (SSTable.new H n S fname fs).1.folder_name =
      if fname = TOMBSTONE then [83, 83, 84, 97, 98, 108, 101, 95] ++ to_string n else fname := rfl

theorem SSTable.new_num_keys (H : Str → Nat) (n : Nat) (S : List (Str × Str)) (fname : Str)
    (fs : FS) : (SSTable.new H n S fname fs).1.num_keys = S.length := rfl

theorem SSTable.new_get_other (H : Str → Nat) (n : Nat) (S : List (Str × Str)) (fname : Str)
    (fs : FS) (g : Str) (hg : g ≠ (SSTable.new H n S fname fs).1.folder_name) :
    (SSTable.new H n S fname fs).2.get g = fs.get g := by
  rw [SSTable.new_folder_name] at hg
  simp only [SSTable.new]
  rw [FS.get_set_other _ _ _ _ hg, get_createFolder_other _ _ _ hg]

theorem SSTable.new_get_same (H : Str → Nat) (n : Nat) (S : List (Str × Str)) (fname : Str)
    (fs : FS) :
    (SSTable.new H n S fname fs).2.get (SSTable.new H n S fname fs).1.folder_name =
      some (store_keyval_index
        (store_keyval_data (S.map fun p => encodeKeyValuePair p.1 p.2)
          ((fs.get (SSTable.new H n S fname fs).1.folder_name).getD { txt := [], bin := [] })).1
        S.length
        (store_keyval_data (S.map fun p => encodeKeyValuePair p.1 p.2)
          ((fs.get (SSTable.new H n S fname fs).1.folder_name).getD { txt := [], bin := [] })).2) := by
  rw [SSTable.new_folder_name]
  simp only [SSTable.new]
  rw [FS.get_set_same, get_createFolder_same]
  rfl

theorem SSTable.new_holds (H : Str → Nat) (n : Nat) (S : List (Str × Str)) (fname : Str)
    (fs : FS) (hS : RecordsDelimFree S) :
    Holds H (SSTable.new H n S fname fs).2 (SSTable.new H n S fname fs).1 S := by
  refine ⟨rfl, ?_, ?_⟩
  · intro p hp
    exact ProbabilisticSet.exists_of_mem H S _ p hp
  · exact serves_of_stored _ _ S _ hS (SSTable.new_get_same H n S fname fs)

theorem SSTable.find_of_holds (H : Str → Nat) (fs : FS) (t : SSTable) (S : List (Str × Str))
    (key : Str) (hasc : Ascending S) (hkeys : ∀ p ∈ S, DelimFree p.1) (h : Holds H fs t S) :
    (∀ v, (key, v) ∈ S → t.find H fs key = Except.ok (true, v)) ∧
    (key ∉ S.map Prod.fst → t.find H fs key = Except.ok (false, TOMBSTONE)) := by
  obtain ⟨hn, hb, hs⟩ := h
  have hloop := find_loop_spec fs t.folder_name S key hasc hkeys hs t.num_keys 0
    ((t.num_keys : Int) - 1) (le_refl _) (by omega) (by omega)
    (fun m p _ hm => by omega)
    (fun m p hp hm => by
      have := (List.getElem?_eq_some_iff.mp hp).1
      omega)
  constructor
  · intro v hv
    have hex : t.bfilter.exists H key = true := hb (key, v) hv
    have hpos : t.num_keys > 0 := by
      rw [hn]; exact List.length_pos_of_mem hv
    unfold SSTable.find
    rw [if_pos ⟨hex, hpos⟩]
    exact hloop.1 v hv
  · intro hk
    unfold SSTable.find
    split
    · exact hloop.2 hk
    · rfl

theorem SSTable.find_eq_lookup_records (H : Str → Nat) (fs : FS) (t : SSTable) (S : List (Str × Str))
    (key : Str) (hasc : Ascending S) (hkeys : ∀ p ∈ S, DelimFree p.1) (h : Holds H fs t S) :
    t.find H fs key =
      match S.lookup key with
      | some v => Except.ok (true, v)
      | none => Except.ok (false, TOMBSTONE) := by
  obtain ⟨h1, h2⟩ := SSTable.find_of_holds H fs t S key hasc hkeys h
  cases hl : S.lookup key with
  | some v => exact h1 v ((lookup_eq_some_iff key v hasc).mp hl)
  | none => exact h2 ((lookup_eq_none_iff key S).mp hl)


/-! ## The offsets that `store_keyval_data` returns -/

/-- The offset pair of the first string that the loop of `store_keyval_data` handles: a new
file at offset 0 when `currentFileSize + str.size() + 1` exceeds `MAX_FILE_SIZE`, else the
open file at its current size. -/
theorem store_keyval_data_loop_head (str : Str) (rest : List Str) (fileIndex cfs : Nat)
    (d : Folder) :
    (store_keyval_data_loop (str :: rest) fileIndex cfs d).1[0]? = some
      (if cfs + str.length + 1 > MAX_FILE_SIZE then (((fileIndex + 1 : Nat) : Int), (0 : Int))
       else ((fileIndex : Int), (cfs : Int))) := by
  by_cases h : cfs + str.length + 1 > MAX_FILE_SIZE
  · simp only [store_keyval_data_loop, if_pos h, List.getElem?_cons_zero]
  · simp only [store_keyval_data_loop, if_neg h, List.getElem?_cons_zero]

/-- The offset pair of a string relative to that of the string before it: a new file at
offset 0 when the bytes of the file so far, the string and one more byte exceed
`MAX_FILE_SIZE`, else the same file right after the string before. -/
theorem store_keyval_data_loop_next : ∀ (strs : List Str) (fileIndex cfs : Nat) (d : Folder)
    (m : Nat) (s s2 : Str) (c o : Nat), strs[m]? = some s → strs[m + 1]? = some s2 →
    (store_keyval_data_loop strs fileIndex cfs d).1[m]? = some ((c : Int), (o : Int)) →
    (store_keyval_data_loop strs fileIndex cfs d).1[m + 1]? = some
      (if o + s.length + s2.length + 1 > MAX_FILE_SIZE then (((c + 1 : Nat) : Int), (0 : Int))
       else ((c : Int), ((o + s.length : Nat) : Int))) := by
  intro strs
  induction strs with
  | nil => intro fileIndex cfs d m s s2 c o h; simp at h
  | cons str rest ih =>
      intro fileIndex cfs d m s s2 c o hs hs2 ho
      cases m with
      | zero =>
          simp only [List.getElem?_cons_zero, Option.some.injEq] at hs
          subst hs
          simp only [zero_add, List.getElem?_cons_succ] at hs2
          obtain ⟨rest2, rfl⟩ : ∃ rest2, rest = s2 :: rest2 := by
            cases rest with
            | nil => simp at hs2
            | cons a rest2 =>
                simp only [List.getElem?_cons_zero, Option.some.injEq] at hs2
                exact ⟨rest2, by rw [hs2]⟩
          by_cases h : cfs + str.length + 1 > MAX_FILE_SIZE
          · simp only [store_keyval_data_loop, if_pos h, List.getElem?_cons_zero,
              Option.some.injEq, Prod.mk.injEq] at ho
            have hc : c = fileIndex + 1 := by omega
            have ho2 : o = 0 := by omega
            subst hc ho2
            rw [store_keyval_data_loop, if_pos h]
            simp only [zero_add, List.getElem?_cons_succ]
            exact store_keyval_data_loop_head s2 rest2 _ _ _
          · simp only [store_keyval_data_loop, if_neg h, List.getElem?_cons_zero,
              Option.some.injEq, Prod.mk.injEq] at ho
            have hc : c = fileIndex := by omega
            have ho2 : o = cfs := by omega
            subst hc ho2
            rw [store_keyval_data_loop, if_neg h]
            simp only [zero_add, List.getElem?_cons_succ]
            exact store_keyval_data_loop_head s2 rest2 _ _ _
      | succ m =>
          simp only [List.getElem?_cons_succ] at hs hs2
          by_cases h : cfs + str.length + 1 > MAX_FILE_SIZE
          · rw [store_keyval_data_loop, if_pos h] at ho ⊢
            simp only [List.getElem?_cons_succ] at ho ⊢
            exact ih _ _ _ m s s2 c o hs hs2 ho
          · rw [store_keyval_data_loop, if_neg h] at ho ⊢
            simp only [List.getElem?_cons_succ] at ho ⊢
            exact ih _ _ _ m s s2 c o hs hs2 ho


/-- The layout that the loop of `store_keyval_data` leaves: every string is in the file of
its offset pair, after exactly as many bytes as the offset says. -/
theorem store_keyval_data_loop_layout : ∀ (strs : List Str) (fileIndex cfs : Nat) (d : Folder)
    (buf : Str), d.txt.read fileIndex = some buf → buf.length = cfs →
    (∃ extra, (store_keyval_data_loop strs fileIndex cfs d).2.txt.read fileIndex
        = some (buf ++ extra)) ∧
    (∀ (m : Nat) (s : Str), strs[m]? = some s → ∃ (c o : Nat) (pre rest : Str),
      (store_keyval_data_loop strs fileIndex cfs d).1[m]? = some ((c : Int), (o : Int)) ∧
      (store_keyval_data_loop strs fileIndex cfs d).2.txt.read c = some (pre ++ s ++ rest) ∧
      pre.length = o) := by
  intro strs
  induction strs with
  | nil =>
      intro fileIndex cfs d buf hb _
      refine ⟨⟨[], by simpa [store_keyval_data_loop] using hb⟩, ?_⟩
      intro m s h; simp at h
  | cons str rest ih =>
      intro fileIndex cfs d buf hb hlen
      by_cases hnew : cfs + str.length + 1 > MAX_FILE_SIZE
      · have hd1 : ((d.openTxt (fileIndex + 1)).appendTxt (fileIndex + 1) str).txt.read
            (fileIndex + 1) = some ([] ++ str) :=
          Folder.read_appendTxt_same _ _ _ _ (Folder.read_openTxt_same _ _)
        obtain ⟨⟨extra, h3⟩, h5⟩ :=
          ih (fileIndex + 1) (0 + str.length)
            ((d.openTxt (fileIndex + 1)).appendTxt (fileIndex + 1) str) ([] ++ str) hd1 (by simp)
        have h4 := (store_keyval_data_loop_spec rest (fileIndex + 1) (0 + str.length)
            ((d.openTxt (fileIndex + 1)).appendTxt (fileIndex + 1) str) ([] ++ str) hd1
            (by simp)).2.2.2.1
        have hold : ((d.openTxt (fileIndex + 1)).appendTxt (fileIndex + 1) str).txt.read
            fileIndex = d.txt.read fileIndex := by
          rw [Folder.read_appendTxt_other _ _ _ _ (by omega),
            Folder.read_openTxt_other _ _ _ (by omega)]
        simp only [store_keyval_data_loop, if_pos hnew]
        refine ⟨⟨[], ?_⟩, ?_⟩
        · rw [h4 fileIndex (by omega), hold, hb]; simp
        · intro m s hm
          cases m with
          | zero =>
              simp only [List.getElem?_cons_zero, Option.some.injEq] at hm
              subst hm
              exact ⟨fileIndex + 1, 0, [], extra, by simp, h3, rfl⟩
          | succ m =>
              simp only [List.getElem?_cons_succ] at hm ⊢
              exact h5 m s hm
      · have hd1 : (d.appendTxt fileIndex str).txt.read fileIndex = some (buf ++ str) :=
          Folder.read_appendTxt_same _ _ _ _ hb
        obtain ⟨⟨extra, h3⟩, h5⟩ :=
          ih fileIndex (cfs + str.length) (d.appendTxt fileIndex str) (buf ++ str) hd1
            (by simp [hlen])
        simp only [store_keyval_data_loop, if_neg hnew]
        refine ⟨⟨str ++ extra, ?_⟩, ?_⟩
        · rw [h3]; simp
        · intro m s hm
          cases m with
          | zero =>
              simp only [List.getElem?_cons_zero, Option.some.injEq] at hm
              subst hm
              exact ⟨fileIndex, cfs, buf, extra, by simp, h3, hlen⟩
          | succ m =>
              simp only [List.getElem?_cons_succ] at hm ⊢
              exact h5 m s hm


/-! ## Construction with chunk files that cannot be opened -/

theorem Folder.read_openTxt (d : Folder) (i j : Nat) :
    (d.openTxt i).txt.read j = if j = i then some [] else d.txt.read j := by
  by_cases h : j = i
  · rw [if_pos h, h]; exact Folder.read_openTxt_same d i
  · rw [if_neg h]; exact Folder.read_openTxt_other d i j h

theorem Folder.read_appendTxt (d : Folder) (i j : Nat) (s : Str) :
    (d.appendTxt i s).txt.read j =
      if j = i then (d.txt.read i).map (fun c => c ++ s) else d.txt.read j := by
  by_cases h : j = i
  · rw [if_pos h, h]
    cases hr : d.txt.read i with
    | none =>
        unfold Folder.appendTxt
        rw [hr]
        exact hr
    | some buf => exact Folder.read_appendTxt_same d i s buf hr
  · rw [if_neg h]; exact Folder.read_appendTxt_other d i j s h

/-- The loop of `store_keyval_data` with files that cannot be opened, against the loop
without failures: the offsets are the same, the index files are left alone, a file that
cannot be opened stays as it was in the directory `d0` at the start, and every other file
is as without failures. -/
theorem store_keyval_data_loop_io_spec (fails : Nat → Bool) (d0 : Folder) :
    ∀ (strs : List Str) (fileIndex cfs : Nat) (good : Bool) (dio dn : Folder),
    good = !fails fileIndex →
    (∀ j, dio.txt.read j = if fails j then d0.txt.read j else dn.txt.read j) →
    (store_keyval_data_loop_io fails strs fileIndex cfs good dio).1
      = (store_keyval_data_loop strs fileIndex cfs dn).1 ∧
    (store_keyval_data_loop_io fails strs fileIndex cfs good dio).2.bin = dio.bin ∧
    ∀ j, (store_keyval_data_loop_io fails strs fileIndex cfs good dio).2.txt.read j =
      if fails j then d0.txt.read j
      else (store_keyval_data_loop strs fileIndex cfs dn).2.txt.read j := by
  intro strs
  induction strs with
  | nil =>
      intro fileIndex cfs good dio dn _ hrel
      exact ⟨rfl, rfl, hrel⟩
  | cons str rest ih =>
      intro fileIndex cfs good dio dn hgood hrel
      by_cases hnew : cfs + str.length + 1 > MAX_FILE_SIZE
      · simp only [store_keyval_data_loop_io, store_keyval_data_loop, if_pos hnew]
        by_cases hf : fails (fileIndex + 1) = true
        · simp only [hf, Bool.not_true, Bool.false_eq_true, if_false]
          obtain ⟨h1, h2, h3⟩ := ih (fileIndex + 1) (0 + str.length) false dio
            ((dn.openTxt (fileIndex + 1)).appendTxt (fileIndex + 1) str) (by rw [hf]; rfl)
            (by
              intro j
              rw [hrel j]
              by_cases hj : fails j = true
              · rw [if_pos hj, if_pos hj]
              · rw [if_neg hj, if_neg hj]
                have hne : j ≠ fileIndex + 1 := fun e => hj (e ▸ hf)
                rw [Folder.read_appendTxt, if_neg hne, Folder.read_openTxt, if_neg hne])
          exact ⟨by rw [h1], h2, h3⟩
        · have hf2 : fails (fileIndex + 1) = false := by simpa using hf
          simp only [hf2, Bool.not_false, if_true]
          obtain ⟨h1, h2, h3⟩ := ih (fileIndex + 1) (0 + str.length) true
            ((dio.openTxt (fileIndex + 1)).appendTxt (fileIndex + 1) str)
            ((dn.openTxt (fileIndex + 1)).appendTxt (fileIndex + 1) str) (by rw [hf2]; rfl)
            (by
              intro j
              rw [Folder.read_appendTxt, Folder.read_appendTxt, Folder.read_openTxt,
                Folder.read_openTxt, Folder.read_openTxt, Folder.read_openTxt]
              by_cases hj : j = fileIndex + 1
              · subst hj
                simp only [if_true, hf2, Bool.false_eq_true, if_false]
              · simp only [if_neg hj]
                exact hrel j)
          refine ⟨by rw [h1], ?_, h3⟩
          rw [h2, Folder.appendTxt_bin, Folder.openTxt_bin]
      · simp only [store_keyval_data_loop_io, store_keyval_data_loop, if_neg hnew]
        by_cases hg : good = true
        · have hf2 : fails fileIndex = false := by
            rw [hg] at hgood
            cases hx : fails fileIndex with
            | false => rfl
            | true => rw [hx] at hgood; exact absurd hgood (by decide)
          simp only [hg, if_true]
          obtain ⟨h1, h2, h3⟩ := ih fileIndex (cfs + str.length) true
            (dio.appendTxt fileIndex str) (dn.appendTxt fileIndex str) (by rw [hf2]; rfl)
            (by
              intro j
              rw [Folder.read_appendTxt, Folder.read_appendTxt]
              by_cases hj : j = fileIndex
              · subst hj
                have := hrel j
                rw [hf2] at this
                simp only [Bool.false_eq_true, if_false] at this
                simp only [if_true, hf2, Bool.false_eq_true, if_false, this]
              · simp only [if_neg hj]
                exact hrel j)
          refine ⟨by rw [h1], ?_, h3⟩
          rw [h2, Folder.appendTxt_bin]
        · have hg2 : good = false := by simpa using hg
          have hf2 : fails fileIndex = true := by
            rw [hg2] at hgood
            cases hx : fails fileIndex with
            | true => rfl
            | false => rw [hx] at hgood; exact absurd hgood (by decide)
          simp only [hg2, Bool.false_eq_true, if_false]
          obtain ⟨h1, h2, h3⟩ := ih fileIndex (cfs + str.length) false dio
            (dn.appendTxt fileIndex str) (by rw [hf2]; rfl)
            (by
              intro j
              rw [hrel j]
              by_cases hj : fails j = true
              · rw [if_pos hj, if_pos hj]
              · rw [if_neg hj, if_neg hj]
                have hne : j ≠ fileIndex := fun e => hj (e ▸ hf2)
                rw [Folder.read_appendTxt, if_neg hne])
          exact ⟨by rw [h1], h2, h3⟩

/-- `store_keyval_data` with files that cannot be opened, against `store_keyval_data`. -/
theorem store_keyval_data_io_spec (fails : Nat → Bool) (strs : List Str) (d : Folder) :
    (store_keyval_data_io fails strs d).1 = (store_keyval_data strs d).1 ∧
    (store_keyval_data_io fails strs d).2.bin = d.bin ∧
    ∀ j, (store_keyval_data_io fails strs d).2.txt.read j =
      if fails j then d.txt.read j else (store_keyval_data strs d).2.txt.read j := by
  unfold store_keyval_data_io store_keyval_data
  obtain ⟨h1, h2, h3⟩ := store_keyval_data_loop_io_spec fails d strs 0 0 (!fails 0)
    (if (!fails 0) = true then d.openTxt 0 else d) (d.openTxt 0) rfl
    (by
      intro j
      by_cases hf : fails 0 = true
      · simp only [hf, Bool.not_true, Bool.false_eq_true, if_false]
        by_cases hj : fails j = true
        · rw [if_pos hj]
        · rw [if_neg hj]
          have hne : j ≠ 0 := fun e => hj (e ▸ hf)
          rw [Folder.read_openTxt, if_neg hne]
      · have hf2 : fails 0 = false := by simpa using hf
        simp only [hf2, Bool.not_false, if_true]
        by_cases hj : fails j = true
        · rw [if_pos hj]
          have hne : j ≠ 0 := fun e => by rw [e, hf2] at hj; exact absurd hj (by decide)
          rw [Folder.read_openTxt, if_neg hne]
        · rw [if_neg hj])
  refine ⟨h1, ?_, h3⟩
  rw [h2]
  split <;> rfl


theorem Folder.read_writeBin_other (d : Folder) (i j : Nat) (entries : List (Int × Int))
    (h : j ≠ i) : (d.writeBin i entries).bin.read j = d.bin.read j :=
  Files.read_write_other _ _ _ _ h

/-- The loop of `store_keyval_index` with files that cannot be opened, against the loop
without failures: the data files are left alone, an index file before the first one that
cannot be opened is as without failures, and every index file from that one on stays as it
was. -/
theorem store_keyval_index_loop_io_spec (fails : Nat → Bool) (data : List (Int × Int))
    (n : Nat) :
    ∀ (fuel i fi : Nat) (d : Folder), i = fi * INDEX_SIZE → n ≤ i + fuel * INDEX_SIZE →
    (store_keyval_index_loop_io fails data n fuel i fi d).txt = d.txt ∧
    (∀ j, (∀ k, fi ≤ k → k ≤ j → fails k = false) →
      (store_keyval_index_loop_io fails data n fuel i fi d).bin.read j
        = (store_keyval_index_loop data n fuel i fi d).bin.read j) ∧
    (∀ j, (∃ k, fi ≤ k ∧ k ≤ j ∧ fails k = true) →
      (store_keyval_index_loop_io fails data n fuel i fi d).bin.read j = d.bin.read j) := by
  intro fuel
  induction fuel with
  | zero =>
      intro i fi d _ _
      exact ⟨rfl, fun j _ => rfl, fun j _ => rfl⟩
  | succ fuel ih =>
      intro i fi d hi hn
      by_cases hin : i < n
      · by_cases hf : fails fi = true
        · have e : store_keyval_index_loop_io fails data n (fuel + 1) i fi d = d := by
            simp only [store_keyval_index_loop_io, if_pos hin, hf, if_true]
          rw [e]
          refine ⟨rfl, ?_, fun j _ => rfl⟩
          intro j hj
          have hlt : j < fi := by
            by_contra hc
            have := hj fi (le_refl _) (by omega)
            rw [hf] at this
            exact absurd this (by decide)
          exact ((store_keyval_index_loop_spec data n (fuel + 1) i fi d hi hn).2.1 j hlt).symm
        · have hf2 : fails fi = false := by simpa using hf
          simp only [store_keyval_index_loop_io, store_keyval_index_loop, if_pos hin, hf2,
            Bool.false_eq_true, if_false]
          obtain ⟨h1, h2, h3⟩ := ih (i + INDEX_SIZE) (fi + 1)
            (d.writeBin fi ((data.drop i).take (min INDEX_SIZE (n - i))))
            (by rw [hi]; ring) (by simp only [INDEX_SIZE] at *; omega)
          refine ⟨h1, ?_, ?_⟩
          · intro j hj
            exact h2 j (fun k hk1 hk2 => hj k (by omega) hk2)
          · intro j hj
            obtain ⟨k, hk1, hk2, hk3⟩ := hj
            have hne : k ≠ fi := fun e => by rw [e, hf2] at hk3; exact absurd hk3 (by decide)
            rw [h3 j ⟨k, by omega, hk2, hk3⟩]
            exact Folder.read_writeBin_other d fi j _ (by omega)
      · have e : store_keyval_index_loop_io fails data n (fuel + 1) i fi d = d := by
          simp only [store_keyval_index_loop_io, if_neg hin, if_false]
        have e2 : store_keyval_index_loop data n (fuel + 1) i fi d = d := by
          simp only [store_keyval_index_loop, if_neg hin, if_false]
        rw [e, e2]
        exact ⟨rfl, fun j _ => rfl, fun j _ => rfl⟩

theorem store_keyval_index_io_spec (fails : Nat → Bool) (data : List (Int × Int)) (d : Folder) :
    (store_keyval_index_io fails data data.length d).txt = d.txt ∧
    (∀ j, (∀ k, k ≤ j → fails k = false) →
      (store_keyval_index_io fails data data.length d).bin.read j
        = (store_keyval_index data data.length d).bin.read j) ∧
    (∀ j, (∃ k, k ≤ j ∧ fails k = true) →
      (store_keyval_index_io fails data data.length d).bin.read j = d.bin.read j) := by
  obtain ⟨h1, h2, h3⟩ := store_keyval_index_loop_io_spec fails data data.length data.length
    0 0 d (by simp) (by simp only [INDEX_SIZE]; omega)
  refine ⟨h1, ?_, ?_⟩
  · intro j hj
    exact h2 j (fun k _ hk => hj k hk)
  · intro j hj
    obtain ⟨k, hk1, hk2⟩ := hj
    exact h3 j ⟨k, Nat.zero_le _, hk1, hk2⟩

/-! ## Lookups on a damaged directory -/

theorem extractPair_congr (fs fs2 : FS) (folder_name : Str) (file_idx pair_idx : Int)
    (h : fs2.readBin folder_name file_idx.toNat = fs.readBin folder_name file_idx.toNat) :
    extractPair fs2 folder_name file_idx pair_idx = extractPair fs folder_name file_idx pair_idx := by
  unfold extractPair
  rw [h]

theorem extractKeyValuePair_congr (fs fs2 : FS) (folder_name : Str) (file_idx position : Int)
    (h : fs2.readTxt folder_name file_idx.toNat = fs.readTxt folder_name file_idx.toNat) :
    extractKeyValuePair fs2 folder_name file_idx position
      = extractKeyValuePair fs folder_name file_idx position := by
  unfold extractKeyValuePair
  rw [h]

theorem extractPair_of_missing (fs : FS) (folder_name : Str) (file_idx pair_idx : Int)
    (h : fs.readBin folder_name file_idx.toNat = none) :
    extractPair fs folder_name file_idx pair_idx = (-1, -1) := by
  unfold extractPair
  rw [h]
  split <;> rfl

theorem extractKeyValuePair_of_missing (fs : FS) (folder_name : Str) (file_idx position : Int)
    (h : fs.readTxt folder_name file_idx.toNat = none) :
    extractKeyValuePair fs folder_name file_idx position
      = Except.error Fault.cannot_open_file := by
  unfold extractKeyValuePair
  rw [h]
  split <;> rfl

theorem find_loop_exit (fs : FS) (folder_name key : Str) (fuel : Nat) (lo hi : Int)
    (hle : lo ≤ hi)
    (h : (extractPair fs folder_name ((lo + hi) / 2 / (INDEX_SIZE : Int))
        ((lo + hi) / 2 % (INDEX_SIZE : Int))).1 = -1 ∨
      (extractPair fs folder_name ((lo + hi) / 2 / (INDEX_SIZE : Int))
        ((lo + hi) / 2 % (INDEX_SIZE : Int))).2 = -1) :
    SSTable.find_loop fs folder_name key (fuel + 1) lo hi = Except.error Fault.exit_1 := by
  rw [SSTable.find_loop, if_pos hle]
  simp only
  rw [if_pos h]

theorem find_loop_raise (fs : FS) (folder_name key : Str) (fuel : Nat) (lo hi : Int) (f : Fault)
    (c o : Nat) (hle : lo ≤ hi)
    (hp : extractPair fs folder_name ((lo + hi) / 2 / (INDEX_SIZE : Int))
        ((lo + hi) / 2 % (INDEX_SIZE : Int)) = ((c : Int), (o : Int)))
    (herr : extractKeyValuePair fs folder_name (c : Int) (o : Int) = Except.error f) :
    SSTable.find_loop fs folder_name key (fuel + 1) lo hi = Except.error f := by
  rw [SSTable.find_loop, if_pos hle]
  simp only
  rw [hp]
  simp only
  rw [if_neg (by omega), herr]


/-- The binary search of `SSTable::find` on a directory of which some positions are
damaged: a probe of a damaged position `m` (`bad m`) ends the search with the fault `f0`,
a probe of another position reads the record of `S` there. The search ends with `f0` or
gives the answer of the undamaged directory, and it ends with `f0` when the key is at a
damaged position. -/
theorem find_loop_damaged (fs : FS) (folder_name : Str) (S : List (Str × Str)) (key : Str)
    (bad : Nat → Prop) (f0 : Fault)
    (hasc : Ascending S) (hkeys : ∀ p ∈ S, DelimFree p.1)
    (hgood : ∀ (m : Nat) (p : Str × Str), S[m]? = some p → ¬ bad m →
      ∃ c o : Nat,
        extractPair fs folder_name ((m : Int) / (INDEX_SIZE : Int)) ((m : Int) % (INDEX_SIZE : Int))
          = ((c : Int), (o : Int)) ∧
        extractKeyValuePair fs folder_name (c : Int) (o : Int)
          = Except.ok (encodeKeyValuePair p.1 p.2))
    (hbad : ∀ m : Nat, m < S.length → bad m → ∀ (fuel : Nat) (lo hi : Int), lo ≤ hi →
      (lo + hi) / 2 = (m : Int) →
      SSTable.find_loop fs folder_name key (fuel + 1) lo hi = Except.error f0) :
    ∀ (fuel : Nat) (lo hi : Int), 0 ≤ lo → hi < S.length → hi + 1 - lo ≤ fuel →
      (∀ (m : Nat) (p : Str × Str), S[m]? = some p → (m : Int) < lo → p.1 < key) →
      (∀ (m : Nat) (p : Str × Str), S[m]? = some p → hi < (m : Int) → key < p.1) →
      (SSTable.find_loop fs folder_name key fuel lo hi = Except.error f0 ∨
        ((∀ v, (key, v) ∈ S →
          SSTable.find_loop fs folder_name key fuel lo hi = Except.ok (true, v)) ∧
        (key ∉ S.map Prod.fst →
          SSTable.find_loop fs folder_name key fuel lo hi = Except.ok (false, TOMBSTONE)))) ∧
      (∀ (m : Nat) (v : Str), S[m]? = some (key, v) → bad m →
        SSTable.find_loop fs folder_name key fuel lo hi = Except.error f0) := by
  have hout : ∀ (lo hi : Int), ¬ lo ≤ hi →
      (∀ (m : Nat) (p : Str × Str), S[m]? = some p → (m : Int) < lo → p.1 < key) →
      (∀ (m : Nat) (p : Str × Str), S[m]? = some p → hi < (m : Int) → key < p.1) →
      ∀ v, (key, v) ∈ S → False := by
    intro lo hi hlh h1 h2 v hv
    obtain ⟨j, hj⟩ := List.getElem?_of_mem hv
    by_cases hjl : (j : Int) < lo
    · exact lt_irrefl _ (h1 j _ hj hjl)
    · exact lt_irrefl _ (h2 j _ hj (by omega))
  intro fuel
  induction fuel with
  | zero =>
      intro lo hi hlo hhi hfuel h1 h2
      have hlh : ¬ lo ≤ hi := by omega
      rw [SSTable.find_loop, if_neg hlh]
      refine ⟨Or.inr ⟨fun v hv => (hout lo hi hlh h1 h2 v hv).elim, fun _ => rfl⟩, ?_⟩
      intro m v hm _
      exact (hout lo hi hlh h1 h2 v (List.getElem?_mem hm)).elim
  | succ fuel ih =>
      intro lo hi hlo hhi hfuel h1 h2
      by_cases hlh : lo ≤ hi
      · obtain ⟨m, hm⟩ : ∃ m : Nat, (m : Int) = (lo + hi) / 2 := ⟨((lo + hi) / 2).toNat, by omega⟩
        have hmlen : m < S.length := by omega
        by_cases hbm : bad m
        · have herr := hbad m hmlen hbm fuel lo hi hlh hm.symm
          exact ⟨Or.inl herr, fun _ _ _ _ => herr⟩
        · obtain ⟨p, hp⟩ : ∃ p, S[m]? = some p := ⟨S[m], List.getElem?_eq_getElem hmlen⟩
          obtain ⟨c, o, hc, ho⟩ := hgood m p hp hbm
          have hpk : DelimFree p.1 := hkeys p (List.getElem?_mem hp)
          have hdec : decodeKeyValuePair (encodeKeyValuePair p.1 p.2) = p := by
            rw [decode_encode p.1 p.2 hpk]
          have hne : ¬ ((c : Int) = -1 ∨ (o : Int) = -1) := by omega
          rw [SSTable.find_loop, if_pos hlh]
          simp only [← hm, hc, if_neg hne, ho, hdec]
          by_cases heq : p.1 = key
          · rw [if_pos heq]
            refine ⟨Or.inr ⟨?_, ?_⟩, ?_⟩
            · intro v hv
              have hmem : (key, p.2) ∈ S := by
                rw [← heq]; exact List.getElem?_mem hp
              rw [hasc.value_unique hv hmem]
            · intro hn
              exfalso; apply hn
              rw [← heq]
              exact List.mem_map_of_mem _ (List.getElem?_mem hp)
            · intro j v hj hbj
              exfalso
              by_cases hjm : j = m
              · exact hbm (hjm ▸ hbj)
              · rcases Nat.lt_or_gt_of_ne hjm with hlt | hgt
                · have := hasc.lt_of_index hj hp hlt
                  rw [heq] at this
                  exact lt_irrefl _ this
                · have := hasc.lt_of_index hp hj hgt
                  rw [heq] at this
                  exact lt_irrefl _ this
          · rw [if_neg heq]
            by_cases hgt : p.1 > key
            · rw [if_pos hgt]
              apply ih lo ((m : Int) - 1) hlo (by omega) (by omega) h1
              intro j q hq hj
              by_cases hjm : j = m
              · subst hjm; rw [hp] at hq; cases hq; exact hgt
              · exact lt_trans hgt (hasc.lt_of_index hp hq (by omega))
            · rw [if_neg hgt]
              have hlt : p.1 < key := lt_of_le_of_ne (not_lt.mp hgt) heq
              apply ih ((m : Int) + 1) hi (by omega) hhi (by omega) _ h2
              intro j q hq hj
              by_cases hjm : j = m
              · subst hjm; rw [hp] at hq; cases hq; exact hlt
              · exact lt_trans (hasc.lt_of_index hq hp (by omega)) hlt
      · rw [SSTable.find_loop, if_neg hlh]
        refine ⟨Or.inr ⟨fun v hv => (hout lo hi hlh h1 h2 v hv).elim, fun _ => rfl⟩, ?_⟩
        intro m v hm _
        exact (hout lo hi hlh h1 h2 v (List.getElem?_mem hm)).elim


theorem store_keyval_index_loop_bin_congr (data : List (Int × Int)) (n : Nat) :
    ∀ (fuel i fi : Nat) (d d2 : Folder), d.bin = d2.bin →
    (store_keyval_index_loop data n fuel i fi d).bin
      = (store_keyval_index_loop data n fuel i fi d2).bin := by
  intro fuel
  induction fuel with
  | zero => intro i fi d d2 h; exact h
  | succ fuel ih =>
      intro i fi d d2 h
      by_cases hin : i < n
      · simp only [store_keyval_index_loop, if_pos hin]
        apply ih
        simp only [Folder.writeBin, h]
      · simp only [store_keyval_index_loop, if_neg hin]
        exact h

theorem SSTable.new_io_table (fT fB : Nat → Bool) (H : Str → Nat) (n : Nat)
    (S : List (Str × Str)) (fname : Str) (fs : FS) :
    (SSTable.new_io fT fB H n S fname fs).1 = (SSTable.new H n S fname fs).1 := rfl

theorem SSTable.new_io_get_same (fT fB : Nat → Bool) (H : Str → Nat) (n : Nat)
    (S : List (Str × Str)) (fname : Str) (fs : FS) :
    (SSTable.new_io fT fB H n S fname fs).2.get (SSTable.new H n S fname fs).1.folder_name =
      some (store_keyval_index_io fB
        (store_keyval_data_io fT (S.map fun p => encodeKeyValuePair p.1 p.2)
          ((fs.get (SSTable.new H n S fname fs).1.folder_name).getD { txt := [], bin := [] })).1
        S.length
        (store_keyval_data_io fT (S.map fun p => encodeKeyValuePair p.1 p.2)
          ((fs.get (SSTable.new H n S fname fs).1.folder_name).getD { txt := [], bin := [] })).2) := by
  rw [SSTable.new_folder_name]
  simp only [SSTable.new_io]
  rw [FS.get_set_same, get_createFolder_same]
  rfl

/-- The directory that the constructor leaves in a fresh directory when data and index
chunks cannot be opened: a data chunk that cannot be opened does not exist and every other
data chunk is as without failures; an index chunk from the first one that cannot be opened
on does not exist and every index chunk before it is as without failures. -/
theorem SSTable.new_io_reads (fT fB : Nat → Bool) (H : Str → Nat) (n : Nat)
    (S : List (Str × Str)) (fname : Str) (fs : FS)
    (hfresh : fs.get (SSTable.new H n S fname fs).1.folder_name = none) :
    (∀ j, (SSTable.new_io fT fB H n S fname fs).2.readTxt
        (SSTable.new H n S fname fs).1.folder_name j =
      if fT j then none
      else (SSTable.new H n S fname fs).2.readTxt (SSTable.new H n S fname fs).1.folder_name j) ∧
    (∀ j, (∀ k, k ≤ j → fB k = false) →
      (SSTable.new_io fT fB H n S fname fs).2.readBin
        (SSTable.new H n S fname fs).1.folder_name j =
      (SSTable.new H n S fname fs).2.readBin (SSTable.new H n S fname fs).1.folder_name j) ∧
    (∀ j, (∃ k, k ≤ j ∧ fB k = true) →
      (SSTable.new_io fT fB H n S fname fs).2.readBin
        (SSTable.new H n S fname fs).1.folder_name j = none) := by
  have hio := SSTable.new_io_get_same fT fB H n S fname fs
  have hn := SSTable.new_get_same H n S fname fs
  rw [hfresh] at hio hn
  simp only [Option.getD_none] at hio hn
  obtain ⟨d1, d2, d3⟩ := store_keyval_data_io_spec fT
    (S.map fun p => encodeKeyValuePair p.1 p.2) { txt := [], bin := [] }
  have hlen : (store_keyval_data_io fT (S.map fun p => encodeKeyValuePair p.1 p.2)
      { txt := [], bin := [] }).1.length = S.length := by
    rw [d1, (store_keyval_data_spec _ _).2.1, List.length_map]
  have hlen2 : (store_keyval_data (S.map fun p => encodeKeyValuePair p.1 p.2)
      { txt := [], bin := [] }).1.length = S.length := by
    rw [(store_keyval_data_spec _ _).2.1, List.length_map]
  rw [← hlen] at hio
  rw [← hlen2] at hn
  obtain ⟨i1, i2, i3⟩ := store_keyval_index_io_spec fB
    (store_keyval_data_io fT (S.map fun p => encodeKeyValuePair p.1 p.2)
      { txt := [], bin := [] }).1
    (store_keyval_data_io fT (S.map fun p => encodeKeyValuePair p.1 p.2)
      { txt := [], bin := [] }).2
  have n1 := (store_keyval_index_spec
    (store_keyval_data (S.map fun p => encodeKeyValuePair p.1 p.2) { txt := [], bin := [] }).1
    (store_keyval_data (S.map fun p => encodeKeyValuePair p.1 p.2) { txt := [], bin := [] }).2).1
  refine ⟨?_, ?_, ?_⟩
  · intro j
    unfold FS.readTxt
    rw [hio, hn]
    simp only
    rw [i1, d3 j, n1]
    by_cases hf : fT j = true
    · rw [if_pos hf, if_pos hf]; rfl
    · rw [if_neg hf, if_neg hf]
  · intro j hj
    unfold FS.readBin
    rw [hio, hn]
    simp only
    rw [i2 j hj, d1]
    unfold store_keyval_index
    rw [store_keyval_index_loop_bin_congr _ _ _ _ _ _
      (store_keyval_data (S.map fun p => encodeKeyValuePair p.1 p.2)
        { txt := [], bin := [] }).2
      (by rw [d2, (store_keyval_data_spec _ _).1])]
  · intro j hj
    unfold FS.readBin
    rw [hio]
    simp only
    rw [i3 j hj, d2]
    rfl


/-- `SSTable::find` on a directory of which some positions are damaged (see
`find_loop_damaged`): it ends with the fault, or answers as the records `S` say; and it ends
with the fault when the key is at a damaged position. -/
theorem SSTable.find_damaged (H : Str → Nat) (fs : FS) (t : SSTable) (S : List (Str × Str))
    (key : Str) (bad : Nat → Prop) (f0 : Fault)
    (hasc : Ascending S) (hkeys : ∀ p ∈ S, DelimFree p.1)
    (hn : t.num_keys = S.length) (hb : ∀ p ∈ S, t.bfilter.exists H p.1 = true)
    (hgood : ∀ (m : Nat) (p : Str × Str), S[m]? = some p → ¬ bad m →
      ∃ c o : Nat,
        extractPair fs t.folder_name ((m : Int) / (INDEX_SIZE : Int))
          ((m : Int) % (INDEX_SIZE : Int)) = ((c : Int), (o : Int)) ∧
        extractKeyValuePair fs t.folder_name (c : Int) (o : Int)
          = Except.ok (encodeKeyValuePair p.1 p.2))
    (hbad : ∀ m : Nat, m < S.length → bad m → ∀ (fuel : Nat) (lo hi : Int), lo ≤ hi →
      (lo + hi) / 2 = (m : Int) →
      SSTable.find_loop fs t.folder_name key (fuel + 1) lo hi = Except.error f0) :
    (t.find H fs key = Except.error f0 ∨
      t.find H fs key =
        match S.lookup key with
        | some v => Except.ok (true, v)
        | none => Except.ok (false, TOMBSTONE)) ∧
    (∀ (m : Nat) (v : Str), S[m]? = some (key, v) → bad m →
      t.find H fs key = Except.error f0) := by
  have hloop := find_loop_damaged fs t.folder_name S key bad f0 hasc hkeys hgood hbad
    t.num_keys 0 ((t.num_keys : Int) - 1) (le_refl _) (by omega) (by omega)
    (fun m p _ hm => by omega)
    (fun m p hp hm => by
      have := (List.getElem?_eq_some_iff.mp hp).1
      omega)
  have hcond : ∀ v, (key, v) ∈ S → (t.bfilter.exists H key = true ∧ t.num_keys > 0) := by
    intro v hv
    exact ⟨hb (key, v) hv, by rw [hn]; exact List.length_pos_of_mem hv⟩
  have hlook : ∀ r : Except Fault (Bool × Str),
      ((∀ v, (key, v) ∈ S → r = Except.ok (true, v)) ∧
        (key ∉ S.map Prod.fst → r = Except.ok (false, TOMBSTONE))) →
      r = match S.lookup key with
        | some v => Except.ok (true, v)
        | none => Except.ok (false, TOMBSTONE) := by
    intro r hr
    cases hl : S.lookup key with
    | some v => exact hr.1 v ((lookup_eq_some_iff key v hasc).mp hl)
    | none => exact hr.2 ((lookup_eq_none_iff key S).mp hl)
  by_cases hc : t.bfilter.exists H key = true ∧ t.num_keys > 0
  · have e : t.find H fs key
        = SSTable.find_loop fs t.folder_name key t.num_keys 0 ((t.num_keys : Int) - 1) := by
      unfold SSTable.find
      rw [if_pos hc]
    rw [e]
    refine ⟨?_, hloop.2⟩
    rcases hloop.1 with h | h
    · exact Or.inl h
    · exact Or.inr (hlook _ h)
  · have e : t.find H fs key = Except.ok (false, TOMBSTONE) := by
      unfold SSTable.find
      rw [if_neg hc]
    rw [e]
    refine ⟨Or.inr (hlook _ ⟨fun v hv => absurd (hcond v hv) hc, fun _ => rfl⟩), ?_⟩
    intro m v hm _
    exact absurd (hcond v (List.getElem?_mem hm)) hc

/-- The index entry of record `m` of a table that the constructor built in a fresh
directory is the offset pair that `store_keyval_data` returned for it. -/
theorem SSTable.new_extractPair (H : Str → Nat) (n : Nat) (S : List (Str × Str)) (fname : Str)
    (fs : FS) (hfresh : fs.get (SSTable.new H n S fname fs).1.folder_name = none)
    (m : Nat) (q : Int × Int)
    (hq : (store_keyval_data (S.map fun p => encodeKeyValuePair p.1 p.2)
      { txt := [], bin := [] }).1[m]? = some q) :
    extractPair (SSTable.new H n S fname fs).2 (SSTable.new H n S fname fs).1.folder_name
      ((m : Int) / (INDEX_SIZE : Int)) ((m : Int) % (INDEX_SIZE : Int)) = q := by
  have hn := SSTable.new_get_same H n S fname fs
  rw [hfresh] at hn
  simp only [Option.getD_none] at hn
  have hlen2 : (store_keyval_data (S.map fun p => encodeKeyValuePair p.1 p.2)
      { txt := [], bin := [] }).1.length = S.length := by
    rw [(store_keyval_data_spec _ _).2.1, List.length_map]
  rw [← hlen2] at hn
  obtain ⟨entries, he1, he2⟩ := (store_keyval_index_spec _
    (store_keyval_data (S.map fun p => encodeKeyValuePair p.1 p.2)
      { txt := [], bin := [] }).2).2 m q hq
  exact extractPair_of_entry _ _ _ m entries q hn he1 he2


/-- Lookups in a table that the constructor built in a fresh directory while the data chunks
`i.txt` with `fT i` could not be opened: a lookup ends with the error "Cannot open file" or
answers as the table built without failures, and it ends with that error for every key whose
record has its offset pair in a chunk that could not be opened. -/
theorem SSTable.new_io_find_data (fT : Nat → Bool) (H : Str → Nat) (n : Nat)
    (S : List (Str × Str)) (fname : Str) (fs : FS)
    (hfresh : fs.get (SSTable.new H n S fname fs).1.folder_name = none)
    (hasc : Ascending S) (hS : RecordsDelimFree S) (key : Str) :
    ((SSTable.new_io fT (fun _ => false) H n S fname fs).1.find H
        (SSTable.new_io fT (fun _ => false) H n S fname fs).2 key
        = Except.error Fault.cannot_open_file ∨
      (SSTable.new_io fT (fun _ => false) H n S fname fs).1.find H
        (SSTable.new_io fT (fun _ => false) H n S fname fs).2 key
        = (SSTable.new H n S fname fs).1.find H (SSTable.new H n S fname fs).2 key) ∧
    (∀ (m : Nat) (v : Str) (c o : Nat), S[m]? = some (key, v) →
      (store_keyval_data (S.map fun p => encodeKeyValuePair p.1 p.2)
        { txt := [], bin := [] }).1[m]? = some ((c : Int), (o : Int)) →
      fT c = true →
      (SSTable.new_io fT (fun _ => false) H n S fname fs).1.find H
        (SSTable.new_io fT (fun _ => false) H n S fname fs).2 key
        = Except.error Fault.cannot_open_file) := by
  obtain ⟨r1, r2, _⟩ := SSTable.new_io_reads fT (fun _ => false) H n S fname fs hfresh
  have hholds := SSTable.new_holds H n S fname fs hS
  have hkeys : ∀ p ∈ S, DelimFree p.1 := fun p hp => (hS p hp).1
  have hpair : ∀ m : Nat,
      extractPair (SSTable.new_io fT (fun _ => false) H n S fname fs).2
        (SSTable.new H n S fname fs).1.folder_name
        ((m : Int) / (INDEX_SIZE : Int)) ((m : Int) % (INDEX_SIZE : Int))
      = extractPair (SSTable.new H n S fname fs).2 (SSTable.new H n S fname fs).1.folder_name
        ((m : Int) / (INDEX_SIZE : Int)) ((m : Int) % (INDEX_SIZE : Int)) := by
    intro m
    exact extractPair_congr _ _ _ _ _ (r2 _ (fun _ _ => rfl))
  have hdam := SSTable.find_damaged H (SSTable.new_io fT (fun _ => false) H n S fname fs).2
    (SSTable.new H n S fname fs).1 S key
    (fun m => ∃ c o : Nat, (store_keyval_data (S.map fun p => encodeKeyValuePair p.1 p.2)
      { txt := [], bin := [] }).1[m]? = some ((c : Int), (o : Int)) ∧ fT c = true)
    Fault.cannot_open_file hasc hkeys hholds.1 hholds.2.1
    (by
      intro m p hp hnb
      obtain ⟨c, o, h1, h2⟩ := hholds.2.2 m p hp
      have hm : (S.map fun p => encodeKeyValuePair p.1 p.2)[m]?
          = some (encodeKeyValuePair p.1 p.2) := by
        rw [List.getElem?_map, hp]; rfl
      obtain ⟨c2, o2, _, _, hoff, _, _⟩ := (store_keyval_data_spec _
        { txt := [], bin := [] }).2.2 m _ hm
      have heq := SSTable.new_extractPair H n S fname fs hfresh m _ hoff
      rw [h1] at heq
      have hc : c2 = c := by
        have := congrArg Prod.fst heq
        simp only at this
        omega
      have hfc : fT c = false := by
        cases hx : fT c with
        | false => rfl
        | true => exact absurd ⟨c2, o2, hoff, by rw [hc]; exact hx⟩ hnb
      refine ⟨c, o, by rw [hpair m]; exact h1, ?_⟩
      rw [extractKeyValuePair_congr (SSTable.new H n S fname fs).2 _ _ _ _ (by
        rw [r1]
        simp only [Int.toNat_ofNat, hfc, Bool.false_eq_true, if_false])]
      exact h2)
    (by
      intro m hm hb fuel lo hi hle hmid
      obtain ⟨c, o, hoff, hf⟩ := hb
      have hp := SSTable.new_extractPair H n S fname fs hfresh m _ hoff
      rw [← hpair m, ← hmid] at hp
      refine find_loop_raise _ _ key fuel lo hi _ c o hle hp ?_
      apply extractKeyValuePair_of_missing
      rw [r1]
      simp only [Int.toNat_ofNat, hf, if_true])
  have hnormal := SSTable.find_eq_lookup_records H (SSTable.new H n S fname fs).2
    (SSTable.new H n S fname fs).1 S key hasc hkeys hholds
  rw [SSTable.new_io_table]
  refine ⟨?_, ?_⟩
  · rcases hdam.1 with h | h
    · exact Or.inl h
    · exact Or.inr (by rw [h, hnormal])
  · intro m v c o hm hoff hf
    exact hdam.2 m v hm ⟨c, o, hoff, hf⟩

/-- Lookups in a table that the constructor built in a fresh directory while the index
chunks `i.bin` with `fB i` could not be opened: a lookup ends the process with `exit(1)` or
answers as the table built without failures, and it ends the process for every key whose
index entry is in a chunk that was not written, which are the chunks from the first one that
could not be opened on. -/
theorem SSTable.new_io_find_index (fB : Nat → Bool) (H : Str → Nat) (n : Nat)
    (S : List (Str × Str)) (fname : Str) (fs : FS)
    (hfresh : fs.get (SSTable.new H n S fname fs).1.folder_name = none)
    (hasc : Ascending S) (hS : RecordsDelimFree S) (key : Str) :
    ((SSTable.new_io (fun _ => false) fB H n S fname fs).1.find H
        (SSTable.new_io (fun _ => false) fB H n S fname fs).2 key
        = Except.error Fault.exit_1 ∨
      (SSTable.new_io (fun _ => false) fB H n S fname fs).1.find H
        (SSTable.new_io (fun _ => false) fB H n S fname fs).2 key
        = (SSTable.new H n S fname fs).1.find H (SSTable.new H n S fname fs).2 key) ∧
    (∀ (m : Nat) (v : Str) (k : Nat), S[m]? = some (key, v) → k ≤ m / INDEX_SIZE →
      fB k = true →
      (SSTable.new_io (fun _ => false) fB H n S fname fs).1.find H
        (SSTable.new_io (fun _ => false) fB H n S fname fs).2 key
        = Except.error Fault.exit_1) := by
  obtain ⟨r1, r2, r3⟩ := SSTable.new_io_reads (fun _ => false) fB H n S fname fs hfresh
  have hholds := SSTable.new_holds H n S fname fs hS
  have hkeys : ∀ p ∈ S, DelimFree p.1 := fun p hp => (hS p hp).1
  have htoNat : ∀ m : Nat, ((m : Int) / (INDEX_SIZE : Int)).toNat = m / INDEX_SIZE := by
    intro m
    simp only [INDEX_SIZE, Nat.cast_ofNat]; omega
  have hdam := SSTable.find_damaged H (SSTable.new_io (fun _ => false) fB H n S fname fs).2
    (SSTable.new H n S fname fs).1 S key
    (fun m => ∃ k, k ≤ m / INDEX_SIZE ∧ fB k = true)
    Fault.exit_1 hasc hkeys hholds.1 hholds.2.1
    (by
      intro m p hp hnb
      obtain ⟨c, o, h1, h2⟩ := hholds.2.2 m p hp
      have hall : ∀ k, k ≤ m / INDEX_SIZE → fB k = false := by
        intro k hk
        cases hx : fB k with
        | false => rfl
        | true => exact absurd ⟨k, hk, hx⟩ hnb
      refine ⟨c, o, ?_, ?_⟩
      · rw [extractPair_congr (SSTable.new H n S fname fs).2 _ _ _ _ (by
          rw [htoNat m]; exact r2 _ hall)]
        exact h1
      · rw [extractKeyValuePair_congr (SSTable.new H n S fname fs).2 _ _ _ _ (by
          rw [r1]
          simp only [Bool.false_eq_true, if_false])]
        exact h2)
    (by
      intro m hm hb fuel lo hi hle hmid
      refine find_loop_exit _ _ key fuel lo hi hle (Or.inl ?_)
      rw [hmid, extractPair_of_missing _ _ _ _ (by rw [htoNat m]; exact r3 _ hb)])
  have hnormal := SSTable.find_eq_lookup_records H (SSTable.new H n S fname fs).2
    (SSTable.new H n S fname fs).1 S key hasc hkeys hholds
  rw [SSTable.new_io_table]
  refine ⟨?_, ?_⟩
  · rcases hdam.1 with h | h
    · exact Or.inl h
    · exact Or.inr (by rw [h, hnormal])
  · intro m v k hm hk hf
    exact hdam.2 m v hm ⟨k, hk, hf⟩

theorem store_keyval_data_loop_io_no_failure : ∀ (strs : List Str) (fileIndex cfs : Nat)
    (d : Folder),
    store_keyval_data_loop_io (fun _ => false) strs fileIndex cfs true d
      = store_keyval_data_loop strs fileIndex cfs d := by
  intro strs
  induction strs with
  | nil => intro fileIndex cfs d; rfl
  | cons str rest ih =>
      intro fileIndex cfs d
      by_cases hnew : cfs + str.length + 1 > MAX_FILE_SIZE
      · simp only [store_keyval_data_loop_io, store_keyval_data_loop, if_pos hnew, Bool.not_false,
          if_true, ih]
      · simp only [store_keyval_data_loop_io, store_keyval_data_loop, if_neg hnew, if_true, ih]

theorem store_keyval_index_loop_io_no_failure (data : List (Int × Int)) (n : Nat) :
    ∀ (fuel i fi : Nat) (d : Folder),
    store_keyval_index_loop_io (fun _ => false) data n fuel i fi d
      = store_keyval_index_loop data n fuel i fi d := by
  intro fuel
  induction fuel with
  | zero => intro i fi d; rfl
  | succ fuel ih =>
      intro i fi d
      by_cases hin : i < n
      · simp only [store_keyval_index_loop_io, store_keyval_index_loop, if_pos hin,
          Bool.false_eq_true, if_false, ih]
      · simp only [store_keyval_index_loop_io, store_keyval_index_loop, if_neg hin]

/-- Without failures the constructor modelled with failures is the constructor. -/
theorem SSTable.new_io_no_failure (H : Str → Nat) (n : Nat) (S : List (Str × Str))
    (fname : Str) (fs : FS) :
    SSTable.new_io (fun _ => false) (fun _ => false) H n S fname fs
      = SSTable.new H n S fname fs := by
  simp only [SSTable.new_io, SSTable.new, store_keyval_data_io, store_keyval_data,
    store_keyval_index_io, store_keyval_index, Bool.not_false, if_true,
    store_keyval_data_loop_io_no_failure, store_keyval_index_loop_io_no_failure]


/-! ## `to_string` is injective -/

theorem ofDigits_digitsRev : ∀ (fuel n : Nat), n < fuel →
    Nat.ofDigits 10 ((digitsRev fuel n).map fun d => d - 48) = n := by
  intro fuel
  induction fuel with
  | zero => intro n h; omega
  | succ fuel ih =>
      intro n h
      by_cases h10 : n < 10
      · simp [digitsRev, h10, Nat.ofDigits]
      · have := ih (n / 10) (by omega)
        simp only [digitsRev, if_neg h10, List.map_cons, Nat.ofDigits_cons, this]
        omega

theorem to_string_injective {n m : Nat} (h : to_string n = to_string m) : n = m := by
  unfold to_string at h
  have h2 := List.reverse_injective h
  have a := ofDigits_digitsRev (n + 1) n (by omega)
  have b := ofDigits_digitsRev (m + 1) m (by omega)
  rw [h2] at a
  omega


/-! ## Lemmas on the memtable -/

namespace AVLTreeNode

theorem inOrder_updateValues (t : AVLTreeNode) :
    t.updateValues.inOrderTraversal = t.inOrderTraversal := by
  cases t <;> rfl

theorem inOrder_left_rotate (t : AVLTreeNode) :
    t.left_rotate.inOrderTraversal = t.inOrderTraversal := by
  unfold left_rotate
  split
  · simp [updateValues, inOrderTraversal]
  · rfl

theorem inOrder_right_rotate (t : AVLTreeNode) :
    t.right_rotate.inOrderTraversal = t.inOrderTraversal := by
  unfold right_rotate
  split
  · simp [updateValues, inOrderTraversal]
  · rfl

theorem inOrder_setLeft (t x : AVLTreeNode) (h : x.inOrderTraversal = t.getLeft.inOrderTraversal) :
    (t.setLeft x).inOrderTraversal = t.inOrderTraversal := by
  cases t with
  | null => rfl
  | node l r k v c h' => simp only [setLeft, getLeft, inOrderTraversal] at h ⊢; rw [h]

theorem inOrder_setRight (t x : AVLTreeNode)
    (h : x.inOrderTraversal = t.getRight.inOrderTraversal) :
    (t.setRight x).inOrderTraversal = t.inOrderTraversal := by
  cases t with
  | null => rfl
  | node l r k v c h' => simp only [setRight, getRight, inOrderTraversal] at h ⊢; rw [h]

theorem inOrder_balance_step (t : AVLTreeNode) :
    t.balance_step.inOrderTraversal = t.inOrderTraversal := by
  unfold balance_step
  simp only
  split
  · rw [inOrder_right_rotate, inOrder_updateValues]
  · split
    · rw [inOrder_right_rotate, inOrder_setLeft _ _ (inOrder_left_rotate _), inOrder_updateValues]
    · split
      · rw [inOrder_left_rotate, inOrder_updateValues]
      · split
        · rw [inOrder_left_rotate, inOrder_setRight _ _ (inOrder_right_rotate _),
            inOrder_updateValues]
        · rw [inOrder_updateValues]

theorem inOrder_modifyAt (f : AVLTreeNode → AVLTreeNode)
    (hf : ∀ t, (f t).inOrderTraversal = t.inOrderTraversal) :
    ∀ (s : Slot) (t : AVLTreeNode), (modifyAt f s t).inOrderTraversal = t.inOrderTraversal := by
  intro s
  induction s with
  | nil => intro t; exact hf t
  | cons a s ih =>
      intro t
      cases t with
      | null => cases a <;> rfl
      | node l r k v c h =>
          cases a with
          | left => simp only [modifyAt, inOrderTraversal, ih l]
          | right => simp only [modifyAt, inOrderTraversal, ih r]

theorem inOrder_balance (path : List Slot) (root : AVLTreeNode) :
    (balance path root).inOrderTraversal = root.inOrderTraversal := by
  unfold balance
  generalize path.reverse = p
  induction p generalizing root with
  | nil => rfl
  | cons a p ih =>
      rw [List.foldl_cons, ih, inOrder_modifyAt _ inOrder_balance_step]

end AVLTreeNode


/-! ## `find`, `insert` and the sorted pairs of the memtable -/

theorem lookup_append (k : Str) (l1 l2 : List (Str × Str)) :
    (l1 ++ l2).lookup k =
      match l1.lookup k with
      | some v => some v
      | none => l2.lookup k := by
  induction l1 with
  | nil => rfl
  | cons a l1 ih =>
      obtain ⟨a1, a2⟩ := a
      by_cases h : k = a1
      · subst h; simp [List.lookup]
      · have hb : (k == a1) = false := by simpa using h
        simp only [List.cons_append, List.lookup, hb]
        exact ih

theorem ascending_append_cons {L R : List (Str × Str)} {p : Str × Str} :
    Ascending (L ++ p :: R) ↔
      Ascending L ∧ Ascending R ∧ (∀ a ∈ L, a.1 < p.1) ∧ (∀ b ∈ R, p.1 < b.1) := by
  unfold Ascending
  rw [List.pairwise_append, List.pairwise_cons]
  constructor
  · rintro ⟨h1, ⟨h2, h3⟩, h4⟩
    exact ⟨h1, h3, fun a ha => h4 a ha p (List.mem_cons_self _ _), h2⟩
  · rintro ⟨h1, h2, h3, h4⟩
    refine ⟨h1, ⟨h4, h2⟩, ?_⟩
    intro a ha b hb
    rcases List.mem_cons.mp hb with hb | hb
    · rw [hb]; exact h3 a ha
    · exact lt_trans (h3 a ha) (h4 b hb)

theorem lookup_none_of_lt {L : List (Str × Str)} {key : Str} (h : ∀ a ∈ L, a.1 < key) :
    L.lookup key = none := by
  rw [lookup_eq_none_iff]
  intro hm
  obtain ⟨x, hx, hxk⟩ := List.mem_map.mp hm
  have := h x hx
  rw [hxk] at this
  exact lt_irrefl _ this

theorem lookup_none_of_gt {R : List (Str × Str)} {key : Str} (h : ∀ b ∈ R, key < b.1) :
    R.lookup key = none := by
  rw [lookup_eq_none_iff]
  intro hm
  obtain ⟨x, hx, hxk⟩ := List.mem_map.mp hm
  have := h x hx
  rw [hxk] at this
  exact lt_irrefl _ this

namespace AVLTreeNode

theorem node_find_eq_lookup (key : Str) : ∀ (t : AVLTreeNode), Ascending t.inOrderTraversal →
    find key t =
      match t.inOrderTraversal.lookup key with
      | some v => (true, v)
      | none => (false, TOMBSTONE) := by
  intro t
  induction t with
  | null => intro _; rfl
  | node l r k v c h ihl ihr =>
      intro hasc
      simp only [inOrderTraversal] at hasc ⊢
      obtain ⟨hl, hr, hlk, hkr⟩ := ascending_append_cons.mp hasc
      rw [lookup_append]
      by_cases heq : k = key
      · subst heq
        rw [find, if_pos rfl, lookup_none_of_lt hlk]
        simp [List.lookup]
      · have hb : (key == k) = false := by simpa using fun e => heq e.symm
        rw [find, if_neg heq]
        by_cases hgt : k > key
        · rw [if_pos hgt, ihl hl]
          have hrn : r.inOrderTraversal.lookup key = none :=
            lookup_none_of_gt fun b hb => lt_trans hgt (hkr b hb)
          cases hlook : l.inOrderTraversal.lookup key with
          | some w => rfl
          | none => simp [List.lookup, hb, hrn]
        · rw [if_neg hgt, ihr hr]
          have hlt : k < key := lt_of_le_of_ne (not_lt.mp hgt) heq
          have hln : l.inOrderTraversal.lookup key = none :=
            lookup_none_of_lt fun a ha => lt_trans (hlk a ha) hlt
          rw [hln]
          simp [List.lookup, hb]

theorem insert_walk_created (key value : Str) : ∀ (t : AVLTreeNode) (s : Slot),
    (insert_walk key value t s).2.2 = !(find key t).1 := by
  intro t
  induction t with
  | null => intro s; rfl
  | node l r k v c h ihl ihr =>
      intro s
      by_cases heq : k = key
      · simp [insert_walk, find, heq]
      · by_cases hgt : k > key
        · simp only [insert_walk, find, if_neg heq, if_pos hgt, ihl]
        · simp only [insert_walk, find, if_neg heq, if_neg hgt, ihr]

end AVLTreeNode

theorem listInsert_append_lt (key value : Str) (p : Str × Str) (L R : List (Str × Str))
    (hlt : key < p.1) :
    listInsert key value (L ++ p :: R) = listInsert key value L ++ p :: R := by
  induction L with
  | nil =>
      have h1 : ¬ p.1 = key := fun e => by rw [e] at hlt; exact lt_irrefl _ hlt
      simp [listInsert, h1, hlt]
  | cons a L ih =>
      by_cases h1 : a.1 = key
      · simp [listInsert, h1]
      · by_cases h2 : a.1 > key
        · simp [listInsert, h1, h2]
        · simp [listInsert, h1, h2, ih]

theorem listInsert_append_gt (key value : Str) (p : Str × Str) (L R : List (Str × Str))
    (hL : ∀ a ∈ L, a.1 < key) (hgt : p.1 < key) :
    listInsert key value (L ++ p :: R) = L ++ p :: listInsert key value R := by
  induction L with
  | nil =>
      have h1 : ¬ p.1 = key := fun e => by rw [e] at hgt; exact lt_irrefl _ hgt
      have h2 : ¬ p.1 > key := fun e => lt_irrefl _ (lt_trans hgt e)
      simp [listInsert, h1, h2]
  | cons a L ih =>
      have ha := hL a (List.mem_cons_self _ _)
      have h1 : ¬ a.1 = key := fun e => by rw [e] at ha; exact lt_irrefl _ ha
      have h2 : ¬ a.1 > key := fun e => lt_irrefl _ (lt_trans ha e)
      simp [listInsert, h1, h2, ih (fun a ha => hL a (List.mem_cons_of_mem _ ha))]

theorem listInsert_append_eq (key value v : Str) (L R : List (Str × Str))
    (hL : ∀ a ∈ L, a.1 < key) :
    listInsert key value (L ++ (key, v) :: R) = L ++ (key, value) :: R := by
  induction L with
  | nil => simp [listInsert]
  | cons a L ih =>
      have ha := hL a (List.mem_cons_self _ _)
      have h1 : ¬ a.1 = key := fun e => by rw [e] at ha; exact lt_irrefl _ ha
      have h2 : ¬ a.1 > key := fun e => lt_irrefl _ (lt_trans ha e)
      simp [listInsert, h1, h2, ih (fun a ha => hL a (List.mem_cons_of_mem _ ha))]

theorem AVLTreeNode.inOrder_insert_walk (key value : Str) : ∀ (t : AVLTreeNode) (s : Slot),
    Ascending t.inOrderTraversal →
    (insert_walk key value t s).1.inOrderTraversal = listInsert key value t.inOrderTraversal := by
  intro t
  induction t with
  | null => intro s _; rfl
  | node l r k v c h ihl ihr =>
      intro s hasc
      simp only [inOrderTraversal] at hasc ⊢
      obtain ⟨hl, hr, hlk, hkr⟩ := ascending_append_cons.mp hasc
      by_cases heq : k = key
      · subst heq
        simp only [insert_walk, if_pos rfl, inOrderTraversal]
        rw [listInsert_append_eq _ _ _ _ _ hlk]
      · by_cases hgt : k > key
        · simp only [insert_walk, if_neg heq, if_pos hgt, inOrderTraversal]
          rw [ihl _ hl, listInsert_append_lt key value (k, v) _ _ hgt]
        · have hlt : k < key := lt_of_le_of_ne (not_lt.mp hgt) heq
          simp only [insert_walk, if_neg heq, if_neg hgt, inOrderTraversal]
          rw [ihr _ hr, listInsert_append_gt key value (k, v) _ _
            (fun a ha => lt_trans (hlk a ha) hlt) hlt]

theorem mem_listInsert (key value : Str) (x : Str × Str) : ∀ (l : List (Str × Str)),
    x ∈ listInsert key value l → x = (key, value) ∨ x ∈ l := by
  intro l
  induction l with
  | nil => intro h; left; simpa [listInsert] using h
  | cons a l ih =>
      intro h
      simp only [listInsert] at h
      split at h
      · rcases List.mem_cons.mp h with h | h
        · left; exact h
        · right; exact List.mem_cons_of_mem _ h
      · split at h
        · rcases List.mem_cons.mp h with h | h
          · left; exact h
          · right; exact h
        · rcases List.mem_cons.mp h with h | h
          · right; rw [h]; exact List.mem_cons_self _ _
          · rcases ih h with h | h
            · left; exact h
            · right; exact List.mem_cons_of_mem _ h

theorem ascending_listInsert (key value : Str) : ∀ (l : List (Str × Str)), Ascending l →
    Ascending (listInsert key value l) := by
  intro l
  induction l with
  | nil => intro _; simp [listInsert, Ascending]
  | cons a l ih =>
      intro h
      simp only [listInsert]
      split
      · next heq =>
          refine List.pairwise_cons.mpr ⟨?_, h.tail⟩
          intro x hx
          have := h.head_lt x hx
          rw [heq] at this
          exact this
      · split
        · next hne hgt =>
            refine List.pairwise_cons.mpr ⟨?_, h⟩
            intro x hx
            rcases List.mem_cons.mp hx with hx | hx
            · rw [hx]; exact hgt
            · exact lt_trans hgt (h.head_lt x hx)
        · next hne hgt =>
            have hlt : a.1 < key := lt_of_le_of_ne (not_lt.mp hgt) hne
            refine List.pairwise_cons.mpr ⟨?_, ih h.tail⟩
            intro x hx
            rcases mem_listInsert key value x l hx with hx | hx
            · rw [hx]; exact hlt
            · exact h.head_lt x hx

theorem lookup_listInsert (key value k : Str) : ∀ (l : List (Str × Str)),
    (listInsert key value l).lookup k = if k = key then some value else l.lookup k := by
  intro l
  induction l with
  | nil =>
      by_cases h : k = key
      · simp [listInsert, List.lookup, h]
      · have hb : (k == key) = false := by simpa using h
        simp [listInsert, List.lookup, h, hb]
  | cons a l ih =>
      obtain ⟨a1, a2⟩ := a
      simp only [listInsert]
      by_cases hk : k = key
      · subst hk
        split
        · simp [List.lookup]
        · split
          · simp [List.lookup]
          · next hne hgt =>
              have hb : (k == a1) = false := by simpa using fun e => hne e.symm
              simp [List.lookup, hb, ih]
      · have hb : (k == key) = false := by simpa using hk
        rw [if_neg hk]
        split
        · next heq =>
            have hb2 : (k == a1) = false := by
              rw [show a1 = key from heq]; exact hb
            simp [List.lookup, hb, hb2]
        · split
          · simp [List.lookup, hb]
          · by_cases h1 : k = a1
            · subst h1; simp [List.lookup]
            · have hb2 : (k == a1) = false := by simpa using h1
              simp [List.lookup, hb2, ih, hk]

theorem length_listInsert (key value : Str) : ∀ (l : List (Str × Str)), Ascending l →
    (listInsert key value l).length =
      if key ∈ l.map Prod.fst then l.length else l.length + 1 := by
  intro l
  induction l with
  | nil => intro _; simp [listInsert]
  | cons a l ih =>
      intro h
      simp only [listInsert]
      split
      · next heq => simp [heq]
      · split
        · next hne hgt =>
            rw [if_neg (h.lt_not_mem hgt)]
            simp
        · next hne hgt =>
            have := ih h.tail
            simp only [List.length_cons, this, List.map_cons, List.mem_cons]
            have hne2 : ¬ key = a.1 := fun e => hne e.symm
            simp only [hne2, false_or]
            split <;> rfl


namespace AVLTree

theorem wellFormed_empty : AVLTree.empty.WellFormed :=
  ⟨List.Pairwise.nil, rfl⟩

theorem tree_find_eq_lookup (t : AVLTree) (key : Str) (h : t.WellFormed) :
    t.find key =
      match t.getSortedPairs.lookup key with
      | some v => (true, v)
      | none => (false, TOMBSTONE) :=
  AVLTreeNode.node_find_eq_lookup key t.root h.1

theorem getSortedPairs_insert (t : AVLTree) (key value : Str) (h : t.WellFormed) :
    (t.insert key value).getSortedPairs = listInsert key value t.getSortedPairs := by
  unfold insert getSortedPairs
  simp only
  split
  · simp only [AVLTreeNode.inOrder_balance]
    exact AVLTreeNode.inOrder_insert_walk key value t.root [] h.1
  · exact AVLTreeNode.inOrder_insert_walk key value t.root [] h.1

theorem size_insert (t : AVLTree) (key value : Str) (h : t.WellFormed) :
    (t.insert key value)._size = (listInsert key value t.getSortedPairs).length := by
  have hc := AVLTreeNode.insert_walk_created key value t.root []
  have hf := AVLTreeNode.node_find_eq_lookup key t.root h.1
  rw [length_listInsert key value _ h.1]
  unfold insert
  simp only
  rw [hc, hf]
  cases hl : t.root.inOrderTraversal.lookup key with
  | some v =>
      have hm : key ∈ t.getSortedPairs.map Prod.fst := by
        by_contra hn
        have := (lookup_eq_none_iff key _).mpr hn
        unfold getSortedPairs at this
        rw [hl] at this
        exact Option.noConfusion this
      simp only [Bool.not_true, Bool.false_eq_true, if_false, if_pos hm]
      exact h.2
  | none =>
      have hm : key ∉ t.getSortedPairs.map Prod.fst := (lookup_eq_none_iff key _).mp hl
      simp only [Bool.not_false, if_true, if_neg hm]
      rw [h.2]

theorem wellFormed_insert (t : AVLTree) (key value : Str) (h : t.WellFormed) :
    (t.insert key value).WellFormed := by
  refine ⟨?_, ?_⟩
  · rw [getSortedPairs_insert t key value h]
    exact ascending_listInsert key value _ h.1
  · rw [size_insert t key value h, getSortedPairs_insert t key value h]

theorem wellFormed_clear (t : AVLTree) : t.clear.WellFormed :=
  ⟨List.Pairwise.nil, rfl⟩

end AVLTree

/-! ## The memtable after a sequence of inserts -/

theorem AVLTree.insertAll_append (t : AVLTree) (kvs : List (Str × Str)) (p : Str × Str) :
    t.insertAll (kvs ++ [p]) = (t.insertAll kvs).insert p.1 p.2 := by
  unfold AVLTree.insertAll
  rw [List.foldl_append]
  rfl

theorem AVLTree.insertAll_wellFormed (t : AVLTree) (kvs : List (Str × Str))
    (h : t.WellFormed) : (t.insertAll kvs).WellFormed := by
  induction kvs using List.reverseRecOn with
  | nil => exact h
  | append_singleton kvs p ih =>
      rw [AVLTree.insertAll_append]
      exact AVLTree.wellFormed_insert _ p.1 p.2 ih

/-- The memtable after a sequence of inserts has, for every key, the value of the most
recent insert of that key, else what it had before. -/
theorem AVLTree.insertAll_lookup (t : AVLTree) (kvs : List (Str × Str)) (k : Str)
    (h : t.WellFormed) :
    (t.insertAll kvs).getSortedPairs.lookup k =
      match kvs.reverse.lookup k with
      | some v => some v
      | none => t.getSortedPairs.lookup k := by
  induction kvs using List.reverseRecOn with
  | nil => rfl
  | append_singleton kvs p ih =>
      rw [AVLTree.insertAll_append,
        AVLTree.getSortedPairs_insert _ p.1 p.2 (AVLTree.insertAll_wellFormed t kvs h),
        lookup_listInsert, List.reverse_append, List.reverse_singleton, List.singleton_append]
      obtain ⟨p1, p2⟩ := p
      by_cases hk : k = p1
      · subst hk
        simp [List.lookup]
      · rw [if_neg hk, ih]
        have : (k == p1) = false := by simpa using hk
        simp only [List.lookup, this]

theorem Ascending.nodup_keys {l : List (Str × Str)} (h : Ascending l) :
    (l.map Prod.fst).Nodup := by
  unfold Ascending at h
  unfold List.Nodup
  rw [List.pairwise_map]
  exact h.imp fun hab => ne_of_lt hab

theorem reverse_lookup_eq_none_iff (kvs : List (Str × Str)) (k : Str) :
    kvs.reverse.lookup k = none ↔ k ∉ kvs.map Prod.fst := by
  rw [lookup_eq_none_iff, List.map_reverse, List.mem_reverse]

section AVLHeight
open AVLTreeNode

/-! ## Height balance under insertion -/

theorem heightOr0_null : null.heightOr0 = 0 := rfl

theorem heightOr0_node (l r : AVLTreeNode) (k v : Str) (c h : Int) :
    (node l r k v c h).heightOr0 = h := rfl

theorem countOr0_null : null.countOr0 = 0 := rfl

theorem countOr0_node (l r : AVLTreeNode) (k v : Str) (c h : Int) :
    (node l r k v c h).countOr0 = c := rfl

theorem balanceFactor_node (l r : AVLTreeNode) (k v : Str) (c h : Int) :
    (node l r k v c h).balanceFactor = l.heightOr0 - r.heightOr0 := rfl

theorem updateValues_node (l r : AVLTreeNode) (k v : Str) (c h : Int) :
    (node l r k v c h).updateValues
      = node l r k v (l.countOr0 + r.countOr0 + 1) (max l.heightOr0 r.heightOr0 + 1) := rfl

theorem getLeft_node (l r : AVLTreeNode) (k v : Str) (c h : Int) :
    (node l r k v c h).getLeft = l := rfl

theorem getRight_node (l r : AVLTreeNode) (k v : Str) (c h : Int) :
    (node l r k v c h).getRight = r := rfl

theorem setLeft_node (l r x : AVLTreeNode) (k v : Str) (c h : Int) :
    (node l r k v c h).setLeft x = node x r k v c h := rfl

theorem setRight_node (l r x : AVLTreeNode) (k v : Str) (c h : Int) :
    (node l r k v c h).setRight x = node l x k v c h := rfl

theorem left_rotate_node (l rl rr : AVLTreeNode) (k v rk rv : Str) (c h rc rh : Int) :
    (node l (node rl rr rk rv rc rh) k v c h).left_rotate
      = updateValues (node (updateValues (node l rl k v c h)) rr rk rv rc rh) := rfl

theorem right_rotate_node (ll lr r : AVLTreeNode) (k v lk lv : Str) (c h lc lh : Int) :
    (node (node ll lr lk lv lc lh) r k v c h).right_rotate
      = updateValues (node ll (updateValues (node lr r k v c h)) lk lv lc lh) := rfl

theorem cacheBalanced_node (l r : AVLTreeNode) (k v : Str) (c h : Int) :
    (node l r k v c h).CacheBalanced ↔
      (l.CacheBalanced ∧ r.CacheBalanced ∧
        -1 ≤ l.heightOr0 - r.heightOr0 ∧ l.heightOr0 - r.heightOr0 ≤ 1 ∧
        h = max l.heightOr0 r.heightOr0 + 1 ∧ c = l.countOr0 + r.countOr0 + 1) := Iff.rfl

theorem CacheBalanced.height_nonneg : ∀ (t : AVLTreeNode), t.CacheBalanced → 0 ≤ t.heightOr0 := by
  intro t
  induction t with
  | null => intro _; simp [heightOr0]
  | node l r k v c h ihl ihr =>
      intro hb
      obtain ⟨hl, hr, _, _, hh, _⟩ := hb
      have := ihl hl
      have := ihr hr
      simp only [heightOr0]
      omega

theorem CacheBalanced.height_pos (l r : AVLTreeNode) (k v : Str) (c h : Int)
    (hb : (node l r k v c h).CacheBalanced) : 1 ≤ h := by
  obtain ⟨hl, hr, _, _, hh, _⟩ := hb
  have := CacheBalanced.height_nonneg l hl
  have := CacheBalanced.height_nonneg r hr
  omega

theorem CacheBalanced.cached_values : ∀ (t : AVLTreeNode), t.CacheBalanced →
    t.heightOr0 = (t.subtreeHeight : Int) ∧ t.countOr0 = (t.subtreeSize : Int) := by
  intro t
  induction t with
  | null => intro _; simp [heightOr0, countOr0, subtreeHeight, subtreeSize]
  | node l r k v c h ihl ihr =>
      intro hb
      obtain ⟨hl, hr, _, _, hh, hc⟩ := hb
      obtain ⟨h1, h2⟩ := ihl hl
      obtain ⟨h3, h4⟩ := ihr hr
      simp only [heightOr0, countOr0, subtreeHeight, subtreeSize]
      omega

theorem CacheBalanced.heightBalanced : ∀ (t : AVLTreeNode), t.CacheBalanced →
    t.HeightBalanced := by
  intro t
  induction t with
  | null => intro _; trivial
  | node l r k v c h ihl ihr =>
      intro hb
      have htv := CacheBalanced.cached_values _ hb
      obtain ⟨hl, hr, h1, h2, hh, hc⟩ := hb
      simp only [heightOr0, countOr0] at htv
      exact ⟨ihl hl, ihr hr, h1, h2, htv.1, htv.2⟩

theorem HeightBalanced.cached_eq_true : ∀ (t : AVLTreeNode), t.HeightBalanced →
    t.heightOr0 = (t.subtreeHeight : Int) ∧ t.countOr0 = (t.subtreeSize : Int) := by
  intro t
  cases t with
  | null => intro _; simp [heightOr0, countOr0, subtreeHeight, subtreeSize]
  | node l r k v c h =>
      intro hb
      obtain ⟨_, _, _, _, hh, hc⟩ := hb
      exact ⟨hh, hc⟩

theorem HeightBalanced.cacheBalanced : ∀ (t : AVLTreeNode), t.HeightBalanced →
    t.CacheBalanced := by
  intro t
  induction t with
  | null => intro _; trivial
  | node l r k v c h ihl ihr =>
      intro hb
      obtain ⟨hl, hr, h1, h2, hh, hc⟩ := hb
      obtain ⟨h3, h4⟩ := HeightBalanced.cached_eq_true l hl
      obtain ⟨h5, h6⟩ := HeightBalanced.cached_eq_true r hr
      simp only [balanceFactor] at h1 h2
      simp only [subtreeHeight, subtreeSize] at hh hc
      exact ⟨ihl hl, ihr hr, h1, h2, by omega, by omega⟩

/-- The loop body of `balance` on a node whose children are balanced and differ in height by
at most two, where a child that is taller by two is not itself evenly balanced: the result is
balanced; a rotation gives the height of the taller child and an evenly balanced root. -/
theorem balance_step_spec (l r : AVLTreeNode) (k v : Str) (c h : Int)
    (hl : l.CacheBalanced) (hr : r.CacheBalanced)
    (hd1 : -2 ≤ l.heightOr0 - r.heightOr0) (hd2 : l.heightOr0 - r.heightOr0 ≤ 2)
    (htl : l.heightOr0 - r.heightOr0 = 2 → l.balanceFactor ≠ 0)
    (htr : l.heightOr0 - r.heightOr0 = -2 → r.balanceFactor ≠ 0) :
    (balance_step (node l r k v c h)).CacheBalanced ∧
    (balance_step (node l r k v c h)).countOr0 = l.countOr0 + r.countOr0 + 1 ∧
    ((l.heightOr0 - r.heightOr0 = 2 ∨ l.heightOr0 - r.heightOr0 = -2) →
      (balance_step (node l r k v c h)).heightOr0 = max l.heightOr0 r.heightOr0 ∧
      (balance_step (node l r k v c h)).balanceFactor = 0) ∧
    ((-1 ≤ l.heightOr0 - r.heightOr0 ∧ l.heightOr0 - r.heightOr0 ≤ 1) →
      (balance_step (node l r k v c h)).heightOr0 = max l.heightOr0 r.heightOr0 + 1 ∧
      (balance_step (node l r k v c h)).balanceFactor = l.heightOr0 - r.heightOr0) := by
  have hln := CacheBalanced.height_nonneg l hl
  have hrn := CacheBalanced.height_nonneg r hr
  rcases Int.lt_or_le (l.heightOr0 - r.heightOr0) 2 with hlt | hge
  · rcases Int.lt_or_le (-2) (l.heightOr0 - r.heightOr0) with hgt | hle
    · -- no rotation
      have e : balance_step (node l r k v c h) = updateValues (node l r k v c h) := by
        unfold balance_step
        simp only [updateValues_node, balanceFactor_node, heightOr0_node]
        rw [if_neg (by omega), if_neg (by omega), if_neg (by omega), if_neg (by omega)]
      rw [e]
      simp only [updateValues_node, cacheBalanced_node, heightOr0_node, countOr0_node,
        balanceFactor_node]
      refine ⟨⟨hl, hr, by omega, by omega, trivial, trivial⟩, trivial, fun h => by omega,
        fun _ => ⟨trivial, trivial⟩⟩
    · -- the right child is taller by two
      have hd : l.heightOr0 - r.heightOr0 = -2 := by omega
      have hbr := htr hd
      cases r with
      | null => simp only [heightOr0_node, heightOr0_null] at hd; omega
      | node rl rr rk rv rc rh =>
          obtain ⟨hrl, hrr, b1, b2, hrh, hrc⟩ := hr
          have hrln := CacheBalanced.height_nonneg rl hrl
          have hrrn := CacheBalanced.height_nonneg rr hrr
          simp only [heightOr0_node, heightOr0_null] at hd hrn
          simp only [balanceFactor_node] at hbr
          rcases Int.lt_or_le (rl.heightOr0 - rr.heightOr0) 0 with hneg | hpos
          · -- single left rotation
            have e : balance_step (node l (node rl rr rk rv rc rh) k v c h)
                = left_rotate (updateValues (node l (node rl rr rk rv rc rh) k v c h)) := by
              unfold balance_step
              simp only [updateValues_node, balanceFactor_node, heightOr0_node, getRight_node, getLeft_node]
              rw [if_neg (by omega), if_neg (by omega), if_pos (by omega)]
            rw [e]
            simp only [updateValues_node, left_rotate_node, cacheBalanced_node, heightOr0_node,
              countOr0_node, balanceFactor_node]
            refine ⟨⟨⟨hl, hrl, by omega, by omega, trivial, trivial⟩, hrr, by omega, by omega, trivial, trivial⟩,
              by omega, fun _ => ⟨by omega, by omega⟩, fun h => by omega⟩
          · -- double rotation
            cases rl with
            | null => simp only [heightOr0_node, heightOr0_null] at hpos hbr hrh; omega
            | node rll rlr rlk rlv rlc rlh =>
                obtain ⟨hrll, hrlr, b3, b4, hrlh, hrlc⟩ := hrl
                have hrlln := CacheBalanced.height_nonneg rll hrll
                have hrlrn := CacheBalanced.height_nonneg rlr hrlr
                simp only [heightOr0_node, heightOr0_null, countOr0_node] at hpos hbr hrh b1 b2 hrln hrc
                have e : balance_step
                    (node l (node (node rll rlr rlk rlv rlc rlh) rr rk rv rc rh) k v c h)
                    = left_rotate (setRight
                        (updateValues
                          (node l (node (node rll rlr rlk rlv rlc rlh) rr rk rv rc rh) k v c h))
                        (right_rotate (node (node rll rlr rlk rlv rlc rlh) rr rk rv rc rh))) := by
                  unfold balance_step
                  simp only [updateValues_node, balanceFactor_node, heightOr0_node, getRight_node, getLeft_node]
                  rw [if_neg (by omega), if_neg (by omega), if_neg (by omega), if_pos (by omega)]
                rw [e]
                simp only [updateValues_node, left_rotate_node, right_rotate_node, setRight_node,
                  cacheBalanced_node, heightOr0_node, countOr0_node, balanceFactor_node]
                refine ⟨⟨⟨hl, hrll, by omega, by omega, trivial, trivial⟩,
                  ⟨hrlr, hrr, by omega, by omega, trivial, trivial⟩, by omega, by omega, trivial, trivial⟩,
                  by omega, fun _ => ⟨by omega, by omega⟩, fun h => by omega⟩
  · -- the left child is taller by two
    have hd : l.heightOr0 - r.heightOr0 = 2 := by omega
    have hbl := htl hd
    cases l with
    | null => simp only [heightOr0_node, heightOr0_null] at hd; omega
    | node ll lr lk lv lc lh =>
        obtain ⟨hll, hlr, b1, b2, hlh, hlc⟩ := hl
        have hlln := CacheBalanced.height_nonneg ll hll
        have hlrn := CacheBalanced.height_nonneg lr hlr
        simp only [heightOr0_node, heightOr0_null] at hd hln
        simp only [balanceFactor_node] at hbl
        rcases Int.lt_or_le 0 (ll.heightOr0 - lr.heightOr0) with hpos | hneg
        · -- single right rotation
          have e : balance_step (node (node ll lr lk lv lc lh) r k v c h)
              = right_rotate (updateValues (node (node ll lr lk lv lc lh) r k v c h)) := by
            unfold balance_step
            simp only [updateValues_node, balanceFactor_node, heightOr0_node, getRight_node, getLeft_node]
            rw [if_pos ⟨by omega, by omega⟩]
          rw [e]
          simp only [updateValues_node, right_rotate_node, cacheBalanced_node, heightOr0_node,
            countOr0_node, balanceFactor_node]
          refine ⟨⟨hll, ⟨hlr, hr, by omega, by omega, trivial, trivial⟩, by omega, by omega, trivial, trivial⟩,
            by omega, fun _ => ⟨by omega, by omega⟩, fun h => by omega⟩
        · -- double rotation
          cases lr with
          | null => simp only [heightOr0_node, heightOr0_null] at hneg hbl hlh; omega
          | node lrl lrr lrk lrv lrc lrh =>
              obtain ⟨hlrl, hlrr, b3, b4, hlrh, hlrc⟩ := hlr
              have hlrln := CacheBalanced.height_nonneg lrl hlrl
              have hlrrn := CacheBalanced.height_nonneg lrr hlrr
              simp only [heightOr0_node, heightOr0_null, countOr0_node] at hneg hbl hlh b1 b2 hlrn hlc
              have e : balance_step
                  (node (node ll (node lrl lrr lrk lrv lrc lrh) lk lv lc lh) r k v c h)
                  = right_rotate (setLeft
                      (updateValues
                        (node (node ll (node lrl lrr lrk lrv lrc lrh) lk lv lc lh) r k v c h))
                      (left_rotate (node ll (node lrl lrr lrk lrv lrc lrh) lk lv lc lh))) := by
                unfold balance_step
                simp only [updateValues_node, balanceFactor_node, heightOr0_node, getRight_node, getLeft_node]
                rw [if_neg (by omega), if_pos (by omega)]
              rw [e]
              simp only [updateValues_node, left_rotate_node, right_rotate_node, setLeft_node,
                cacheBalanced_node, heightOr0_node, countOr0_node, balanceFactor_node]
              refine ⟨⟨⟨hll, hlrl, by omega, by omega, trivial, trivial⟩,
                ⟨hlrr, hr, by omega, by omega, trivial, trivial⟩, by omega, by omega, trivial, trivial⟩,
                by omega, fun _ => ⟨by omega, by omega⟩, fun h => by omega⟩

theorem insert_walk_slot (key value : Str) : ∀ (t : AVLTreeNode) (s : Slot),
    insert_walk key value t s =
      ((insert_walk key value t []).1,
        (insert_walk key value t []).2.1.map (fun p => s ++ p),
        (insert_walk key value t []).2.2) := by
  intro t
  induction t with
  | null => intro s; simp [insert_walk]
  | node l r k v c h ihl ihr =>
      intro s
      by_cases heq : k = key
      · simp [insert_walk, heq]
      · by_cases hgt : k > key
        · simp only [insert_walk, if_neg heq, if_pos hgt]
          rw [ihl (s ++ [Side.left]), ihl ([] ++ [Side.left])]
          simp [List.map_map, Function.comp_def]
        · simp only [insert_walk, if_neg heq, if_neg hgt]
          rw [ihr (s ++ [Side.right]), ihr ([] ++ [Side.right])]
          simp [List.map_map, Function.comp_def]

theorem foldl_modifyAt_left (f : AVLTreeNode → AVLTreeNode) (r : AVLTreeNode) (k v : Str)
    (c h : Int) : ∀ (Q : List Slot) (l : AVLTreeNode),
    (Q.map (fun p => [Side.left] ++ p)).foldl (fun t i => modifyAt f i t) (node l r k v c h)
      = node (Q.foldl (fun t i => modifyAt f i t) l) r k v c h := by
  intro Q
  induction Q with
  | nil => intro l; rfl
  | cons q Q ih =>
      intro l
      simp only [List.map_cons, List.foldl_cons, List.singleton_append, modifyAt]
      exact ih _

theorem foldl_modifyAt_right (f : AVLTreeNode → AVLTreeNode) (l : AVLTreeNode) (k v : Str)
    (c h : Int) : ∀ (Q : List Slot) (r : AVLTreeNode),
    (Q.map (fun p => [Side.right] ++ p)).foldl (fun t i => modifyAt f i t) (node l r k v c h)
      = node l (Q.foldl (fun t i => modifyAt f i t) r) k v c h := by
  intro Q
  induction Q with
  | nil => intro r; rfl
  | cons q Q ih =>
      intro r
      simp only [List.map_cons, List.foldl_cons, List.singleton_append, modifyAt]
      exact ih _

theorem balance_cons_left (P : List Slot) (l r : AVLTreeNode) (k v : Str) (c h : Int) :
    balance ([] :: P.map (fun p => [Side.left] ++ p)) (node l r k v c h)
      = balance_step (node (balance P l) r k v c h) := by
  unfold balance
  rw [List.reverse_cons, List.foldl_append, ← List.map_reverse, foldl_modifyAt_left]
  rfl

theorem balance_cons_right (P : List Slot) (l r : AVLTreeNode) (k v : Str) (c h : Int) :
    balance ([] :: P.map (fun p => [Side.right] ++ p)) (node l r k v c h)
      = balance_step (node l (balance P r) k v c h) := by
  unfold balance
  rw [List.reverse_cons, List.foldl_append, ← List.map_reverse, foldl_modifyAt_right]
  rfl

/-- The subtree that `insert` leaves in place of `t` when it creates a node: the descent and
the loop of `balance` over the slots of the path. -/
theorem insert_balance_null (key value : Str) :
    balance (insert_walk key value null []).2.1 (insert_walk key value null []).1
      = balance_step (node null null key value 1 1) := rfl

theorem insert_balance_left (key value : Str) (l r : AVLTreeNode) (k v : Str) (c h : Int)
    (heq : k ≠ key) (hgt : k > key) :
    balance (insert_walk key value (node l r k v c h) []).2.1
        (insert_walk key value (node l r k v c h) []).1
      = balance_step (node
          (balance (insert_walk key value l []).2.1 (insert_walk key value l []).1)
          r k v c h) := by
  simp only [insert_walk, if_neg heq, if_pos hgt]
  rw [insert_walk_slot key value l ([] ++ [Side.left])]
  exact balance_cons_left _ _ _ _ _ _ _

theorem insert_balance_right (key value : Str) (l r : AVLTreeNode) (k v : Str) (c h : Int)
    (heq : k ≠ key) (hgt : ¬ k > key) :
    balance (insert_walk key value (node l r k v c h) []).2.1
        (insert_walk key value (node l r k v c h) []).1
      = balance_step (node l
          (balance (insert_walk key value r []).2.1 (insert_walk key value r []).1)
          k v c h) := by
  simp only [insert_walk, if_neg heq, if_neg hgt]
  rw [insert_walk_slot key value r ([] ++ [Side.right])]
  exact balance_cons_right _ _ _ _ _ _ _

theorem insert_walk_created_left (key value : Str) (l r : AVLTreeNode) (k v : Str) (c h : Int)
    (heq : k ≠ key) (hgt : k > key) :
    (insert_walk key value (node l r k v c h) []).2.2 = (insert_walk key value l []).2.2 := by
  simp only [insert_walk, if_neg heq, if_pos hgt]
  rw [insert_walk_slot key value l ([] ++ [Side.left])]

theorem insert_walk_created_right (key value : Str) (l r : AVLTreeNode) (k v : Str) (c h : Int)
    (heq : k ≠ key) (hgt : ¬ k > key) :
    (insert_walk key value (node l r k v c h) []).2.2 = (insert_walk key value r []).2.2 := by
  simp only [insert_walk, if_neg heq, if_neg hgt]
  rw [insert_walk_slot key value r ([] ++ [Side.right])]

/-- An insert that creates a node leaves a balanced subtree with one node more; its height is
the same or one more, and when it is one more the subtree was empty or its new root is not
evenly balanced. -/
theorem insert_balance_spec (key value : Str) : ∀ (t : AVLTreeNode), t.CacheBalanced →
    (insert_walk key value t []).2.2 = true →
    (balance (insert_walk key value t []).2.1 (insert_walk key value t []).1).CacheBalanced ∧
    (balance (insert_walk key value t []).2.1 (insert_walk key value t []).1).countOr0
      = t.countOr0 + 1 ∧
    ((balance (insert_walk key value t []).2.1 (insert_walk key value t []).1).heightOr0
        = t.heightOr0 ∨
      ((balance (insert_walk key value t []).2.1 (insert_walk key value t []).1).heightOr0
        = t.heightOr0 + 1 ∧
        (t = null ∨
          (balance (insert_walk key value t []).2.1
            (insert_walk key value t []).1).balanceFactor ≠ 0))) := by
  intro t
  induction t with
  | null =>
      intro _ _
      rw [insert_balance_null]
      obtain ⟨h1, h2, _, h4⟩ := balance_step_spec null null key value 1 1 trivial trivial
        (by simp [heightOr0_null]) (by simp [heightOr0_null])
        (by simp [heightOr0_null]) (by simp [heightOr0_null])
      obtain ⟨h5, _⟩ := h4 (by simp [heightOr0_null])
      simp only [heightOr0_null, countOr0_null] at h2 h5 ⊢
      refine ⟨h1, by omega, Or.inr ⟨by rw [h5]; rfl, Or.inl trivial⟩⟩
  | node l r k v c h ihl ihr =>
      intro hb hcr
      obtain ⟨hl, hr, b1, b2, hh, hc⟩ := hb
      have hln := CacheBalanced.height_nonneg l hl
      have hrn := CacheBalanced.height_nonneg r hr
      by_cases heq : k = key
      · simp [insert_walk, heq] at hcr
      · by_cases hgt : k > key
        · rw [insert_walk_created_left key value l r k v c h heq hgt] at hcr
          obtain ⟨i1, i2, i3⟩ := ihl hl hcr
          rw [insert_balance_left key value l r k v c h heq hgt]
          generalize balance (insert_walk key value l []).2.1 (insert_walk key value l []).1
            = L at i1 i2 i3 ⊢
          obtain ⟨s1, s2, s3, s4⟩ := balance_step_spec L r k v c h i1 hr (by omega) (by omega)
            (by
              intro hd
              rcases i3 with i3 | ⟨i3, i4 | i4⟩
              · omega
              · subst i4
                simp only [heightOr0_null] at i3
                omega
              · exact i4)
            (by intro hd; omega)
          simp only [heightOr0_node, countOr0_node]
          refine ⟨s1, by omega, ?_⟩
          by_cases hd : L.heightOr0 - r.heightOr0 = 2
          · obtain ⟨s5, s6⟩ := s3 (Or.inl hd)
            left
            omega
          · obtain ⟨s5, s6⟩ := s4 ⟨by omega, by omega⟩
            by_cases hsame : L.heightOr0 = l.heightOr0
            · left; omega
            · by_cases hlr : l.heightOr0 ≥ r.heightOr0
              · right
                exact ⟨by omega, Or.inr (by omega)⟩
              · left; omega
        · rw [insert_walk_created_right key value l r k v c h heq hgt] at hcr
          obtain ⟨i1, i2, i3⟩ := ihr hr hcr
          rw [insert_balance_right key value l r k v c h heq hgt]
          generalize balance (insert_walk key value r []).2.1 (insert_walk key value r []).1
            = R at i1 i2 i3 ⊢
          obtain ⟨s1, s2, s3, s4⟩ := balance_step_spec l R k v c h hl i1 (by omega) (by omega)
            (by intro hd; omega)
            (by
              intro hd
              rcases i3 with i3 | ⟨i3, i4 | i4⟩
              · omega
              · subst i4
                simp only [heightOr0_null] at i3
                omega
              · exact i4)
          simp only [heightOr0_node, countOr0_node]
          refine ⟨s1, by omega, ?_⟩
          by_cases hd : l.heightOr0 - R.heightOr0 = -2
          · obtain ⟨s5, s6⟩ := s3 (Or.inr hd)
            left
            omega
          · obtain ⟨s5, s6⟩ := s4 ⟨by omega, by omega⟩
            by_cases hsame : R.heightOr0 = r.heightOr0
            · left; omega
            · by_cases hlr : r.heightOr0 ≥ l.heightOr0
              · right
                exact ⟨by omega, Or.inr (by omega)⟩
              · left; omega

/-- An insert that finds the key overwrites the value and leaves the shape and the cached
fields as they are. -/
theorem insert_walk_found_spec (key value : Str) : ∀ (t : AVLTreeNode), t.CacheBalanced →
    (insert_walk key value t []).2.2 = false →
    (insert_walk key value t []).1.CacheBalanced ∧
    (insert_walk key value t []).1.heightOr0 = t.heightOr0 ∧
    (insert_walk key value t []).1.countOr0 = t.countOr0 := by
  intro t
  induction t with
  | null => intro _ h; simp [insert_walk] at h
  | node l r k v c h ihl ihr =>
      intro hb hcr
      obtain ⟨hl, hr, b1, b2, hh, hc⟩ := hb
      by_cases heq : k = key
      · simp only [insert_walk, if_pos heq]
        exact ⟨⟨hl, hr, b1, b2, hh, hc⟩, rfl, rfl⟩
      · by_cases hgt : k > key
        · rw [insert_walk_created_left key value l r k v c h heq hgt] at hcr
          obtain ⟨i1, i2, i3⟩ := ihl hl hcr
          simp only [insert_walk, if_neg heq, if_pos hgt]
          rw [insert_walk_slot key value l ([] ++ [Side.left])]
          simp only [cacheBalanced_node, heightOr0_node, countOr0_node]
          rw [i2, i3]
          exact ⟨⟨i1, hr, b1, b2, hh, hc⟩, trivial, trivial⟩
        · rw [insert_walk_created_right key value l r k v c h heq hgt] at hcr
          obtain ⟨i1, i2, i3⟩ := ihr hr hcr
          simp only [insert_walk, if_neg heq, if_neg hgt]
          rw [insert_walk_slot key value r ([] ++ [Side.right])]
          simp only [cacheBalanced_node, heightOr0_node, countOr0_node]
          rw [i2, i3]
          exact ⟨⟨hl, i1, b1, b2, hh, hc⟩, trivial, trivial⟩

theorem AVLTree.insert_cacheBalanced (t : AVLTree) (key value : Str)
    (h : t.root.CacheBalanced) : (t.insert key value).root.CacheBalanced := by
  unfold AVLTree.insert
  simp only
  cases hcr : (insert_walk key value t.root []).2.2 with
  | true => exact (insert_balance_spec key value t.root h hcr).1
  | false => exact (insert_walk_found_spec key value t.root h hcr).1

theorem AVLTree.insertAll_cacheBalanced (t : AVLTree) (kvs : List (Str × Str))
    (h : t.root.CacheBalanced) : (t.insertAll kvs).root.CacheBalanced := by
  induction kvs using List.reverseRecOn with
  | nil => exact h
  | append_singleton kvs p ih =>
      rw [AVLTree.insertAll_append]
      exact AVLTree.insert_cacheBalanced _ p.1 p.2 ih

theorem AVLTree.insertAll_heightBalanced (kvs : List (Str × Str)) :
    (AVLTree.empty.insertAll kvs).root.HeightBalanced :=
  CacheBalanced.heightBalanced _ (AVLTree.insertAll_cacheBalanced AVLTree.empty kvs trivial)

/-! ## The height of a balanced tree -/

theorem subtreeSize_eq_length : ∀ (t : AVLTreeNode),
    t.subtreeSize = t.inOrderTraversal.length := by
  intro t
  induction t with
  | null => rfl
  | node l r k v c h ihl ihr =>
      simp only [subtreeSize, inOrderTraversal, List.length_append, List.length_cons, ihl, ihr]
      omega

/-- A height-balanced subtree of height `h` has at least `Fib(h + 2) - 1` nodes. -/
theorem HeightBalanced.fib_le : ∀ (t : AVLTreeNode), t.HeightBalanced →
    Nat.fib (t.subtreeHeight + 2) ≤ t.subtreeSize + 1 := by
  intro t
  induction t with
  | null => intro _; decide
  | node l r k v c h ihl ihr =>
      intro hb
      obtain ⟨hl, hr, b1, b2, _, _⟩ := hb
      have h1 := ihl hl
      have h2 := ihr hr
      obtain ⟨e1, _⟩ := HeightBalanced.cached_eq_true l hl
      obtain ⟨e2, _⟩ := HeightBalanced.cached_eq_true r hr
      simp only [balanceFactor_node] at b1 b2
      simp only [subtreeHeight, subtreeSize]
      rcases Nat.le_total l.subtreeHeight r.subtreeHeight with hle | hle
      · have hm : max l.subtreeHeight r.subtreeHeight = r.subtreeHeight := by omega
        rw [hm, show r.subtreeHeight + 1 + 2 = (r.subtreeHeight + 1) + 2 by rfl, Nat.fib_add_two]
        have h3 : Nat.fib (r.subtreeHeight + 1) ≤ Nat.fib (l.subtreeHeight + 2) :=
          Nat.fib_mono (by omega)
        have h4 : Nat.fib (r.subtreeHeight + 1 + 1) = Nat.fib (r.subtreeHeight + 2) := rfl
        omega
      · have hm : max l.subtreeHeight r.subtreeHeight = l.subtreeHeight := by omega
        rw [hm, show l.subtreeHeight + 1 + 2 = (l.subtreeHeight + 1) + 2 by rfl, Nat.fib_add_two]
        have h3 : Nat.fib (l.subtreeHeight + 1) ≤ Nat.fib (r.subtreeHeight + 2) :=
          Nat.fib_mono (by omega)
        have h4 : Nat.fib (l.subtreeHeight + 1 + 1) = Nat.fib (l.subtreeHeight + 2) := rfl
        omega

theorem two_pow_half_le_fib : ∀ h : Nat, 2 ^ (h / 2) ≤ Nat.fib (h + 2) := by
  have key : ∀ k : Nat, 2 ^ k ≤ Nat.fib (2 * k + 2) := by
    intro k
    induction k with
    | zero => decide
    | succ k ih =>
        have e : 2 * (k + 1) + 2 = (2 * k + 2) + 2 := by omega
        rw [e, Nat.fib_add_two, pow_succ]
        have : Nat.fib (2 * k + 2) ≤ Nat.fib (2 * k + 2 + 1) := Nat.fib_mono (by omega)
        omega
  intro h
  have h1 := key (h / 2)
  have h2 : Nat.fib (2 * (h / 2) + 2) ≤ Nat.fib (h + 2) := Nat.fib_mono (by omega)
  omega

theorem find_visits_le (key : Str) : ∀ (t : AVLTreeNode),
    find_visits key t ≤ t.subtreeHeight := by
  intro t
  induction t with
  | null => exact Nat.le_refl _
  | node l r k v c h ihl ihr =>
      simp only [find_visits, subtreeHeight]
      split
      · omega
      · split <;> omega

theorem insert_walk_path_le (key value : Str) : ∀ (t : AVLTreeNode),
    (insert_walk key value t []).2.1.length ≤ t.subtreeHeight + 1 := by
  intro t
  induction t with
  | null => exact Nat.le_refl _
  | node l r k v c h ihl ihr =>
      by_cases heq : k = key
      · simp only [insert_walk, if_pos heq, subtreeHeight, List.length_singleton]
        omega
      · by_cases hgt : k > key
        · simp only [insert_walk, if_neg heq, if_pos hgt, subtreeHeight, List.length_cons]
          rw [insert_walk_slot key value l ([] ++ [Side.left])]
          simp only [List.length_map]
          omega
        · simp only [insert_walk, if_neg heq, if_neg hgt, subtreeHeight, List.length_cons]
          rw [insert_walk_slot key value r ([] ++ [Side.right])]
          simp only [List.length_map]
          omega

/-! ## Rank access -/

/-- On a subtree whose nodes cache their counts, the loop of `operator[]` returns the value
of the pair at the index in key order. -/
theorem subscript_loop_spec : ∀ (t : AVLTreeNode), t.CacheBalanced →
    ∀ (idx : Nat) (p : Str × Str), t.inOrderTraversal[idx]? = some p →
    subscript_loop t (idx : Int) = Except.ok p.2 := by
  intro t
  induction t with
  | null => intro _ idx p h; simp [inOrderTraversal] at h
  | node l r k v c h ihl ihr =>
      intro hb idx p hp
      obtain ⟨hl, hr, _, _, _, _⟩ := hb
      obtain ⟨_, hcl⟩ := CacheBalanced.cached_values l hl
      rw [subtreeSize_eq_length] at hcl
      simp only [inOrderTraversal] at hp
      unfold subscript_loop
      rcases Nat.lt_trichotomy idx l.inOrderTraversal.length with hlt | heq | hgt
      · rw [if_neg (by omega), if_neg (by omega)]
        rw [List.getElem?_append_left hlt] at hp
        exact ihl hl idx p hp
      · rw [if_pos (by omega)]
        rw [List.getElem?_append_right (by omega), heq, Nat.sub_self] at hp
        simp only [List.getElem?_cons_zero, Option.some.injEq] at hp
        rw [← hp]
      · rw [if_neg (by omega), if_pos (by omega)]
        rw [List.getElem?_append_right (by omega)] at hp
        obtain ⟨j, hj⟩ : ∃ j, idx - l.inOrderTraversal.length = j + 1 :=
          ⟨idx - l.inOrderTraversal.length - 1, by omega⟩
        rw [hj, List.getElem?_cons_succ] at hp
        have e : (idx : Int) - (l.countOr0 + 1) = (j : Int) := by omega
        rw [e]
        exact ihr hr j p hp

/-! ## The rotations of an insert dereference no null pointer -/

/-- Under the conditions of `balance_step_spec` the loop body of `balance` dereferences no
null pointer: the rotated child and, for a double rotation, its inner grandchild exist. -/
theorem balance_step_checked_eq (l r : AVLTreeNode) (k v : Str) (c h : Int)
    (hl : l.CacheBalanced) (hr : r.CacheBalanced)
    (hd1 : -2 ≤ l.heightOr0 - r.heightOr0) (hd2 : l.heightOr0 - r.heightOr0 ≤ 2)
    (htl : l.heightOr0 - r.heightOr0 = 2 → l.balanceFactor ≠ 0)
    (htr : l.heightOr0 - r.heightOr0 = -2 → r.balanceFactor ≠ 0) :
    balance_step_checked (node l r k v c h) = Except.ok (balance_step (node l r k v c h)) := by
  have hln := CacheBalanced.height_nonneg l hl
  have hrn := CacheBalanced.height_nonneg r hr
  rcases Int.lt_or_le (l.heightOr0 - r.heightOr0) 2 with hlt | hge
  · rcases Int.lt_or_le (-2) (l.heightOr0 - r.heightOr0) with hgt | hle
    · unfold balance_step_checked balance_step
      simp only [updateValues_node, balanceFactor_node, heightOr0_node]
      rw [if_neg (by omega), if_neg (by omega), if_neg (by omega), if_neg (by omega),
        if_neg (by omega), if_neg (by omega)]
    · have hd : l.heightOr0 - r.heightOr0 = -2 := by omega
      have hbr := htr hd
      cases r with
      | null => simp only [heightOr0_node, heightOr0_null] at hd; omega
      | node rl rr rk rv rc rh =>
          obtain ⟨hrl, hrr, b1, b2, hrh, hrc⟩ := hr
          have hrln := CacheBalanced.height_nonneg rl hrl
          have hrrn := CacheBalanced.height_nonneg rr hrr
          simp only [heightOr0_node, heightOr0_null] at hd hrn
          simp only [balanceFactor_node] at hbr
          rcases Int.lt_or_le (rl.heightOr0 - rr.heightOr0) 0 with hneg | hpos
          · unfold balance_step_checked balance_step
            simp only [updateValues_node, balanceFactor_node, heightOr0_node, getRight_node,
              getLeft_node]
            rw [if_neg (by omega), if_pos (by omega), if_pos (by omega), if_neg (by omega),
              if_neg (by omega), if_pos (by omega)]
            rfl
          · cases rl with
            | null => simp only [heightOr0_node, heightOr0_null] at hpos hbr hrh; omega
            | node rll rlr rlk rlv rlc rlh =>
                simp only [heightOr0_node, heightOr0_null] at hpos hbr hrh b1 b2 hrln
                unfold balance_step_checked balance_step
                simp only [updateValues_node, balanceFactor_node, heightOr0_node, getRight_node,
                  getLeft_node]
                rw [if_neg (by omega), if_pos (by omega), if_neg (by omega), if_neg (by omega),
                  if_neg (by omega), if_neg (by omega), if_pos (by omega)]
                rfl
  · have hd : l.heightOr0 - r.heightOr0 = 2 := by omega
    have hbl := htl hd
    cases l with
    | null => simp only [heightOr0_node, heightOr0_null] at hd; omega
    | node ll lr lk lv lc lh =>
        obtain ⟨hll, hlr, b1, b2, hlh, hlc⟩ := hl
        have hlln := CacheBalanced.height_nonneg ll hll
        have hlrn := CacheBalanced.height_nonneg lr hlr
        simp only [heightOr0_node, heightOr0_null] at hd hln
        simp only [balanceFactor_node] at hbl
        rcases Int.lt_or_le 0 (ll.heightOr0 - lr.heightOr0) with hpos | hneg
        · unfold balance_step_checked balance_step
          simp only [updateValues_node, balanceFactor_node, heightOr0_node, getRight_node,
            getLeft_node]
          rw [if_pos (by omega), if_pos (by omega), if_pos ⟨by omega, by omega⟩]
          rfl
        · cases lr with
          | null => simp only [heightOr0_node, heightOr0_null] at hneg hbl hlh; omega
          | node lrl lrr lrk lrv lrc lrh =>
              simp only [heightOr0_node, heightOr0_null] at hneg hbl hlh b1 b2 hlrn
              unfold balance_step_checked balance_step
              simp only [updateValues_node, balanceFactor_node, heightOr0_node, getRight_node,
                getLeft_node]
              rw [if_pos (by omega), if_neg (by omega), if_neg (by omega), if_pos (by omega)]
              rfl

theorem balance_loop_checked_append : ∀ (A B : List Slot) (t : AVLTreeNode),
    balance_loop_checked (A ++ B) t =
      match balance_loop_checked A t with
      | Except.error e => Except.error e
      | Except.ok t2 => balance_loop_checked B t2 := by
  intro A
  induction A with
  | nil => intro B t; rfl
  | cons a A ih =>
      intro B t
      simp only [List.cons_append, balance_loop_checked]
      cases modifyAt_checked balance_step_checked a t with
      | error e => rfl
      | ok t2 => exact ih B t2

theorem balance_loop_checked_left (r : AVLTreeNode) (k v : Str) (c h : Int) :
    ∀ (Q : List Slot) (l : AVLTreeNode),
    balance_loop_checked (Q.map (fun p => [Side.left] ++ p)) (node l r k v c h) =
      match balance_loop_checked Q l with
      | Except.error e => Except.error e
      | Except.ok l2 => Except.ok (node l2 r k v c h) := by
  have e : (fun p : Slot => [Side.left] ++ p) = fun p => Side.left :: p := rfl
  rw [e]
  intro Q
  induction Q with
  | nil => intro l; rfl
  | cons q Q ih =>
      intro l
      rw [List.map_cons]
      show (match (match modifyAt_checked balance_step_checked q l with
          | Except.error e => Except.error e
          | Except.ok x => Except.ok (node x r k v c h)) with
        | Except.error e => Except.error e
        | Except.ok root2 =>
            balance_loop_checked (List.map (fun p => Side.left :: p) Q) root2) = _
      rw [balance_loop_checked]
      cases modifyAt_checked balance_step_checked q l with
      | error e => rfl
      | ok l2 => exact ih l2

theorem balance_loop_checked_right (l : AVLTreeNode) (k v : Str) (c h : Int) :
    ∀ (Q : List Slot) (r : AVLTreeNode),
    balance_loop_checked (Q.map (fun p => [Side.right] ++ p)) (node l r k v c h) =
      match balance_loop_checked Q r with
      | Except.error e => Except.error e
      | Except.ok r2 => Except.ok (node l r2 k v c h) := by
  have e : (fun p : Slot => [Side.right] ++ p) = fun p => Side.right :: p := rfl
  rw [e]
  intro Q
  induction Q with
  | nil => intro r; rfl
  | cons q Q ih =>
      intro r
      rw [List.map_cons]
      show (match (match modifyAt_checked balance_step_checked q r with
          | Except.error e => Except.error e
          | Except.ok x => Except.ok (node l x k v c h)) with
        | Except.error e => Except.error e
        | Except.ok root2 =>
            balance_loop_checked (List.map (fun p => Side.right :: p) Q) root2) = _
      rw [balance_loop_checked]
      cases modifyAt_checked balance_step_checked q r with
      | error e => rfl
      | ok r2 => exact ih r2

theorem balance_checked_cons_left (P : List Slot) (l r : AVLTreeNode) (k v : Str) (c h : Int) :
    balance_checked ([] :: P.map (fun p => [Side.left] ++ p)) (node l r k v c h) =
      match balance_checked P l with
      | Except.error e => Except.error e
      | Except.ok l2 => balance_step_checked (node l2 r k v c h) := by
  unfold balance_checked
  rw [List.reverse_cons, balance_loop_checked_append, ← List.map_reverse,
    balance_loop_checked_left]
  cases balance_loop_checked P.reverse l with
  | error e => rfl
  | ok l2 =>
      simp only [balance_loop_checked, modifyAt_checked]
      cases balance_step_checked (node l2 r k v c h) <;> rfl

theorem balance_checked_cons_right (P : List Slot) (l r : AVLTreeNode) (k v : Str) (c h : Int) :
    balance_checked ([] :: P.map (fun p => [Side.right] ++ p)) (node l r k v c h) =
      match balance_checked P r with
      | Except.error e => Except.error e
      | Except.ok r2 => balance_step_checked (node l r2 k v c h) := by
  unfold balance_checked
  rw [List.reverse_cons, balance_loop_checked_append, ← List.map_reverse,
    balance_loop_checked_right]
  cases balance_loop_checked P.reverse r with
  | error e => rfl
  | ok r2 =>
      simp only [balance_loop_checked, modifyAt_checked]
      cases balance_step_checked (node l r2 k v c h) <;> rfl

theorem insert_balance_checked_left (key value : Str) (l r : AVLTreeNode) (k v : Str)
    (c h : Int) (heq : k ≠ key) (hgt : k > key) :
    balance_checked (insert_walk key value (node l r k v c h) []).2.1
        (insert_walk key value (node l r k v c h) []).1
      = match balance_checked (insert_walk key value l []).2.1 (insert_walk key value l []).1 with
        | Except.error e => Except.error e
        | Except.ok l2 => balance_step_checked (node l2 r k v c h) := by
  simp only [insert_walk, if_neg heq, if_pos hgt]
  rw [insert_walk_slot key value l ([] ++ [Side.left])]
  exact balance_checked_cons_left _ _ _ _ _ _ _

theorem insert_balance_checked_right (key value : Str) (l r : AVLTreeNode) (k v : Str)
    (c h : Int) (heq : k ≠ key) (hgt : ¬ k > key) :
    balance_checked (insert_walk key value (node l r k v c h) []).2.1
        (insert_walk key value (node l r k v c h) []).1
      = match balance_checked (insert_walk key value r []).2.1 (insert_walk key value r []).1 with
        | Except.error e => Except.error e
        | Except.ok r2 => balance_step_checked (node l r2 k v c h) := by
  simp only [insert_walk, if_neg heq, if_neg hgt]
  rw [insert_walk_slot key value r ([] ++ [Side.right])]
  exact balance_checked_cons_right _ _ _ _ _ _ _

/-- An insert that creates a node dereferences no null pointer in `balance`: the loop with
every dereference explicit returns what the loop of the embedding returns. -/
theorem insert_balance_checked (key value : Str) : ∀ (t : AVLTreeNode), t.CacheBalanced →
    (insert_walk key value t []).2.2 = true →
    balance_checked (insert_walk key value t []).2.1 (insert_walk key value t []).1
      = Except.ok (balance (insert_walk key value t []).2.1 (insert_walk key value t []).1) := by
  intro t
  induction t with
  | null =>
      intro _ _
      exact balance_step_checked_eq null null key value 1 1 trivial trivial
        (by simp [heightOr0_null]) (by simp [heightOr0_null])
        (by simp [heightOr0_null]) (by simp [heightOr0_null])
  | node l r k v c h ihl ihr =>
      intro hb hcr
      obtain ⟨hl, hr, b1, b2, hh, hc⟩ := hb
      have hln := CacheBalanced.height_nonneg l hl
      have hrn := CacheBalanced.height_nonneg r hr
      by_cases heq : k = key
      · simp [insert_walk, heq] at hcr
      · by_cases hgt : k > key
        · rw [insert_walk_created_left key value l r k v c h heq hgt] at hcr
          obtain ⟨i1, i2, i3⟩ := insert_balance_spec key value l hl hcr
          have ic := ihl hl hcr
          rw [insert_balance_left key value l r k v c h heq hgt,
            insert_balance_checked_left key value l r k v c h heq hgt, ic]
          simp only
          generalize balance (insert_walk key value l []).2.1 (insert_walk key value l []).1
            = L at i1 i2 i3 ⊢
          exact balance_step_checked_eq L r k v c h i1 hr (by omega) (by omega)
            (by
              intro hd
              rcases i3 with i3 | ⟨i3, i4 | i4⟩
              · omega
              · subst i4
                simp only [heightOr0_null] at i3
                omega
              · exact i4)
            (by intro hd; omega)
        · rw [insert_walk_created_right key value l r k v c h heq hgt] at hcr
          obtain ⟨i1, i2, i3⟩ := insert_balance_spec key value r hr hcr
          have ic := ihr hr hcr
          rw [insert_balance_right key value l r k v c h heq hgt,
            insert_balance_checked_right key value l r k v c h heq hgt, ic]
          simp only
          generalize balance (insert_walk key value r []).2.1 (insert_walk key value r []).1
            = R at i1 i2 i3 ⊢
          exact balance_step_checked_eq l R k v c h hl i1 (by omega) (by omega)
            (by intro hd; omega)
            (by
              intro hd
              rcases i3 with i3 | ⟨i3, i4 | i4⟩
              · omega
              · subst i4
                simp only [heightOr0_null] at i3
                omega
              · exact i4)

end AVLHeight

/-! ## Removal from the memtable -/

theorem erase_walk_absent (key : Str) : ∀ (t : AVLTreeNode) (s : Slot),
    (AVLTreeNode.find key t).1 = false → AVLTreeNode.erase_walk key t s = none := by
  intro t
  induction t with
  | null => intro s _; rfl
  | node l r k v c h ihl ihr =>
      intro s hf
      by_cases heq : k = key
      · simp [AVLTreeNode.find, heq] at hf
      · by_cases hgt : k > key
        · simp only [AVLTreeNode.find, if_neg heq, if_pos hgt] at hf
          simp only [AVLTreeNode.erase_walk, if_pos heq, if_pos hgt, ihl _ hf]
        · simp only [AVLTreeNode.find, if_neg heq, if_neg hgt] at hf
          simp only [AVLTreeNode.erase_walk, if_pos heq, if_neg hgt, ihr _ hf]

/-- Erasing a key that the tree does not hold leaves the tree as it is. -/
theorem AVLTree.erase_absent (t : AVLTree) (key : Str) (h : (t.find key).1 = false) :
    t.erase key = Except.ok t := by
  unfold AVLTree.erase
  rw [erase_walk_absent key t.root [] h]

/-! ## What `erase` removes when it returns -/

section AVLErase
open AVLTreeNode

theorem left_rotate_checked_ok (t t2 : AVLTreeNode)
    (h : left_rotate_checked t = Except.ok t2) : t2 = left_rotate t := by
  unfold left_rotate_checked at h
  split at h
  · injection h with h; exact h.symm
  · cases h

theorem right_rotate_checked_ok (t t2 : AVLTreeNode)
    (h : right_rotate_checked t = Except.ok t2) : t2 = right_rotate t := by
  unfold right_rotate_checked at h
  split at h
  · injection h with h; exact h.symm
  · cases h

/-- When the loop body of `balance` dereferences no null pointer, it returns what the loop
body of the embedding returns. -/
theorem balance_step_checked_ok (t t2 : AVLTreeNode)
    (h : balance_step_checked t = Except.ok t2) : t2 = balance_step t := by
  cases t with
  | null => cases h
  | node l0 r0 k0 v0 c0 h0 =>
      unfold balance_step_checked at h
      unfold balance_step
      simp only [updateValues_node, balanceFactor_node, heightOr0_node, getLeft_node,
        getRight_node, setLeft_node, setRight_node] at h ⊢
      by_cases c1 : l0.heightOr0 - r0.heightOr0 ≥ 2
      · rw [if_pos c1] at h
        cases l0 with
        | null => cases h
        | node ll lr lk lv lc lh =>
            simp only [balanceFactor_node] at h ⊢
            by_cases c2 : ll.heightOr0 - lr.heightOr0 ≥ 1
            · rw [if_pos c2] at h
              rw [if_pos ⟨c1, c2⟩]
              exact right_rotate_checked_ok _ _ h
            · rw [if_neg c2] at h
              rw [if_neg (fun hc => c2 hc.2), if_pos c1]
              cases hlr : left_rotate_checked (node ll lr lk lv lc lh) with
              | error e => rw [hlr] at h; cases h
              | ok l2 =>
                  rw [hlr] at h
                  rw [← left_rotate_checked_ok _ _ hlr]
                  exact right_rotate_checked_ok _ _ h
      · rw [if_neg c1] at h
        rw [if_neg (fun hc => c1 hc.1), if_neg c1]
        by_cases c3 : l0.heightOr0 - r0.heightOr0 ≤ -2
        · rw [if_pos c3] at h
          cases r0 with
          | null => cases h
          | node rl rr rk rv rc rh =>
              simp only [balanceFactor_node] at h ⊢
              by_cases c4 : rl.heightOr0 - rr.heightOr0 ≤ -1
              · rw [if_pos c4] at h
                rw [if_pos ⟨c3, c4⟩]
                exact left_rotate_checked_ok _ _ h
              · rw [if_neg c4] at h
                rw [if_neg (fun hc => c4 hc.2), if_pos c3]
                cases hrl : right_rotate_checked (node rl rr rk rv rc rh) with
                | error e => rw [hrl] at h; cases h
                | ok r2 =>
                    rw [hrl] at h
                    rw [← right_rotate_checked_ok _ _ hrl]
                    exact left_rotate_checked_ok _ _ h
        · rw [if_neg c3] at h
          rw [if_neg (fun hc => c3 hc.1), if_neg c3]
          injection h with h
          exact h.symm

theorem modifyAt_checked_ok (fc : AVLTreeNode → Except MemoryFault AVLTreeNode)
    (f : AVLTreeNode → AVLTreeNode) (hf : ∀ t t2, fc t = Except.ok t2 → t2 = f t) :
    ∀ (s : Slot) (t t2 : AVLTreeNode), modifyAt_checked fc s t = Except.ok t2 →
      t2 = modifyAt f s t := by
  intro s
  induction s with
  | nil => intro t t2 h; exact hf t t2 h
  | cons d s ih =>
      intro t t2 h
      cases t with
      | null => simp only [modifyAt_checked] at h; cases h
      | node l r k v c hh =>
          cases d with
          | left =>
              simp only [modifyAt_checked] at h
              cases hm : modifyAt_checked fc s l with
              | error e => rw [hm] at h; cases h
              | ok l2 =>
                  rw [hm] at h
                  injection h with h
                  rw [← h, ih l l2 hm]
                  rfl
          | right =>
              simp only [modifyAt_checked] at h
              cases hm : modifyAt_checked fc s r with
              | error e => rw [hm] at h; cases h
              | ok r2 =>
                  rw [hm] at h
                  injection h with h
                  rw [← h, ih r r2 hm]
                  rfl

theorem balance_loop_checked_ok : ∀ (Q : List Slot) (t t2 : AVLTreeNode),
    balance_loop_checked Q t = Except.ok t2 →
    t2 = Q.foldl (fun t i => modifyAt balance_step i t) t := by
  intro Q
  induction Q with
  | nil => intro t t2 h; injection h with h; exact h.symm
  | cons q Q ih =>
      intro t t2 h
      simp only [balance_loop_checked] at h
      cases hm : modifyAt_checked balance_step_checked q t with
      | error e => rw [hm] at h; cases h
      | ok t1 =>
          rw [hm] at h
          rw [List.foldl_cons,
            ← modifyAt_checked_ok balance_step_checked balance_step balance_step_checked_ok
              q t t1 hm]
          exact ih t1 t2 h

/-- When `balance` dereferences no null pointer, it returns what the embedding returns. -/
theorem balance_checked_ok (path : List Slot) (root root2 : AVLTreeNode)
    (h : balance_checked path root = Except.ok root2) : root2 = balance path root :=
  balance_loop_checked_ok path.reverse root root2 h

theorem erase_walk_present (key : Str) : ∀ (t : AVLTreeNode) (s : Slot),
    (AVLTreeNode.find key t).1 = true → erase_walk key t s ≠ none := by
  intro t
  induction t with
  | null => intro s h; simp [AVLTreeNode.find] at h
  | node l r k v c h ihl ihr =>
      intro s hf
      by_cases heq : k = key
      · simp [erase_walk, heq]
      · by_cases hgt : k > key
        · simp only [AVLTreeNode.find, if_neg heq, if_pos hgt] at hf
          have := ihl (s ++ [Side.left]) hf
          simp only [erase_walk, if_pos heq, if_pos hgt]
          cases hw : erase_walk key l (s ++ [Side.left]) with
          | none => exact absurd hw this
          | some p => simp
        · simp only [AVLTreeNode.find, if_neg heq, if_neg hgt] at hf
          have := ihr (s ++ [Side.right]) hf
          simp only [erase_walk, if_pos heq, if_neg hgt]
          cases hw : erase_walk key r (s ++ [Side.right]) with
          | none => exact absurd hw this
          | some p => simp

/-- The descent of `erase` ends at a node with the key: the pairs of the tree are those
before the node, the pairs of the node, and those after it, and replacing the node replaces
its pairs. -/
theorem erase_walk_spec (key : Str) : ∀ (t : AVLTreeNode) (s : Slot) (path : List Slot)
    (slot : Slot), erase_walk key t s = some (path, slot) →
    ∃ (s2 : Slot) (l r : AVLTreeNode) (v : Str) (c h : Int) (A B : List (Str × Str)),
      slot = s ++ s2 ∧ nodeAt s2 t = node l r key v c h ∧
      t.inOrderTraversal = A ++ (l.inOrderTraversal ++ (key, v) :: r.inOrderTraversal) ++ B ∧
      ∀ n : AVLTreeNode,
        (modifyAt (fun _ => n) s2 t).inOrderTraversal = A ++ n.inOrderTraversal ++ B := by
  intro t
  induction t with
  | null => intro s path slot h; simp [erase_walk] at h
  | node l r k v c h ihl ihr =>
      intro s path slot hw
      by_cases heq : k = key
      · simp only [erase_walk, heq, ne_eq, not_true_eq_false, if_false, Option.some.injEq,
          Prod.mk.injEq] at hw
        subst heq
        refine ⟨[], l, r, v, c, h, [], [], by simp [hw.2], rfl, by simp [inOrderTraversal], ?_⟩
        intro n
        simp [modifyAt]
      · by_cases hgt : k > key
        · simp only [erase_walk, if_pos heq, if_pos hgt] at hw
          cases hl : erase_walk key l (s ++ [Side.left]) with
          | none => rw [hl] at hw; cases hw
          | some p =>
              obtain ⟨p1, p2⟩ := p
              rw [hl] at hw
              simp only [Option.some.injEq, Prod.mk.injEq] at hw
              obtain ⟨s2, l2, r2, v2, c2, h2, A, B, e1, e2, e3, e4⟩ := ihl _ _ _ hl
              refine ⟨Side.left :: s2, l2, r2, v2, c2, h2, A,
                B ++ (k, v) :: r.inOrderTraversal, ?_, e2, ?_, ?_⟩
              · rw [← hw.2, e1]; simp
              · simp only [inOrderTraversal, e3]; simp
              · intro n
                simp only [modifyAt, inOrderTraversal, e4 n]; simp
        · simp only [erase_walk, if_pos heq, if_neg hgt] at hw
          cases hr : erase_walk key r (s ++ [Side.right]) with
          | none => rw [hr] at hw; cases hw
          | some p =>
              obtain ⟨p1, p2⟩ := p
              rw [hr] at hw
              simp only [Option.some.injEq, Prod.mk.injEq] at hw
              obtain ⟨s2, l2, r2, v2, c2, h2, A, B, e1, e2, e3, e4⟩ := ihr _ _ _ hr
              refine ⟨Side.right :: s2, l2, r2, v2, c2, h2,
                l.inOrderTraversal ++ (k, v) :: A, B, ?_, e2, ?_, ?_⟩
              · rw [← hw.2, e1]; simp
              · simp only [inOrderTraversal, e3]; simp
              · intro n
                simp only [modifyAt, inOrderTraversal, e4 n]; simp

/-- The unlinking keeps the pairs of the two subtrees of the removed node. -/
theorem erase_unlink_inOrder (l r n : AVLTreeNode) (k v : Str) (c h : Int)
    (hu : erase_unlink (node l r k v c h) = Except.ok n) :
    n.inOrderTraversal = l.inOrderTraversal ++ r.inOrderTraversal := by
  cases l with
  | null =>
      cases r with
      | null =>
          simp only [erase_unlink] at hu
          injection hu with hu
          subst hu
          rfl
      | node rl rr rk rv rc rh =>
          simp only [erase_unlink] at hu
          injection hu with hu
          subst hu
          simp [inOrderTraversal]
  | node ll lr lk lv lc lh =>
      cases r with
      | null =>
          simp only [erase_unlink] at hu
          injection hu with hu
          subst hu
          simp [inOrderTraversal]
      | node rl rr rk rv rc rh =>
          cases rl with
          | null =>
              simp only [erase_unlink] at hu
              injection hu with hu
              subst hu
              simp [inOrderTraversal]
          | node rll rlr rlk rlv rlc rlh =>
              simp only [erase_unlink] at hu
              cases hu

theorem filter_key_of_ascending (key v : Str) (X Y : List (Str × Str))
    (h : Ascending (X ++ (key, v) :: Y)) :
    (X ++ (key, v) :: Y).filter (fun p => decide (p.1 ≠ key)) = X ++ Y := by
  unfold Ascending at h
  rw [List.pairwise_append] at h
  obtain ⟨_, h2, h3⟩ := h
  rw [List.pairwise_cons] at h2
  rw [List.filter_append, List.filter_cons]
  have hx : X.filter (fun p => decide (p.1 ≠ key)) = X := by
    rw [List.filter_eq_self]
    intro a ha
    have := h3 a ha (key, v) (List.mem_cons_self _ _)
    simpa using ne_of_lt this
  have hy : Y.filter (fun p => decide (p.1 ≠ key)) = Y := by
    rw [List.filter_eq_self]
    intro a ha
    have := h2.1 a ha
    simpa using (ne_of_lt this).symm
  rw [hx, hy]
  simp

theorem filter_key_of_absent (key : Str) (l : List (Str × Str))
    (h : key ∉ l.map Prod.fst) : l.filter (fun p => decide (p.1 ≠ key)) = l := by
  rw [List.filter_eq_self]
  intro a ha
  have : a.1 ≠ key := fun he => h (by rw [← he]; exact List.mem_map_of_mem _ ha)
  simpa using this

theorem lookup_filter_key (key k : Str) : ∀ (l : List (Str × Str)),
    (l.filter (fun p => decide (p.1 ≠ key))).lookup k
      = if k = key then none else l.lookup k := by
  intro l
  induction l with
  | nil => simp
  | cons a l ih =>
      obtain ⟨a1, a2⟩ := a
      by_cases ha : a1 = key
      · subst ha
        rw [List.filter_cons_of_neg (by simp), ih]
        by_cases hk : k = a1
        · simp [hk]
        · have : (k == a1) = false := by simpa using hk
          simp only [List.lookup, this, if_neg hk]
      · rw [List.filter_cons_of_pos (by simpa using ha)]
        by_cases hk : k = a1
        · subst hk
          simp [List.lookup, ha]
        · have : (k == a1) = false := by simpa using hk
          simp only [List.lookup, this, ih]

/-- When `erase` returns, it has removed the pair of the key, if there was one, and nothing
else: the pairs are those of the tree before without the key, and `_size` is their
number. -/
theorem AVLTree.erase_ok_spec (t t2 : AVLTree) (key : Str) (hw : t.WellFormed)
    (h : t.erase key = Except.ok t2) :
    t2.getSortedPairs = t.getSortedPairs.filter (fun p => decide (p.1 ≠ key)) ∧
    t2.WellFormed := by
  have hsub : ∀ l : List (Str × Str), Ascending l →
      Ascending (l.filter (fun p => decide (p.1 ≠ key))) := by
    intro l hl
    exact List.Pairwise.sublist (List.filter_sublist l) hl
  unfold AVLTree.erase at h
  cases hwk : erase_walk key t.root [] with
  | none =>
      rw [hwk] at h
      injection h with h
      subst h
      have hfind : (AVLTreeNode.find key t.root).1 = false := by
        by_contra hc
        have hc2 : (AVLTreeNode.find key t.root).1 = true := by simpa using hc
        exact erase_walk_present key t.root [] hc2 hwk
      have hl := AVLTreeNode.node_find_eq_lookup key t.root hw.1
      have hnone : t.root.inOrderTraversal.lookup key = none := by
        cases hlk : t.root.inOrderTraversal.lookup key with
        | none => rfl
        | some v => rw [hlk] at hl; rw [hl] at hfind; simp at hfind
      have habs := (lookup_eq_none_iff key _).mp hnone
      exact ⟨(filter_key_of_absent key _ habs).symm, hw⟩
  | some p =>
      obtain ⟨path, slot⟩ := p
      rw [hwk] at h
      simp only at h
      obtain ⟨s2, l, r, v, c, hh, A, B, e1, e2, e3, e4⟩ := erase_walk_spec key t.root [] path slot hwk
      simp only [List.nil_append] at e1
      subst e1
      rw [e2] at h
      cases hu : erase_unlink (node l r key v c hh) with
      | error f => rw [hu] at h; cases h
      | ok n =>
          rw [hu] at h
          simp only at h
          cases hb : balance_checked path (modifyAt (fun _ => n) slot t.root) with
          | error f => rw [hb] at h; cases h
          | ok root =>
              rw [hb] at h
              simp only at h
              injection h with h
              subst h
              have hroot := balance_checked_ok _ _ _ hb
              have hio : root.inOrderTraversal
                  = (A ++ l.inOrderTraversal) ++ (r.inOrderTraversal ++ B) := by
                rw [hroot, AVLTreeNode.inOrder_balance, e4 n, erase_unlink_inOrder l r n key v c hh hu]
                simp
              have ht : t.root.inOrderTraversal
                  = (A ++ l.inOrderTraversal) ++ (key, v) :: (r.inOrderTraversal ++ B) := by
                rw [e3]; simp
              have hasc : Ascending ((A ++ l.inOrderTraversal) ++ (key, v) ::
                  (r.inOrderTraversal ++ B)) := by
                rw [← ht]; exact hw.1
              have hfil := filter_key_of_ascending key v _ _ hasc
              have hsz := hw.2
              unfold AVLTree.getSortedPairs at hsz ⊢
              simp only
              refine ⟨by rw [hio, ht, hfil], ?_, ?_⟩
              · show Ascending root.inOrderTraversal
                rw [hio, ← hfil]
                exact hsub _ hasc
              · show t._size - 1 = root.inOrderTraversal.length
                rw [hsz, hio, ht]
                simp only [List.length_append, List.length_cons]
                omega

/-- When `erase` returns, lookups and the size are those of the tree before without the
key. -/
theorem AVLTree.erase_ok_find (t t2 : AVLTree) (key : Str) (hw : t.WellFormed)
    (h : t.erase key = Except.ok t2) :
    (t2.find key).1 = false ∧
    (∀ k : Str, k ≠ key → t2.find k = t.find k) ∧
    t2.size = if (t.find key).1 then t.size - 1 else t.size := by
  obtain ⟨hp, hw2⟩ := AVLTree.erase_ok_spec t t2 key hw h
  refine ⟨?_, ?_, ?_⟩
  · rw [AVLTree.tree_find_eq_lookup t2 key hw2, hp, lookup_filter_key, if_pos rfl]
  · intro k hk
    rw [AVLTree.tree_find_eq_lookup t2 k hw2, AVLTree.tree_find_eq_lookup t k hw, hp,
      lookup_filter_key, if_neg hk]
  · cases hf : (t.find key).1 with
    | false =>
        rw [AVLTree.erase_absent t key hf] at h
        injection h with h
        subst h
        simp
    | true =>
        simp only [if_true]
        have hl := AVLTree.tree_find_eq_lookup t key hw
        cases hlk : t.getSortedPairs.lookup key with
        | none => rw [hlk] at hl; rw [hl] at hf; simp at hf
        | some v =>
            have hmem := (lookup_eq_some_iff key v hw.1).mp hlk
            obtain ⟨X, Y, hxy⟩ := List.append_of_mem hmem
            have hfil := filter_key_of_ascending key v X Y (by rw [← hxy]; exact hw.1)
            unfold AVLTree.size
            rw [hw2.2, hp, hw.2, hxy, hfil]
            simp only [List.length_append, List.length_cons]
            omega

end AVLErase


/-! ## The engine between flushes -/

theorem SET_eq (H : Str → Nat) (e : Engine) (key value : Str) :
    SET H e key value =
      if (e.tree.insert key value).size = MAX_TREE_SIZE then
        { tree := (e.tree.insert key value).clear
          SSTable_list := e.SSTable_list ++
            [some (SSTable.new H e.SSTable_list.length (e.tree.insert key value).getSortedPairs
              TOMBSTONE e.fs).1]
          comp_time := if e.comp_time < MAX_COMP_TIME then wrap32 (e.comp_time * 10)
            else e.comp_time
          fs := (SSTable.new H e.SSTable_list.length (e.tree.insert key value).getSortedPairs
              TOMBSTONE e.fs).2 }
      else
        { tree := e.tree.insert key value
          SSTable_list := e.SSTable_list
          comp_time := if e.comp_time < MAX_COMP_TIME then wrap32 (e.comp_time * 10)
            else e.comp_time
          fs := e.fs } := by
  unfold SET create_SSTable
  by_cases hc : e.comp_time < MAX_COMP_TIME
  · simp only [if_pos hc]
  · simp only [if_neg hc]

theorem GET_loop_of_slots (H : Str → Nat) (fs : FS) (key : Str) :
    ∀ (slots : List (Option SSTable)) (Rs : List (List (Str × Str))),
      List.Forall₂ (SlotHolds H fs) slots Rs →
      GET_loop H fs key slots =
        Except.ok (((Rs.findSome? fun R => R.lookup key)).getD TOMBSTONE) := by
  intro slots Rs h
  induction h with
  | nil => rfl
  | cons hs _ ih =>
      obtain ⟨t, rfl, hh, hasc, hfree⟩ := hs
      have hf := SSTable.find_eq_lookup_records H fs t _ key hasc (fun p hp => (hfree p hp).1) hh
      simp only [GET_loop, hf, List.findSome?_cons]
      cases hl : List.lookup key _ with
      | some v => simp
      | none => simpa using ih

theorem GET_of_flushedInv (H : Str → Nat) (e : Engine) (Rs : List (List (Str × Str)))
    (key : Str) (h : FlushedInv H e Rs) :
    (GET H e key).1 = Except.ok
      (match e.tree.getSortedPairs.lookup key with
        | some v => v
        | none => (registryLookup Rs key).getD TOMBSTONE) := by
  obtain ⟨hwf, _, _, hslots, _⟩ := h
  have hfind := e.tree.tree_find_eq_lookup key hwf
  unfold GET
  simp only [hfind]
  cases hl : e.tree.getSortedPairs.lookup key with
  | some v => simp
  | none =>
      simp only [Bool.false_eq_true, if_false]
      have hfs : ∀ e1 : Engine, (if e.comp_time > MIN_COMP_TIME
          then ({ e with comp_time := e.comp_time / 10 } : Engine) else e) = e1 →
          e1.fs = e.fs ∧ e1.SSTable_list = e.SSTable_list := by
        intro e1 h
        split at h <;> (subst h; exact ⟨rfl, rfl⟩)
      obtain ⟨hf, hl2⟩ := hfs _ rfl
      rw [hf, hl2]
      exact GET_loop_of_slots H e.fs key _ _ (List.rel_reverse hslots) |>.trans rfl


theorem forall₂_imp_mem {α β : Type} {R R2 : α → β → Prop} {l1 : List α} {l2 : List β}
    (h : List.Forall₂ R l1 l2) (himp : ∀ a b, a ∈ l1 → R a b → R2 a b) :
    List.Forall₂ R2 l1 l2 := by
  induction h with
  | nil => exact List.Forall₂.nil
  | cons hab _ ih =>
      exact List.Forall₂.cons (himp _ _ (List.mem_cons_self _ _) hab)
        (ih fun a b ha => himp a b (List.mem_cons_of_mem _ ha))

theorem recordsDelimFree_listInsert (key value : Str) (l : List (Str × Str))
    (hl : RecordsDelimFree l) (hk : DelimFree key) (hv : DelimFree value) :
    RecordsDelimFree (listInsert key value l) := by
  intro p hp
  rcases mem_listInsert key value p l hp with h | h
  · rw [h]; exact ⟨hk, hv⟩
  · exact hl p h

theorem registryLookup_append (Rs : List (List (Str × Str))) (R : List (Str × Str)) (k : Str) :
    registryLookup (Rs ++ [R]) k =
      match R.lookup k with
      | some v => some v
      | none => registryLookup Rs k := by
  unfold registryLookup
  rw [List.reverse_append, List.reverse_singleton, List.singleton_append, List.findSome?_cons]
  cases List.lookup k R <;> rfl

theorem Engine.view_eq_getD (H : Str → Nat) (e : Engine) (Rs : List (List (Str × Str)))
    (key : Str) (h : FlushedInv H e Rs) :
    (GET H e key).1 = Except.ok ((e.view Rs key).getD TOMBSTONE) := by
  rw [GET_of_flushedInv H e Rs key h]
  unfold Engine.view
  cases e.tree.getSortedPairs.lookup key <;> rfl

theorem flushedInv_fresh (H : Str → Nat) : FlushedInv H Engine.fresh [] := by
  refine ⟨AVLTree.wellFormed_empty, by decide, ?_, List.Forall₂.nil, ?_⟩
  · intro p hp; simp [Engine.fresh, AVLTree.empty, AVLTree.getSortedPairs,
      AVLTreeNode.inOrderTraversal] at hp
  · intro i t h; simp [Engine.fresh] at h

theorem SET_flushedInv (H : Str → Nat) (e : Engine) (Rs : List (List (Str × Str)))
    (key value : Str) (h : FlushedInv H e Rs) (hk : DelimFree key) (hv : DelimFree value) :
    ∃ Rs2, FlushedInv H (SET H e key value) Rs2 ∧
      ∀ k, (SET H e key value).view Rs2 k = if k = key then some value else e.view Rs k := by
  obtain ⟨hwf, hsize, hfree, hslots, hnames⟩ := h
  have hwf2 := e.tree.wellFormed_insert key value hwf
  have hpairs := e.tree.getSortedPairs_insert key value hwf
  have hfree2 : RecordsDelimFree (e.tree.insert key value).getSortedPairs := by
    rw [hpairs]; exact recordsDelimFree_listInsert key value _ hfree hk hv
  have hlen := e.tree.size_insert key value hwf
  have hlen2 := length_listInsert key value _ hwf.1
  rw [SET_eq]
  by_cases hfull : (e.tree.insert key value).size = MAX_TREE_SIZE
  · rw [if_pos hfull]
    refine ⟨Rs ++ [(e.tree.insert key value).getSortedPairs], ?_, ?_⟩
    · have hL : e.SSTable_list.length = Rs.length := hslots.length_eq
      have hnew : (SSTable.new H e.SSTable_list.length (e.tree.insert key value).getSortedPairs
          TOMBSTONE e.fs).1.folder_name
          = [83, 83, 84, 97, 98, 108, 101, 95] ++ to_string e.SSTable_list.length := by
        rw [SSTable.new_folder_name, if_pos rfl]
      refine ⟨AVLTree.wellFormed_clear (e.tree.insert key value), (by decide : (0 : Nat) < MAX_TREE_SIZE), ?_, ?_, ?_⟩
      · intro p hp
        simp [AVLTree.clear, AVLTree.getSortedPairs, AVLTreeNode.inOrderTraversal] at hp
      · apply List.rel_append
        · apply forall₂_imp_mem hslots
          intro slot R hmem hsl
          obtain ⟨t, rfl, hh, ha, hf⟩ := hsl
          refine ⟨t, rfl, ?_, ha, hf⟩
          apply hh.congr_folder
          apply SSTable.new_get_other
          obtain ⟨i, hi⟩ := List.mem_iff_getElem?.mp hmem
          have hil : i < e.SSTable_list.length := (List.getElem?_eq_some_iff.mp hi).1
          rw [hnames i t hi, hnew]
          intro heq
          have := to_string_injective (List.append_cancel_left heq)
          omega
        · refine List.Forall₂.cons ?_ List.Forall₂.nil
          exact ⟨_, rfl, SSTable.new_holds H _ _ _ _ hfree2, hwf2.1, hfree2⟩
      · intro i t hi
        by_cases hil : i < e.SSTable_list.length
        · rw [List.getElem?_append_left hil] at hi
          exact hnames i t hi
        · have hlen3 := (List.getElem?_eq_some_iff.mp hi).1
          simp only [List.length_append, List.length_singleton] at hlen3
          have hie : i = e.SSTable_list.length := by omega
          subst hie
          simp only [List.getElem?_concat_length, Option.some.injEq] at hi
          rw [← hi, hnew]
    · intro k
      unfold Engine.view
      simp only [AVLTree.clear, AVLTree.getSortedPairs, AVLTreeNode.inOrderTraversal,
        List.lookup]
      rw [registryLookup_append]
      have := lookup_listInsert key value k e.tree.getSortedPairs
      rw [← hpairs] at this
      simp only [AVLTree.getSortedPairs] at this
      rw [this]
      by_cases hkk : k = key
      · simp [hkk]
      · simp only [if_neg hkk]
  · rw [if_neg hfull]
    refine ⟨Rs, ⟨hwf2, ?_, hfree2, hslots, hnames⟩, ?_⟩
    · have h1 : (e.tree.insert key value)._size ≠ MAX_TREE_SIZE := hfull
      have h2 := hwf.2
      simp only [MAX_TREE_SIZE] at *
      split at hlen2 <;> omega
    · intro k
      unfold Engine.view
      simp only
      rw [hpairs, lookup_listInsert]
      by_cases hkk : k = key
      · simp [hkk]
      · simp only [if_neg hkk]


theorem Op.apply_flushedInv (H : Str → Nat) (e : Engine) (Rs : List (List (Str × Str)))
    (o : Op) (h : FlushedInv H e Rs) (ho : o.Valid) :
    ∃ Rs2, FlushedInv H (Op.apply H e o) Rs2 ∧
      ∀ k, (Op.apply H e o).view Rs2 k = if k = o.key then some o.value else e.view Rs k := by
  cases o with
  | set key value => exact SET_flushedInv H e Rs key value h ho.1 ho.2
  | del key => exact SET_flushedInv H e Rs key TOMBSTONE h ho.1 ho.2

theorem lastWrite_append (ops : List Op) (o : Op) (k : Str) :
    lastWrite (ops ++ [o]) k = if o.key = k then some o else lastWrite ops k := by
  unfold lastWrite
  rw [List.reverse_append, List.reverse_singleton, List.singleton_append, List.find?_cons]
  by_cases h : o.key = k <;> simp [h]

theorem run_append (H : Str → Nat) (e : Engine) (ops : List Op) (o : Op) :
    run H e (ops ++ [o]) = Op.apply H (run H e ops) o := by
  unfold run
  rw [List.foldl_append]
  rfl

/-- After any sequence of valid writes on an engine that has only flushed, the engine has
only flushed, and it stores for every key the value of the most recent write to it, or what
it stored before when the key was not written. -/
theorem run_flushedInv (H : Str → Nat) (e : Engine) (Rs : List (List (Str × Str)))
    (h : FlushedInv H e Rs) (ops : List Op) (hvalid : ∀ o ∈ ops, o.Valid) :
    ∃ Rs2, FlushedInv H (run H e ops) Rs2 ∧
      ∀ k, (run H e ops).view Rs2 k =
        match lastWrite ops k with
        | some o => some o.value
        | none => e.view Rs k := by
  induction ops using List.reverseRecOn with
  | nil => exact ⟨Rs, h, fun k => rfl⟩
  | append_singleton ops o ih =>
      obtain ⟨Rs1, h1, hv1⟩ := ih fun o ho => hvalid o (List.mem_append_left _ ho)
      obtain ⟨Rs2, h2, hv2⟩ := Op.apply_flushedInv H (run H e ops) Rs1 o h1
        (hvalid o (List.mem_append_right _ (List.mem_singleton_self o)))
      rw [run_append]
      refine ⟨Rs2, h2, ?_⟩
      intro k
      rw [hv2 k, lastWrite_append, hv1 k]
      by_cases hk : k = o.key
      · rw [if_pos hk, if_pos hk.symm]
      · rw [if_neg hk, if_neg (fun e => hk e.symm)]

theorem GET_after_run (H : Str → Nat) (ops : List Op) (hvalid : ∀ o ∈ ops, o.Valid) (k : Str) :
    (GET H (run H Engine.fresh ops) k).1 =
      Except.ok (match lastWrite ops k with
        | some o => o.value
        | none => TOMBSTONE) := by
  obtain ⟨Rs, hinv, hview⟩ := run_flushedInv H Engine.fresh [] (flushedInv_fresh H) ops hvalid
  rw [Engine.view_eq_getD H _ Rs k hinv, hview k]
  cases lastWrite ops k <;> rfl


/-! ## The pointer that `GET` returns -/

theorem GET_pointer_snd (H : Str → Nat) (e : Engine) (key : Str) :
    (GET_pointer H e key).2 = (GET H e key).2 := by
  unfold GET_pointer GET
  simp only
  split <;> rfl

theorem GET_loop_pointer_bytes (H : Str → Nat) (fs : FS) (key : Str) :
    ∀ slots : List (Option SSTable),
      (match GET_loop_pointer H fs key slots with
        | Except.error f => Except.error f
        | Except.ok p => Except.ok p.bytes) = GET_loop H fs key slots := by
  intro slots
  induction slots with
  | nil => rfl
  | cons a slots ih =>
      cases a with
      | none => simpa [GET_loop_pointer, GET_loop] using ih
      | some t =>
          simp only [GET_loop_pointer, GET_loop]
          cases t.find H fs key with
          | error f => rfl
          | ok value =>
              simp only
              by_cases hv : value.1 = true
              · rw [if_pos hv, if_pos hv]
                rfl
              · rw [if_neg hv, if_neg hv]
                exact ih

/-- The string whose `c_str()` is returned holds the bytes that the returned pointer
addresses. -/
theorem GET_pointer_bytes (H : Str → Nat) (e : Engine) (key : Str) :
    (match (GET_pointer H e key).1 with
      | Except.error f => Except.error f
      | Except.ok p => Except.ok p.bytes) = (GET H e key).1 := by
  unfold GET_pointer GET
  simp only
  by_cases hv : (e.tree.find key).1 = true
  · rw [if_pos hv, if_pos hv]
    rfl
  · rw [if_neg hv, if_neg hv]
    exact GET_loop_pointer_bytes H _ key _

theorem GET_pointer_fst_eq (H : Str → Nat) (e : Engine) (key : Str) :
    (GET_pointer H e key).1 =
      if (e.tree.find key).1 then Except.ok (CharPtr.dangling (e.tree.find key).2)
      else GET_loop_pointer H e.fs key e.SSTable_list.reverse := by
  unfold GET_pointer
  simp only
  split
  · rfl
  · split <;> rfl

theorem GET_loop_pointer_of_slots (H : Str → Nat) (fs : FS) (key : Str) :
    ∀ (slots : List (Option SSTable)) (Rs : List (List (Str × Str))),
      List.Forall₂ (SlotHolds H fs) slots Rs →
      GET_loop_pointer H fs key slots =
        Except.ok (match Rs.findSome? fun R => R.lookup key with
          | some v => CharPtr.dangling v
          | none => CharPtr.global TOMBSTONE) := by
  intro slots Rs h
  induction h with
  | nil => rfl
  | cons hs _ ih =>
      obtain ⟨t, rfl, hh, hasc, hfree⟩ := hs
      have hf := SSTable.find_eq_lookup_records H fs t _ key hasc (fun p hp => (hfree p hp).1) hh
      simp only [GET_loop_pointer, hf, List.findSome?_cons]
      cases hl : List.lookup key _ with
      | some v => simp
      | none => simpa using ih

theorem GET_pointer_of_flushedInv (H : Str → Nat) (e : Engine) (Rs : List (List (Str × Str)))
    (key : Str) (h : FlushedInv H e Rs) :
    (GET_pointer H e key).1 = Except.ok
      (match e.view Rs key with
        | some v => CharPtr.dangling v
        | none => CharPtr.global TOMBSTONE) := by
  obtain ⟨hwf, _, _, hslots, _⟩ := h
  have hfind := e.tree.tree_find_eq_lookup key hwf
  rw [GET_pointer_fst_eq, hfind]
  unfold Engine.view
  cases hl : e.tree.getSortedPairs.lookup key with
  | some v => simp
  | none =>
      simp only [Bool.false_eq_true, if_false]
      rw [GET_loop_pointer_of_slots H e.fs key _ _ (List.rel_reverse hslots)]
      rfl

/-- After a sequence of valid writes to the fresh engine, `GET` returns a dangling pointer to
the value of the most recent write of the key, and the pointer to the global `TOMBSTONE`
for a key that was never written. -/
theorem GET_pointer_after_run (H : Str → Nat) (ops : List Op) (hvalid : ∀ o ∈ ops, o.Valid)
    (k : Str) :
    (GET_pointer H (run H Engine.fresh ops) k).1 =
      Except.ok (match lastWrite ops k with
        | some o => CharPtr.dangling o.value
        | none => CharPtr.global TOMBSTONE) := by
  obtain ⟨Rs, hinv, hview⟩ := run_flushedInv H Engine.fresh [] (flushedInv_fresh H) ops hvalid
  rw [GET_pointer_of_flushedInv H _ Rs k hinv, hview k]
  cases lastWrite ops k <;> rfl


/-! ## Filling the memtable -/

theorem mem_keys_iff_lookup (k : Str) (l : List (Str × Str)) :
    k ∈ l.map Prod.fst ↔ l.lookup k ≠ none := by
  rw [Ne, lookup_eq_none_iff, not_not]

theorem mem_keys_listInsert (key value k : Str) (l : List (Str × Str)) :
    k ∈ (listInsert key value l).map Prod.fst ↔ k = key ∨ k ∈ l.map Prod.fst := by
  rw [mem_keys_iff_lookup, mem_keys_iff_lookup, lookup_listInsert]
  by_cases h : k = key
  · simp [h]
  · simp [h]

theorem digitsRev_delimFree : ∀ (fuel n : Nat), ∀ d ∈ digitsRev fuel n, d ≠ DELIMITER := by
  intro fuel
  induction fuel with
  | zero => intro n d hd; simp [digitsRev] at hd
  | succ fuel ih =>
      intro n d hd
      simp only [digitsRev] at hd
      split at hd
      · simp only [List.mem_singleton] at hd
        simp only [DELIMITER]; omega
      · rcases List.mem_cons.mp hd with h | h
        · simp only [DELIMITER]; omega
        · exact ih _ d h

theorem to_string_delimFree (n : Nat) : DelimFree (to_string n) := by
  intro h
  unfold to_string at h
  exact digitsRev_delimFree _ _ _ (List.mem_reverse.mp h) rfl

/-- Writing fewer than `MAX_TREE_SIZE` distinct keys to a fresh engine does not flush: the
registry stays empty and the memtable holds exactly the written keys. -/
theorem run_sets_no_flush (H : Str → Nat) (kvs : List (Str × Str))
    (hnodup : (kvs.map Prod.fst).Nodup) (hlen : kvs.length < MAX_TREE_SIZE) :
    (run H Engine.fresh (kvs.map fun p => Op.set p.1 p.2)).SSTable_list = [] ∧
    (run H Engine.fresh (kvs.map fun p => Op.set p.1 p.2)).fs = FS.empty ∧
    (run H Engine.fresh (kvs.map fun p => Op.set p.1 p.2)).tree.WellFormed ∧
    (run H Engine.fresh (kvs.map fun p => Op.set p.1 p.2)).tree._size = kvs.length ∧
    ∀ k, k ∈ (run H Engine.fresh (kvs.map fun p => Op.set p.1 p.2)).tree.getSortedPairs.map
      Prod.fst ↔ k ∈ kvs.map Prod.fst := by
  induction kvs using List.reverseRecOn with
  | nil =>
      refine ⟨rfl, rfl, AVLTree.wellFormed_empty, rfl, ?_⟩
      intro k
      simp [run, Engine.fresh, AVLTree.empty, AVLTree.getSortedPairs,
        AVLTreeNode.inOrderTraversal]
  | append_singleton kvs p ih =>
      simp only [List.map_append, List.map_cons, List.map_nil] at hnodup
      have hnd : (kvs.map Prod.fst).Nodup := (List.nodup_append.mp hnodup).1
      have hp : p.1 ∉ kvs.map Prod.fst := by
        intro hm
        exact (List.nodup_append.mp hnodup).2.2 hm (List.mem_singleton_self _) 
      simp only [List.length_append, List.length_singleton] at hlen
      obtain ⟨h1, h2, h3, h4, h5⟩ := ih hnd (by omega)
      simp only [List.map_append, List.map_cons, List.map_nil]
      rw [run_append]
      simp only [Op.apply]
      generalize run H Engine.fresh (kvs.map fun p => Op.set p.1 p.2) = e at h1 h2 h3 h4 h5
      have hpt : p.1 ∉ e.tree.getSortedPairs.map Prod.fst := fun hm => hp ((h5 p.1).mp hm)
      have hsz := e.tree.size_insert p.1 p.2 h3
      rw [length_listInsert p.1 p.2 _ h3.1, if_neg hpt, ← h3.2, h4] at hsz
      have hnf : ¬ (e.tree.insert p.1 p.2).size = MAX_TREE_SIZE := by
        unfold AVLTree.size; omega
      rw [SET_eq, if_neg hnf]
      refine ⟨h1, h2, e.tree.wellFormed_insert p.1 p.2 h3, ?_, ?_⟩
      · simp only [hsz, List.length_append, List.length_singleton]
      · intro k
        simp only [e.tree.getSortedPairs_insert p.1 p.2 h3, mem_keys_listInsert, h5,
          List.mem_append, List.mem_singleton]
        tauto

theorem lastWrite_sets_of_nodup (kvs : List (Str × Str)) (hnodup : (kvs.map Prod.fst).Nodup)
    (p : Str × Str) (hp : p ∈ kvs) :
    lastWrite (kvs.map fun p => Op.set p.1 p.2) p.1 = some (Op.set p.1 p.2) := by
  induction kvs using List.reverseRecOn with
  | nil => simp at hp
  | append_singleton kvs q ih =>
      simp only [List.map_append, List.map_cons, List.map_nil] at hnodup ⊢
      have hnd : (kvs.map Prod.fst).Nodup := (List.nodup_append.mp hnodup).1
      have hq : q.1 ∉ kvs.map Prod.fst := by
        intro hm
        exact (List.nodup_append.mp hnodup).2.2 hm (List.mem_singleton_self _)
      rw [lastWrite_append]
      rcases List.mem_append.mp hp with h | h
      · have hne : ¬ (Op.set q.1 q.2).key = p.1 := by
          intro e
          apply hq
          rw [show q.1 = p.1 from e]
          exact List.mem_map_of_mem _ h
        rw [if_neg hne]
        exact ih hnd h
      · have : p = q := List.mem_singleton.mp h
        subst this
        exact if_pos rfl


/-- Writing exactly `MAX_TREE_SIZE` distinct keys to a fresh engine flushes once, at the last
write. -/
theorem run_sets_full (H : Str → Nat) (kvs : List (Str × Str))
    (hnodup : (kvs.map Prod.fst).Nodup) (hlen : kvs.length = MAX_TREE_SIZE) :
    (run H Engine.fresh (kvs.map fun p => Op.set p.1 p.2)).SSTable_list.length = 1 ∧
    (run H Engine.fresh (kvs.map fun p => Op.set p.1 p.2)).tree = AVLTree.empty := by
  obtain ⟨init, p, rfl⟩ : ∃ init p, kvs = init ++ [p] := by
    rcases List.eq_nil_or_concat kvs with h | ⟨init, p, h⟩
    · rw [h] at hlen; exact absurd hlen (by decide)
    · exact ⟨init, p, by rw [h]; simp⟩
  simp only [List.map_append, List.map_cons, List.map_nil] at hnodup
  have hnd : (init.map Prod.fst).Nodup := (List.nodup_append.mp hnodup).1
  have hp : p.1 ∉ init.map Prod.fst := by
    intro hm
    exact (List.nodup_append.mp hnodup).2.2 hm (List.mem_singleton_self _)
  simp only [List.length_append, List.length_singleton] at hlen
  obtain ⟨h1, _, h3, h4, h5⟩ := run_sets_no_flush H init hnd (by omega)
  simp only [List.map_append, List.map_cons, List.map_nil]
  rw [run_append]
  simp only [Op.apply]
  generalize run H Engine.fresh (init.map fun p => Op.set p.1 p.2) = e at h1 h3 h4 h5
  have hpt : p.1 ∉ e.tree.getSortedPairs.map Prod.fst := fun hm => hp ((h5 p.1).mp hm)
  have hsz := e.tree.size_insert p.1 p.2 h3
  rw [length_listInsert p.1 p.2 _ h3.1, if_neg hpt, ← h3.2, h4] at hsz
  have hf : (e.tree.insert p.1 p.2).size = MAX_TREE_SIZE := by
    unfold AVLTree.size; omega
  rw [SET_eq, if_pos hf]
  simp only [h1, List.nil_append, List.length_singleton, true_and]
  rfl


/-! ## Flushing a block of writes from an empty memtable -/

/-- Writing fewer than `MAX_TREE_SIZE` distinct keys to an engine with an empty memtable
does not flush: the registry and the disk stay, and the memtable holds the written keys. -/
theorem run_sets_from (H : Str → Nat) (e0 : Engine) (kvs : List (Str × Str))
    (he : e0.tree = AVLTree.empty)
    (hnodup : (kvs.map Prod.fst).Nodup) (hlen : kvs.length < MAX_TREE_SIZE) :
    (run H e0 (kvs.map fun p => Op.set p.1 p.2)).SSTable_list = e0.SSTable_list ∧
    (run H e0 (kvs.map fun p => Op.set p.1 p.2)).fs = e0.fs ∧
    (run H e0 (kvs.map fun p => Op.set p.1 p.2)).tree.WellFormed ∧
    (run H e0 (kvs.map fun p => Op.set p.1 p.2)).tree._size = kvs.length ∧
    (∀ k, k ∈ (run H e0 (kvs.map fun p => Op.set p.1 p.2)).tree.getSortedPairs.map
      Prod.fst ↔ k ∈ kvs.map Prod.fst) ∧
    ∀ p ∈ (run H e0 (kvs.map fun p => Op.set p.1 p.2)).tree.getSortedPairs, p ∈ kvs := by
  induction kvs using List.reverseRecOn with
  | nil =>
      refine ⟨rfl, rfl, ?_, ?_, ?_, ?_⟩
      · show e0.tree.WellFormed
        rw [he]; exact AVLTree.wellFormed_empty
      · show e0.tree._size = 0
        rw [he]; rfl
      · intro k
        show k ∈ e0.tree.getSortedPairs.map Prod.fst ↔ _
        rw [he]
        simp [AVLTree.empty, AVLTree.getSortedPairs, AVLTreeNode.inOrderTraversal]
      · intro p hp
        have hp2 : p ∈ e0.tree.getSortedPairs := hp
        rw [he] at hp2
        simp [AVLTree.empty, AVLTree.getSortedPairs, AVLTreeNode.inOrderTraversal] at hp2
  | append_singleton kvs p ih =>
      simp only [List.map_append, List.map_cons, List.map_nil] at hnodup
      have hnd : (kvs.map Prod.fst).Nodup := (List.nodup_append.mp hnodup).1
      have hp : p.1 ∉ kvs.map Prod.fst := by
        intro hm
        exact (List.nodup_append.mp hnodup).2.2 hm (List.mem_singleton_self _)
      simp only [List.length_append, List.length_singleton] at hlen
      obtain ⟨h1, h2, h3, h4, h5, h6⟩ := ih hnd (by omega)
      simp only [List.map_append, List.map_cons, List.map_nil]
      rw [run_append]
      simp only [Op.apply]
      generalize run H e0 (kvs.map fun p => Op.set p.1 p.2) = e at h1 h2 h3 h4 h5 h6
      have hpt : p.1 ∉ e.tree.getSortedPairs.map Prod.fst := fun hm => hp ((h5 p.1).mp hm)
      have hsz := e.tree.size_insert p.1 p.2 h3
      rw [length_listInsert p.1 p.2 _ h3.1, if_neg hpt, ← h3.2, h4] at hsz
      have hnf : ¬ (e.tree.insert p.1 p.2).size = MAX_TREE_SIZE := by
        unfold AVLTree.size; omega
      rw [SET_eq, if_neg hnf]
      refine ⟨h1, h2, e.tree.wellFormed_insert p.1 p.2 h3, ?_, ?_, ?_⟩
      · simp only [hsz, List.length_append, List.length_singleton]
      · intro k
        simp only [e.tree.getSortedPairs_insert p.1 p.2 h3, mem_keys_listInsert, h5,
          List.mem_append, List.mem_singleton]
        tauto
      · intro q hq
        simp only [e.tree.getSortedPairs_insert p.1 p.2 h3] at hq
        rcases mem_listInsert p.1 p.2 q _ hq with h | h
        · rw [h]; simp
        · exact List.mem_append_left _ (h6 q h)

/-- Writing exactly `MAX_TREE_SIZE` distinct keys to an engine with an empty memtable flushes
once, at the last write: the new table is built at the tail of the registry from ascending
records that are among the written ones, and the memtable is empty again. -/
theorem run_sets_flush (H : Str → Nat) (e0 : Engine) (kvs : List (Str × Str))
    (he : e0.tree = AVLTree.empty)
    (hnodup : (kvs.map Prod.fst).Nodup) (hlen : kvs.length = MAX_TREE_SIZE) :
    ∃ R, Ascending R ∧ (∀ p ∈ R, p ∈ kvs) ∧
      (run H e0 (kvs.map fun p => Op.set p.1 p.2)).tree = AVLTree.empty ∧
      (run H e0 (kvs.map fun p => Op.set p.1 p.2)).SSTable_list = e0.SSTable_list ++
        [some (SSTable.new H e0.SSTable_list.length R TOMBSTONE e0.fs).1] ∧
      (run H e0 (kvs.map fun p => Op.set p.1 p.2)).fs =
        (SSTable.new H e0.SSTable_list.length R TOMBSTONE e0.fs).2 := by
  obtain ⟨init, p, rfl⟩ : ∃ init p, kvs = init ++ [p] := by
    rcases List.eq_nil_or_concat kvs with h | ⟨init, p, h⟩
    · rw [h] at hlen; exact absurd hlen (by decide)
    · exact ⟨init, p, by rw [h]; simp⟩
  simp only [List.map_append, List.map_cons, List.map_nil] at hnodup
  have hnd : (init.map Prod.fst).Nodup := (List.nodup_append.mp hnodup).1
  have hp : p.1 ∉ init.map Prod.fst := by
    intro hm
    exact (List.nodup_append.mp hnodup).2.2 hm (List.mem_singleton_self _)
  simp only [List.length_append, List.length_singleton] at hlen
  obtain ⟨h1, h2, h3, h4, h5, h6⟩ := run_sets_from H e0 init he hnd (by omega)
  simp only [List.map_append, List.map_cons, List.map_nil]
  rw [run_append]
  simp only [Op.apply]
  generalize run H e0 (init.map fun p => Op.set p.1 p.2) = e at h1 h2 h3 h4 h5 h6
  have hpt : p.1 ∉ e.tree.getSortedPairs.map Prod.fst := fun hm => hp ((h5 p.1).mp hm)
  have hsz := e.tree.size_insert p.1 p.2 h3
  rw [length_listInsert p.1 p.2 _ h3.1, if_neg hpt, ← h3.2, h4] at hsz
  have hf : (e.tree.insert p.1 p.2).size = MAX_TREE_SIZE := by
    unfold AVLTree.size; omega
  rw [SET_eq, if_pos hf]
  refine ⟨(e.tree.insert p.1 p.2).getSortedPairs, (e.tree.wellFormed_insert p.1 p.2 h3).1,
    ?_, rfl, ?_, ?_⟩
  · intro q hq
    rw [e.tree.getSortedPairs_insert p.1 p.2 h3] at hq
    rcases mem_listInsert p.1 p.2 q _ hq with h | h
    · rw [h]; simp
    · exact List.mem_append_left _ (h6 q h)
  · simp only [h1, h2]
  · simp only [h1, h2]


/-! ## Executions -/

theorem exec_append (H : Str → Nat) : ∀ (a b : List Step) (e : Engine),
    exec H e (a ++ b) =
      match exec H e a with
      | Except.error f => Except.error f
      | Except.ok e2 => exec H e2 b := by
  intro a
  induction a with
  | nil => intro b e; rfl
  | cons s a ih =>
      intro b e
      simp only [List.cons_append, exec]
      cases s.apply H e with
      | error f => rfl
      | ok e2 => exact ih b e2

theorem exec_ops (H : Str → Nat) : ∀ (ops : List Op) (e : Engine),
    exec H e (ops.map Step.op) = Except.ok (run H e ops) := by
  intro ops
  induction ops with
  | nil => intro e; rfl
  | cons o ops ih =>
      intro e
      simp only [List.map_cons, exec, Step.apply]
      exact ih _

theorem digitsRev_lineFree : ∀ (fuel n : Nat), ∀ d ∈ digitsRev fuel n, d ≠ NEWLINE := by
  intro fuel
  induction fuel with
  | zero => intro n d hd; simp [digitsRev] at hd
  | succ fuel ih =>
      intro n d hd
      simp only [digitsRev] at hd
      split at hd
      · simp only [List.mem_singleton] at hd
        simp only [NEWLINE]; omega
      · rcases List.mem_cons.mp hd with h | h
        · simp only [NEWLINE]; omega
        · exact ih _ d h

theorem to_string_lineFree (n : Nat) : LineFree (to_string n) := by
  intro h
  unfold to_string at h
  exact digitsRev_lineFree _ _ _ (List.mem_reverse.mp h) rfl

theorem fillRecords_length : fillRecords.length = MAX_TREE_SIZE := by
  simp [fillRecords]

theorem fillRecords_nodup : (fillRecords.map Prod.fst).Nodup := by
  unfold fillRecords
  rw [List.map_map]
  refine List.Nodup.map ?_ (List.nodup_range _)
  intro a b hab
  exact to_string_injective (List.cons_injective hab)

theorem fillRecords_valid : RecordsValid fillRecords := by
  intro p hp
  obtain ⟨i, _, rfl⟩ := List.mem_map.mp hp
  refine ⟨⟨by simp, ?_, ?_⟩, ⟨by simp, ?_, ?_⟩⟩
  · intro hm
    rcases List.mem_cons.mp hm with h | h
    · exact absurd h (by decide)
    · exact to_string_delimFree i h
  · intro hm
    rcases List.mem_cons.mp hm with h | h
    · exact absurd h (by decide)
    · exact to_string_lineFree i h
  · intro hm
    rcases List.mem_cons.mp hm with h | h
    · exact absurd h (by decide)
    · exact to_string_delimFree i h
  · intro hm
    rcases List.mem_cons.mp hm with h | h
    · exact absurd h (by decide)
    · exact to_string_lineFree i h

/-- The block of writes `fillBlock` on an engine with an empty memtable: it returns, the
memtable is empty again, and one table, built from ascending valid records under the name
of the registry length, is appended. -/
theorem exec_fillBlock (H : Str → Nat) (e : Engine) (he : e.tree = AVLTree.empty) :
    ∃ R e2, Ascending R ∧ RecordsValid R ∧ exec H e fillBlock = Except.ok e2 ∧
      e2.tree = AVLTree.empty ∧
      e2.SSTable_list = e.SSTable_list ++
        [some (SSTable.new H e.SSTable_list.length R TOMBSTONE e.fs).1] ∧
      e2.fs = (SSTable.new H e.SSTable_list.length R TOMBSTONE e.fs).2 := by
  obtain ⟨R, hR, hsub, h1, h2, h3⟩ :=
    run_sets_flush H e fillRecords he fillRecords_nodup fillRecords_length
  refine ⟨R, _, hR, fun p hp => fillRecords_valid p (hsub p hp), ?_, h1, h2, h3⟩
  have : fillBlock = (fillRecords.map fun p => Op.set p.1 p.2).map Step.op := by
    unfold fillBlock
    rw [List.map_map]
    rfl
  rw [this, exec_ops]

theorem exec_compact (H : Str → Nat) (e : Engine) :
    exec H e [Step.compact] = compact_iteration H e := by
  simp only [exec, Step.apply]
  cases compact_iteration H e <;> rfl

/-! ## The memtable along executions -/

theorem GET_tree (H : Str → Nat) (e : Engine) (key : Str) : (GET H e key).2.tree = e.tree := by
  unfold GET
  simp only
  split
  · rfl
  · split <;> rfl

theorem compact_iteration_tree (H : Str → Nat) (e e2 : Engine)
    (h : compact_iteration H e = Except.ok e2) : e2.tree = e.tree := by
  unfold compact_iteration at h
  simp only at h
  repeat' split at h
  all_goals first
    | (cases h; rfl)
    | (exact absurd h (by simp))

/-- A write keeps the memtable well formed and below its capacity; the memtable after the
insert of the write holds at most `MAX_TREE_SIZE` entries. -/
theorem SET_tree_capacity (H : Str → Nat) (e : Engine) (key value : Str)
    (hwf : e.tree.WellFormed) (hlt : e.tree._size < MAX_TREE_SIZE) :
    (e.tree.insert key value).size ≤ MAX_TREE_SIZE ∧
    (SET H e key value).tree.WellFormed ∧ (SET H e key value).tree._size < MAX_TREE_SIZE := by
  have hsz := e.tree.size_insert key value hwf
  rw [length_listInsert key value _ hwf.1, ← hwf.2] at hsz
  have hle : (e.tree.insert key value).size ≤ MAX_TREE_SIZE := by
    unfold AVLTree.size
    rw [hsz]
    split <;> omega
  refine ⟨hle, ?_⟩
  rw [SET_eq]
  by_cases hf : (e.tree.insert key value).size = MAX_TREE_SIZE
  · rw [if_pos hf]
    exact ⟨AVLTree.wellFormed_clear (e.tree.insert key value), show 0 < MAX_TREE_SIZE by decide⟩
  · rw [if_neg hf]
    refine ⟨e.tree.wellFormed_insert key value hwf, ?_⟩
    unfold AVLTree.size at hf hle
    show (e.tree.insert key value)._size < MAX_TREE_SIZE
    omega

theorem Step.apply_tree_capacity (H : Str → Nat) (e e2 : Engine) (s : Step)
    (hwf : e.tree.WellFormed) (hlt : e.tree._size < MAX_TREE_SIZE)
    (h : s.apply H e = Except.ok e2) :
    e2.tree.WellFormed ∧ e2.tree._size < MAX_TREE_SIZE := by
  cases s with
  | op o =>
      simp only [Step.apply, Except.ok.injEq] at h
      subst h
      cases o with
      | set key value => exact (SET_tree_capacity H e key value hwf hlt).2
      | del key => exact (SET_tree_capacity H e key _ hwf hlt).2
  | get key =>
      simp only [Step.apply] at h
      split at h
      · exact absurd h (by simp)
      · simp only [Except.ok.injEq] at h
        subst h
        rw [GET_tree]
        exact ⟨hwf, hlt⟩
  | compact =>
      simp only [Step.apply] at h
      rw [compact_iteration_tree H e e2 h]
      exact ⟨hwf, hlt⟩

theorem exec_tree_capacity (H : Str → Nat) : ∀ (steps : List Step) (e e2 : Engine),
    e.tree.WellFormed → e.tree._size < MAX_TREE_SIZE → exec H e steps = Except.ok e2 →
    e2.tree.WellFormed ∧ e2.tree._size < MAX_TREE_SIZE := by
  intro steps
  induction steps with
  | nil =>
      intro e e2 hwf hlt h
      simp only [exec, Except.ok.injEq] at h
      subst h
      exact ⟨hwf, hlt⟩
  | cons s steps ih =>
      intro e e2 hwf hlt h
      simp only [exec] at h
      split at h
      · exact absurd h (by simp)
      · rename_i e1 hs
        obtain ⟨hwf1, hlt1⟩ := Step.apply_tree_capacity H e e1 s hwf hlt hs
        exact ih e1 e2 hwf1 hlt1 h

/-! ## The compactor clock along executions -/

theorem SET_comp_time (H : Str → Nat) (e : Engine) (key value : Str) :
    (SET H e key value).comp_time =
      if e.comp_time < MAX_COMP_TIME then wrap32 (e.comp_time * 10) else e.comp_time := by
  rw [SET_eq]
  split <;> rfl

theorem GET_comp_time (H : Str → Nat) (e : Engine) (key : Str) :
    (GET H e key).2.comp_time =
      if (e.tree.find key).1 then e.comp_time
      else if e.comp_time > MIN_COMP_TIME then e.comp_time / 10 else e.comp_time := by
  unfold GET
  simp only
  split
  · rfl
  · split <;> rfl

theorem compact_iteration_comp_time (H : Str → Nat) (e e2 : Engine)
    (h : compact_iteration H e = Except.ok e2) : e2.comp_time = e.comp_time := by
  unfold compact_iteration at h
  simp only at h
  repeat' split at h
  all_goals first
    | (cases h; rfl)
    | (exact absurd h (by simp))

/-- The values that the compactor clock takes: the powers of 10 from `MIN_COMP_TIME` to
`MAX_COMP_TIME`. A step of an execution keeps the clock among them. -/
theorem Step.apply_comp_time (H : Str → Nat) (e e2 : Engine) (s : Step)
    (hc : e.comp_time ∈ ([1, 10, 100, 1000, 10000, 100000] : List Int))
    (h : s.apply H e = Except.ok e2) :
    e2.comp_time ∈ ([1, 10, 100, 1000, 10000, 100000] : List Int) := by
  have hset : ∀ key value, (SET H e key value).comp_time
      ∈ ([1, 10, 100, 1000, 10000, 100000] : List Int) := by
    intro key value
    rw [SET_comp_time]
    simp only [List.mem_cons, List.mem_singleton, List.not_mem_nil, or_false] at hc
    rcases hc with h | h | h | h | h | h <;> rw [h] <;> decide
  cases s with
  | op o =>
      simp only [Step.apply, Except.ok.injEq] at h
      subst h
      cases o with
      | set key value => exact hset key value
      | del key => exact hset key _
  | get key =>
      simp only [Step.apply] at h
      split at h
      · exact absurd h (by simp)
      · simp only [Except.ok.injEq] at h
        subst h
        rw [GET_comp_time]
        split
        · exact hc
        · simp only [List.mem_cons, List.mem_singleton, List.not_mem_nil, or_false] at hc
          rcases hc with h | h | h | h | h | h <;> rw [h] <;> decide
  | compact =>
      simp only [Step.apply] at h
      rw [compact_iteration_comp_time H e e2 h]
      exact hc

theorem exec_comp_time (H : Str → Nat) : ∀ (steps : List Step) (e e2 : Engine),
    e.comp_time ∈ ([1, 10, 100, 1000, 10000, 100000] : List Int) →
    exec H e steps = Except.ok e2 →
    e2.comp_time ∈ ([1, 10, 100, 1000, 10000, 100000] : List Int) := by
  intro steps
  induction steps with
  | nil =>
      intro e e2 hc h
      simp only [exec, Except.ok.injEq] at h
      subst h
      exact hc
  | cons s steps ih =>
      intro e e2 hc h
      simp only [exec] at h
      split at h
      · exact absurd h (by simp)
      · rename_i e1 hs
        exact ih e1 e2 (Step.apply_comp_time H e e1 s hc hs) h

theorem Reachable.comp_time_mem (H : Str → Nat) (e : Engine) (h : Reachable H e) :
    e.comp_time ∈ ([1, 10, 100, 1000, 10000, 100000] : List Int) := by
  obtain ⟨steps, hsteps⟩ := h
  exact exec_comp_time H steps Engine.fresh e (by decide) hsteps

/-! ## Lemmas on the wire layer -/

theorem to_string_length_pos (n : Nat) : 1 ≤ (to_string n).length := by
  unfold to_string
  rw [List.length_reverse, digitsRev]
  split <;> simp

theorem build_resp_ok (message : Str) :
    build_resp message = Except.ok ([43] ++ message ++ CRLF) := by
  unfold build_resp sprintf_into
  rw [if_pos (by simp [CRLF])]

theorem build_error_ok (message : Str) :
    build_error message = Except.ok ([45, 69, 82, 82, 32] ++ message ++ CRLF) := by
  unfold build_error sprintf_into
  rw [if_pos (by simp [CRLF])]

/-- The response of `build_resp_get` never fits its allocation: `len + 6` bytes are
allocated and `len + 6` bytes and the digits of `len` are written. -/
theorem build_resp_get_overflows (message : Str) :
    build_resp_get message = Except.error Fault.out_of_bounds := by
  have h := to_string_length_pos message.length
  unfold build_resp_get sprintf_into
  rw [if_neg (by
    simp only [CRLF, List.length_append, List.length_cons, List.length_nil]
    omega)]


/-! ## Reading a table back (`read_SSTable`) -/

theorem getline_loop_lineFree : ∀ (s line : Str), LineFree s →
    getline_loop s line = if line ++ s = [] then [] else [line ++ s] := by
  intro s
  induction s with
  | nil => intro line _; simp [getline_loop]
  | cons a s ih =>
      intro line h
      have ha : a ≠ NEWLINE := fun e => h (by rw [e]; exact List.mem_cons_self _ _)
      have hs : LineFree s := fun hm => h (List.mem_cons_of_mem _ hm)
      rw [getline_loop, if_neg ha, ih _ hs]
      simp

theorem splitString_loop_token : ∀ (k rest token : Str), DelimFree k → token ++ k ≠ [] →
    splitString_loop (k ++ DELIMITER :: rest) token = (token ++ k) :: splitString_loop rest [] := by
  intro k
  induction k with
  | nil =>
      intro rest token _ hne
      have : token ≠ [] := by simpa using hne
      simp [splitString_loop, this]
  | cons a k ih =>
      intro rest token hk hne
      have ha : a ≠ DELIMITER := fun e => hk (by rw [e]; exact List.mem_cons_self _ _)
      have hk2 : DelimFree k := fun hm => hk (List.mem_cons_of_mem _ hm)
      rw [List.cons_append, splitString_loop, if_neg ha, ih rest (token ++ [a]) hk2 (by simp)]
      simp

theorem splitString_records : ∀ (recs : List (Str × Str)), RecordsValid recs →
    splitString_loop ((recs.map fun p => encodeKeyValuePair p.1 p.2).flatten) [] =
      recs.flatMap fun p => [p.1, p.2] := by
  intro recs
  induction recs with
  | nil => intro _; rfl
  | cons r recs ih =>
      intro h
      obtain ⟨⟨hk1, hk2, _⟩, ⟨hv1, hv2, _⟩⟩ := h r (List.mem_cons_self _ _)
      have ih := ih fun p hp => h p (List.mem_cons_of_mem _ hp)
      have e : ((r :: recs).map fun p => encodeKeyValuePair p.1 p.2).flatten =
          r.1 ++ DELIMITER :: (r.2 ++ DELIMITER ::
            (recs.map fun p => encodeKeyValuePair p.1 p.2).flatten) := by
        simp [encodeKeyValuePair]
      rw [e, splitString_loop_token r.1 _ [] hk2 (by simpa using hk1),
        splitString_loop_token r.2 _ [] hv2 (by simpa using hv1), ih]
      simp

theorem pair_tokens_records : ∀ (recs : List (Str × Str)),
    pair_tokens (recs.flatMap fun p => [p.1, p.2]) = recs := by
  intro recs
  induction recs with
  | nil => rfl
  | cons r recs ih =>
      have e : ((r :: recs).flatMap fun p => [p.1, p.2]) =
          r.1 :: r.2 :: (recs.flatMap fun p => [p.1, p.2]) := by
        simp [List.flatMap_cons]
      rw [e, pair_tokens, ih]

theorem lineFree_records : ∀ (recs : List (Str × Str)), RecordsValid recs →
    LineFree ((recs.map fun p => encodeKeyValuePair p.1 p.2).flatten) := by
  intro recs h hm
  obtain ⟨l, hl, hml⟩ := List.mem_flatten.mp hm
  obtain ⟨p, hp, rfl⟩ := List.mem_map.mp hl
  obtain ⟨⟨_, _, hk⟩, ⟨_, _, hv⟩⟩ := h p hp
  simp only [encodeKeyValuePair, List.append_assoc, List.mem_append, List.mem_singleton] at hml
  rcases hml with h1 | h1 | h1 | h1
  · exact hk h1
  · exact absurd h1 (by decide)
  · exact hv h1
  · exact absurd h1 (by decide)

/-- A data chunk made of encoded records is parsed back into these records. -/
theorem parse_chunk (recs : List (Str × Str)) (h : RecordsValid recs) :
    (getline_loop ((recs.map fun p => encodeKeyValuePair p.1 p.2).flatten) []).flatMap
      (fun line => pair_tokens (splitString line)) = recs := by
  rw [getline_loop_lineFree _ _ (lineFree_records recs h)]
  cases recs with
  | nil => rfl
  | cons r recs =>
      have hne : ¬ ([] ++ (((r :: recs).map fun p => encodeKeyValuePair p.1 p.2).flatten) = []) := by
        simp [encodeKeyValuePair]
      rw [if_neg hne]
      simp only [List.nil_append, List.flatMap_cons, List.flatMap_nil, List.append_nil]
      unfold splitString
      rw [splitString_records _ h, pair_tokens_records]


theorem read_SSTable_loop_append_some (pre : List Str) (tail : Files Str) :
    read_SSTable_loop (pre.map some ++ tail) =
      (pre.flatMap fun content =>
        (getline_loop content []).flatMap fun line => pair_tokens (splitString line))
        ++ read_SSTable_loop tail := by
  induction pre with
  | nil => rfl
  | cons c pre ih =>
      simp only [List.map_cons, List.cons_append, read_SSTable_loop, List.flatMap_cons,
        List.append_assoc]
      exact congrArg _ ih

theorem Folder.appendTxt_last (d : Folder) (pre : Files Str) (buf str : Str)
    (h : d.txt = pre ++ [some buf]) :
    (d.appendTxt pre.length str).txt = pre ++ [some (buf ++ str)] := by
  have hr : d.txt.read pre.length = some buf := by
    rw [Files.read_eq_some, h]; simp
  unfold Folder.appendTxt
  rw [hr]
  simp only
  rw [Files.write_of_lt _ _ _ (by rw [h]; simp), h]
  simp

theorem Folder.openTxt_next (d : Folder) :
    (d.openTxt d.txt.length).txt = d.txt ++ [some []] := by
  unfold Folder.openTxt
  exact Files.write_length _ _

/-- The data chunks that the loop of `store_keyval_data` leaves, when the open file is the
last file of the directory, read back as the records written so far to the open file
followed by the records written by the loop. -/
theorem store_keyval_data_loop_read : ∀ (recs recs0 : List (Str × Str)) (pre : Files Str)
    (d : Folder), RecordsValid recs → RecordsValid recs0 →
    d.txt = pre ++ [some ((recs0.map fun p => encodeKeyValuePair p.1 p.2).flatten)] →
    ∃ tail, (store_keyval_data_loop (recs.map fun p => encodeKeyValuePair p.1 p.2) pre.length
        ((recs0.map fun p => encodeKeyValuePair p.1 p.2).flatten).length d).2.txt = pre ++ tail ∧
      read_SSTable_loop tail = recs0 ++ recs := by
  intro recs
  induction recs with
  | nil =>
      intro recs0 pre d _ h0 hd
      refine ⟨_, hd, ?_⟩
      simp only [read_SSTable_loop, List.append_nil]
      exact parse_chunk recs0 h0
  | cons r recs ih =>
      intro recs0 pre d hr h0 hd
      have hr2 : RecordsValid recs := fun p hp => hr p (List.mem_cons_of_mem _ hp)
      have hr1 : RecordsValid [r] := fun p hp => by
        rw [List.mem_singleton.mp hp]; exact hr r (List.mem_cons_self _ _)
      simp only [List.map_cons, store_keyval_data_loop]
      split
      · -- a new chunk is started
        have hlen : d.txt.length = pre.length + 1 := by rw [hd]; simp
        have hd1 : ((d.openTxt (pre.length + 1)).appendTxt (pre.length + 1)
            (encodeKeyValuePair r.1 r.2)).txt
            = (pre ++ [some ((recs0.map fun p => encodeKeyValuePair p.1 p.2).flatten)])
              ++ [some (([r].map fun p => encodeKeyValuePair p.1 p.2).flatten)] := by
          have h1 : (d.openTxt (pre.length + 1)).txt = d.txt ++ [some []] := by
            rw [← hlen]; exact Folder.openTxt_next d
          have h2 := Folder.appendTxt_last (d.openTxt (pre.length + 1)) d.txt []
            (encodeKeyValuePair r.1 r.2) h1
          rw [hlen] at h2
          rw [h2, hd]
          simp
        obtain ⟨tail, ht, hread⟩ := ih [r]
          (pre ++ [some ((recs0.map fun p => encodeKeyValuePair p.1 p.2).flatten)]) _ hr2 hr1 hd1
        have e1 : (pre ++ [some ((recs0.map fun p => encodeKeyValuePair p.1 p.2).flatten)]).length
            = pre.length + 1 := by simp
        have e2 : (([r].map fun p => encodeKeyValuePair p.1 p.2).flatten).length
            = 0 + (encodeKeyValuePair r.1 r.2).length := by simp
        rw [e1, e2] at ht
        refine ⟨some ((recs0.map fun p => encodeKeyValuePair p.1 p.2).flatten) :: tail, ?_, ?_⟩
        · simp only
          rw [ht]; simp
        · rw [read_SSTable_loop, hread, parse_chunk recs0 h0]
          rfl
      · -- the record is appended to the open chunk
        have h01 : RecordsValid (recs0 ++ [r]) := by
          intro p hp
          rcases List.mem_append.mp hp with h | h
          · exact h0 p h
          · exact hr1 p h
        have hd1 : (d.appendTxt pre.length (encodeKeyValuePair r.1 r.2)).txt
            = pre ++ [some (((recs0 ++ [r]).map fun p => encodeKeyValuePair p.1 p.2).flatten)] := by
          rw [Folder.appendTxt_last d pre _ _ hd]
          simp
        obtain ⟨tail, ht, hread⟩ := ih (recs0 ++ [r]) pre _ hr2 h01 hd1
        have e2 : ((((recs0 ++ [r]).map fun p => encodeKeyValuePair p.1 p.2).flatten)).length
            = ((recs0.map fun p => encodeKeyValuePair p.1 p.2).flatten).length
              + (encodeKeyValuePair r.1 r.2).length := by simp
        rw [e2] at ht
        refine ⟨tail, ht, ?_⟩
        rw [hread]; simp

theorem store_keyval_data_read (recs : List (Str × Str)) (h : RecordsValid recs) :
    read_SSTable_loop
      (store_keyval_data (recs.map fun p => encodeKeyValuePair p.1 p.2)
        { txt := [], bin := [] }).2.txt = recs := by
  have hd : (Folder.openTxt { txt := [], bin := [] } 0).txt
      = [] ++ [some (([] : List (Str × Str)).map fun p => encodeKeyValuePair p.1 p.2).flatten] := rfl
  obtain ⟨tail, ht, hread⟩ := store_keyval_data_loop_read recs [] [] _ h
    (fun p hp => absurd hp (List.not_mem_nil _)) hd
  unfold store_keyval_data
  simp only [List.map_nil, List.flatten_nil, List.length_nil, List.nil_append] at ht hread
  rw [ht, hread]


/-! ## Tables built by the constructor -/

theorem RecordsValid.delimFree {R : List (Str × Str)} (h : RecordsValid R) :
    RecordsDelimFree R :=
  fun p hp => ⟨(h p hp).1.2.1, (h p hp).2.2.1⟩

theorem SSTable.new_folder_ne_tombstone (H : Str → Nat) (n : Nat) (S : List (Str × Str))
    (fname : Str) (fs : FS) : (SSTable.new H n S fname fs).1.folder_name ≠ TOMBSTONE := by
  rw [SSTable.new_folder_name]
  split
  · intro h
    have := congrArg List.head? h
    simp [TOMBSTONE] at this
  · assumption

theorem SSTable.new_fname (H : Str → Nat) (n : Nat) (S : List (Str × Str)) (fname : Str)
    (fs : FS) (h : fname ≠ TOMBSTONE) : (SSTable.new H n S fname fs).1.folder_name = fname := by
  rw [SSTable.new_folder_name, if_neg h]

theorem SSTable.find_congr_fs (H : Str → Nat) (fs fs2 : FS) (t : SSTable) (key : Str)
    (h : fs2.get t.folder_name = fs.get t.folder_name) : t.find H fs2 key = t.find H fs key := by
  have hp : ∀ a b, extractPair fs2 t.folder_name a b = extractPair fs t.folder_name a b := by
    intro a b; unfold extractPair FS.readBin; rw [h]
  have hk : ∀ a b, extractKeyValuePair fs2 t.folder_name a b
      = extractKeyValuePair fs t.folder_name a b := by
    intro a b; unfold extractKeyValuePair FS.readTxt; rw [h]
  have hloop : ∀ (fuel : Nat) (lo hi : Int),
      SSTable.find_loop fs2 t.folder_name key fuel lo hi
        = SSTable.find_loop fs t.folder_name key fuel lo hi := by
    intro fuel
    induction fuel with
    | zero => intro lo hi; rfl
    | succ fuel ih =>
        intro lo hi
        simp only [SSTable.find_loop, hp, hk, ih]
  unfold SSTable.find
  rw [hloop]

theorem store_keyval_index_txt (data : List (Int × Int)) (n : Nat) (d : Folder) :
    (store_keyval_index data n d).txt = d.txt :=
  (store_keyval_index_loop_spec data n n 0 0 d (by simp)
    (by simp only [INDEX_SIZE]; omega)).1

theorem Built.of_new (H : Str → Nat) (n : Nat) (R : List (Str × Str)) (fname : Str) (fs0 : FS)
    (h : fs0.get (SSTable.new H n R fname fs0).1.folder_name = none) :
    Built H (SSTable.new H n R fname fs0).2 (SSTable.new H n R fname fs0).1 R :=
  ⟨n, fname, fs0, h, rfl, rfl⟩

theorem Built.congr_fs {H : Str → Nat} {fs fs2 : FS} {t : SSTable} {R : List (Str × Str)}
    (h : Built H fs t R) (hget : fs2.get t.folder_name = fs.get t.folder_name) :
    Built H fs2 t R := by
  obtain ⟨n, fname, fs0, h1, h2, h3⟩ := h
  exact ⟨n, fname, fs0, h1, h2, hget.trans h3⟩

theorem Built.folder_ne_tombstone {H : Str → Nat} {fs : FS} {t : SSTable}
    {R : List (Str × Str)} (h : Built H fs t R) : t.folder_name ≠ TOMBSTONE := by
  obtain ⟨n, fname, fs0, _, h2, _⟩ := h
  rw [h2]
  exact SSTable.new_folder_ne_tombstone H n R fname fs0

theorem Built.num_keys {H : Str → Nat} {fs : FS} {t : SSTable}
    {R : List (Str × Str)} (h : Built H fs t R) : t.num_keys = R.length := by
  obtain ⟨n, fname, fs0, _, h2, _⟩ := h
  rw [h2]; rfl

theorem Built.holds {H : Str → Nat} {fs : FS} {t : SSTable} {R : List (Str × Str)}
    (h : Built H fs t R) (hR : RecordsDelimFree R) : Holds H fs t R := by
  obtain ⟨n, fname, fs0, _, h2, h3⟩ := h
  subst h2
  exact (SSTable.new_holds H n R fname fs0 hR).congr_folder h3

theorem Built.read {H : Str → Nat} {fs : FS} {t : SSTable} {R : List (Str × Str)}
    (h : Built H fs t R) (hR : RecordsValid R) :
    read_SSTable fs t.folder_name t.num_keys = Except.ok R := by
  obtain ⟨n, fname, fs0, h1, h2, h3⟩ := h
  subst h2
  rw [SSTable.new_get_same, h1] at h3
  unfold read_SSTable
  rw [h3]
  simp only [Option.getD_none]
  rw [store_keyval_index_txt, store_keyval_data_read R hR]
  have : (SSTable.new H n R fname fs0).1.num_keys = R.length := rfl
  rw [this, if_pos (le_refl _)]
  simp


theorem sstable_name_injective {i j : Nat}
    (h : ([83, 83, 84, 97, 98, 108, 101, 95] : Str) ++ to_string i
      = [83, 83, 84, 97, 98, 108, 101, 95] ++ to_string j) : i = j :=
  to_string_injective (List.append_cancel_left h)

/-- After `n` blocks of writes the fresh engine has flushed `n` times: slot `i` holds the
table built in the directory `SSTable_i`, and no directory of a higher index exists. -/
theorem exec_flushes (H : Str → Nat) : ∀ n : Nat, ∃ e,
    exec H Engine.fresh (List.replicate n fillBlock).flatten = Except.ok e ∧
    e.tree = AVLTree.empty ∧ e.SSTable_list.length = n ∧
    (∀ i : Nat, i < n → ∃ t R, e.SSTable_list[i]? = some (some t) ∧
      t.folder_name = [83, 83, 84, 97, 98, 108, 101, 95] ++ to_string i ∧
      Built H e.fs t R ∧ Ascending R ∧ RecordsValid R) ∧
    (∀ j : Nat, n ≤ j → e.fs.get ([83, 83, 84, 97, 98, 108, 101, 95] ++ to_string j) = none) := by
  intro n
  induction n with
  | zero =>
      refine ⟨Engine.fresh, rfl, rfl, rfl, ?_, ?_⟩
      · intro i hi; omega
      · intro j _; rfl
  | succ n ih =>
      obtain ⟨e, hex, htree, hlen, hslots, hfree⟩ := ih
      obtain ⟨R, e2, hasc, hval, hblock, htree2, hlist2, hfs2⟩ := exec_fillBlock H e htree
      rw [hlen] at hlist2 hfs2
      have hname : (SSTable.new H n R TOMBSTONE e.fs).1.folder_name
          = [83, 83, 84, 97, 98, 108, 101, 95] ++ to_string n := by
        rw [SSTable.new_folder_name, if_pos rfl]
      refine ⟨e2, ?_, htree2, ?_, ?_, ?_⟩
      · rw [List.replicate_succ', List.flatten_append, exec_append, hex]
        simp only [List.flatten_cons, List.flatten_nil, List.append_nil]
        exact hblock
      · rw [hlist2]; simp [hlen]
      · intro i hi
        by_cases hin : i < n
        · obtain ⟨t, Rt, hget, hfn, hbuilt, ha, hv⟩ := hslots i hin
          refine ⟨t, Rt, ?_, hfn, ?_, ha, hv⟩
          · rw [hlist2, List.getElem?_append_left (by omega)]
            exact hget
          · refine hbuilt.congr_fs ?_
            rw [hfs2]
            refine SSTable.new_get_other H n R TOMBSTONE e.fs _ ?_
            rw [hname, hfn]
            intro heq
            have := sstable_name_injective heq
            omega
        · have hi2 : i = n := by omega
          subst hi2
          refine ⟨_, R, ?_, hname, ?_, hasc, hval⟩
          · rw [hlist2, List.getElem?_append_right (by omega)]
            simp [hlen]
          · rw [hfs2]
            refine Built.of_new H i R TOMBSTONE e.fs ?_
            rw [hname]
            exact hfree i (le_refl _)
      · intro j hj
        rw [hfs2, SSTable.new_get_other H n R TOMBSTONE e.fs _ ?_]
        · exact hfree j (by omega)
        · rw [hname]
          intro heq
          have := sstable_name_injective heq
          omega


/-! ## One compaction step -/

theorem list_tail_pair {α : Type} (l : List α) (h : l.length > 100) :
    ∃ rest a b, l = rest ++ [a, b] := by
  rcases List.eq_nil_or_concat l with h1 | ⟨l1, b, h1⟩
  · rw [h1] at h; simp at h
  · rcases List.eq_nil_or_concat l1 with h2 | ⟨rest, a, h2⟩
    · rw [h1, h2] at h; simp at h
    · exact ⟨rest, a, b, by rw [h1, h2]; simp⟩

theorem getD_tail_rr {α : Type} (rest : List α) (a b d : α) :
    (rest ++ [a, b]).getD ((rest ++ [a, b]).length - 1) d = b := by
  rw [List.getD_eq_getElem?_getD]
  have : (rest ++ [a, b]).length - 1 = rest.length + 1 := by simp
  rw [this, List.getElem?_append_right (by omega)]
  simp

theorem getD_tail_ll {α : Type} (rest : List α) (a b d : α) :
    (rest ++ [a, b]).getD ((rest ++ [a, b]).length - 1 - 1) d = a := by
  rw [List.getD_eq_getElem?_getD]
  have : (rest ++ [a, b]).length - 1 - 1 = rest.length := by simp
  rw [this, List.getElem?_append_right (by omega)]
  simp

theorem dropLast_tail {α : Type} (rest : List α) (a b : α) :
    (rest ++ [a, b]).dropLast = rest ++ [a] := by
  have : rest ++ [a, b] = (rest ++ [a]) ++ [b] := by simp
  rw [this, List.dropLast_concat]

theorem getD_popped_ll {α : Type} (rest : List α) (a b d : α) :
    (rest ++ [a]).getD ((rest ++ [a, b]).length - 1 - 1) d = a := by
  rw [List.getD_eq_getElem?_getD]
  have : (rest ++ [a, b]).length - 1 - 1 = rest.length := by simp
  rw [this, List.getElem?_append_right (by omega)]
  simp

theorem set_tail_ll {α : Type} (rest : List α) (a b x : α) :
    (rest ++ [a, b]).set ((rest ++ [a, b]).length - 1 - 1) x = rest ++ [x, b] := by
  have : (rest ++ [a, b]).length - 1 - 1 = rest.length := by simp
  rw [this, List.set_append_right _ _ (by omega)]
  simp

theorem set_tail_rr {α : Type} (rest : List α) (a b x : α) (n : Nat)
    (hn : n = rest.length + 2) :
    (rest ++ [a, b]).set (n - 1) x = rest ++ [a, x] := by
  have : n - 1 = rest.length + 1 := by omega
  rw [this, List.set_append_right _ _ (by omega)]
  simp

theorem GET_fst_eq (H : Str → Nat) (e : Engine) (key : Str) :
    (GET H e key).1 =
      if (e.tree.find key).1 then Except.ok (e.tree.find key).2
      else GET_loop H e.fs key e.SSTable_list.reverse := by
  unfold GET
  simp only
  split
  · rfl
  · split <;> rfl

theorem GET_loop_congr_fs (H : Str → Nat) (fs fs2 : FS) (key : Str) :
    ∀ (slots : List (Option SSTable)),
      (∀ t, some t ∈ slots → fs2.get t.folder_name = fs.get t.folder_name) →
      GET_loop H fs2 key slots = GET_loop H fs key slots := by
  intro slots
  induction slots with
  | nil => intro _; rfl
  | cons a slots ih =>
      intro h
      have ih := ih fun t ht => h t (List.mem_cons_of_mem _ ht)
      cases a with
      | none => simpa [GET_loop] using ih
      | some t =>
          simp only [GET_loop, SSTable.find_congr_fs H fs fs2 t key (h t (List.mem_cons_self _ _)),
            ih]


theorem compact_small (H : Str → Nat) (e : Engine) (h : ¬ e.SSTable_list.length > 100) :
    compact_iteration H e = Except.ok e := by
  unfold compact_iteration
  rw [if_neg h]

theorem compact_pop_two (H : Str → Nat) (e : Engine) (rest : List (Option SSTable))
    (hl : e.SSTable_list = rest ++ [none, none]) (h : e.SSTable_list.length > 100) :
    compact_iteration H e = Except.ok { e with SSTable_list := rest } := by
  unfold compact_iteration
  rw [if_pos h]
  simp only [hl, getD_tail_rr, dropLast_tail, getD_popped_ll]
  rw [List.dropLast_concat]

theorem compact_pop_one (H : Str → Nat) (e : Engine) (rest : List (Option SSTable))
    (t : SSTable) (hl : e.SSTable_list = rest ++ [some t, none])
    (h : e.SSTable_list.length > 100) :
    compact_iteration H e = Except.ok { e with SSTable_list := rest ++ [some t] } := by
  unfold compact_iteration
  rw [if_pos h]
  simp only [hl, getD_tail_rr, dropLast_tail, getD_popped_ll]

theorem compact_move (H : Str → Nat) (e : Engine) (rest : List (Option SSTable))
    (t : SSTable) (hl : e.SSTable_list = rest ++ [none, some t])
    (h : e.SSTable_list.length > 100) :
    compact_iteration H e = Except.ok { e with SSTable_list := rest ++ [some t] } := by
  unfold compact_iteration
  rw [if_pos h]
  simp only [hl, getD_tail_rr, getD_tail_ll, set_tail_ll, dropLast_tail]

theorem compact_merge (H : Str → Nat) (e : Engine) (rest : List (Option SSTable))
    (tll trr : SSTable) (Rll Rrr : List (Str × Str))
    (hl : e.SSTable_list = rest ++ [some tll, some trr]) (h : e.SSTable_list.length > 100)
    (hrl : read_SSTable e.fs tll.folder_name tll.num_keys = Except.ok Rll)
    (hrr : read_SSTable e.fs trr.folder_name trr.num_keys = Except.ok Rrr) :
    compact_iteration H e = Except.ok { e with
      SSTable_list := rest ++
        [some (SSTable.new H e.SSTable_list.length (mergeSortedSSTables Rrr Rll).2
          tll.folder_name (trr.delete (tll.delete e.fs))).1, none]
      fs := (SSTable.new H e.SSTable_list.length (mergeSortedSSTables Rrr Rll).2
          tll.folder_name (trr.delete (tll.delete e.fs))).2 } := by
  unfold compact_iteration
  rw [if_pos h]
  have hlen : e.SSTable_list.length = rest.length + 2 := by rw [hl]; simp
  simp only [hl, getD_tail_rr, getD_tail_ll, hrl, hrr, set_tail_ll]
  rw [set_tail_rr rest _ _ _ _ (by simp)]


theorem recordsValid_merge (recent old : List (Str × Str)) (hr : RecordsValid recent)
    (ho : RecordsValid old) : RecordsValid (mergeSortedSSTables recent old).2 := by
  intro p hp
  rcases mem_merge_loop_sub p recent old hp with h | h
  · exact hr p h
  · exact ho p h

theorem get_delete_two_same (fs : FS) (tll trr : SSTable) :
    (trr.delete (tll.delete fs)).get tll.folder_name = none := by
  unfold SSTable.delete
  by_cases h : tll.folder_name = trr.folder_name
  · rw [h]; exact get_deleteFolder_same _ _
  · rw [get_deleteFolder_other _ _ _ h]; exact get_deleteFolder_same _ _

theorem get_delete_two_other (fs : FS) (tll trr : SSTable) (g : Str)
    (h1 : g ≠ tll.folder_name) (h2 : g ≠ trr.folder_name) :
    (trr.delete (tll.delete fs)).get g = fs.get g := by
  unfold SSTable.delete
  rw [get_deleteFolder_other _ _ _ h2, get_deleteFolder_other _ _ _ h1]

/-- The merge branch of a compaction step: the merged table is built from the merge of the
two record sequences, and reads of the registry see the same values. -/
theorem compact_merge_reads (H : Str → Nat) (e : Engine) (rest : List (Option SSTable))
    (tll trr : SSTable) (k : Str) (hreg : RegistryHolds H e)
    (hl : e.SSTable_list = rest ++ [some tll, some trr]) (h : e.SSTable_list.length > 100) :
    ∃ e2, compact_iteration H e = Except.ok e2 ∧ e2.tree = e.tree ∧
      GET_loop H e2.fs k e2.SSTable_list.reverse = GET_loop H e.fs k e.SSTable_list.reverse := by
  obtain ⟨hbuilt, hdist⟩ := hreg
  have hill : e.SSTable_list[rest.length]? = some (some tll) := by
    rw [hl, List.getElem?_append_right (by omega)]; simp
  have hirr : e.SSTable_list[rest.length + 1]? = some (some trr) := by
    rw [hl, List.getElem?_append_right (by omega)]; simp
  obtain ⟨Rll, hbl, hal, hvl⟩ := hbuilt _ _ hill
  obtain ⟨Rrr, hbr, har, hvr⟩ := hbuilt _ _ hirr
  have hcomp := compact_merge H e rest tll trr Rll Rrr hl h (hbl.read hvl) (hbr.read hvr)
  refine ⟨_, hcomp, rfl, ?_⟩
  -- the merged table
  have hfn : tll.folder_name ≠ TOMBSTONE := hbl.folder_ne_tombstone
  have hnf := SSTable.new_fname H e.SSTable_list.length (mergeSortedSSTables Rrr Rll).2
    tll.folder_name (trr.delete (tll.delete e.fs)) hfn
  have hnone : (trr.delete (tll.delete e.fs)).get
      (SSTable.new H e.SSTable_list.length (mergeSortedSSTables Rrr Rll).2
        tll.folder_name (trr.delete (tll.delete e.fs))).1.folder_name = none := by
    rw [hnf]; exact get_delete_two_same e.fs tll trr
  have hbm := Built.of_new H e.SSTable_list.length (mergeSortedSSTables Rrr Rll).2
    tll.folder_name (trr.delete (tll.delete e.fs)) hnone
  have ham := ascending_merge Rrr Rll har hal
  have hvm := recordsValid_merge Rrr Rll hvr hvl
  have hfm := SSTable.find_eq_lookup_records H _ _ _ k ham (fun p hp => (hvm.delimFree p hp).1)
    (hbm.holds hvm.delimFree)
  have hfl := SSTable.find_eq_lookup_records H e.fs tll Rll k hal
    (fun p hp => (hvl.delimFree p hp).1) (hbl.holds hvl.delimFree)
  have hfr := SSTable.find_eq_lookup_records H e.fs trr Rrr k har
    (fun p hp => (hvr.delimFree p hp).1) (hbr.holds hvr.delimFree)
  have hlm := lookup_merge k Rrr Rll har hal
  -- the older slots
  have hrest : GET_loop H (SSTable.new H e.SSTable_list.length (mergeSortedSSTables Rrr Rll).2
      tll.folder_name (trr.delete (tll.delete e.fs))).2 k rest.reverse
      = GET_loop H e.fs k rest.reverse := by
    apply GET_loop_congr_fs
    intro t ht
    obtain ⟨i, hi⟩ := List.mem_iff_getElem?.mp (List.mem_reverse.mp ht)
    have hil : i < rest.length := (List.getElem?_eq_some_iff.mp hi).1
    have hie : e.SSTable_list[i]? = some (some t) := by
      rw [hl, List.getElem?_append_left hil]; exact hi
    have h1 : t.folder_name ≠ tll.folder_name := hdist i rest.length t tll (by omega) hie hill
    have h2 : t.folder_name ≠ trr.folder_name := hdist i (rest.length + 1) t trr (by omega) hie hirr
    rw [SSTable.new_get_other _ _ _ _ _ _ (by rw [hnf]; exact h1),
      get_delete_two_other _ _ _ _ h1 h2]
  clear hcomp hnf hnone hbm
  generalize SSTable.new H e.SSTable_list.length (mergeSortedSSTables Rrr Rll).2
      tll.folder_name (trr.delete (tll.delete e.fs)) = nw at hfm hrest ⊢
  simp only [hl, List.reverse_append, List.reverse_cons, List.reverse_nil, List.nil_append,
    List.cons_append, GET_loop, hfm, hfl, hfr, hlm, hrest]
  cases Rrr.lookup k with
  | some v => rfl
  | none => cases Rll.lookup k <;> rfl

theorem liveTables_append (l1 l2 : List (Option SSTable)) :
    liveTables (l1 ++ l2) = liveTables l2 ++ liveTables l1 := by
  unfold liveTables
  rw [List.reverse_append, List.filterMap_append]

/-! ## The shape of the registry -/

theorem RegistryShape.nil : RegistryShape [] :=
  ⟨fun h => absurd rfl h, fun i h => by simp at h⟩

theorem RegistryShape.of_append {l1 l2 : List (Option SSTable)}
    (h : RegistryShape (l1 ++ l2)) : RegistryShape l1 := by
  refine ⟨fun hne => ?_, fun i hi => ?_⟩
  · obtain ⟨t, ht⟩ := h.1 (by simp [hne])
    have h0 : 0 < l1.length := List.length_pos.mpr hne
    rw [List.getElem?_append_left h0] at ht
    exact ⟨t, ht⟩
  · have h1 : i + 1 < l1.length := (List.getElem?_eq_some_iff.mp hi.2).1
    apply h.2 i
    rw [List.getElem?_append_left (by omega), List.getElem?_append_left h1]
    exact hi

theorem RegistryShape.snoc {l : List (Option SSTable)} {x : Option SSTable}
    (h : RegistryShape l) (hx : x = none → ∃ t, l[l.length - 1]? = some (some t)) :
    RegistryShape (l ++ [x]) := by
  refine ⟨fun _ => ?_, fun i hi => ?_⟩
  · by_cases hne : l = []
    · subst hne
      cases x with
      | some t => exact ⟨t, rfl⟩
      | none =>
          obtain ⟨t, ht⟩ := hx rfl
          simp at ht
    · obtain ⟨t, ht⟩ := h.1 hne
      have h0 : 0 < l.length := List.length_pos.mpr hne
      rw [List.getElem?_append_left h0]
      exact ⟨t, ht⟩
  · have h1 : i + 1 < (l ++ [x]).length := (List.getElem?_eq_some_iff.mp hi.2).1
    rw [List.length_append, List.length_singleton] at h1
    by_cases h2 : i + 1 < l.length
    · apply h.2 i
      rw [List.getElem?_append_left (by omega), List.getElem?_append_left h2] at hi
      exact hi
    · have h3 : i + 1 = l.length := by omega
      obtain ⟨hi1, hi2⟩ := hi
      rw [List.getElem?_append_left (by omega)] at hi1
      rw [List.getElem?_append_right (by omega)] at hi2
      have hxn : x = none := by
        have : i + 1 - l.length = 0 := by omega
        rw [this] at hi2
        simpa using hi2
      obtain ⟨t, ht⟩ := hx hxn
      have : l.length - 1 = i := by omega
      rw [this, hi1] at ht
      simp at ht

theorem RegistryShape.snoc_some {l : List (Option SSTable)} (t : SSTable)
    (h : RegistryShape l) : RegistryShape (l ++ [some t]) :=
  h.snoc fun hx => by simp at hx

/-- In a registry of the shape, an empty tail slot has a live slot below it. -/
theorem RegistryShape.tail_not_both (rest : List (Option SSTable)) :
    ¬ RegistryShape (rest ++ [none, none]) := by
  intro h
  apply h.2 rest.length
  rw [List.getElem?_append_right (by omega), List.getElem?_append_right (by omega)]
  simp

theorem RegistryShape.pop (rest : List (Option SSTable)) (a b : Option SSTable)
    (h : RegistryShape (rest ++ [a, b])) : RegistryShape (rest ++ [a]) := by
  have : rest ++ [a, b] = (rest ++ [a]) ++ [b] := by simp
  rw [this] at h
  exact h.of_append

theorem RegistryShape.move (rest : List (Option SSTable)) (t : SSTable)
    (h : RegistryShape (rest ++ [none, some t])) : RegistryShape (rest ++ [some t]) :=
  (RegistryShape.of_append h).snoc_some t

theorem RegistryShape.merge (rest : List (Option SSTable)) (a b m : SSTable)
    (h : RegistryShape (rest ++ [some a, some b])) : RegistryShape (rest ++ [some m, none]) := by
  have h1 : RegistryShape ((rest ++ [some m]) ++ [none]) := by
    apply ((RegistryShape.of_append h).snoc_some m).snoc
    intro _
    refine ⟨m, ?_⟩
    rw [List.length_append, List.length_singleton, Nat.add_sub_cancel,
      List.getElem?_append_right (by omega)]
    simp
  simpa using h1

/-- The registry after one compaction step, branch by branch. -/
theorem compact_iteration_cases (H : Str → Nat) (e e2 : Engine)
    (h : compact_iteration H e = Except.ok e2) :
    (¬ e.SSTable_list.length > 100 ∧ e2 = e) ∨
    (e.SSTable_list.length > 100 ∧ e2.tree = e.tree ∧ e2.comp_time = e.comp_time ∧
      ((∃ rest, e.SSTable_list = rest ++ [none, none] ∧ e2.SSTable_list = rest ∧ e2.fs = e.fs) ∨
       (∃ rest t, e.SSTable_list = rest ++ [some t, none] ∧
          e2.SSTable_list = rest ++ [some t] ∧ e2.fs = e.fs) ∨
       (∃ rest t, e.SSTable_list = rest ++ [none, some t] ∧
          e2.SSTable_list = rest ++ [some t] ∧ e2.fs = e.fs) ∨
       (∃ rest a b m, e.SSTable_list = rest ++ [some a, some b] ∧
          e2.SSTable_list = rest ++ [some m, none]))) := by
  by_cases hl : e.SSTable_list.length > 100
  · right
    obtain ⟨rest, a, b, hab⟩ := list_tail_pair e.SSTable_list hl
    refine ⟨hl, ?_⟩
    cases b with
    | none =>
        cases a with
        | none =>
            rw [compact_pop_two H e rest hab hl] at h
            injection h with h
            subst h
            exact ⟨rfl, rfl, Or.inl ⟨rest, hab, rfl, rfl⟩⟩
        | some t =>
            rw [compact_pop_one H e rest t hab hl] at h
            injection h with h
            subst h
            exact ⟨rfl, rfl, Or.inr (Or.inl ⟨rest, t, hab, rfl, rfl⟩)⟩
    | some trr =>
        cases a with
        | none =>
            rw [compact_move H e rest trr hab hl] at h
            injection h with h
            subst h
            exact ⟨rfl, rfl, Or.inr (Or.inr (Or.inl ⟨rest, trr, hab, rfl, rfl⟩))⟩
        | some tll =>
            cases hrl : read_SSTable e.fs tll.folder_name tll.num_keys with
            | error f =>
                unfold compact_iteration at h
                rw [if_pos hl] at h
                simp only [hab, getD_tail_rr, getD_tail_ll, hrl] at h
                cases h
            | ok Rll =>
                cases hrr : read_SSTable e.fs trr.folder_name trr.num_keys with
                | error f =>
                    unfold compact_iteration at h
                    rw [if_pos hl] at h
                    simp only [hab, getD_tail_rr, getD_tail_ll, hrl, hrr] at h
                    cases h
                | ok Rrr =>
                    rw [compact_merge H e rest tll trr Rll Rrr hab hl hrl hrr] at h
                    injection h with h
                    subst h
                    exact ⟨rfl, rfl, Or.inr (Or.inr (Or.inr ⟨rest, tll, trr, _, hab, rfl⟩))⟩
  · left
    rw [compact_small H e hl] at h
    injection h with h
    exact ⟨hl, h.symm⟩

theorem compact_iteration_shape (H : Str → Nat) (e e2 : Engine)
    (hs : RegistryShape e.SSTable_list) (h : compact_iteration H e = Except.ok e2) :
    RegistryShape e2.SSTable_list := by
  rcases compact_iteration_cases H e e2 h with ⟨_, h1⟩ | ⟨_, _, _, h1⟩
  · rw [h1]; exact hs
  · rcases h1 with ⟨rest, h1, _, _⟩ | ⟨rest, t, h1, h2, _⟩ | ⟨rest, t, h1, h2, _⟩ |
      ⟨rest, a, b, m, h1, h2⟩
    · rw [h1] at hs
      exact absurd hs (RegistryShape.tail_not_both rest)
    · rw [h1] at hs; rw [h2]
      exact RegistryShape.pop rest _ _ hs
    · rw [h1] at hs; rw [h2]
      exact RegistryShape.move rest t hs
    · rw [h1] at hs; rw [h2]
      exact RegistryShape.merge rest a b m hs

theorem GET_SSTable_list (H : Str → Nat) (e : Engine) (key : Str) :
    (GET H e key).2.SSTable_list = e.SSTable_list := by
  unfold GET
  simp only
  split
  · rfl
  · split <;> rfl

theorem SET_shape (H : Str → Nat) (e : Engine) (key value : Str)
    (hs : RegistryShape e.SSTable_list) : RegistryShape (SET H e key value).SSTable_list := by
  rw [SET_eq]
  split
  · exact hs.snoc_some _
  · exact hs

theorem Step.apply_shape (H : Str → Nat) (e e2 : Engine) (s : Step)
    (hs : RegistryShape e.SSTable_list) (h : s.apply H e = Except.ok e2) :
    RegistryShape e2.SSTable_list := by
  cases s with
  | op o =>
      simp only [Step.apply] at h
      injection h with h
      subst h
      cases o with
      | set key value => exact SET_shape H e key value hs
      | del key => exact SET_shape H e key _ hs
  | get key =>
      simp only [Step.apply] at h
      split at h
      · cases h
      · injection h with h
        subst h
        rw [GET_SSTable_list]
        exact hs
  | compact => exact compact_iteration_shape H e e2 hs h

theorem exec_shape (H : Str → Nat) : ∀ (steps : List Step) (e e2 : Engine),
    RegistryShape e.SSTable_list → exec H e steps = Except.ok e2 →
    RegistryShape e2.SSTable_list := by
  intro steps
  induction steps with
  | nil =>
      intro e e2 hs h
      simp only [exec] at h
      injection h with h
      subst h
      exact hs
  | cons s rest ih =>
      intro e e2 hs h
      simp only [exec] at h
      cases hstep : s.apply H e with
      | error f => rw [hstep] at h; cases h
      | ok e1 =>
          rw [hstep] at h
          exact ih e1 e2 (Step.apply_shape H e e1 s hs hstep) h

/-! ## Runs of compaction steps -/

/-- On a registry whose live tables hold their records (built by the constructor from
strictly ascending records with non-empty keys and values free of DELIMITER and of line
breaks, each table in its own directory), one compaction step returns and the newest-first
registry lookup of every key gives the same result after it as before it. -/
theorem compact_iteration_reads (H : Str → Nat) (e : Engine) (k : Str)
    (hreg : RegistryHolds H e) :
    ∃ e2, compact_iteration H e = Except.ok e2 ∧ e2.tree = e.tree ∧
      GET_loop H e2.fs k e2.SSTable_list.reverse = GET_loop H e.fs k e.SSTable_list.reverse := by
  by_cases hlen : e.SSTable_list.length > 100
  · obtain ⟨rest, a, b, hl⟩ := list_tail_pair e.SSTable_list hlen
    cases b with
    | none =>
        cases a with
        | none =>
            refine ⟨_, compact_pop_two H e rest hl hlen, rfl, ?_⟩
            simp [hl, GET_loop]
        | some t =>
            refine ⟨_, compact_pop_one H e rest t hl hlen, rfl, ?_⟩
            simp [hl, GET_loop]
    | some trr =>
        cases a with
        | none =>
            refine ⟨_, compact_move H e rest trr hl hlen, rfl, ?_⟩
            simp [hl, GET_loop]
        | some tll => exact compact_merge_reads H e rest tll trr k hreg hl hlen
  · exact ⟨e, compact_small H e hlen, rfl, rfl⟩

/-- When the two tail tables share a directory, the directory exists after the merge step:
the constructor of the merged table has created it again. -/
theorem compact_merge_shared_folder (H : Str → Nat) (e e2 : Engine)
    (rest : List (Option SSTable)) (tll trr : SSTable)
    (hl : e.SSTable_list = rest ++ [some tll, some trr]) (h : e.SSTable_list.length > 100)
    (hsame : trr.folder_name = tll.folder_name) (hfn : tll.folder_name ≠ TOMBSTONE)
    (hc : compact_iteration H e = Except.ok e2) :
    (e2.fs.get trr.folder_name).isSome = true := by
  cases hrl : read_SSTable e.fs tll.folder_name tll.num_keys with
  | error f =>
      unfold compact_iteration at hc
      rw [if_pos h] at hc
      simp only [hl, getD_tail_rr, getD_tail_ll, hrl] at hc
      cases hc
  | ok Rll =>
      cases hrr : read_SSTable e.fs trr.folder_name trr.num_keys with
      | error f =>
          unfold compact_iteration at hc
          rw [if_pos h] at hc
          simp only [hl, getD_tail_rr, getD_tail_ll, hrl, hrr] at hc
          cases hc
      | ok Rrr =>
          rw [compact_merge H e rest tll trr Rll Rrr hl h hrl hrr] at hc
          injection hc with hc
          subst hc
          have hnf := SSTable.new_fname H e.SSTable_list.length (mergeSortedSSTables Rrr Rll).2
            tll.folder_name (trr.delete (tll.delete e.fs)) hfn
          have hsome := SSTable.new_get_same H e.SSTable_list.length
            (mergeSortedSSTables Rrr Rll).2 tll.folder_name (trr.delete (tll.delete e.fs))
          rw [hnf] at hsome
          show ((SSTable.new H e.SSTable_list.length (mergeSortedSSTables Rrr Rll).2
            tll.folder_name (trr.delete (tll.delete e.fs))).2.get trr.folder_name).isSome = true
          rw [hsame, hsome]
          rfl

/-- The merge branch of a compaction step on a registry whose live tables hold their records:
what the step publishes. -/
theorem compact_merge_publish (H : Str → Nat) (e : Engine)
    (rest : List (Option SSTable)) (tll trr : SSTable)
    (hreg : RegistryHolds H e)
    (hl : e.SSTable_list = rest ++ [some tll, some trr]) (h : e.SSTable_list.length > 100) :
    ∃ (Rll Rrr : List (Str × Str)) (e2 : Engine) (m : SSTable),
      read_SSTable e.fs tll.folder_name tll.num_keys = Except.ok Rll ∧
      read_SSTable e.fs trr.folder_name trr.num_keys = Except.ok Rrr ∧
      Built H e.fs tll Rll ∧ Built H e.fs trr Rrr ∧
      compact_iteration H e = Except.ok e2 ∧
      e2.SSTable_list = rest ++ [some m, none] ∧
      e2.SSTable_list.length = e.SSTable_list.length ∧
      e2.tree = e.tree ∧
      Built H e2.fs m (mergeSortedSSTables Rrr Rll).2 ∧
      Ascending (mergeSortedSSTables Rrr Rll).2 ∧
      (∀ k, (mergeSortedSSTables Rrr Rll).2.lookup k =
        match Rrr.lookup k with
        | some v => some v
        | none => Rll.lookup k) ∧
      m.folder_name = tll.folder_name ∧
      m.num_keys = (mergeSortedSSTables Rrr Rll).1 ∧
      e2.fs.get trr.folder_name = none ∧
      (∀ g, g ≠ tll.folder_name → g ≠ trr.folder_name → e2.fs.get g = e.fs.get g) := by
  obtain ⟨hbuilt, hdist⟩ := hreg
  have hill : e.SSTable_list[rest.length]? = some (some tll) := by
    rw [hl, List.getElem?_append_right (by omega)]; simp
  have hirr : e.SSTable_list[rest.length + 1]? = some (some trr) := by
    rw [hl, List.getElem?_append_right (by omega)]; simp
  obtain ⟨Rll, hbl, hal, hvl⟩ := hbuilt _ _ hill
  obtain ⟨Rrr, hbr, har, hvr⟩ := hbuilt _ _ hirr
  have hne : tll.folder_name ≠ trr.folder_name := hdist _ _ _ _ (by omega) hill hirr
  have hcomp := compact_merge H e rest tll trr Rll Rrr hl h (hbl.read hvl)
    (hbr.read hvr)
  have hfn : tll.folder_name ≠ TOMBSTONE := hbl.folder_ne_tombstone
  have hnf := SSTable.new_fname H e.SSTable_list.length
    (mergeSortedSSTables Rrr Rll).2 tll.folder_name (trr.delete (tll.delete e.fs)) hfn
  have hnone : (trr.delete (tll.delete e.fs)).get
      (SSTable.new H e.SSTable_list.length (mergeSortedSSTables Rrr Rll).2
        tll.folder_name (trr.delete (tll.delete e.fs))).1.folder_name = none := by
    rw [hnf]; exact get_delete_two_same e.fs tll trr
  have hbm := Built.of_new H e.SSTable_list.length (mergeSortedSSTables Rrr Rll).2
    tll.folder_name (trr.delete (tll.delete e.fs)) hnone
  refine ⟨Rll, Rrr, _, _, hbl.read hvl, hbr.read hvr, hbl, hbr, hcomp, rfl, ?_, rfl, hbm,
    ascending_merge Rrr Rll har hal, fun k => lookup_merge k Rrr Rll har hal, hnf, rfl, ?_, ?_⟩
  · simp [hl]
  · show (SSTable.new H e.SSTable_list.length (mergeSortedSSTables Rrr Rll).2
        tll.folder_name (trr.delete (tll.delete e.fs))).2.get trr.folder_name = none
    rw [SSTable.new_get_other _ _ _ _ _ _ (by rw [hnf]; exact fun h => hne h.symm)]
    unfold SSTable.delete
    exact get_deleteFolder_same _ _
  · intro g hg1 hg2
    show (SSTable.new H e.SSTable_list.length (mergeSortedSSTables Rrr Rll).2
        tll.folder_name (trr.delete (tll.delete e.fs))).2.get g = e.fs.get g
    rw [SSTable.new_get_other _ _ _ _ _ _ (by rw [hnf]; exact hg1)]
    exact get_delete_two_other e.fs tll trr g hg1 hg2

/-! ## Probes of the search that cannot be read -/

/-- C1 (the code diverges): `GET` hands out a pointer to a destroyed string. For every
sequence of `SET`/`DEL` operations applied to a fresh engine (no compaction step in
between), with keys and values free of the DELIMITER byte, and every key `k` whose most
recent write is `SET(k, v)`, the lookup of `GET(k)` ends with the string `v`: from the
memtable when `k` is still there, from the newest SSTable that has `k` when it was flushed,
whatever older SSTables hold for `k`. The pointer that `GET` returns is
`value.second.c_str()` of the local `value`, which is destroyed at the `return`: the caller
receives a dangling pointer to the storage that held `v`. -/
theorem C1_GET_returns_dangling_pointer (stringHasher : Str → Nat) (ops : List Op)
    (hvalid : ∀ o ∈ ops, o.Valid) (k v : Str) (hlast : lastWrite ops k = some (Op.set k v)) :
    (GET_pointer stringHasher (run stringHasher Engine.fresh ops) k).1
      = Except.ok (CharPtr.dangling v) ∧
    (GET stringHasher (run stringHasher Engine.fresh ops) k).1 = Except.ok v := by
  constructor
  · rw [GET_pointer_after_run stringHasher ops hvalid k, hlast]
    rfl
  · rw [GET_after_run stringHasher ops hvalid k, hlast]
    rfl

theorem C1_GET_returns_dangling_pointer_witness :
    (∀ o ∈ [Op.set (bytes "a") (bytes "1"), Op.del (bytes "b"), Op.set (bytes "a") (bytes "2")],
      o.Valid) ∧
    lastWrite [Op.set (bytes "a") (bytes "1"), Op.del (bytes "b"), Op.set (bytes "a") (bytes "2")]
      (bytes "a") = some (Op.set (bytes "a") (bytes "2")) ∧
    (GET_pointer List.sum (run List.sum Engine.fresh
      [Op.set (bytes "a") (bytes "1"), Op.del (bytes "b"), Op.set (bytes "a") (bytes "2")])
      (bytes "a")).1 = Except.ok (CharPtr.dangling (bytes "2")) :=
  ⟨by decide, by decide,
    (C1_GET_returns_dangling_pointer List.sum _ (by decide) (bytes "a") (bytes "2")
      (by decide)).1⟩

/-- C2 (the code diverges): for a deleted key `GET` hands out a pointer to a destroyed
string. For every sequence of `SET`/`DEL` operations applied to a fresh engine, with keys
and values free of the DELIMITER byte: for a key `k` that was never written, `GET(k)`
returns `TOMBSTONE.c_str()`, a pointer to the global sentinel "tombstone"; for a key `k`
whose most recent write is `DEL(k)`, the lookup ends with the stored string "tombstone",
also when an older SSTable still holds a live value for `k`, and `GET(k)` returns
`value.second.c_str()` of the local `value`, a dangling pointer. -/
theorem C2_deleted_key_reads_dangling_tombstone (stringHasher : Str → Nat) (ops : List Op)
    (hvalid : ∀ o ∈ ops, o.Valid) (k : Str) :
    (lastWrite ops k = none →
      (GET_pointer stringHasher (run stringHasher Engine.fresh ops) k).1
        = Except.ok (CharPtr.global (bytes "tombstone"))) ∧
    (lastWrite ops k = some (Op.del k) →
      (GET_pointer stringHasher (run stringHasher Engine.fresh ops) k).1
        = Except.ok (CharPtr.dangling (bytes "tombstone")) ∧
      (GET stringHasher (run stringHasher Engine.fresh ops) k).1
        = Except.ok (bytes "tombstone")) := by
  constructor
  · intro h
    rw [GET_pointer_after_run stringHasher ops hvalid k, h]
    rfl
  · intro h
    constructor
    · rw [GET_pointer_after_run stringHasher ops hvalid k, h]
      rfl
    · rw [GET_after_run stringHasher ops hvalid k, h]
      rfl

theorem C2_deleted_key_reads_dangling_tombstone_witness :
    (∀ o ∈ [Op.set (bytes "a") (bytes "1"), Op.del (bytes "a")], o.Valid) ∧
    lastWrite [Op.set (bytes "a") (bytes "1"), Op.del (bytes "a")] (bytes "a")
      = some (Op.del (bytes "a")) ∧
    (GET_pointer List.sum (run List.sum Engine.fresh
      [Op.set (bytes "a") (bytes "1"), Op.del (bytes "a")]) (bytes "a")).1
      = Except.ok (CharPtr.dangling (bytes "tombstone")) :=
  ⟨by decide, by decide,
    ((C2_deleted_key_reads_dangling_tombstone List.sum _ (by decide) (bytes "a")).2
      (by decide)).1⟩


/-! ## Point lookup in one SSTable (C3, C4) -/

/-- C3: for every key-value sequence `S` with strictly ascending keys whose keys and values
are free of the DELIMITER byte, the SSTable that the constructor builds from `S` (in any
directory, whatever was on disk before) answers `find(k)` with `(true, v)` for every record
`(k, v)` of `S`. -/
theorem C3_find_returns_stored_value (stringHasher : Str → Nat) (S : List (Str × Str))
    (hasc : Ascending S) (hfree : RecordsDelimFree S) (list_size : Nat) (fname : Str) (fs : FS)
    (k v : Str) (hkv : (k, v) ∈ S) :
    (SSTable.new stringHasher list_size S fname fs).1.find stringHasher
      (SSTable.new stringHasher list_size S fname fs).2 k = Except.ok (true, v) :=
  (SSTable.find_of_holds stringHasher _ _ S k hasc (fun p hp => (hfree p hp).1)
    (SSTable.new_holds stringHasher list_size S fname fs hfree)).1 v hkv

theorem C3_find_returns_stored_value_witness :
    Ascending [(bytes "a", bytes "1"), (bytes "b", bytes "2")] ∧
    RecordsDelimFree [(bytes "a", bytes "1"), (bytes "b", bytes "2")] ∧
    (SSTable.new List.sum 0 [(bytes "a", bytes "1"), (bytes "b", bytes "2")] TOMBSTONE
        FS.empty).1.find List.sum
      (SSTable.new List.sum 0 [(bytes "a", bytes "1"), (bytes "b", bytes "2")] TOMBSTONE
        FS.empty).2 (bytes "b") = Except.ok (true, bytes "2") :=
  ⟨by decide, by decide,
    C3_find_returns_stored_value List.sum _ (by decide) (by decide) 0 TOMBSTONE FS.empty
      (bytes "b") (bytes "2") (by decide)⟩

/-- C4: for every SSTable built from a strictly ascending sequence `S` of records free of
the DELIMITER byte and every key `k` that is not a key of `S`, `find(k)` returns
`(false, TOMBSTONE)`. When the summary reports `k` absent the answer does not depend on the
disk at all (no file is read); otherwise the binary search runs out of window. An SSTable
with zero keys reports not-found for every key. -/
theorem C4_find_absent_key (stringHasher : Str → Nat) (S : List (Str × Str))
    (hasc : Ascending S) (hfree : RecordsDelimFree S) (list_size : Nat) (fname : Str) (fs : FS)
    (k : Str) (hk : k ∉ S.map Prod.fst) :
    (SSTable.new stringHasher list_size S fname fs).1.find stringHasher
      (SSTable.new stringHasher list_size S fname fs).2 k = Except.ok (false, TOMBSTONE) ∧
    ((SSTable.new stringHasher list_size S fname fs).1.bfilter.exists stringHasher k = false →
      ∀ disk : FS, (SSTable.new stringHasher list_size S fname fs).1.find stringHasher disk k
        = Except.ok (false, TOMBSTONE)) ∧
    (∀ (key : Str) (disk : FS),
      (SSTable.new stringHasher list_size [] fname fs).1.find stringHasher disk key
        = Except.ok (false, TOMBSTONE)) := by
  refine ⟨(SSTable.find_of_holds stringHasher _ _ S k hasc (fun p hp => (hfree p hp).1)
    (SSTable.new_holds stringHasher list_size S fname fs hfree)).2 hk, ?_, ?_⟩
  · intro hb disk
    unfold SSTable.find
    rw [if_neg (by rw [hb]; simp)]
  · intro key disk
    unfold SSTable.find
    rw [if_neg (by rw [SSTable.new_num_keys]; simp)]

theorem C4_find_absent_key_witness :
    Ascending [(bytes "a", bytes "1"), (bytes "b", bytes "2")] ∧
    RecordsDelimFree [(bytes "a", bytes "1"), (bytes "b", bytes "2")] ∧
    bytes "c" ∉ [(bytes "a", bytes "1"), (bytes "b", bytes "2")].map Prod.fst ∧
    (SSTable.new List.sum 0 [(bytes "a", bytes "1"), (bytes "b", bytes "2")] TOMBSTONE
        FS.empty).1.find List.sum
      (SSTable.new List.sum 0 [(bytes "a", bytes "1"), (bytes "b", bytes "2")] TOMBSTONE
        FS.empty).2 (bytes "c") = Except.ok (false, TOMBSTONE) :=
  ⟨by decide, by decide, by decide,
    (C4_find_absent_key List.sum _ (by decide) (by decide) 0 TOMBSTONE FS.empty
      (bytes "c") (by decide)).1⟩

/-! ## Merging two tables (C5, C6) -/

/-- C5: for key-value sequences `T_new` and `T_old` with strictly ascending keys, the merged
sequence holds a record `(k, v)` exactly when `T_new` holds it, or `k` is no key of `T_new`
and `T_old` holds it; so its keys are those of `T_new` together with those of `T_old`, and
the value it has for `k` is the value of `T_new` when `T_new` has `k` and the value of
`T_old` otherwise (any value, the tombstone included). On old = [(a,1),(b,2),(c,3)] and
new = [(b,20),(d,4)] the result is the four records [(a,1),(b,20),(c,3),(d,4)]. -/
theorem C5_merge_prefers_new (T_new T_old : List (Str × Str)) (hn : Ascending T_new)
    (ho : Ascending T_old) :
    (∀ k v, (k, v) ∈ (mergeSortedSSTables T_new T_old).2 ↔
        (k, v) ∈ T_new ∨ (k ∉ T_new.map Prod.fst ∧ (k, v) ∈ T_old)) ∧
    (∀ k, k ∈ (mergeSortedSSTables T_new T_old).2.map Prod.fst ↔
        k ∈ T_new.map Prod.fst ∨ k ∈ T_old.map Prod.fst) ∧
    (∀ k, (mergeSortedSSTables T_new T_old).2.lookup k =
        match T_new.lookup k with
        | some v => some v
        | none => T_old.lookup k) ∧
    mergeSortedSSTables [(bytes "b", bytes "20"), (bytes "d", bytes "4")]
        [(bytes "a", bytes "1"), (bytes "b", bytes "2"), (bytes "c", bytes "3")] =
      (4, [(bytes "a", bytes "1"), (bytes "b", bytes "20"), (bytes "c", bytes "3"),
           (bytes "d", bytes "4")]) := by
  refine ⟨fun k v => mem_merge k v T_new T_old hn ho, ?_,
    fun k => lookup_merge k T_new T_old hn ho, by decide⟩
  intro k
  have h := lookup_merge k T_new T_old hn ho
  have e1 := lookup_eq_none_iff k (mergeSortedSSTables T_new T_old).2
  have e2 := lookup_eq_none_iff k T_new
  have e3 := lookup_eq_none_iff k T_old
  rw [h] at e1
  cases h1 : T_new.lookup k with
  | some v =>
      rw [h1] at e1 e2
      simp only [reduceCtorEq, false_iff, not_not] at e1 e2
      simp [e1, e2]
  | none =>
      rw [h1] at e1 e2
      simp only [true_iff] at e2
      simp only at e1
      rw [e3] at e1
      constructor
      · intro hm; right; by_contra hc; exact (e1.mp hc) hm
      · rintro (hm | hm)
        · exact absurd hm e2
        · by_contra hc; exact (e1.mpr hc) hm

theorem C5_merge_prefers_new_witness :
    Ascending [(bytes "b", bytes "20"), (bytes "d", bytes "4")] ∧
    Ascending [(bytes "a", bytes "1"), (bytes "b", bytes "2"), (bytes "c", bytes "3")] ∧
    (mergeSortedSSTables [(bytes "b", bytes "20"), (bytes "d", bytes "4")]
        [(bytes "a", bytes "1"), (bytes "b", bytes "2"), (bytes "c", bytes "3")]).2.lookup
        (bytes "b") = some (bytes "20") :=
  ⟨by decide, by decide,
    ((C5_merge_prefers_new _ _ (by decide) (by decide)).2.2.1 (bytes "b")).trans (by decide)⟩

/-- C6: for inputs with strictly ascending keys the output of `mergeSortedSSTables` has
strictly ascending keys, so no key occurs twice, and the reported length `k` is the length
of the output and equals `|T_new| + |T_old|` minus the number of keys that the two inputs
share. -/
theorem C6_merge_ascending_length (T_new T_old : List (Str × Str)) (hn : Ascending T_new)
    (ho : Ascending T_old) :
    Ascending (mergeSortedSSTables T_new T_old).2 ∧
    ((mergeSortedSSTables T_new T_old).2.map Prod.fst).Nodup ∧
    (mergeSortedSSTables T_new T_old).1 = (mergeSortedSSTables T_new T_old).2.length ∧
    (mergeSortedSSTables T_new T_old).1 =
      T_new.length + T_old.length - sharedKeys T_new T_old := by
  have ha := ascending_merge T_new T_old hn ho
  have hl := length_merge T_new T_old hn ho
  refine ⟨ha, ?_, rfl, ?_⟩
  · unfold Ascending at ha
    rw [List.Nodup, List.pairwise_map]
    exact ha.imp fun h => ne_of_lt h
  · have : (mergeSortedSSTables T_new T_old).1 = (mergeSortedSSTables T_new T_old).2.length := rfl
    omega

theorem C6_merge_ascending_length_witness :
    Ascending [(bytes "b", bytes "20"), (bytes "d", bytes "4")] ∧
    Ascending [(bytes "a", bytes "1"), (bytes "b", bytes "2"), (bytes "c", bytes "3")] ∧
    (mergeSortedSSTables [(bytes "b", bytes "20"), (bytes "d", bytes "4")]
        [(bytes "a", bytes "1"), (bytes "b", bytes "2"), (bytes "c", bytes "3")]).1 = 2 + 3 - 1 :=
  ⟨by decide, by decide,
    (C6_merge_ascending_length _ _ (by decide) (by decide)).2.2.2.trans (by decide)⟩

/-! ## Compaction does not change reads (C7) -/

set_option maxRecDepth 100000 in
/-- C7 (the code diverges): a compaction step changes what reads see when a table holds a
record with an empty value. The registry `emptyValueRegistry` has 101 slots; its two tail
tables hold the records `("a", "")`, `("b", "x")` and `("d", "4")`, strictly ascending,
with non-empty keys, and keys and values free of DELIMITER and of line breaks, and `find`
returns each of them. Before the step the newest-first lookup of "b" gives "x" and that of
"a" gives the empty value. The step reads the older table back as `("a", "b")`,
`("x", "tombstone")`, and after it the lookup of "b" finds nothing and gives TOMBSTONE, and
that of "a" gives "b". On every registry whose tables hold records with non-empty keys and
non-empty values (free of DELIMITER and of line breaks, strictly ascending, each table
built by the constructor in its own directory), the step returns and leaves the lookup of
every key as it was. -/
theorem C7_compaction_changes_reads (stringHasher : Str → Nat) :
    emptyValueRegistry.SSTable_list.length = 101 ∧
    emptyValueRegistry.SSTable_list.drop 99
      = [some (SSTable.new List.sum 0 [(bytes "a", []), (bytes "b", bytes "x")] (bytes "A")
            FS.empty).1,
          some (SSTable.new List.sum 0 [(bytes "d", bytes "4")] (bytes "B")
            (SSTable.new List.sum 0 [(bytes "a", []), (bytes "b", bytes "x")] (bytes "A")
              FS.empty).2).1] ∧
    (∀ R ∈ [[(bytes "a", ([] : Str)), (bytes "b", bytes "x")], [(bytes "d", bytes "4")]],
      Ascending R ∧
      ∀ p ∈ R, p.1 ≠ [] ∧ DelimFree p.1 ∧ LineFree p.1 ∧ DelimFree p.2 ∧ LineFree p.2) ∧
    (∀ p ∈ [(bytes "a", ([] : Str)), (bytes "b", bytes "x")],
      (SSTable.new List.sum 0 [(bytes "a", []), (bytes "b", bytes "x")] (bytes "A")
        FS.empty).1.find List.sum emptyValueRegistry.fs p.1 = Except.ok (true, p.2)) ∧
    (SSTable.new List.sum 0 [(bytes "d", bytes "4")] (bytes "B")
      (SSTable.new List.sum 0 [(bytes "a", []), (bytes "b", bytes "x")] (bytes "A")
        FS.empty).2).1.find List.sum emptyValueRegistry.fs (bytes "d")
      = Except.ok (true, bytes "4") ∧
    GET_loop List.sum emptyValueRegistry.fs (bytes "b") emptyValueRegistry.SSTable_list.reverse
      = Except.ok (bytes "x") ∧
    GET_loop List.sum emptyValueRegistry.fs (bytes "a") emptyValueRegistry.SSTable_list.reverse
      = Except.ok [] ∧
    read_SSTable emptyValueRegistry.fs (bytes "A") 2
      = Except.ok [(bytes "a", bytes "b"), (bytes "x", TOMBSTONE)] ∧
    (∃ e2, compact_iteration List.sum emptyValueRegistry = Except.ok e2 ∧
      GET_loop List.sum e2.fs (bytes "b") e2.SSTable_list.reverse = Except.ok TOMBSTONE ∧
      GET_loop List.sum e2.fs (bytes "a") e2.SSTable_list.reverse = Except.ok (bytes "b") ∧
      GET_loop_pointer List.sum emptyValueRegistry.fs (bytes "b")
        emptyValueRegistry.SSTable_list.reverse = Except.ok (CharPtr.dangling (bytes "x")) ∧
      GET_loop_pointer List.sum e2.fs (bytes "b") e2.SSTable_list.reverse
        = Except.ok (CharPtr.global TOMBSTONE)) ∧
    (∀ (e : Engine) (k : Str), RegistryHolds stringHasher e →
      ∃ e2, compact_iteration stringHasher e = Except.ok e2 ∧
        GET_loop stringHasher e2.fs k e2.SSTable_list.reverse
          = GET_loop stringHasher e.fs k e.SSTable_list.reverse) := by
  refine ⟨by decide, rfl, by decide, by decide, by decide, by decide, by decide,
    by decide, ⟨_, rfl, by decide, by decide, by decide, by decide⟩, ?_⟩
  intro e k hreg
  obtain ⟨e2, h1, _, h3⟩ := compact_iteration_reads stringHasher e k hreg
  exact ⟨e2, h1, h3⟩

/-! ## Compaction publish (C17) -/

set_option maxRecDepth 100000 in
/-- C17 (the code diverges): the merge step does not always publish what the claim says.
First, when the two live tail tables share a directory and the step returns, the directory
of the former `S[rr]` exists afterwards, because the constructor of the merged table
creates the directory of the former `S[ll]`; this is so on `sharedFolderRegistry`, where
both tail tables are in the directory "A", as the two tail tables of the engine are in the
directory `SSTable_101` after `collisionSchedule`. Second, on `emptyValueRegistry` the
tables hold `("a", "")`, `("b", "x")` and `("d", "4")`, and the merged table is built from
the three records `("a", "b")`, `("d", "4")`, `("x", "tombstone")`, not from the merge of the
tables' records. On a registry of length `L > 100` whose live tables are as the constructor
built them from ascending records with non-empty keys and values, free of DELIMITER and of
line breaks, each in its own directory, and whose two tail slots are live, the step is as
claimed: it returns and leaves `L`, the memtable and all slots below `ll` as they are, sets
`S[rr]` to empty, and replaces `S[ll]` by an SSTable `m` that the constructor built from
the merge of the records of the two tables, with `S[rr]` (the newer) winning on equal keys;
`m` carries the folder name of the former `S[ll]`, its key count is the merged length, the
folder of the former `S[rr]` no longer exists afterwards, and every other directory is as
before. -/
theorem C17_compaction_publish_diverges (stringHasher : Str → Nat) :
    (∀ (e e2 : Engine) (rest : List (Option SSTable)) (tll trr : SSTable),
      e.SSTable_list = rest ++ [some tll, some trr] → e.SSTable_list.length > 100 →
      trr.folder_name = tll.folder_name → tll.folder_name ≠ TOMBSTONE →
      compact_iteration stringHasher e = Except.ok e2 →
      (e2.fs.get trr.folder_name).isSome = true) ∧
    sharedFolderRegistry.SSTable_list.length = 101 ∧
    (sharedFolderRegistry.SSTable_list.drop 99).map (Option.map SSTable.folder_name)
      = [some (bytes "A"), some (bytes "A")] ∧
    (∃ e2, compact_iteration List.sum sharedFolderRegistry = Except.ok e2 ∧
      e2.SSTable_list.length = 101 ∧
      (e2.SSTable_list.drop 99).map (Option.map SSTable.folder_name) = [some (bytes "A"), none] ∧
      (e2.fs.get (bytes "A")).isSome = true) ∧
    (∃ e2, compact_iteration List.sum emptyValueRegistry = Except.ok e2 ∧
      (e2.SSTable_list.drop 99).map (Option.map SSTable.folder_name) = [some (bytes "A"), none] ∧
      (e2.SSTable_list.drop 99).map (Option.map SSTable.num_keys) = [some 3, none] ∧
      read_SSTable e2.fs (bytes "A") 3
        = Except.ok [(bytes "a", bytes "b"), (bytes "d", bytes "4"), (bytes "x", TOMBSTONE)] ∧
      (mergeSortedSSTables [(bytes "d", bytes "4")]
        [(bytes "a", ([] : Str)), (bytes "b", bytes "x")]).2
        = [(bytes "a", []), (bytes "b", bytes "x"), (bytes "d", bytes "4")]) ∧
    (∀ (e : Engine) (rest : List (Option SSTable)) (tll trr : SSTable),
      RegistryHolds stringHasher e →
      e.SSTable_list = rest ++ [some tll, some trr] → e.SSTable_list.length > 100 →
      ∃ (Rll Rrr : List (Str × Str)) (e2 : Engine) (m : SSTable),
        read_SSTable e.fs tll.folder_name tll.num_keys = Except.ok Rll ∧
        read_SSTable e.fs trr.folder_name trr.num_keys = Except.ok Rrr ∧
        Built stringHasher e.fs tll Rll ∧ Built stringHasher e.fs trr Rrr ∧
        compact_iteration stringHasher e = Except.ok e2 ∧
        e2.SSTable_list = rest ++ [some m, none] ∧
        e2.SSTable_list.length = e.SSTable_list.length ∧
        e2.tree = e.tree ∧
        Built stringHasher e2.fs m (mergeSortedSSTables Rrr Rll).2 ∧
        Ascending (mergeSortedSSTables Rrr Rll).2 ∧
        (∀ k, (mergeSortedSSTables Rrr Rll).2.lookup k =
          match Rrr.lookup k with
          | some v => some v
          | none => Rll.lookup k) ∧
        m.folder_name = tll.folder_name ∧
        m.num_keys = (mergeSortedSSTables Rrr Rll).1 ∧
        e2.fs.get trr.folder_name = none ∧
        (∀ g, g ≠ tll.folder_name → g ≠ trr.folder_name → e2.fs.get g = e.fs.get g)) := by
  refine ⟨?_, by decide, by decide, ⟨_, rfl, by decide, by decide, by decide⟩,
    ⟨_, rfl, by decide, by decide, by decide, by decide⟩, ?_⟩
  · intro e e2 rest tll trr hl h hsame hfn hc
    exact compact_merge_shared_folder stringHasher e e2 rest tll trr hl h hsame hfn hc
  · intro e rest tll trr hreg hl h
    exact compact_merge_publish stringHasher e rest tll trr hreg hl h

/-! ## Folder names (C8) -/

/-- C8 (refuted on the code): folder names of live tables are not always pairwise distinct.
The execution `collisionSchedule` from the fresh engine (101 flushes, a compaction step, a
flush, a compaction step, a flush) returns, and in the state it reaches the live tables of
the slots 100 and 101 have the same folder name `SSTable_101`: the second compaction step
moved the table of the directory `SSTable_101` down to slot 100, and the flush that follows
picks the name `SSTable_101` from the registry length 101. -/
theorem C8_folder_names_collide (stringHasher : Str → Nat) :
    ∃ e, exec stringHasher Engine.fresh collisionSchedule = Except.ok e ∧
      Reachable stringHasher e ∧
      ∃ t u, e.SSTable_list[100]? = some (some t) ∧ e.SSTable_list[101]? = some (some u) ∧
        t.folder_name = u.folder_name ∧ u.folder_name = bytes "SSTable_101" := by
  obtain ⟨e0, hex0, htree0, hlen0, hslots0, _⟩ := exec_flushes stringHasher 101
  obtain ⟨rest, a, b, hl⟩ := list_tail_pair e0.SSTable_list (by omega)
  have hrest : rest.length = 99 := by
    have := congrArg List.length hl
    simp only [List.length_append, List.length_cons, List.length_nil] at this
    omega
  obtain ⟨tll, Rll, hgl, _, hbl, _, hvl⟩ := hslots0 99 (by omega)
  obtain ⟨trr, Rrr, hgr, _, hbr, _, hvr⟩ := hslots0 100 (by omega)
  have ha : a = some tll := by
    rw [hl, List.getElem?_append_right (by omega)] at hgl
    simpa [hrest] using hgl
  have hb : b = some trr := by
    rw [hl, List.getElem?_append_right (by omega)] at hgr
    simpa [hrest] using hgr
  subst ha hb
  -- the first compaction step merges the two tail tables
  have hcomp1 := compact_merge stringHasher e0 rest tll trr Rll Rrr hl (by omega)
    (hbl.read hvl) (hbr.read hvr)
  generalize hm : SSTable.new stringHasher e0.SSTable_list.length
    (mergeSortedSSTables Rrr Rll).2 tll.folder_name (trr.delete (tll.delete e0.fs)) = m
    at hcomp1
  have h1 : exec stringHasher Engine.fresh
      ((List.replicate 101 fillBlock).flatten ++ [Step.compact]) = Except.ok
        { e0 with SSTable_list := rest ++ [some m.1, none], fs := m.2 } := by
    rw [exec_append, hex0]
    simp only
    rw [exec_compact, hcomp1]
  -- the flush appends the table of the directory SSTable_101 at slot 101
  obtain ⟨R2, e2, _, _, hblock2, htree2, hlist2, _⟩ := exec_fillBlock stringHasher
    { e0 with SSTable_list := rest ++ [some m.1, none], fs := m.2 } htree0
  have hlen1 : (rest ++ [some m.1, none]).length = 101 := by simp [hrest]
  simp only [hlen1] at hlist2
  generalize hT : SSTable.new stringHasher 101 R2 TOMBSTONE m.2 = T at hlist2
  have hTn : T.1.folder_name = bytes "SSTable_101" := by
    rw [← hT, SSTable.new_folder_name, if_pos rfl]
    decide
  have h2 : exec stringHasher Engine.fresh
      ((List.replicate 101 fillBlock).flatten ++ [Step.compact] ++ fillBlock)
        = Except.ok e2 := by
    rw [exec_append, h1]
    exact hblock2
  -- the second compaction step moves it down to slot 100
  have hl2 : e2.SSTable_list = (rest ++ [some m.1]) ++ [none, some T.1] := by
    rw [hlist2]; simp
  have hcomp2 := compact_move stringHasher e2 (rest ++ [some m.1]) T.1 hl2
    (by rw [hl2]; simp [hrest])
  have h3 : exec stringHasher Engine.fresh
      ((List.replicate 101 fillBlock).flatten ++ [Step.compact] ++ fillBlock ++ [Step.compact])
        = Except.ok { e2 with SSTable_list := (rest ++ [some m.1]) ++ [some T.1] } := by
    rw [exec_append, h2]
    simp only
    rw [exec_compact, hcomp2]
  -- the next flush picks the same name
  obtain ⟨R4, e4, _, _, hblock4, _, hlist4, _⟩ := exec_fillBlock stringHasher
    { e2 with SSTable_list := (rest ++ [some m.1]) ++ [some T.1] } htree2
  have hlen3 : ((rest ++ [some m.1]) ++ [some T.1]).length = 101 := by simp [hrest]
  simp only [hlen3] at hlist4
  have h4 : exec stringHasher Engine.fresh collisionSchedule = Except.ok e4 := by
    unfold collisionSchedule
    rw [exec_append, h3]
    exact hblock4
  refine ⟨e4, h4, ⟨_, h4⟩, T.1, (SSTable.new stringHasher 101 R4 TOMBSTONE e2.fs).1,
    ?_, ?_, ?_, ?_⟩
  · rw [hlist4, List.getElem?_append_left (by rw [hlen3]; omega),
      List.getElem?_append_right (by simp [hrest])]
    simp [hrest]
  · rw [hlist4, List.getElem?_append_right (by rw [hlen3])]
    simp only [hlen3, Nat.sub_self, List.getElem?_cons_zero]
  · rw [hTn, SSTable.new_folder_name, if_pos rfl]
    decide
  · rw [SSTable.new_folder_name, if_pos rfl]
    decide


/-! ## The lookup order of `GET` (C9) -/

theorem GET_loop_skip (H : Str → Nat) (fs : FS) (key : Str) (pre rest : List (Option SSTable))
    (hpre : ∀ t, some t ∈ pre → ∃ w, t.find H fs key = Except.ok (false, w)) :
    GET_loop H fs key (pre ++ rest) = GET_loop H fs key rest := by
  induction pre with
  | nil => rfl
  | cons a pre ih =>
      have ih := ih (fun t ht => hpre t (List.mem_cons_of_mem _ ht))
      cases a with
      | none => simpa [GET_loop] using ih
      | some t =>
          obtain ⟨w, hw⟩ := hpre t (List.mem_cons_self _ _)
          simp only [List.cons_append, GET_loop, hw]
          simpa using ih

theorem GET_loop_found (H : Str → Nat) (fs : FS) (key : Str) (pre rest : List (Option SSTable))
    (t : SSTable) (v : Str)
    (hpre : ∀ t, some t ∈ pre → ∃ w, t.find H fs key = Except.ok (false, w))
    (ht : t.find H fs key = Except.ok (true, v)) :
    GET_loop H fs key (pre ++ some t :: rest) = Except.ok v := by
  rw [GET_loop_skip H fs key pre _ hpre]
  simp [GET_loop, ht]

theorem mem_drop_index {α : Type} (l : List α) (i : Nat) (x : α) (hx : x ∈ l.drop (i + 1)) :
    ∃ j, i < j ∧ l[j]? = some x := by
  obtain ⟨n, hn⟩ := List.mem_iff_getElem?.mp hx
  rw [List.getElem?_drop] at hn
  exact ⟨i + 1 + n, by omega, hn⟩

theorem GET_loop_pointer_skip (H : Str → Nat) (fs : FS) (key : Str)
    (pre rest : List (Option SSTable))
    (hpre : ∀ t, some t ∈ pre → ∃ w, t.find H fs key = Except.ok (false, w)) :
    GET_loop_pointer H fs key (pre ++ rest) = GET_loop_pointer H fs key rest := by
  induction pre with
  | nil => rfl
  | cons a pre ih =>
      have ih := ih (fun t ht => hpre t (List.mem_cons_of_mem _ ht))
      cases a with
      | none => simpa [GET_loop_pointer] using ih
      | some t =>
          obtain ⟨w, hw⟩ := hpre t (List.mem_cons_self _ _)
          simp only [List.cons_append, GET_loop_pointer, hw]
          simpa using ih

theorem GET_loop_pointer_found (H : Str → Nat) (fs : FS) (key : Str)
    (pre rest : List (Option SSTable)) (t : SSTable) (v : Str)
    (hpre : ∀ t, some t ∈ pre → ∃ w, t.find H fs key = Except.ok (false, w))
    (ht : t.find H fs key = Except.ok (true, v)) :
    GET_loop_pointer H fs key (pre ++ some t :: rest) = Except.ok (CharPtr.dangling v) := by
  rw [GET_loop_pointer_skip H fs key pre _ hpre]
  simp [GET_loop_pointer, ht]

theorem list_split_at {α : Type} (l : List α) (i : Nat) (x : α) (hi : l[i]? = some x) :
    l = l.take i ++ x :: l.drop (i + 1) := by
  have hlen : i < l.length := (List.getElem?_eq_some_iff.mp hi).1
  have h1 := (List.take_append_drop i l).symm
  have h2 : l.drop i = x :: l.drop (i + 1) := by
    rw [List.drop_eq_getElem_cons hlen]
    congr 1
    exact (List.getElem?_eq_some_iff.mp hi).2
  rw [h2] at h1
  exact h1

/-- C9 (the code diverges): `GET` follows the lookup order, and hands out a pointer to a
destroyed string for every key that it finds. When the memtable holds `k` (its `find`
reports found), the lookup of `GET(k)` ends with the memtable's value, whatever it is and
whatever the SSTables hold, and the state is unchanged. Otherwise, when slot `i` is live and
its `find(k)` reports found with value `v`, and every live slot of higher index reports not
found, the lookup ends with `v`; empty slots are skipped. In both cases the pointer returned
is `value.second.c_str()` of the local `value`, destroyed at the `return`: a dangling
pointer. When every live slot reports not found, `GET(k)` returns `TOMBSTONE.c_str()`, a
pointer to the global sentinel. -/
theorem C9_GET_lookup_order_dangling (stringHasher : Str → Nat) (e : Engine) (k : Str) :
    (∀ v, e.tree.find k = (true, v) →
      GET_pointer stringHasher e k = (Except.ok (CharPtr.dangling v), e) ∧
      GET stringHasher e k = (Except.ok v, e)) ∧
    ((e.tree.find k).1 = false →
      (∀ (i : Nat) (t : SSTable) (v : Str),
        e.SSTable_list[i]? = some (some t) →
        t.find stringHasher e.fs k = Except.ok (true, v) →
        (∀ (j : Nat) (u : SSTable), i < j → e.SSTable_list[j]? = some (some u) →
          ∃ w, u.find stringHasher e.fs k = Except.ok (false, w)) →
        (GET_pointer stringHasher e k).1 = Except.ok (CharPtr.dangling v) ∧
        (GET stringHasher e k).1 = Except.ok v) ∧
      ((∀ (j : Nat) (u : SSTable), e.SSTable_list[j]? = some (some u) →
          ∃ w, u.find stringHasher e.fs k = Except.ok (false, w)) →
        (GET_pointer stringHasher e k).1 = Except.ok (CharPtr.global TOMBSTONE) ∧
        (GET stringHasher e k).1 = Except.ok TOMBSTONE)) := by
  constructor
  · intro v hv
    constructor
    · simp [GET_pointer, hv]
    · simp [GET, hv]
  · intro hmiss
    have hget : (GET stringHasher e k).1 =
        GET_loop stringHasher e.fs k e.SSTable_list.reverse := by
      rw [GET_fst_eq, hmiss]
      rfl
    have hptr : (GET_pointer stringHasher e k).1 =
        GET_loop_pointer stringHasher e.fs k e.SSTable_list.reverse := by
      rw [GET_pointer_fst_eq, hmiss]
      rfl
    constructor
    · intro i t v hi ht hhigher
      rw [hget, hptr]
      have hsplit := list_split_at e.SSTable_list i (some t) hi
      have hpre : ∀ u, some u ∈ (e.SSTable_list.drop (i + 1)).reverse →
          ∃ w, u.find stringHasher e.fs k = Except.ok (false, w) := by
        intro u hu
        obtain ⟨j, hj, hju⟩ := mem_drop_index _ i _ (List.mem_reverse.mp hu)
        exact hhigher j u hj hju
      rw [hsplit, List.reverse_append, List.reverse_cons, List.append_assoc]
      exact ⟨GET_loop_pointer_found stringHasher e.fs k _ _ t v hpre ht,
        GET_loop_found stringHasher e.fs k _ _ t v hpre ht⟩
    · intro hall
      rw [hget, hptr]
      have hpre : ∀ u, some u ∈ e.SSTable_list.reverse →
          ∃ w, u.find stringHasher e.fs k = Except.ok (false, w) := by
        intro u hu
        obtain ⟨j, hj⟩ := List.mem_iff_getElem?.mp (List.mem_reverse.mp hu)
        exact hall j u hj
      have h1 := GET_loop_pointer_skip stringHasher e.fs k e.SSTable_list.reverse [] hpre
      have h2 := GET_loop_skip stringHasher e.fs k e.SSTable_list.reverse [] hpre
      rw [List.append_nil] at h1 h2
      rw [h1, h2]
      exact ⟨rfl, rfl⟩

theorem C9_GET_lookup_order_dangling_witness :
    (SET List.sum Engine.fresh (bytes "a") (bytes "1")).tree.find (bytes "a") = (true, bytes "1") ∧
    GET_pointer List.sum (SET List.sum Engine.fresh (bytes "a") (bytes "1")) (bytes "a") =
      (Except.ok (CharPtr.dangling (bytes "1")),
        SET List.sum Engine.fresh (bytes "a") (bytes "1")) ∧
    ((create_SSTable List.sum Engine.fresh [(bytes "a", bytes "1")]).tree.find (bytes "a")).1
      = false ∧
    (SSTable.new List.sum 0 [(bytes "a", bytes "1")] TOMBSTONE FS.empty).1.find List.sum
      (create_SSTable List.sum Engine.fresh [(bytes "a", bytes "1")]).fs (bytes "a")
      = Except.ok (true, bytes "1") ∧
    (GET_pointer List.sum (create_SSTable List.sum Engine.fresh [(bytes "a", bytes "1")])
      (bytes "a")).1 = Except.ok (CharPtr.dangling (bytes "1")) ∧
    (GET_pointer List.sum (create_SSTable List.sum Engine.fresh [(bytes "a", bytes "1")])
      (bytes "z")).1 = Except.ok (CharPtr.global TOMBSTONE) :=
  ⟨by decide,
    ((C9_GET_lookup_order_dangling List.sum (SET List.sum Engine.fresh (bytes "a") (bytes "1"))
      (bytes "a")).1 (bytes "1") (by decide)).1,
    by decide, by decide,
    (((C9_GET_lookup_order_dangling List.sum
      (create_SSTable List.sum Engine.fresh [(bytes "a", bytes "1")]) (bytes "a")).2
        (by decide)).1 0 (SSTable.new List.sum 0 [(bytes "a", bytes "1")] TOMBSTONE FS.empty).1
        (bytes "1") rfl (by decide)
        (fun j u hj h => by
          cases j with
          | zero => exact absurd hj (by decide)
          | succ n => cases h)).1,
    (((C9_GET_lookup_order_dangling List.sum
      (create_SSTable List.sum Engine.fresh [(bytes "a", bytes "1")]) (bytes "z")).2
        (by decide)).2
        (fun j u h => by
          cases j with
          | zero =>
              have hu : u = (SSTable.new List.sum 0 [(bytes "a", bytes "1")] TOMBSTONE
                  FS.empty).1 := by
                injection h with h
                injection h with h
                exact h.symm
              rw [hu]
              exact ⟨TOMBSTONE, by decide⟩
          | succ n => cases h)).1⟩


/-! ## The flush threshold (C10) -/

/-- C10 (the code diverges): the flush threshold is as claimed, and `GET` after the flush
hands out a pointer to a destroyed string. A `SET` whose insert brings the memtable to
exactly `MAX_TREE_SIZE` (1000) entries appends exactly one new SSTable at the tail of the
registry, built by the constructor from the memtable's sorted pairs under the folder name
of the current registry length, leaves the earlier slots as they are and empties the
memtable; every other `SET` leaves the registry unchanged and only inserts into the
memtable. After `SET`s of 1000 distinct keys (keys and values free of the DELIMITER byte)
on a fresh engine the registry has length 1 and the memtable is empty; the lookup of `GET`
of each of those keys ends with its value, and the pointer returned is
`value.second.c_str()` of the local `value`, destroyed at the `return`. -/
theorem C10_flush_threshold_dangling_read (stringHasher : Str → Nat) (e : Engine) (key value : Str) :
    ((e.tree.insert key value).size = MAX_TREE_SIZE →
      (SET stringHasher e key value).SSTable_list =
        e.SSTable_list ++ [some (SSTable.new stringHasher e.SSTable_list.length
          (e.tree.insert key value).getSortedPairs TOMBSTONE e.fs).1] ∧
      (SET stringHasher e key value).fs = (SSTable.new stringHasher e.SSTable_list.length
          (e.tree.insert key value).getSortedPairs TOMBSTONE e.fs).2 ∧
      (SET stringHasher e key value).tree = AVLTree.empty) ∧
    ((e.tree.insert key value).size ≠ MAX_TREE_SIZE →
      (SET stringHasher e key value).SSTable_list = e.SSTable_list ∧
      (SET stringHasher e key value).fs = e.fs ∧
      (SET stringHasher e key value).tree = e.tree.insert key value) ∧
    (∀ kvs : List (Str × Str), kvs.length = 1000 → (kvs.map Prod.fst).Nodup →
      RecordsDelimFree kvs →
      (run stringHasher Engine.fresh (kvs.map fun p => Op.set p.1 p.2)).SSTable_list.length = 1 ∧
      (run stringHasher Engine.fresh (kvs.map fun p => Op.set p.1 p.2)).tree = AVLTree.empty ∧
      ∀ p ∈ kvs,
        (GET_pointer stringHasher
          (run stringHasher Engine.fresh (kvs.map fun p => Op.set p.1 p.2)) p.1).1
            = Except.ok (CharPtr.dangling p.2) ∧
        (GET stringHasher
          (run stringHasher Engine.fresh (kvs.map fun p => Op.set p.1 p.2)) p.1).1
            = Except.ok p.2) := by
  refine ⟨?_, ?_, ?_⟩
  · intro h
    rw [SET_eq, if_pos h]
    exact ⟨rfl, rfl, rfl⟩
  · intro h
    rw [SET_eq, if_neg h]
    exact ⟨rfl, rfl, rfl⟩
  · intro kvs hlen hnodup hfree
    have hvalid : ∀ o ∈ kvs.map (fun p => Op.set p.1 p.2), o.Valid := by
      intro o ho
      obtain ⟨p, hp, rfl⟩ := List.mem_map.mp ho
      exact hfree p hp
    have hfull := run_sets_full stringHasher kvs hnodup hlen
    refine ⟨hfull.1, hfull.2, ?_⟩
    · intro p hp
      rw [GET_pointer_after_run stringHasher _ hvalid p.1,
        GET_after_run stringHasher _ hvalid p.1, lastWrite_sets_of_nodup kvs hnodup p hp]
      exact ⟨rfl, rfl⟩

theorem C10_flush_threshold_dangling_read_witness :
    ((List.range 1000).map fun i => (107 :: to_string i, to_string i)).length = 1000 ∧
    (((List.range 1000).map fun i => (107 :: to_string i, to_string i)).map Prod.fst).Nodup ∧
    RecordsDelimFree ((List.range 1000).map fun i => (107 :: to_string i, to_string i)) ∧
    (run List.sum Engine.fresh
      (((List.range 1000).map fun i => (107 :: to_string i, to_string i)).map
        fun p => Op.set p.1 p.2)).SSTable_list.length = 1 := by
  have h1 : ((List.range 1000).map fun i => (107 :: to_string i, to_string i)).length = 1000 := by
    simp
  have h2 : (((List.range 1000).map fun i => (107 :: to_string i, to_string i)).map
      Prod.fst).Nodup := by
    rw [List.map_map]
    refine List.Nodup.map ?_ (List.nodup_range 1000)
    intro a b hab
    exact to_string_injective (List.cons_injective hab)
  have h3 : RecordsDelimFree
      ((List.range 1000).map fun i => (107 :: to_string i, to_string i)) := by
    intro p hp
    obtain ⟨i, _, rfl⟩ := List.mem_map.mp hp
    refine ⟨?_, to_string_delimFree i⟩
    intro hm
    rcases List.mem_cons.mp hm with h | h
    · exact absurd h (by decide)
    · exact to_string_delimFree i h
  exact ⟨h1, h2, h3,
    ((C10_flush_threshold_dangling_read List.sum Engine.fresh [] []).2.2 _ h1 h2 h3).1⟩

/-! ## No false negatives (C11) -/

/-- C11 (the code diverges): no false negatives, for sets that stay within the multiplier
table. For every probabilistic set with at most 30 hash functions (the sets of the engine
have 7) and every sequence of `insert` calls, every call returns, and `exists(k)` returns
true for a key `k` that was inserted, whichever keys were inserted before it (`before`) and
after it (`after`); an `insert` only sets bits. For every set with more than 30 hash
functions `insert` and `exists` read `multipliers` past its end: this is so for the set
`ProbabilisticSet(1000)` of `main`, which has 70, at its first `insert("apple")`. -/
theorem C11_no_false_negatives_within_table (stringHasher : Str → Nat) :
    (∀ (s : ProbabilisticSet) (before after : List Str) (k : Str),
      s.numHashFunctions ≤ multipliers.length →
      ∃ s2, ProbabilisticSet.insert_all_checked stringHasher s (before ++ k :: after)
          = Except.ok s2 ∧
        s2.exists_checked stringHasher k = Except.ok true ∧
        ∀ i, s.bitVector i = true → s2.bitVector i = true) ∧
    (∀ (s : ProbabilisticSet) (key : Str), multipliers.length < s.numHashFunctions →
      s.insert_checked stringHasher key = Except.error Fault.out_of_bounds ∧
      s.exists_checked stringHasher key = Except.error Fault.out_of_bounds) ∧
    multipliers.length = 30 ∧
    (ProbabilisticSet.init MAX_ITEMS).numHashFunctions = 7 ∧
    (ProbabilisticSet.init 1000).numHashFunctions = 70 ∧
    (ProbabilisticSet.init 1000).insert_checked stringHasher (bytes "apple")
      = Except.error Fault.out_of_bounds ∧
    (ProbabilisticSet.init 1000).exists_checked stringHasher (bytes "apple")
      = Except.error Fault.out_of_bounds := by
  refine ⟨?_, ?_, by decide, by decide, by decide, ?_, ?_⟩
  · intro s before after k h
    refine ⟨_, ProbabilisticSet.insert_all_checked_ok stringHasher _ s h, ?_, ?_⟩
    · have hn := (ProbabilisticSet.foldl_insert_keys_mono stringHasher (before ++ k :: after) s).1
      rw [ProbabilisticSet.exists_checked_ok stringHasher _ k (by rw [hn]; exact h)]
      congr 1
      rw [List.foldl_append, List.foldl_cons]
      generalize before.foldl (fun b key => b.insert stringHasher key) s = s1
      obtain ⟨h1, h2⟩ :=
        ProbabilisticSet.foldl_insert_keys_mono stringHasher after (s1.insert stringHasher k)
      unfold ProbabilisticSet.exists
      rw [List.all_eq_true]
      intro x hx
      apply h2
      rw [ProbabilisticSet.insert_bitVector]
      have e : (after.foldl (fun b key => b.insert stringHasher key)
          (s1.insert stringHasher k)).calculateHashes stringHasher k
          = s1.calculateHashes stringHasher k :=
        ProbabilisticSet.calculateHashes_congr stringHasher _ _ _
          (h1.trans (ProbabilisticSet.insert_numHashFunctions stringHasher s1 k))
      rw [e] at hx
      simp [hx]
    · exact (ProbabilisticSet.foldl_insert_keys_mono stringHasher (before ++ k :: after) s).2
  · intro s key h
    exact ⟨ProbabilisticSet.insert_checked_oob stringHasher s key h,
      ProbabilisticSet.exists_checked_oob stringHasher s key h⟩
  · exact ProbabilisticSet.insert_checked_oob stringHasher _ _ (by decide)
  · exact ProbabilisticSet.exists_checked_oob stringHasher _ _ (by decide)

/-! ## Memtable insert-or-update (C12) -/

/-- C12: memtable insert-or-update. For every tree built by a sequence of inserts `kvs`
since the last `clear` (or since its construction), and all keys `k`, `k'` and every value
`v`: after `insert(k, v)`, `find(k)` returns `(true, v)` and `find(k')` for `k' ≠ k` returns
what it returned before; `find` of a key that was never inserted returns
`(false, "tombstone")`, and `find` of an inserted key returns the value of its most recent
insert. -/
theorem C12_insert_or_update (t0 : AVLTree) (kvs : List (Str × Str)) (k k' v : Str) :
    ((t0.clear.insertAll kvs).insert k v).find k = (true, v) ∧
    (k' ≠ k →
      ((t0.clear.insertAll kvs).insert k v).find k' = (t0.clear.insertAll kvs).find k') ∧
    (k ∉ kvs.map Prod.fst → (t0.clear.insertAll kvs).find k = (false, TOMBSTONE)) ∧
    (∀ w, kvs.reverse.lookup k = some w → (t0.clear.insertAll kvs).find k = (true, w)) := by
  have hwf := AVLTree.insertAll_wellFormed t0.clear kvs (AVLTree.wellFormed_clear t0)
  have hwf2 := AVLTree.wellFormed_insert _ k v hwf
  refine ⟨?_, ?_, ?_, ?_⟩
  · rw [AVLTree.tree_find_eq_lookup _ k hwf2, AVLTree.getSortedPairs_insert _ k v hwf,
      lookup_listInsert, if_pos rfl]
  · intro hne
    rw [AVLTree.tree_find_eq_lookup _ k' hwf2, AVLTree.tree_find_eq_lookup _ k' hwf,
      AVLTree.getSortedPairs_insert _ k v hwf, lookup_listInsert, if_neg hne]
  · intro hk
    rw [AVLTree.tree_find_eq_lookup _ k hwf,
      AVLTree.insertAll_lookup _ kvs k (AVLTree.wellFormed_clear t0),
      (reverse_lookup_eq_none_iff kvs k).mpr hk]
    rfl
  · intro w hw
    rw [AVLTree.tree_find_eq_lookup _ k hwf,
      AVLTree.insertAll_lookup _ kvs k (AVLTree.wellFormed_clear t0), hw]

theorem C12_insert_or_update_witness :
    bytes "b" ≠ bytes "a" ∧
    ((AVLTree.empty.clear.insertAll [(bytes "a", bytes "1"), (bytes "b", bytes "2")]).insert
      (bytes "a") (bytes "3")).find (bytes "b") =
      (AVLTree.empty.clear.insertAll [(bytes "a", bytes "1"), (bytes "b", bytes "2")]).find
        (bytes "b") ∧
    bytes "c" ∉ [(bytes "a", bytes "1"), (bytes "b", bytes "2")].map Prod.fst ∧
    (AVLTree.empty.clear.insertAll [(bytes "a", bytes "1"), (bytes "b", bytes "2")]).find
      (bytes "c") = (false, TOMBSTONE) :=
  ⟨by decide,
    (C12_insert_or_update AVLTree.empty [(bytes "a", bytes "1"), (bytes "b", bytes "2")]
      (bytes "a") (bytes "b") (bytes "3")).2.1 (by decide),
    by decide,
    (C12_insert_or_update AVLTree.empty [(bytes "a", bytes "1"), (bytes "b", bytes "2")]
      (bytes "c") (bytes "c") (bytes "3")).2.2.1 (by decide)⟩

/-! ## Sorted drain (C13) -/

/-- C13: for every sequence of inserts `kvs` into the memtable (since the last `clear` or
since its construction), `getSortedPairs()` returns pairs with strictly ascending keys, in
the byte-wise string order that `insert` and `find` compare with. -/
theorem C13_sorted_pairs_ascending (t0 : AVLTree) (kvs : List (Str × Str)) :
    Ascending (t0.clear.insertAll kvs).getSortedPairs ∧
    Ascending (AVLTree.empty.insertAll kvs).getSortedPairs :=
  ⟨(AVLTree.insertAll_wellFormed t0.clear kvs (AVLTree.wellFormed_clear t0)).1,
    (AVLTree.insertAll_wellFormed AVLTree.empty kvs AVLTree.wellFormed_empty).1⟩

/-! ## Last-writer-wins drain (C14) -/

/-- C14: last-writer-wins drain. After any sequence of inserts `kvs` since the last `clear`,
`getSortedPairs()` lists each distinct inserted key exactly once (its keys have no
duplicates and are exactly the inserted keys), a pair `(k, v)` is listed exactly when `v` is
the value of the most recent insert of `k`, and `size()` is the length of that list;
inserting an existing key leaves `size()` unchanged and inserting a new key increases it by
one. -/
theorem C14_last_writer_wins_drain (t0 : AVLTree) (kvs : List (Str × Str)) :
    ((t0.clear.insertAll kvs).getSortedPairs.map Prod.fst).Nodup ∧
    (∀ k, k ∈ (t0.clear.insertAll kvs).getSortedPairs.map Prod.fst ↔ k ∈ kvs.map Prod.fst) ∧
    (∀ k v, (k, v) ∈ (t0.clear.insertAll kvs).getSortedPairs ↔
      kvs.reverse.lookup k = some v) ∧
    (t0.clear.insertAll kvs).size = (t0.clear.insertAll kvs).getSortedPairs.length ∧
    (∀ k v, ((t0.clear.insertAll kvs).insert k v).size =
      if k ∈ kvs.map Prod.fst then (t0.clear.insertAll kvs).size
      else (t0.clear.insertAll kvs).size + 1) := by
  have hwf := AVLTree.insertAll_wellFormed t0.clear kvs (AVLTree.wellFormed_clear t0)
  have hlook : ∀ k, (t0.clear.insertAll kvs).getSortedPairs.lookup k
      = kvs.reverse.lookup k := by
    intro k
    rw [AVLTree.insertAll_lookup _ kvs k (AVLTree.wellFormed_clear t0)]
    cases kvs.reverse.lookup k <;> rfl
  have hkeys : ∀ k, k ∈ (t0.clear.insertAll kvs).getSortedPairs.map Prod.fst
      ↔ k ∈ kvs.map Prod.fst := by
    intro k
    rw [← not_iff_not, ← lookup_eq_none_iff, ← reverse_lookup_eq_none_iff, hlook]
  refine ⟨hwf.1.nodup_keys, hkeys, ?_, hwf.2, ?_⟩
  · intro k v
    rw [← lookup_eq_some_iff k v hwf.1, hlook]
  · intro k v
    unfold AVLTree.size
    rw [AVLTree.size_insert _ k v hwf, length_listInsert k v _ hwf.1, hwf.2]
    by_cases hk : k ∈ kvs.map Prod.fst
    · rw [if_pos hk, if_pos ((hkeys k).mpr hk)]
    · rw [if_neg hk, if_neg (fun h => hk ((hkeys k).mp h))]

/-! ## Memtable capacity (C15) -/

/-- C15: memtable capacity invariant. In every engine state reachable from the fresh engine
by steps `SET`, `DEL`, `GET` (and compaction steps, which leave the memtable alone), the
memtable is well formed and holds fewer than `MAX_TREE_SIZE` (1000) distinct keys when an
operation has returned; inside a `SET` the memtable after the insert holds at most
`MAX_TREE_SIZE` entries, so that the test `tree.size() == MAX_TREE_SIZE` misses no flush:
when the size is not `MAX_TREE_SIZE` it is below it, and when it is, `SET` flushes and the
memtable is empty afterwards. -/
theorem C15_memtable_capacity (stringHasher : Str → Nat) (e : Engine)
    (h : Reachable stringHasher e) :
    e.tree.WellFormed ∧ e.tree.size < MAX_TREE_SIZE ∧
    e.tree.getSortedPairs.length < MAX_TREE_SIZE ∧
    ∀ key value : Str,
      (e.tree.insert key value).size ≤ MAX_TREE_SIZE ∧
      ((e.tree.insert key value).size ≠ MAX_TREE_SIZE →
        (e.tree.insert key value).size < MAX_TREE_SIZE ∧
        (SET stringHasher e key value).tree = e.tree.insert key value) ∧
      ((e.tree.insert key value).size = MAX_TREE_SIZE →
        (SET stringHasher e key value).tree = AVLTree.empty ∧
        (SET stringHasher e key value).SSTable_list.length = e.SSTable_list.length + 1) := by
  obtain ⟨steps, hsteps⟩ := h
  obtain ⟨hwf, hlt⟩ := exec_tree_capacity stringHasher steps Engine.fresh e
    AVLTree.wellFormed_empty (by decide) hsteps
  refine ⟨hwf, hlt, by rw [← hwf.2]; exact hlt, ?_⟩
  intro key value
  have hle := (SET_tree_capacity stringHasher e key value hwf hlt).1
  refine ⟨hle, ?_, ?_⟩
  · intro hne
    refine ⟨lt_of_le_of_ne hle hne, ?_⟩
    rw [SET_eq, if_neg hne]
  · intro heq
    rw [SET_eq, if_pos heq]
    exact ⟨rfl, by simp⟩

theorem C15_memtable_capacity_witness :
    Reachable List.sum (SET List.sum Engine.fresh (bytes "a") (bytes "1")) ∧
    (SET List.sum Engine.fresh (bytes "a") (bytes "1")).tree.size < MAX_TREE_SIZE :=
  ⟨⟨[Step.op (Op.set (bytes "a") (bytes "1"))], rfl⟩,
    (C15_memtable_capacity List.sum (SET List.sum Engine.fresh (bytes "a") (bytes "1"))
      ⟨[Step.op (Op.set (bytes "a") (bytes "1"))], rfl⟩).2.1⟩

/-! ## Compaction trigger and slot housekeeping (C16) -/

/-- C16: compaction trigger and slot housekeeping. One iteration of `compact()` leaves the
engine as it is when the registry length `L` is at most 100. When `L > 100` and the two tail
slots are both empty, both are popped; when the tail slot `S[L-1]` is empty and `S[L-2]` is
live, the tail slot is popped; when `S[L-1]` is live and `S[L-2]` is empty, the live table is
moved into slot `L-2` and the tail is popped. In each of these cases the memtable and the
disk stay as they are and the newest-first sequence of live tables is the same before and
after. -/
theorem C16_compaction_housekeeping (stringHasher : Str → Nat) (e : Engine) :
    (e.SSTable_list.length ≤ 100 → compact_iteration stringHasher e = Except.ok e) ∧
    (∀ rest : List (Option SSTable), e.SSTable_list.length > 100 →
      e.SSTable_list = rest ++ [none, none] →
      compact_iteration stringHasher e = Except.ok { e with SSTable_list := rest } ∧
      liveTables rest = liveTables e.SSTable_list) ∧
    (∀ (rest : List (Option SSTable)) (t : SSTable), e.SSTable_list.length > 100 →
      e.SSTable_list = rest ++ [some t, none] →
      compact_iteration stringHasher e
        = Except.ok { e with SSTable_list := rest ++ [some t] } ∧
      liveTables (rest ++ [some t]) = liveTables e.SSTable_list) ∧
    (∀ (rest : List (Option SSTable)) (t : SSTable), e.SSTable_list.length > 100 →
      e.SSTable_list = rest ++ [none, some t] →
      compact_iteration stringHasher e
        = Except.ok { e with SSTable_list := rest ++ [some t] } ∧
      liveTables (rest ++ [some t]) = liveTables e.SSTable_list) := by
  refine ⟨?_, ?_, ?_, ?_⟩
  · intro h
    exact compact_small stringHasher e (by omega)
  · intro rest h hl
    refine ⟨compact_pop_two stringHasher e rest hl h, ?_⟩
    rw [hl, liveTables_append]
    rfl
  · intro rest t h hl
    refine ⟨compact_pop_one stringHasher e rest t hl h, ?_⟩
    rw [hl, liveTables_append, liveTables_append]
    rfl
  · intro rest t h hl
    refine ⟨compact_move stringHasher e rest t hl h, ?_⟩
    rw [hl, liveTables_append, liveTables_append]
    rfl

theorem C16_compaction_housekeeping_witness :
    exampleRegistry.SSTable_list.dropLast.length ≤ 100 ∧
    compact_iteration List.sum { exampleRegistry with
        SSTable_list := exampleRegistry.SSTable_list.dropLast }
      = Except.ok { exampleRegistry with
        SSTable_list := exampleRegistry.SSTable_list.dropLast } ∧
    ({ exampleRegistry with SSTable_list := List.replicate 101 none } : Engine).SSTable_list.length
      > 100 ∧
    compact_iteration List.sum { exampleRegistry with SSTable_list := List.replicate 101 none }
      = Except.ok { exampleRegistry with SSTable_list := List.replicate 99 none } :=
  ⟨by decide,
    (C16_compaction_housekeeping List.sum { exampleRegistry with
      SSTable_list := exampleRegistry.SSTable_list.dropLast }).1 (by decide),
    by decide,
    ((C16_compaction_housekeeping List.sum
      { exampleRegistry with SSTable_list := List.replicate 101 none }).2.1
        (List.replicate 99 none) (by decide) rfl).1⟩

/-! ## Read-back round trip (C18) -/

/-- C18 (the code diverges): `read_SSTable` does not read back every record that the
constructor wrote. The one record `("a", "")` has a non-empty DELIMITER-free key and an empty
value; the constructor writes the chunk `a##`, from which `SSTable::find` returns the empty
value, and `read_SSTable` returns the record `("a", "tombstone")`. The one record with the
key `a` and the value `x`, line break, `y` has a DELIMITER-free value; the constructor
writes a chunk of two lines, `read_SSTable` finds the two records `("a", "x")` and
`("y", "tombstone")` and writes past the array of `data_size = 1` entries. For every sequence
`S` of records whose keys and values are non-empty and free of DELIMITER and of line breaks
(strictly ascending or not), built by the constructor in a directory that did not exist
before, `read_SSTable` applied to the directory of the new table with `data_size = |S|`
returns exactly the records of `S`, in order. -/
theorem C18_read_back_loses_records (stringHasher : Str → Nat) :
    Ascending [(bytes "a", ([] : Str))] ∧
    (∀ p ∈ [(bytes "a", ([] : Str))], p.1 ≠ [] ∧ DelimFree p.1 ∧ DelimFree p.2) ∧
    (SSTable.new List.sum 0 [(bytes "a", [])] (bytes "T") FS.empty).2.readTxt (bytes "T") 0
      = some [97, DELIMITER, DELIMITER] ∧
    (SSTable.new List.sum 0 [(bytes "a", [])] (bytes "T") FS.empty).1.find List.sum
      (SSTable.new List.sum 0 [(bytes "a", [])] (bytes "T") FS.empty).2 (bytes "a")
      = Except.ok (true, []) ∧
    read_SSTable (SSTable.new List.sum 0 [(bytes "a", [])] (bytes "T") FS.empty).2 (bytes "T") 1
      = Except.ok [(bytes "a", TOMBSTONE)] ∧
    read_SSTable (SSTable.new List.sum 0 [(bytes "a", [])] (bytes "T") FS.empty).2 (bytes "T") 1
      ≠ Except.ok [(bytes "a", [])] ∧
    Ascending [(bytes "a", [120, NEWLINE, 121])] ∧
    (∀ p ∈ [(bytes "a", [120, NEWLINE, 121])], p.1 ≠ [] ∧ DelimFree p.1 ∧ DelimFree p.2) ∧
    read_SSTable (SSTable.new List.sum 0 [(bytes "a", [120, NEWLINE, 121])] (bytes "T") FS.empty).2
      (bytes "T") 1 = Except.error Fault.out_of_bounds ∧
    (∀ (list_size : Nat) (S : List (Str × Str)) (fname : Str) (fs : FS),
      fs.get (SSTable.new stringHasher list_size S fname fs).1.folder_name = none →
      RecordsValid S →
      read_SSTable (SSTable.new stringHasher list_size S fname fs).2
        (SSTable.new stringHasher list_size S fname fs).1.folder_name S.length = Except.ok S ∧
      (SSTable.new stringHasher list_size S fname fs).1.num_keys = S.length ∧
      read_SSTable_loop (store_keyval_data (S.map fun p => encodeKeyValuePair p.1 p.2)
        { txt := [], bin := [] }).2.txt = S) := by
  refine ⟨by decide, by decide, by decide, by decide, by decide, by decide, by decide,
    by decide, by decide, ?_⟩
  intro list_size S fname fs hfresh hS
  refine ⟨?_, rfl, store_keyval_data_read S hS⟩
  have h := (Built.of_new stringHasher list_size S fname fs hfresh).read hS
  rw [SSTable.new_num_keys] at h
  exact h

/-! ## Record positions (C19) -/

/-- C19: record positions are recoverable. For every array `strs` of strings given to
`store_keyval_data` and every position `m`, the returned pair `(c, o)` for string `m` is
such that the data chunk `c.txt` holds the complete string at the bytes `[o, o + length)`
(its content is `pre ++ s ++ rest` with `pre` of length `o`), so that no record spans two
chunks; the string after it lies in the same chunk right behind it or at offset 0 of the
next chunk, so that the records of one chunk are laid out contiguously in input order; and
when the string is an encoded record (key and value free of DELIMITER), reading from
`(c, o)` up to the second DELIMITER, as `extractKeyValuePair` does, yields exactly that
encoded record. -/
theorem C19_record_positions (strs : List Str) (d : Folder) :
    (store_keyval_data strs d).1.length = strs.length ∧
    (∀ (m : Nat) (s : Str), strs[m]? = some s → ∃ (c o : Nat) (pre rest : Str),
      (store_keyval_data strs d).1[m]? = some ((c : Int), (o : Int)) ∧
      (store_keyval_data strs d).2.txt.read c = some (pre ++ s ++ rest) ∧
      pre.length = o ∧
      (∀ (k v : Str) (fs : FS) (folder_name : Str), s = encodeKeyValuePair k v →
        DelimFree k → DelimFree v →
        fs.get folder_name = some (store_keyval_data strs d).2 →
        extractKeyValuePair fs folder_name (c : Int) (o : Int) = Except.ok s)) ∧
    (∀ (m : Nat) (s s2 : Str) (c o : Nat), strs[m]? = some s → strs[m + 1]? = some s2 →
      (store_keyval_data strs d).1[m]? = some ((c : Int), (o : Int)) →
      (store_keyval_data strs d).1[m + 1]? = some ((c : Int), ((o + s.length : Nat) : Int)) ∨
      (store_keyval_data strs d).1[m + 1]? = some (((c + 1 : Nat) : Int), (0 : Int))) := by
  refine ⟨(store_keyval_data_spec strs d).2.1, ?_, ?_⟩
  · intro m s hs
    obtain ⟨c, o, pre, rest, h1, h2, h3⟩ :=
      (store_keyval_data_loop_layout strs 0 0 (d.openTxt 0) []
        (Folder.read_openTxt_same _ _) rfl).2 m s hs
    refine ⟨c, o, pre, rest, h1, h2, h3, ?_⟩
    intro k v fs folder_name hkv hk hv hget
    rw [hkv] at h2 ⊢
    refine extractKeyValuePair_record fs folder_name _ c o _ rest k v hget h2 ?_ hk hv
    rw [← h3, List.append_assoc, List.drop_left]
  · intro m s s2 c o hs hs2 ho
    have hn := store_keyval_data_loop_next strs 0 0 (d.openTxt 0) m s s2 c o hs hs2 ho
    unfold store_keyval_data
    rw [hn]
    by_cases h : o + s.length + s2.length + 1 > MAX_FILE_SIZE
    · rw [if_pos h]; exact Or.inr rfl
    · rw [if_neg h]; exact Or.inl rfl

theorem C19_record_positions_witness :
    [encodeKeyValuePair (bytes "a") (bytes "1"), encodeKeyValuePair (bytes "b") (bytes "22")][1]?
      = some (encodeKeyValuePair (bytes "b") (bytes "22")) ∧
    ∃ (c o : Nat) (pre rest : Str),
      (store_keyval_data
        [encodeKeyValuePair (bytes "a") (bytes "1"), encodeKeyValuePair (bytes "b") (bytes "22")]
        { txt := [], bin := [] }).1[1]? = some ((c : Int), (o : Int)) ∧
      (store_keyval_data
        [encodeKeyValuePair (bytes "a") (bytes "1"), encodeKeyValuePair (bytes "b") (bytes "22")]
        { txt := [], bin := [] }).2.txt.read c
        = some (pre ++ encodeKeyValuePair (bytes "b") (bytes "22") ++ rest) ∧
      pre.length = o := by
  obtain ⟨c, o, pre, rest, h1, h2, h3, _⟩ :=
    (C19_record_positions
      [encodeKeyValuePair (bytes "a") (bytes "1"), encodeKeyValuePair (bytes "b") (bytes "22")]
      { txt := [], bin := [] }).2.1 1 (encodeKeyValuePair (bytes "b") (bytes "22")) (by decide)
  exact ⟨by decide, c, o, pre, rest, h1, h2, h3⟩

/-! ## The chunk roll-over rule (C20) -/

/-- C20 (as stated, refuted): a record that makes the chunk exactly `MAX_FILE_SIZE` bytes
long does not stay in the current chunk. The first record has 4000 bytes and the second 96,
so that `4000 + 96 > 4096` is false, and yet `store_keyval_data` puts the second record at
offset 0 of the chunk `1.txt`. -/
theorem C20_exact_fit_starts_new_chunk :
    (encodeKeyValuePair (List.replicate 3997 97) [118]).length = 4000 ∧
    (encodeKeyValuePair (List.replicate 93 98) [119]).length = 96 ∧
    ¬ (4000 + 96 > MAX_FILE_SIZE) ∧
    (store_keyval_data
      [encodeKeyValuePair (List.replicate 3997 97) [118],
        encodeKeyValuePair (List.replicate 93 98) [119]] { txt := [], bin := [] }).1
      = [(0, 0), (1, 0)] := by
  have h0 : (encodeKeyValuePair (List.replicate 3997 97) [118]).length = 4000 := by
    simp only [encodeKeyValuePair, List.length_append, List.length_replicate, List.length_cons,
      List.length_nil]
  have h1 : (encodeKeyValuePair (List.replicate 93 98) [119]).length = 96 := by
    simp only [encodeKeyValuePair, List.length_append, List.length_replicate, List.length_cons,
      List.length_nil]
  refine ⟨h0, h1, by decide, ?_⟩
  simp only [store_keyval_data, store_keyval_data_loop, h0, h1, MAX_FILE_SIZE]
  decide

/-- C20 (amended): the chunk roll-over rule. While `store_keyval_data` writes the strings in
order, a string starts a new data chunk if and only if the bytes already in the current
chunk, the length of the string and one more byte exceed `MAX_FILE_SIZE`, that is iff
(bytes already in the current chunk) + (length of the string) ≥ 4096: the first string
goes to offset 0 of the chunk 1 in that case and to the chunk 0 else, and a later string
goes to offset 0 of the next chunk in that case and right behind the string before it else.
A string that would make the chunk exactly 4096 bytes long starts a new chunk; one that
makes it 4095 bytes long stays. -/
theorem C20_chunk_rollover (strs : List Str) (d : Folder) :
    (∀ s : Str, strs[0]? = some s →
      (store_keyval_data strs d).1[0]? = some
        (if 0 + s.length + 1 > MAX_FILE_SIZE then ((1 : Int), (0 : Int))
         else ((0 : Int), (0 : Int)))) ∧
    (∀ (m : Nat) (s s2 : Str) (c o : Nat), strs[m]? = some s → strs[m + 1]? = some s2 →
      (store_keyval_data strs d).1[m]? = some ((c : Int), (o : Int)) →
      (store_keyval_data strs d).1[m + 1]? = some
        (if o + s.length + s2.length + 1 > MAX_FILE_SIZE then (((c + 1 : Nat) : Int), (0 : Int))
         else ((c : Int), ((o + s.length : Nat) : Int))) ∧
      (o + s.length + s2.length = 4096 →
        (store_keyval_data strs d).1[m + 1]? = some (((c + 1 : Nat) : Int), (0 : Int))) ∧
      (o + s.length + s2.length = 4095 →
        (store_keyval_data strs d).1[m + 1]? = some ((c : Int), ((o + s.length : Nat) : Int)))) ∧
    (∀ (str : Str) (rest : List Str) (fileIndex currentFileSize : Nat) (d2 : Folder),
      (store_keyval_data_loop (str :: rest) fileIndex currentFileSize d2).1[0]? = some
        (if currentFileSize + str.length ≥ 4096 then (((fileIndex + 1 : Nat) : Int), (0 : Int))
         else ((fileIndex : Int), (currentFileSize : Int)))) := by
  refine ⟨?_, ?_, ?_⟩
  · intro s hs
    obtain ⟨rest, rfl⟩ : ∃ rest, strs = s :: rest := by
      cases strs with
      | nil => simp at hs
      | cons a rest =>
          simp only [List.getElem?_cons_zero, Option.some.injEq] at hs
          exact ⟨rest, by rw [hs]⟩
    unfold store_keyval_data
    rw [store_keyval_data_loop_head]
    rfl
  · intro m s s2 c o hs hs2 ho
    have hn := store_keyval_data_loop_next strs 0 0 (d.openTxt 0) m s s2 c o hs hs2 ho
    unfold store_keyval_data
    refine ⟨hn, ?_, ?_⟩
    · intro h
      rw [hn, if_pos (by rw [h]; decide)]
    · intro h
      rw [hn, if_neg (by rw [h]; decide)]
  · intro str rest fileIndex currentFileSize d2
    rw [store_keyval_data_loop_head]
    by_cases h : currentFileSize + str.length + 1 > MAX_FILE_SIZE
    · rw [if_pos h, if_pos (by simp only [MAX_FILE_SIZE] at h; omega)]
    · rw [if_neg h, if_neg (by simp only [MAX_FILE_SIZE] at h; omega)]

theorem C20_chunk_rollover_witness :
    [List.replicate 4000 97, List.replicate 95 98][0]? = some (List.replicate 4000 97) ∧
    [List.replicate 4000 97, List.replicate 95 98][0 + 1]? = some (List.replicate 95 98) ∧
    (store_keyval_data [List.replicate 4000 97, List.replicate 95 98]
      { txt := [], bin := [] }).1[0]? = some (((0 : Nat) : Int), ((0 : Nat) : Int)) ∧
    (store_keyval_data [List.replicate 4000 97, List.replicate 95 98]
      { txt := [], bin := [] }).1[0 + 1]?
        = some (((0 : Nat) : Int), ((0 + (List.replicate 4000 97).length : Nat) : Int)) :=
  have h0 : (store_keyval_data [List.replicate 4000 97, List.replicate 95 98]
      { txt := [], bin := [] }).1[0]? = some (((0 : Nat) : Int), ((0 : Nat) : Int)) := by
    rw [(C20_chunk_rollover [List.replicate 4000 97, List.replicate 95 98]
      { txt := [], bin := [] }).1 (List.replicate 4000 97) rfl, if_neg (by simp only [List.length_replicate, MAX_FILE_SIZE]; decide)]
    rfl
  ⟨rfl, rfl, h0,
    ((C20_chunk_rollover [List.replicate 4000 97, List.replicate 95 98]
      { txt := [], bin := [] }).2.1 0 (List.replicate 4000 97) (List.replicate 95 98) 0 0
        rfl rfl h0).2.2 (by simp only [List.length_replicate])⟩

/-! ## Index layout round trip (C21) -/

/-- C21: index layout round trip. For every array `data` of `n` index pairs written by
`store_keyval_index` into a directory: the data chunks stay as they are, every index chunk
`j` with `512 · j < n` holds exactly the entries of the records
`[512 · j, min (512 · (j + 1)) n)`, in order, and for every `m < n`, `extractPair` on the
chunk `(m / 512).bin` at pair index `m mod 512` returns exactly the `m`-th pair. -/
theorem C21_index_layout_round_trip (data : List (Int × Int)) (d : Folder) :
    (store_keyval_index data data.length d).txt = d.txt ∧
    (∀ j : Nat, j * INDEX_SIZE < data.length →
      ∃ entries, (store_keyval_index data data.length d).bin.read j = some entries ∧
        entries.length = min (INDEX_SIZE * (j + 1)) data.length - INDEX_SIZE * j ∧
        ∀ i : Nat, i < entries.length → entries[i]? = data[INDEX_SIZE * j + i]?) ∧
    (∀ (m : Nat) (p : Int × Int) (fs : FS) (folder_name : Str), data[m]? = some p →
      fs.get folder_name = some (store_keyval_index data data.length d) →
      extractPair fs folder_name ((m : Int) / (INDEX_SIZE : Int)) ((m : Int) % (INDEX_SIZE : Int))
        = p) := by
  obtain ⟨h1, _, h3⟩ := store_keyval_index_loop_spec data data.length data.length 0 0 d
    (by simp) (by simp only [INDEX_SIZE]; omega)
  refine ⟨h1, ?_, ?_⟩
  · intro j hj
    refine ⟨_, h3 j (Nat.zero_le _) hj, ?_, ?_⟩
    · simp only [List.length_take, List.length_drop, INDEX_SIZE] at hj ⊢
      omega
    · intro i hi
      rw [List.getElem?_take_of_lt (by simpa using hi), List.getElem?_drop, Nat.mul_comm]
  · intro m p fs folder_name hp hget
    obtain ⟨entries, he1, he2⟩ := (store_keyval_index_spec data d).2 m p hp
    exact extractPair_of_entry fs folder_name _ m entries p hget he1 he2

theorem C21_index_layout_round_trip_witness :
    ([(0, 0), (0, 7), (1, 0)] : List (Int × Int))[2]? = some (1, 0) ∧
    (FS.empty.set (bytes "T") (some (store_keyval_index [(0, 0), (0, 7), (1, 0)]
      ([(0, 0), (0, 7), (1, 0)] : List (Int × Int)).length { txt := [], bin := [] }))).get
        (bytes "T")
      = some (store_keyval_index [(0, 0), (0, 7), (1, 0)]
        ([(0, 0), (0, 7), (1, 0)] : List (Int × Int)).length { txt := [], bin := [] }) ∧
    extractPair (FS.empty.set (bytes "T") (some (store_keyval_index [(0, 0), (0, 7), (1, 0)]
      ([(0, 0), (0, 7), (1, 0)] : List (Int × Int)).length { txt := [], bin := [] })))
      (bytes "T") (((2 : Nat) : Int) / (INDEX_SIZE : Int)) (((2 : Nat) : Int) % (INDEX_SIZE : Int))
      = (1, 0) :=
  ⟨by decide, by decide,
    (C21_index_layout_round_trip [(0, 0), (0, 7), (1, 0)] { txt := [], bin := [] }).2.2
      2 (1, 0) _ (bytes "T") (by decide) (by decide)⟩

/-! ## Record encoding round trip (C22) -/

/-- C22: record encoding round trip. For every key `k` free of DELIMITER and every value `v`
(free of DELIMITER or not; either may be empty), `encodeKeyValuePair(k, v)` is `k` followed
by `#`, `v` and `#`, and `decodeKeyValuePair(encodeKeyValuePair(k, v)) = (k, v)`. -/
theorem C22_record_encoding_round_trip (k v : Str) (hk : DelimFree k) :
    encodeKeyValuePair k v = k ++ [35] ++ v ++ [35] ∧
    decodeKeyValuePair (encodeKeyValuePair k v) = (k, v) :=
  ⟨rfl, decode_encode k v hk⟩

theorem C22_record_encoding_round_trip_witness :
    DelimFree ([] : Str) ∧ DelimFree (bytes "key") ∧
    decodeKeyValuePair (encodeKeyValuePair [] []) = ([], []) ∧
    encodeKeyValuePair (bytes "key") (bytes "val") = bytes "key#val#" ∧
    decodeKeyValuePair (encodeKeyValuePair (bytes "key") (bytes "val"))
      = (bytes "key", bytes "val") :=
  ⟨by decide, by decide, (C22_record_encoding_round_trip [] [] (by decide)).2, by decide,
    (C22_record_encoding_round_trip (bytes "key") (bytes "val") (by decide)).2⟩

/-! ## Compactor clock bounds (C23) -/

/-- C23: compactor clock bounds. In every engine state reachable from the fresh engine
(`comp_time = MAX_COMP_TIME = 100000`) by any sequence of `SET`, `DEL` and `GET` operations
(and of compaction steps, which leave the clock alone), the clock is a power of 10 with
`MIN_COMP_TIME ≤ comp_time ≤ MAX_COMP_TIME`, that is `1 ≤ comp_time ≤ 100000`, and the
multiplication by 10 in `SET` does not overflow: whenever it is done the product is at most
`MAX_COMP_TIME`, and it is the value that the 32-bit `int` holds. -/
theorem C23_compactor_clock_bounds (stringHasher : Str → Nat) (e : Engine)
    (h : Reachable stringHasher e) :
    MIN_COMP_TIME ≤ e.comp_time ∧ e.comp_time ≤ MAX_COMP_TIME ∧
    (1 ≤ e.comp_time ∧ e.comp_time ≤ 100000) ∧
    e.comp_time ∈ ([1, 10, 100, 1000, 10000, 100000] : List Int) ∧
    (e.comp_time < MAX_COMP_TIME →
      e.comp_time * 10 ≤ MAX_COMP_TIME ∧ wrap32 (e.comp_time * 10) = e.comp_time * 10) := by
  have hc := Reachable.comp_time_mem stringHasher e h
  refine ⟨?_, ?_, ?_, hc, ?_⟩ <;>
    simp only [List.mem_cons, List.mem_singleton, List.not_mem_nil, or_false] at hc <;>
    rcases hc with h | h | h | h | h | h <;> rw [h] <;> decide

theorem C23_compactor_clock_bounds_witness :
    Reachable List.sum (GET List.sum (SET List.sum Engine.fresh (bytes "a") (bytes "1"))
      (bytes "b")).2 ∧
    (GET List.sum (SET List.sum Engine.fresh (bytes "a") (bytes "1")) (bytes "b")).2.comp_time
      = 10000 ∧
    MIN_COMP_TIME ≤
      (GET List.sum (SET List.sum Engine.fresh (bytes "a") (bytes "1")) (bytes "b")).2.comp_time :=
  ⟨⟨[Step.op (Op.set (bytes "a") (bytes "1")), Step.get (bytes "b")], rfl⟩, by decide,
    (C23_compactor_clock_bounds List.sum _
      ⟨[Step.op (Op.set (bytes "a") (bytes "1")), Step.get (bytes "b")], rfl⟩).1⟩

/-! ## Compactor clock adjustment (C24) -/

/-- C24: compactor clock adjustment. In every reachable engine state with clock value `c`, a
`SET` (or a `DEL`) leaves the clock at `min (10 · c) MAX_COMP_TIME`, a `GET` that misses the
memtable leaves it at `max (c div 10) MIN_COMP_TIME`, and a `GET` that is answered from the
memtable leaves it at `c`. -/
theorem C24_compactor_clock_adjustment (stringHasher : Str → Nat) (e : Engine)
    (h : Reachable stringHasher e) (key value : Str) :
    (SET stringHasher e key value).comp_time = min (10 * e.comp_time) MAX_COMP_TIME ∧
    (DEL stringHasher e key).comp_time = min (10 * e.comp_time) MAX_COMP_TIME ∧
    ((e.tree.find key).1 = false →
      (GET stringHasher e key).2.comp_time = max (e.comp_time / 10) MIN_COMP_TIME) ∧
    ((e.tree.find key).1 = true → (GET stringHasher e key).2.comp_time = e.comp_time) := by
  have hc := Reachable.comp_time_mem stringHasher e h
  have hset : ∀ v, (SET stringHasher e key v).comp_time
      = min (10 * e.comp_time) MAX_COMP_TIME := by
    intro v
    rw [SET_comp_time]
    simp only [List.mem_cons, List.mem_singleton, List.not_mem_nil, or_false] at hc
    rcases hc with h | h | h | h | h | h <;> rw [h] <;> decide
  refine ⟨hset value, hset _, ?_, ?_⟩
  · intro hmiss
    rw [GET_comp_time, hmiss]
    simp only [Bool.false_eq_true, if_false]
    simp only [List.mem_cons, List.mem_singleton, List.not_mem_nil, or_false] at hc
    rcases hc with h | h | h | h | h | h <;> rw [h] <;> decide
  · intro hhit
    rw [GET_comp_time, hhit]
    simp only [if_true]

theorem C24_compactor_clock_adjustment_witness :
    Reachable List.sum (GET List.sum Engine.fresh (bytes "b")).2 ∧
    ((GET List.sum Engine.fresh (bytes "b")).2.tree.find (bytes "a")).1 = false ∧
    (GET List.sum (GET List.sum Engine.fresh (bytes "b")).2 (bytes "a")).2.comp_time
      = max ((GET List.sum Engine.fresh (bytes "b")).2.comp_time / 10) MIN_COMP_TIME ∧
    (GET List.sum (GET List.sum Engine.fresh (bytes "b")).2 (bytes "a")).2.comp_time = 1000 :=
  ⟨⟨[Step.get (bytes "b")], rfl⟩, by decide,
    (C24_compactor_clock_adjustment List.sum (GET List.sum Engine.fresh (bytes "b")).2
      ⟨[Step.get (bytes "b")], rfl⟩ (bytes "a") []).2.2.1 (by decide),
    by decide⟩

/-! ## DEL is SET of the tombstone (C25) -/

/-- C25: for every engine state and key `k`, `DEL(k)` produces exactly the engine state that
`SET(k, TOMBSTONE)` produces: the same memtable, the same registry and disk, including any
flush it triggers, and the same compactor clock. -/
theorem C25_DEL_is_SET_TOMBSTONE (stringHasher : Str → Nat) (e : Engine) (k : Str) :
    DEL stringHasher e k = SET stringHasher e k TOMBSTONE ∧
    (DEL stringHasher e k).tree = (SET stringHasher e k TOMBSTONE).tree ∧
    (DEL stringHasher e k).SSTable_list = (SET stringHasher e k TOMBSTONE).SSTable_list ∧
    (DEL stringHasher e k).comp_time = (SET stringHasher e k TOMBSTONE).comp_time ∧
    (DEL stringHasher e k).fs = (SET stringHasher e k TOMBSTONE).fs ∧
    TOMBSTONE = bytes "tombstone" :=
  ⟨rfl, rfl, rfl, rfl, rfl, by decide⟩

/-! ## Summary insert is idempotent (C26) -/

/-- C26 (the code diverges): summary insert is idempotent, for sets that stay within the
multiplier table. For every probabilistic set state `s` with at most 30 hash functions and
every key `k`, inserting `k` returns a state `s1`, and inserting `k` again returns the same
state `s1`: the same bit array, so that `exists` gives the same answer for every key. For
every set with more than 30 hash functions `insert` reads `multipliers` past its end, as
for the set `ProbabilisticSet(1000)` of `main`. -/
theorem C26_insert_idempotent_within_table (stringHasher : Str → Nat) :
    (∀ (s : ProbabilisticSet) (k : Str), s.numHashFunctions ≤ multipliers.length →
      ∃ s1, s.insert_checked stringHasher k = Except.ok s1 ∧
        s1.insert_checked stringHasher k = Except.ok s1 ∧
        ∀ s2, s1.insert_checked stringHasher k = Except.ok s2 →
          s2.bitVector = s1.bitVector ∧
          ∀ key : Str, s2.exists_checked stringHasher key = s1.exists_checked stringHasher key) ∧
    (∀ (s : ProbabilisticSet) (k : Str), multipliers.length < s.numHashFunctions →
      s.insert_checked stringHasher k = Except.error Fault.out_of_bounds) ∧
    (ProbabilisticSet.init 1000).insert_checked stringHasher (bytes "apple")
      = Except.error Fault.out_of_bounds := by
  refine ⟨?_, ?_, ?_⟩
  · intro s k h
    have hn1 := ProbabilisticSet.insert_numHashFunctions stringHasher s k
    have hbits : ((s.insert stringHasher k).insert stringHasher k).bitVector
        = (s.insert stringHasher k).bitVector := by
      funext i
      rw [ProbabilisticSet.insert_bitVector, ProbabilisticSet.insert_bitVector,
        ProbabilisticSet.calculateHashes_congr stringHasher (s.insert stringHasher k) s k hn1]
      cases s.bitVector i <;> cases decide (i ∈ s.calculateHashes stringHasher k) <;> rfl
    have hn := ProbabilisticSet.insert_numHashFunctions stringHasher (s.insert stringHasher k) k
    have heq : (s.insert stringHasher k).insert stringHasher k = s.insert stringHasher k := by
      cases h1 : (s.insert stringHasher k).insert stringHasher k with
      | mk b1 n1 =>
        cases h2 : s.insert stringHasher k with
        | mk b2 n2 =>
          rw [h1, h2] at hbits
          rw [h1, h2] at hn
          simp only at hbits hn
          rw [hbits, hn]
    have h2 : (s.insert stringHasher k).insert_checked stringHasher k
        = Except.ok (s.insert stringHasher k) := by
      rw [ProbabilisticSet.insert_checked_ok stringHasher _ k (by rw [hn1]; exact h), heq]
    refine ⟨_, ProbabilisticSet.insert_checked_ok stringHasher s k h, h2, ?_⟩
    intro s2 hs2
    rw [h2] at hs2
    injection hs2 with hs2
    subst hs2
    exact ⟨rfl, fun _ => rfl⟩
  · intro s k h
    exact ProbabilisticSet.insert_checked_oob stringHasher s k h
  · exact ProbabilisticSet.insert_checked_oob stringHasher _ _ (by decide)

/-! ## Corruption is fatal (C27) -/

/-- C29 (the code diverges): `handle_get` does not get to send `$<len>\r\n<value>\r\n`.
`build_resp_get` allocates `len + 6` bytes and `sprintf` writes the `len + 6` bytes of
`$`, the two line separators, the value and the terminating NUL, and the digits of `len`
in addition, so that it writes past the end of the allocation for every value; this is so
for the engine that holds `"v"` for `"k"`. When `GET` returns the tombstone sentinel,
`handle_get` sends `-ERR Key not found\r\n`, and `handle_set` always sends `+OK\r\n`. -/
theorem C29_get_reply_overflows (stringHasher : Str → Nat) :
    (∀ message : Str, build_resp_get message = Except.error Fault.out_of_bounds) ∧
    (∀ message : Str,
      ([36] ++ to_string message.length ++ CRLF ++ message ++ CRLF).length + 1
        = (message.length + 6) + (to_string message.length).length) ∧
    (∀ (e : Engine) (key value : Str), (GET stringHasher e key).1 = Except.ok value →
      c_str value ≠ TOMBSTONE →
      handle_get stringHasher e key = Except.error Fault.out_of_bounds) ∧
    (∀ (e : Engine) (key value : Str), (GET stringHasher e key).1 = Except.ok value →
      c_str value = TOMBSTONE →
      handle_get stringHasher e key
        = Except.ok (bytes "-ERR Key not found" ++ CRLF, (GET stringHasher e key).2)) ∧
    (∀ (e : Engine) (key value : Str),
      handle_set stringHasher e key value
        = Except.ok (bytes "+OK" ++ CRLF, SET stringHasher e key value)) ∧
    (GET List.sum (SET List.sum Engine.fresh (bytes "k") (bytes "v")) (bytes "k")).1
      = Except.ok (bytes "v") ∧
    handle_get List.sum (SET List.sum Engine.fresh (bytes "k") (bytes "v")) (bytes "k")
      = Except.error Fault.out_of_bounds := by
  refine ⟨build_resp_get_overflows, ?_, ?_, ?_, ?_, by decide, ?_⟩
  · intro message
    simp only [CRLF, List.length_append, List.length_cons, List.length_nil]
    omega
  · intro e key value hget hne
    unfold handle_get
    rw [hget]
    simp only
    rw [if_pos (show c_str value ≠ [116, 111, 109, 98, 115, 116, 111, 110, 101] from hne),
      build_resp_get_overflows]
  · intro e key value hget heq
    unfold handle_get
    rw [hget]
    simp only
    rw [if_neg (show ¬ c_str value ≠ [116, 111, 109, 98, 115, 116, 111, 110, 101] from
      fun h => h heq), build_error_ok]
    rfl
  · intro e key value
    unfold handle_set
    simp only
    rw [build_resp_ok]
    rfl
  · have hget : (GET List.sum (SET List.sum Engine.fresh (bytes "k") (bytes "v"))
        (bytes "k")).1 = Except.ok (bytes "v") := by decide
    unfold handle_get
    rw [hget]
    simp only
    rw [if_pos (show c_str (bytes "v") ≠ [116, 111, 109, 98, 115, 116, 111, 110, 101] by decide),
      build_resp_get_overflows]

theorem C29_get_reply_overflows_witness :
    (GET List.sum Engine.fresh (bytes "k")).1 = Except.ok TOMBSTONE ∧
    c_str TOMBSTONE = TOMBSTONE ∧
    handle_get List.sum Engine.fresh (bytes "k")
      = Except.ok (bytes "-ERR Key not found" ++ CRLF, (GET List.sum Engine.fresh (bytes "k")).2) :=
  ⟨by decide, by decide,
    (C29_get_reply_overflows List.sum).2.2.2.1 Engine.fresh (bytes "k") TOMBSTONE
      (by decide) (by decide)⟩

/-! ## Malformed requests (C30) -/

/-- C30 (the code diverges): a request that `parse_resp` rejects gets no reply at all. For
every engine state, `handle_client` sends nothing for the request `PING\r\n`, which does not
start with `*`, and for the request `*1\r\n$4\r\n`, which has fewer than three line tokens;
it sends nothing whenever `parse_resp` returns 0, and `parse_resp` returns 0 for every
message that does not start with `*`. A request that parses and names no known command,
such as `*1\r\n$4\r\nPING\r\n`, is answered with `-ERR Invalid command or arguments\r\n`. -/
theorem C30_parse_failure_sends_nothing (stringHasher : Str → Nat) (e : Engine) :
    handle_client stringHasher e (bytes "PING" ++ CRLF) = Except.ok (none, e) ∧
    handle_client stringHasher e (bytes "*1" ++ CRLF ++ bytes "$4" ++ CRLF)
      = Except.ok (none, e) ∧
    (∀ available : Str, (parse_resp (c_str (receive_message available MAXLINE))).1 = false →
      handle_client stringHasher e available = Except.ok (none, e)) ∧
    (∀ message : Str, message.head? ≠ some 42 → (parse_resp message).1 = false) ∧
    handle_client stringHasher e (bytes "*1" ++ CRLF ++ bytes "$4" ++ CRLF ++ bytes "PING" ++ CRLF)
      = Except.ok (some (bytes "-ERR Invalid command or arguments" ++ CRLF), e) := by
  refine ⟨rfl, rfl, ?_, ?_, rfl⟩
  · intro available h
    unfold handle_client
    simp only
    split
    · rfl
    · rw [h]
      rfl
  · intro message h
    unfold parse_resp
    rw [if_neg h]

theorem C30_parse_failure_sends_nothing_witness :
    (parse_resp (c_str (receive_message (bytes "GET k") MAXLINE))).1 = false ∧
    handle_client List.sum Engine.fresh (bytes "GET k") = Except.ok (none, Engine.fresh) :=
  ⟨by decide,
    (C30_parse_failure_sends_nothing List.sum Engine.fresh).2.2.1 (bytes "GET k") (by decide)⟩

/-! ## Best-effort construction (C28) -/

/-- C28 (as stated, refuted): a lookup for a key whose record or index entry landed in a
skipped chunk does not report not-found. With the records `("a", "1")` and `("b", "2")`
built into the fresh directory `T`: when the data chunk `0.txt` cannot be opened,
`find("a")` raises the error "Cannot open file", and when the index chunk `0.bin` cannot be
opened, `find("a")` ends the process with `exit(1)`; neither returns
`(false, "tombstone")`. -/
theorem C28_skipped_chunk_lookup_is_fatal :
    (SSTable.new_io (fun i => decide (i = 0)) (fun _ => false) List.sum 0
        [(bytes "a", bytes "1"), (bytes "b", bytes "2")] (bytes "T") FS.empty).1.find List.sum
      (SSTable.new_io (fun i => decide (i = 0)) (fun _ => false) List.sum 0
        [(bytes "a", bytes "1"), (bytes "b", bytes "2")] (bytes "T") FS.empty).2 (bytes "a")
      = Except.error Fault.cannot_open_file ∧
    (SSTable.new_io (fun i => decide (i = 0)) (fun _ => false) List.sum 0
        [(bytes "a", bytes "1"), (bytes "b", bytes "2")] (bytes "T") FS.empty).1.find List.sum
      (SSTable.new_io (fun i => decide (i = 0)) (fun _ => false) List.sum 0
        [(bytes "a", bytes "1"), (bytes "b", bytes "2")] (bytes "T") FS.empty).2 (bytes "a")
      ≠ Except.ok (false, TOMBSTONE) ∧
    (SSTable.new_io (fun _ => false) (fun i => decide (i = 0)) List.sum 0
        [(bytes "a", bytes "1"), (bytes "b", bytes "2")] (bytes "T") FS.empty).1.find List.sum
      (SSTable.new_io (fun _ => false) (fun i => decide (i = 0)) List.sum 0
        [(bytes "a", bytes "1"), (bytes "b", bytes "2")] (bytes "T") FS.empty).2 (bytes "a")
      = Except.error Fault.exit_1 ∧
    (SSTable.new_io (fun _ => false) (fun i => decide (i = 0)) List.sum 0
        [(bytes "a", bytes "1"), (bytes "b", bytes "2")] (bytes "T") FS.empty).1.find List.sum
      (SSTable.new_io (fun _ => false) (fun i => decide (i = 0)) List.sum 0
        [(bytes "a", bytes "1"), (bytes "b", bytes "2")] (bytes "T") FS.empty).2 (bytes "a")
      ≠ Except.ok (false, TOMBSTONE) := by
  decide

/-- C28 (amended): best-effort construction. Let an SSTable be constructed in a fresh
directory from ascending DELIMITER-free records while the chunk files `i` with `fails i`
cannot be opened. Without failures this is the constructor. When the failing files are data
chunks, exactly these chunks are skipped: they do not exist afterwards, every other data
chunk and the whole index are as without failures; a later `find(k)` either raises the
error "Cannot open file" or answers as the table built without failures, and it raises for
every key whose record landed in a skipped chunk. When the failing files are index chunks,
the chunks from the first failing one on are skipped: they do not exist afterwards, the
index chunks before it and all data chunks are as without failures; a later `find(k)`
either ends the process with `exit(1)` or answers as the table built without failures, and
it ends the process for every key whose index entry landed in a skipped chunk. -/
theorem C28_failed_chunk_is_fatal (fails : Nat → Bool) (stringHasher : Str → Nat)
    (list_size : Nat) (S : List (Str × Str)) (fname : Str) (fs : FS)
    (hfresh : fs.get (SSTable.new stringHasher list_size S fname fs).1.folder_name = none)
    (hasc : Ascending S) (hS : RecordsDelimFree S) :
    SSTable.new_io (fun _ => false) (fun _ => false) stringHasher list_size S fname fs
      = SSTable.new stringHasher list_size S fname fs ∧
    ((∀ j, (SSTable.new_io fails (fun _ => false) stringHasher list_size S fname fs).2.readTxt
        (SSTable.new stringHasher list_size S fname fs).1.folder_name j =
      if fails j then none
      else (SSTable.new stringHasher list_size S fname fs).2.readTxt
        (SSTable.new stringHasher list_size S fname fs).1.folder_name j) ∧
    (∀ j, (SSTable.new_io fails (fun _ => false) stringHasher list_size S fname fs).2.readBin
        (SSTable.new stringHasher list_size S fname fs).1.folder_name j =
      (SSTable.new stringHasher list_size S fname fs).2.readBin
        (SSTable.new stringHasher list_size S fname fs).1.folder_name j) ∧
    (∀ key : Str,
      (SSTable.new_io fails (fun _ => false) stringHasher list_size S fname fs).1.find
        stringHasher
        (SSTable.new_io fails (fun _ => false) stringHasher list_size S fname fs).2 key
        = Except.error Fault.cannot_open_file ∨
      (SSTable.new_io fails (fun _ => false) stringHasher list_size S fname fs).1.find
        stringHasher
        (SSTable.new_io fails (fun _ => false) stringHasher list_size S fname fs).2 key
        = (SSTable.new stringHasher list_size S fname fs).1.find stringHasher
          (SSTable.new stringHasher list_size S fname fs).2 key) ∧
    (∀ (key : Str) (m : Nat) (v : Str) (c o : Nat), S[m]? = some (key, v) →
      (store_keyval_data (S.map fun p => encodeKeyValuePair p.1 p.2)
        { txt := [], bin := [] }).1[m]? = some ((c : Int), (o : Int)) →
      fails c = true →
      (SSTable.new_io fails (fun _ => false) stringHasher list_size S fname fs).1.find
        stringHasher
        (SSTable.new_io fails (fun _ => false) stringHasher list_size S fname fs).2 key
        = Except.error Fault.cannot_open_file)) ∧
    ((∀ j, (SSTable.new_io (fun _ => false) fails stringHasher list_size S fname fs).2.readTxt
        (SSTable.new stringHasher list_size S fname fs).1.folder_name j =
      (SSTable.new stringHasher list_size S fname fs).2.readTxt
        (SSTable.new stringHasher list_size S fname fs).1.folder_name j) ∧
    (∀ j, (∀ k, k ≤ j → fails k = false) →
      (SSTable.new_io (fun _ => false) fails stringHasher list_size S fname fs).2.readBin
        (SSTable.new stringHasher list_size S fname fs).1.folder_name j =
      (SSTable.new stringHasher list_size S fname fs).2.readBin
        (SSTable.new stringHasher list_size S fname fs).1.folder_name j) ∧
    (∀ j, (∃ k, k ≤ j ∧ fails k = true) →
      (SSTable.new_io (fun _ => false) fails stringHasher list_size S fname fs).2.readBin
        (SSTable.new stringHasher list_size S fname fs).1.folder_name j = none) ∧
    (∀ key : Str,
      (SSTable.new_io (fun _ => false) fails stringHasher list_size S fname fs).1.find
        stringHasher
        (SSTable.new_io (fun _ => false) fails stringHasher list_size S fname fs).2 key
        = Except.error Fault.exit_1 ∨
      (SSTable.new_io (fun _ => false) fails stringHasher list_size S fname fs).1.find
        stringHasher
        (SSTable.new_io (fun _ => false) fails stringHasher list_size S fname fs).2 key
        = (SSTable.new stringHasher list_size S fname fs).1.find stringHasher
          (SSTable.new stringHasher list_size S fname fs).2 key) ∧
    (∀ (key : Str) (m : Nat) (v : Str) (k : Nat), S[m]? = some (key, v) →
      k ≤ m / INDEX_SIZE → fails k = true →
      (SSTable.new_io (fun _ => false) fails stringHasher list_size S fname fs).1.find
        stringHasher
        (SSTable.new_io (fun _ => false) fails stringHasher list_size S fname fs).2 key
        = Except.error Fault.exit_1)) := by
  obtain ⟨a1, a2, _⟩ :=
    SSTable.new_io_reads fails (fun _ => false) stringHasher list_size S fname fs hfresh
  obtain ⟨b1, b2, b3⟩ :=
    SSTable.new_io_reads (fun _ => false) fails stringHasher list_size S fname fs hfresh
  refine ⟨SSTable.new_io_no_failure stringHasher list_size S fname fs,
    ⟨a1, fun j => a2 j (fun _ _ => rfl), ?_, ?_⟩, ⟨?_, b2, b3, ?_, ?_⟩⟩
  · intro key
    exact (SSTable.new_io_find_data fails stringHasher list_size S fname fs hfresh hasc hS key).1
  · intro key
    exact (SSTable.new_io_find_data fails stringHasher list_size S fname fs hfresh hasc hS key).2
  · intro j
    rw [b1 j]
    simp only [Bool.false_eq_true, if_false]
  · intro key
    exact (SSTable.new_io_find_index fails stringHasher list_size S fname fs hfresh hasc hS key).1
  · intro key
    exact (SSTable.new_io_find_index fails stringHasher list_size S fname fs hfresh hasc hS key).2

theorem C28_failed_chunk_is_fatal_witness :
    FS.empty.get (SSTable.new List.sum 0 [(bytes "a", bytes "1"), (bytes "b", bytes "2")]
      (bytes "T") FS.empty).1.folder_name = none ∧
    Ascending [(bytes "a", bytes "1"), (bytes "b", bytes "2")] ∧
    RecordsDelimFree [(bytes "a", bytes "1"), (bytes "b", bytes "2")] ∧
    [(bytes "a", bytes "1"), (bytes "b", bytes "2")][1]? = some (bytes "b", bytes "2") ∧
    (store_keyval_data ([(bytes "a", bytes "1"), (bytes "b", bytes "2")].map
      fun p => encodeKeyValuePair p.1 p.2) { txt := [], bin := [] }).1[1]?
      = some (((0 : Nat) : Int), ((4 : Nat) : Int)) ∧
    (SSTable.new_io (fun i => decide (i = 0)) (fun _ => false) List.sum 0
        [(bytes "a", bytes "1"), (bytes "b", bytes "2")] (bytes "T") FS.empty).1.find List.sum
      (SSTable.new_io (fun i => decide (i = 0)) (fun _ => false) List.sum 0
        [(bytes "a", bytes "1"), (bytes "b", bytes "2")] (bytes "T") FS.empty).2 (bytes "b")
      = Except.error Fault.cannot_open_file :=
  ⟨rfl, by decide, by decide, by decide, by decide,
    (C28_failed_chunk_is_fatal (fun i => decide (i = 0)) List.sum 0
      [(bytes "a", bytes "1"), (bytes "b", bytes "2")] (bytes "T") FS.empty rfl
      (by decide) (by decide)).2.1.2.2.2 (bytes "b") 1 (bytes "2") 0 4
        (by decide) (by decide) (by decide)⟩


/-! ## GET is read-only on the stored data (C39) -/

/-- C39: GET is read-only on the stored data. For every engine state and key, `GET` leaves
the memtable (its keys, values and size), the registry (its slots, tables and folder names)
and the files on disk unchanged; the only state it may change is the compactor clock, and a
`GET` answered from the memtable leaves the whole state unchanged. -/
theorem C39_GET_read_only (stringHasher : Str → Nat) (e : Engine) (key : Str) :
    (GET stringHasher e key).2.tree = e.tree ∧
    (GET stringHasher e key).2.tree.getSortedPairs = e.tree.getSortedPairs ∧
    (GET stringHasher e key).2.tree.size = e.tree.size ∧
    (GET stringHasher e key).2.SSTable_list = e.SSTable_list ∧
    (GET stringHasher e key).2.fs = e.fs ∧
    (GET stringHasher e key).2 = { e with comp_time := (GET stringHasher e key).2.comp_time } ∧
    ((e.tree.find key).1 = true → (GET stringHasher e key).2 = e) := by
  have h : (GET stringHasher e key).2
      = { e with comp_time := (GET stringHasher e key).2.comp_time } := by
    unfold GET
    simp only
    split
    · rfl
    · split <;> rfl
  refine ⟨by rw [h], by rw [h], by rw [h], by rw [h], by rw [h], h, ?_⟩
  intro hhit
  unfold GET
  simp only
  rw [if_pos hhit]

theorem C39_GET_read_only_witness :
    ((SET List.sum Engine.fresh (bytes "a") (bytes "1")).tree.find (bytes "a")).1 = true ∧
    (GET List.sum (SET List.sum Engine.fresh (bytes "a") (bytes "1")) (bytes "a")).2
      = SET List.sum Engine.fresh (bytes "a") (bytes "1") :=
  ⟨by decide,
    (C39_GET_read_only List.sum (SET List.sum Engine.fresh (bytes "a") (bytes "1"))
      (bytes "a")).2.2.2.2.2.2 (by decide)⟩

/-! ## Response buffers (C40) -/

/-- C40 (the code diverges): the buffer of `build_resp_get` is too small. For every message,
`build_resp` allocates `length + 4` bytes, which is exactly the length of the response it
formats plus one byte for the terminating NUL, and `build_error` allocates `length + 8`
bytes, which is exactly that as well; `build_resp_get` allocates `length + 6` bytes, and
the response it formats plus the NUL takes `length + 6` bytes and the decimal digits of
the length, at least one byte more: for the message `"v"` 7 bytes are allocated and 8 are
written. -/
theorem C40_get_buffer_too_small (message : Str) :
    message.length + 4 = ([43] ++ message ++ CRLF).length + 1 ∧
    build_resp message = Except.ok ([43] ++ message ++ CRLF) ∧
    message.length + 8 = ([45, 69, 82, 82, 32] ++ message ++ CRLF).length + 1 ∧
    build_error message = Except.ok ([45, 69, 82, 82, 32] ++ message ++ CRLF) ∧
    ([36] ++ to_string message.length ++ CRLF ++ message ++ CRLF).length + 1
      = (message.length + 6) + (to_string message.length).length ∧
    message.length + 6 < ([36] ++ to_string message.length ++ CRLF ++ message ++ CRLF).length + 1 ∧
    build_resp_get message = Except.error Fault.out_of_bounds ∧
    (bytes "v").length + 6 = 7 ∧
    ([36] ++ to_string (bytes "v").length ++ CRLF ++ bytes "v" ++ CRLF).length + 1 = 8 := by
  have h := to_string_length_pos message.length
  refine ⟨?_, build_resp_ok message, ?_, build_error_ok message, ?_, ?_,
    build_resp_get_overflows message, by decide, by decide⟩
  · simp only [CRLF, List.length_append, List.length_cons, List.length_nil]
    omega
  · simp only [CRLF, List.length_append, List.length_cons, List.length_nil]
    omega
  · simp only [CRLF, List.length_append, List.length_cons, List.length_nil]
    omega
  · simp only [CRLF, List.length_append, List.length_cons, List.length_nil]
    omega


/-! ## The multiplier table (C36) -/

/-- C36 (the code diverges): the multiplier table is too small for small capacities. The
table has 30 entries. For the default capacity 10000 the constructor computes 7 hash
functions, and for every capacity of at least 2273 it computes at most 30; for every
capacity from 1 to 2272 it computes more than 30, so `calculateHashes` indexes the table
past its end: the capacity 1000 gives 70 hash functions, and the indices 30 to 69 are not
in the table. Every hash index that `calculateHashes` returns is below 100000, whatever the
capacity. -/
theorem C36_multiplier_table_too_small :
    multipliers.length = 30 ∧
    (ProbabilisticSet.init MAX_ITEMS).numHashFunctions = 7 ∧
    (∀ maxItems : Nat, 2273 ≤ maxItems →
      (ProbabilisticSet.init maxItems).numHashFunctions ≤ multipliers.length) ∧
    (∀ maxItems : Nat, 1 ≤ maxItems → maxItems ≤ 2272 →
      multipliers.length < (ProbabilisticSet.init maxItems).numHashFunctions) ∧
    (ProbabilisticSet.init 1000).numHashFunctions = 70 ∧
    (∀ i : Nat, 30 ≤ i → i < (ProbabilisticSet.init 1000).numHashFunctions →
      multipliers.get? i = none) ∧
    (∀ (stringHasher : Str → Nat) (s : ProbabilisticSet) (key : Str) (hash : Nat),
      hash ∈ s.calculateHashes stringHasher key → hash < ARRAY_SIZE) := by
  refine ⟨by decide, by decide, ?_, ?_, by decide, ?_, ?_⟩
  · intro maxItems h
    have hq : ARRAY_SIZE / maxItems < 44 := by
      rw [Nat.div_lt_iff_lt_mul (by omega)]
      simp only [ARRAY_SIZE]
      omega
    show ceil_mul_log2 (ARRAY_SIZE / maxItems) ≤ multipliers.length
    rw [show multipliers.length = 30 by decide]
    unfold ceil_mul_log2
    split
    · omega
    · omega
  · intro maxItems h1 h2
    have hq : 44 ≤ ARRAY_SIZE / maxItems := by
      rw [Nat.le_div_iff_mul_le (by omega)]
      simp only [ARRAY_SIZE]
      omega
    show multipliers.length < ceil_mul_log2 (ARRAY_SIZE / maxItems)
    rw [show multipliers.length = 30 by decide]
    unfold ceil_mul_log2
    rw [if_neg (by omega)]
    omega
  · intro i h _
    rw [List.get?_eq_none]
    rw [show multipliers.length = 30 by decide]
    exact h
  · intro stringHasher s key hash h
    unfold ProbabilisticSet.calculateHashes at h
    rw [List.mem_map] at h
    obtain ⟨i, _, rfl⟩ := h
    exact Nat.mod_lt _ (by decide)

/-! ## The shape of the registry (C37) -/

/-- C37: registry shape invariant. In every engine state that an execution of writes, reads
and compaction steps reaches from the fresh engine, slot 0 of the registry is live when the
registry is non-empty and no two adjacent slots are both empty. Consequently the registry
does not end in two empty slots, so when the tail slot is empty a compaction step pops
exactly that slot (the second pop does not fire), and a compaction step on a registry of
at least 100 slots leaves at least 100 slots. -/
theorem C37_registry_shape (stringHasher : Str → Nat) (e : Engine)
    (h : Reachable stringHasher e) :
    (e.SSTable_list ≠ [] → ∃ t, e.SSTable_list[0]? = some (some t)) ∧
    (∀ i : Nat, ¬ (e.SSTable_list[i]? = some none ∧ e.SSTable_list[i + 1]? = some none)) ∧
    (∀ rest, e.SSTable_list ≠ rest ++ [none, none]) ∧
    (e.SSTable_list.length > 100 →
      e.SSTable_list.getD (e.SSTable_list.length - 1) none = none →
      compact_iteration stringHasher e
        = Except.ok { e with SSTable_list := e.SSTable_list.dropLast }) ∧
    (∀ e2, compact_iteration stringHasher e = Except.ok e2 →
      e.SSTable_list.length - 1 ≤ e2.SSTable_list.length ∧
      (100 ≤ e.SSTable_list.length → 100 ≤ e2.SSTable_list.length)) := by
  obtain ⟨steps, hsteps⟩ := h
  have hs : RegistryShape e.SSTable_list :=
    exec_shape stringHasher steps Engine.fresh e RegistryShape.nil hsteps
  have hnn : ∀ rest, e.SSTable_list ≠ rest ++ [none, none] := by
    intro rest hr
    rw [hr] at hs
    exact RegistryShape.tail_not_both rest hs
  refine ⟨hs.1, hs.2, hnn, ?_, ?_⟩
  · intro hl htail
    obtain ⟨rest, a, b, hab⟩ := list_tail_pair e.SSTable_list hl
    rw [hab, getD_tail_rr] at htail
    subst htail
    cases a with
    | none => exact absurd hab (hnn rest)
    | some t =>
        rw [compact_pop_one stringHasher e rest t hab hl, hab, dropLast_tail]
  · intro e2 h2
    rcases compact_iteration_cases stringHasher e e2 h2 with ⟨_, h1⟩ | ⟨hl, _, _, h1⟩
    · rw [h1]
      exact ⟨by omega, fun h => h⟩
    · rcases h1 with ⟨rest, h1, _, _⟩ | ⟨rest, t, h1, h3, _⟩ | ⟨rest, t, h1, h3, _⟩ |
        ⟨rest, a, b, m, h1, h3⟩
      · exact absurd h1 (hnn rest)
      · rw [h1] at hl ⊢
        rw [h3]
        simp only [List.length_append, List.length_cons, List.length_nil] at hl ⊢
        omega
      · rw [h1] at hl ⊢
        rw [h3]
        simp only [List.length_append, List.length_cons, List.length_nil] at hl ⊢
        omega
      · rw [h1] at hl ⊢
        rw [h3]
        simp only [List.length_append, List.length_cons, List.length_nil] at hl ⊢
        omega

theorem C37_registry_shape_witness :
    Reachable List.sum (SET List.sum Engine.fresh (bytes "a") (bytes "1")) ∧
    (∀ rest, (SET List.sum Engine.fresh (bytes "a") (bytes "1")).SSTable_list
      ≠ rest ++ [none, none]) :=
  ⟨⟨[Step.op (Op.set (bytes "a") (bytes "1"))], rfl⟩,
    (C37_registry_shape List.sum (SET List.sum Engine.fresh (bytes "a") (bytes "1"))
      ⟨[Step.op (Op.set (bytes "a") (bytes "1"))], rfl⟩).2.2.1⟩

/-! ## Compaction makes progress (C38) -/

/-- C31: height balance under insertion. For every sequence of inserts into an empty tree,
or into a tree that `clear` has emptied, every node of the resulting tree has a balance
factor in {-1, 0, 1} and its cached `height` and `count` fields equal the height and the
number of nodes of its subtree. A further insert that creates a node runs `balance` without
dereferencing a null pointer: the loop with every dereference explicit returns the root of
the tree after the insert. -/
theorem C31_insert_height_balanced (kvs : List (Str × Str)) (t : AVLTree) :
    (AVLTree.empty.insertAll kvs).root.HeightBalanced ∧
    (t.clear.insertAll kvs).root.HeightBalanced ∧
    (∀ key value : Str,
      (AVLTreeNode.insert_walk key value (AVLTree.empty.insertAll kvs).root []).2.2 = true →
      AVLTreeNode.balance_checked
          (AVLTreeNode.insert_walk key value (AVLTree.empty.insertAll kvs).root []).2.1
          (AVLTreeNode.insert_walk key value (AVLTree.empty.insertAll kvs).root []).1
        = Except.ok ((AVLTree.empty.insertAll kvs).insert key value).root) := by
  refine ⟨AVLTree.insertAll_heightBalanced kvs, AVLTree.insertAll_heightBalanced kvs, ?_⟩
  intro key value hcr
  rw [insert_balance_checked key value _
    (AVLTree.insertAll_cacheBalanced AVLTree.empty kvs trivial) hcr]
  unfold AVLTree.insert
  simp only [hcr, if_true]

/-! ## Rank access (C34) -/

/-- C34: rank access. For every tree built by a sequence of inserts and every index `idx`
below `size()`, `operator[](idx)` returns the value of the pair at position `idx` of
`getSortedPairs()`, the value of the `idx`-th smallest key. -/
theorem C34_rank_access (kvs : List (Str × Str)) (idx : Nat)
    (h : idx < (AVLTree.empty.insertAll kvs).size) :
    ∃ p, (AVLTree.empty.insertAll kvs).getSortedPairs[idx]? = some p ∧
      (AVLTree.empty.insertAll kvs).subscript (idx : Int) = Except.ok p.2 := by
  have hw := AVLTree.insertAll_wellFormed AVLTree.empty kvs AVLTree.wellFormed_empty
  have hb := AVLTree.insertAll_cacheBalanced AVLTree.empty kvs trivial
  have hlt : idx < (AVLTree.empty.insertAll kvs).getSortedPairs.length := by
    rw [← hw.2]; exact h
  refine ⟨(AVLTree.empty.insertAll kvs).getSortedPairs[idx], List.getElem?_eq_getElem hlt, ?_⟩
  exact subscript_loop_spec _ hb idx _ (List.getElem?_eq_getElem hlt)

theorem C34_rank_access_witness :
    1 < (AVLTree.empty.insertAll
      [(bytes "b", bytes "2"), (bytes "a", bytes "1"), (bytes "c", bytes "3")]).size ∧
    ∃ p, (AVLTree.empty.insertAll
        [(bytes "b", bytes "2"), (bytes "a", bytes "1"), (bytes "c", bytes "3")]).getSortedPairs[1]?
        = some p ∧
      (AVLTree.empty.insertAll
        [(bytes "b", bytes "2"), (bytes "a", bytes "1"), (bytes "c", bytes "3")]).subscript
        ((1 : Nat) : Int) = Except.ok p.2 :=
  ⟨by decide,
    C34_rank_access [(bytes "b", bytes "2"), (bytes "a", bytes "1"), (bytes "c", bytes "3")] 1
      (by decide)⟩

/-! ## Logarithmic height (C35) -/

/-- C35: logarithmic height. For every tree built by a sequence of inserts, with `n` entries
and root height `h` (0 for the empty tree, 1 for a single node), `n ≥ Fib(h + 2) - 1` where
`Fib(1) = Fib(2) = 1`, and so `2 ^ (h / 2) ≤ n + 1`. The root caches `h`; `find` visits at
most `h` nodes, and `insert` pushes at most `h + 1` slots on its path, the slots of the
nodes that it visits and the slot of the new node. -/
theorem C35_logarithmic_height (kvs : List (Str × Str)) (key value : Str) :
    Nat.fib 1 = 1 ∧ Nat.fib 2 = 1 ∧
    (AVLTree.empty.insertAll kvs).size = (AVLTree.empty.insertAll kvs).getSortedPairs.length ∧
    (AVLTree.empty.insertAll kvs).root.heightOr0
      = ((AVLTree.empty.insertAll kvs).root.subtreeHeight : Int) ∧
    Nat.fib ((AVLTree.empty.insertAll kvs).root.subtreeHeight + 2) - 1
      ≤ (AVLTree.empty.insertAll kvs).size ∧
    2 ^ ((AVLTree.empty.insertAll kvs).root.subtreeHeight / 2)
      ≤ (AVLTree.empty.insertAll kvs).size + 1 ∧
    AVLTreeNode.find_visits key (AVLTree.empty.insertAll kvs).root
      ≤ (AVLTree.empty.insertAll kvs).root.subtreeHeight ∧
    (AVLTreeNode.insert_walk key value (AVLTree.empty.insertAll kvs).root []).2.1.length
      ≤ (AVLTree.empty.insertAll kvs).root.subtreeHeight + 1 := by
  have hw := AVLTree.insertAll_wellFormed AVLTree.empty kvs AVLTree.wellFormed_empty
  have hb := AVLTree.insertAll_heightBalanced kvs
  have hf := HeightBalanced.fib_le _ hb
  have hs : (AVLTree.empty.insertAll kvs).size
      = (AVLTree.empty.insertAll kvs).root.subtreeSize := by
    rw [subtreeSize_eq_length]
    exact hw.2
  have hp := two_pow_half_le_fib (AVLTree.empty.insertAll kvs).root.subtreeHeight
  refine ⟨rfl, rfl, hw.2, (HeightBalanced.cached_eq_true _ hb).1, by omega, by omega,
    find_visits_le key _, insert_walk_path_le key value _⟩

/-! ## Height balance under removal (C32) -/

set_option maxRecDepth 100000 in
/-- C32 (the code diverges): `erase` does not keep the tree height-balanced. The tree of the
inserts "a", "c", "d", "b" is height-balanced, with the root "c" over the subtree of "a" and
"b" and the leaf "d". Erasing "c" puts "d" in the place of the root and runs `balance` on
an empty path: the new root keeps the `count` 1 and `height` 1 of the leaf, and it has a left
subtree of height 2 and no right subtree. The tree of the inserts "a", "b", "c", "f", "h",
"e", "d", "g" is height-balanced, and the taller child "f" of its root has two subtrees of
height 2. Erasing the leaf "a" leaves the root with the balance factor -2 and a right child
with the balance factor 0, so `balance` takes the double rotation, and the node "f" of the
result has the balance factor -2. -/
theorem C32_erase_breaks_balance :
    rootExample.root.HeightBalanced ∧
    rootExample.erase (bytes "c") = Except.ok
      { root := AVLTreeNode.node
          (AVLTreeNode.node AVLTreeNode.null
            (AVLTreeNode.node AVLTreeNode.null AVLTreeNode.null (bytes "b") (bytes "2") 1 1)
            (bytes "a") (bytes "1") 2 2)
          AVLTreeNode.null (bytes "d") (bytes "4") 1 1
        _size := 3 } ∧
    (∃ t2, rootExample.erase (bytes "c") = Except.ok t2 ∧ ¬ t2.root.HeightBalanced ∧
      t2.root.balanceFactor = 2 ∧ t2.root.subtreeHeight = 3 ∧ t2.root.heightOr0 = 1) ∧
    tieExample.root.HeightBalanced ∧
    tieExample.root.getRight.balanceFactor = 0 ∧
    (AVLTreeNode.find (bytes "a") tieExample.root.getLeft.getLeft).1 = true ∧
    tieExample.root.getLeft.getLeft.subtreeSize = 1 ∧
    (∃ t2, tieExample.erase (bytes "a") = Except.ok t2 ∧ ¬ t2.root.HeightBalanced ∧
      t2.root.getRight.inOrderTraversal
        = [(bytes "f", bytes "6"), (bytes "g", bytes "7"), (bytes "h", bytes "8")] ∧
      t2.root.getRight.balanceFactor = -2 ∧
      t2.root.getRight.getLeft.subtreeHeight = 0 ∧
      t2.root.getRight.getRight.subtreeHeight = 2) := by
  refine ⟨by decide, by decide, ⟨_, rfl, by decide, by decide, by decide, by decide⟩, by decide,
    by decide, by decide, by decide, ⟨_, rfl, by decide, by decide, by decide, by decide,
    by decide⟩⟩

/-! ## Erase removes exactly one key (C33) -/

/-- C33 (the code diverges): `erase` reads a freed node. The tree of the inserts "a", "b",
"d", "c" is height-balanced, and its root "b" has the children "a" and "d", where "d" has
the left child "c". Erasing "b" searches the successor from the slot `&toRemove->right`,
pushes that slot on the path, frees the node, and stops in `balance`, which dereferences the
slots of the path: the tree after the call is not defined. Erasing a key that the tree does
not hold returns with the tree as it is. Whenever `erase` returns on a tree built by
inserts, the pairs are those of the tree before without the key, in strictly ascending
order, `find` of the key reports not found, `find` of every other key returns what it
returned before, and `size()` is one less if the key was present and unchanged if not. -/
theorem C33_erase_reads_freed_node :
    successorExample.root.HeightBalanced ∧
    successorExample.getSortedPairs
      = [(bytes "a", bytes "1"), (bytes "b", bytes "2"), (bytes "c", bytes "3"),
          (bytes "d", bytes "4")] ∧
    (successorExample.find (bytes "b")).1 = true ∧
    successorExample.root.getRight.getLeft
      = AVLTreeNode.node AVLTreeNode.null AVLTreeNode.null (bytes "c") (bytes "3") 1 1 ∧
    successorExample.erase (bytes "b") = Except.error MemoryFault.use_after_free ∧
    (∀ (kvs : List (Str × Str)) (key : Str),
      ((AVLTree.empty.insertAll kvs).find key).1 = false →
      (AVLTree.empty.insertAll kvs).erase key = Except.ok (AVLTree.empty.insertAll kvs)) ∧
    (∀ (kvs : List (Str × Str)) (key : Str) (t2 : AVLTree),
      (AVLTree.empty.insertAll kvs).erase key = Except.ok t2 →
      t2.getSortedPairs
        = (AVLTree.empty.insertAll kvs).getSortedPairs.filter (fun p => decide (p.1 ≠ key)) ∧
      Ascending t2.getSortedPairs ∧
      (t2.find key).1 = false ∧
      (∀ k : Str, k ≠ key → t2.find k = (AVLTree.empty.insertAll kvs).find k) ∧
      t2.size = if ((AVLTree.empty.insertAll kvs).find key).1
        then (AVLTree.empty.insertAll kvs).size - 1 else (AVLTree.empty.insertAll kvs).size) := by
  refine ⟨by decide, by decide, by decide, by decide, by decide, ?_, ?_⟩
  · intro kvs key h
    exact AVLTree.erase_absent _ key h
  · intro kvs key t2 h
    have hw := AVLTree.insertAll_wellFormed AVLTree.empty kvs AVLTree.wellFormed_empty
    obtain ⟨h1, h2⟩ := AVLTree.erase_ok_spec _ t2 key hw h
    obtain ⟨h3, h4, h5⟩ := AVLTree.erase_ok_find _ t2 key hw h
    exact ⟨h1, h2.1, h3, h4, h5⟩

end DocsDB
